import Mathlib

/-! Verifiable-replay core of the machine emulator.

A shallow embedding of

* `src/src/back-merkle-tree.h` (the streaming back-tree),
* `src/src/step-state-access.h` and `src/src/uarch-replay-state-access.h`
  (the replay verifiers over an access log),

followed by the theorems that settle the specification's claims about them.

Conventions of the embedding.

* A C++ method that mutates `*this` and may throw becomes a function returning
  `Except Err α × State`: the second component is the object after the call,
  whether the call returned or threw.
* `uint64_t` values are natural numbers; a shift or an increment that could
  leave the 64-bit range is reduced modulo `2 ^ 64` explicitly.
* Byte vectors (`access_data`) are lists of natural numbers.
* The hash type and the hasher are parameters: Keccak-256 is outside the
  specification, which treats it as an abstract hash function.
* The constants of the headers that are not among the sources (addresses of
  the shadow, masks and shifts of `istart`, device identifiers, `PMA_MAX`) are
  the fields of `machine_constants`, a parameter of the accessors that use
  them.
* A loop without a bound of its own (`do_find_pma_entry`) runs for a number of
  iterations given as an argument and returns `none` when they are used up;
  the theorems show that the number the embedding passes is never used up.
-/

namespace cartesi

/-! ## Exceptions -/

/-- Kind of a logged access (`access_type` of `access-log.h`). -/
inductive access_type where
  | read
  | write
deriving DecidableEq, Repr

/-- The `what()` of each exception thrown by the embedded code, one constructor
per `throw` site (the two verifiers share their texts). Where the C++ text
embeds `access_to_report()`, a size or an address, the constructor carries it;
the free-form `text` argument of the verifier primitives is dropped. -/
inductive Msg where
  /-- Text "log2_root_size is negative". -/
  | log2_root_size_is_negative
  /-- Text "log2_leaf_size is negative". -/
  | log2_leaf_size_is_negative
  /-- Text "log2_word_size is negative". -/
  | log2_word_size_is_negative
  /-- Text "log2_leaf_size is greater than log2_root_size". -/
  | log2_leaf_size_is_greater_than_log2_root_size
  /-- Text "log2_word_size is greater than log2_word_size" (sic). -/
  | log2_word_size_is_greater_than_log2_word_size
  /-- Text "tree is too large for address type". -/
  | tree_is_too_large_for_address_type
  /-- Text "too many leaves". -/
  | too_many_leaves
  /-- Text "tree is full". -/
  | tree_is_full
  /-- Text "produced invalid proof". -/
  | produced_invalid_proof
  /-- Failure of `pristine_merkle_tree::get_hash` (header not in the sources). -/
  | pristine_log2_size_out_of_range
  /-- Failure of `merkle_tree_proof::get_sibling_hash` and `set_sibling_hash`
  (header not in the sources). -/
  | sibling_log2_size_out_of_range
  /-- Text "invalid access size". -/
  | invalid_access_size
  /-- Text "access address not aligned to size". -/
  | access_address_not_aligned_to_size
  /-- Text "too few accesses in log" (`check_read`). -/
  | too_few_accesses_in_log
  /-- Text "too few word accesses in log" (`check_write`). -/
  | too_few_word_accesses_in_log
  /-- Text "expected access N to read ..." or "... to write ...". -/
  | expected_access_to (t : access_type) (report : Nat)
  /-- Text "expected access N to read 2^k bytes from ..." (or "write"). -/
  | expected_access_log2_size (t : access_type) (report : Nat) (log2_size : Int)
  /-- Text "expected read access dataN to contain 2^k bytes" (`check_read`) or
  "expected overwritten dataN to contain 2^k bytes" (`check_write`). -/
  | expected_read_data_size (t : access_type) (report : Nat) (log2_size : Int)
  /-- Text "expected written dataN to contain 2^k bytes". -/
  | expected_written_data_size (report : Nat) (log2_size : Int)
  /-- Text "expected access N to read ... at address 0x..." (or "write"). -/
  | expected_access_at_address (t : access_type) (report : Nat) (paligned : Nat)
  /-- Text "read access N has no proof" or "write access N has no proof". -/
  | access_has_no_proof (t : access_type) (report : Nat)
  /-- Text "mismatch in read access N address and its proof address" (or
  "write"). -/
  | mismatch_in_proof_address (t : access_type) (report : Nat)
  /-- Text "mismatch in read access N root hash" (or "write"). -/
  | mismatch_in_root_hash (t : access_type) (report : Nat)
  /-- Text "value in read access N does not match target hash" or "value
  before write access N does not match target hash". -/
  | does_not_match_target_hash (t : access_type) (report : Nat)
  /-- Text "word value in read access N fails proof" or "value before write
  access N fails proof". -/
  | fails_proof (t : access_type) (report : Nat)
  /-- Text "value written in access N does not match log". -/
  | value_written_does_not_match_log (report : Nat)
  /-- Text "too many word accesses in log" (`finish`). -/
  | too_many_word_accesses_in_log
  /-- Text "log has no proofs". -/
  | log_has_no_proofs
  /-- Text "initial access has no proof". -/
  | initial_access_has_no_proof
  /-- Text "too many PMA accesses" (`allocate_mock_pma_entry`). -/
  | too_many_pma_accesses
  /-- Text "invalid flags in access N to PMA (...)" (`error_flags`). -/
  | invalid_flags_in_access_to_pma (report : Nat)
deriving DecidableEq, Repr

/-- A thrown C++ exception: its class and its message. -/
inductive Err where
  /-- Class `std::out_of_range`. -/
  | out_of_range (m : Msg)
  /-- Class `std::invalid_argument`. -/
  | invalid_argument (m : Msg)
  /-- Class `std::runtime_error`. -/
  | runtime_error (m : Msg)
deriving DecidableEq, Repr

/-- Whether a call returned normally. -/
def returned {α : Type} : Except Err α → Bool
  | .ok _ => true
  | .error _ => false

/-! ## Hasher, bits -/

/-- Modelled from the spec: `keccak-256-hasher.h` is not among the sources and
Keccak-256 is out of the specification's scope ("we treat it as a
collision-resistant hash function producing 32-byte digests"). `data bs` is
`begin(); add_data(bs); end(h)`; `concat l r` is
`begin(); add_data(l); add_data(r); end(h)` on two digests, which is also what
`get_concat_hash(h, l, r, result)` computes. -/
structure hasher_type (Hash : Type) where
  /-- Digest of a byte string. -/
  data : List Nat → Hash
  /-- Digest of the concatenation of two digests. -/
  concat : Hash → Hash → Hash

/-- The C++ expression `UINT64_C(1) << k` (also `address_type{1} << k`), the
result reduced to 64 bits. -/
def shl1 (k : Nat) : Nat :=
  (1 <<< k) % 2 ^ 64

/-- The C++ test `(x & (UINT64_C(1) << i)) != 0` on a 64-bit `x`. -/
def bit_set (x i : Nat) : Bool :=
  (x &&& shl1 i) != 0

/-! ## Pristine table and proof object (headers not in the sources) -/

/-- Modelled from the spec: the recurrence of the pristine-subtree table of
`pristine-merkle-tree.h`, which is not among the sources. Entry `k` is the
hash of an all-zero subtree of `2 ^ (log2_word + k)` bytes:
`P[log2_word] = H(0^(2^log2_word))`, `P[i] = H(P[i-1] || P[i-1])`. -/
def pristine_hash {Hash : Type} (hs : hasher_type Hash) (log2_word : Nat) : Nat → Hash
  | 0 => hs.data (List.replicate (2 ^ log2_word) 0)
  | k + 1 => hs.concat (pristine_hash hs log2_word k) (pristine_hash hs log2_word k)

/-- Modelled from the spec: the class `pristine_merkle_tree` (header not among
the sources), "fully materialised at construction". -/
structure pristine_merkle_tree (Hash : Type) where
  /-- Log2 of the root size. -/
  m_log2_root_size : Nat
  /-- Log2 of the word size. -/
  m_log2_word_size : Nat
  /-- Entry `k` is the pristine hash for log2 size `m_log2_word_size + k`. -/
  m_hashes : List Hash

/-- Modelled from the spec: construction of the pristine table for
`log2_word ≤ log2_size ≤ log2_root`. -/
def pristine_merkle_tree.create {Hash : Type} (hs : hasher_type Hash)
    (log2_root_size log2_word_size : Nat) : pristine_merkle_tree Hash :=
  { m_log2_root_size := log2_root_size
    m_log2_word_size := log2_word_size
    m_hashes := (List.range (log2_root_size - log2_word_size + 1)).map
      (pristine_hash hs log2_word_size) }

/-- Modelled from the spec: `hash_of(log2_size)` of the pristine table, which
"fails with OUT_OF_RANGE" outside `[log2_word, log2_root]`. -/
def pristine_merkle_tree.get_hash {Hash : Type} (t : pristine_merkle_tree Hash)
    (log2_size : Nat) : Except Err Hash :=
  if log2_size < t.m_log2_word_size ∨ log2_size > t.m_log2_root_size then
    .error (.out_of_range .pristine_log2_size_out_of_range)
  else
    match t.m_hashes[log2_size - t.m_log2_word_size]? with
    | some h => .ok h
    | none => .error (.out_of_range .pristine_log2_size_out_of_range)

/-- Modelled from the spec: the proof record of `merkle-tree-proof.h` (not
among the sources), `{ target_address, log2_target_size, log2_root_size,
target_hash, root_hash, sibling_hashes[log2_target_size .. log2_root_size-1] }`.
`sibling_hashes` is stored from the target level upwards, so the sibling of
level `k` sits at position `k - log2_target_size`. -/
structure merkle_tree_proof (Hash : Type) where
  /-- Address of the target node. -/
  target_address : Nat
  /-- Log2 of the target size. -/
  log2_target_size : Nat
  /-- Log2 of the root size. -/
  log2_root_size : Nat
  /-- Hash of the target node. -/
  target_hash : Hash
  /-- Hash of the root node. -/
  root_hash : Hash
  /-- Sibling hashes from the target level up to the root. -/
  sibling_hashes : List Hash
deriving DecidableEq, Repr

/-- Modelled from the spec: the constructor `proof_type{log2_root_size,
log2_target_size}`, with value-initialised hashes. -/
def merkle_tree_proof.create {Hash : Type} [Inhabited Hash]
    (log2_root_size log2_target_size : Nat) : merkle_tree_proof Hash :=
  { target_address := 0
    log2_target_size := log2_target_size
    log2_root_size := log2_root_size
    target_hash := default
    root_hash := default
    sibling_hashes := List.replicate (log2_root_size - log2_target_size) default }

/-- Modelled from the spec: the sibling getter, which "fails with OUT_OF_RANGE
if the level is outside `[log2_target_size, log2_root_size)`". -/
def merkle_tree_proof.get_sibling_hash {Hash : Type} (p : merkle_tree_proof Hash)
    (log2_size : Nat) : Except Err Hash :=
  if log2_size < p.log2_target_size ∨ log2_size ≥ p.log2_root_size then
    .error (.out_of_range .sibling_log2_size_out_of_range)
  else
    match p.sibling_hashes[log2_size - p.log2_target_size]? with
    | some h => .ok h
    | none => .error (.out_of_range .sibling_log2_size_out_of_range)

/-- Modelled from the spec: the sibling setter, with the same range check as
the getter. -/
def merkle_tree_proof.set_sibling_hash {Hash : Type} (p : merkle_tree_proof Hash)
    (hash : Hash) (log2_size : Nat) : Except Err Unit × merkle_tree_proof Hash :=
  if log2_size < p.log2_target_size ∨ log2_size ≥ p.log2_root_size then
    (.error (.out_of_range .sibling_log2_size_out_of_range), p)
  else if log2_size - p.log2_target_size < p.sibling_hashes.length then
    (.ok (), { p with sibling_hashes :=
      p.sibling_hashes.set (log2_size - p.log2_target_size) hash })
  else
    (.error (.out_of_range .sibling_log2_size_out_of_range), p)

/-- Modelled from the spec: the loop of `merkle_tree_proof::verify`, which
"recomputes the root from `target_hash` by, at each level `k`, concatenating
`target||sibling` or `sibling||target` depending on bit `k` of
`target_address`, and hashing". `n` levels remain, the next one is
`log2_size`. -/
def merkle_tree_proof.verify_loop {Hash : Type} (hs : hasher_type Hash)
    (p : merkle_tree_proof Hash) : Nat → Nat → Hash → Except Err Hash
  | 0, _, hash => .ok hash
  | n + 1, log2_size, hash =>
    match p.get_sibling_hash log2_size with
    | .error e => .error e
    | .ok sibling =>
      if bit_set p.target_address log2_size then
        merkle_tree_proof.verify_loop hs p n (log2_size + 1) (hs.concat sibling hash)
      else
        merkle_tree_proof.verify_loop hs p n (log2_size + 1) (hs.concat hash sibling)

/-- Modelled from the spec: `verify(hasher) -> bool`, which "recomputes the
root bottom-up and compares to `root_hash`". -/
def merkle_tree_proof.verify {Hash : Type} [DecidableEq Hash] (hs : hasher_type Hash)
    (p : merkle_tree_proof Hash) : Except Err Bool :=
  match merkle_tree_proof.verify_loop hs p (p.log2_root_size - p.log2_target_size)
      p.log2_target_size p.target_hash with
  | .error e => .error e
  | .ok hash => .ok (decide (hash = p.root_hash))

/-! ## The streaming back-tree (`src/src/back-merkle-tree.h`) -/

/-- Data members of `back_merkle_tree`. The two `int` geometry members are
non-negative once the constructor has returned and are kept as naturals. -/
structure back_merkle_tree (Hash : Type) where
  /-- Log2 of tree size. -/
  m_log2_root_size : Nat
  /-- Log2 of leaf size. -/
  m_log2_leaf_size : Nat
  /-- Number of leaves already added (`uint64_t`). -/
  m_leaf_count : Nat
  /-- Maximum number of leaves (`uint64_t`). -/
  m_max_leaves : Nat
  /-- Hashes of bits set in leaf_count. -/
  m_context : List Hash
  /-- Hash of pristine subtrees of all sizes. -/
  m_pristine_hashes : pristine_merkle_tree Hash

/-- The constructor `back_merkle_tree(log2_root_size, log2_leaf_size,
log2_word_size)`: the six range checks of its body, in order. The member
initialisers, which C++ runs before the body, are evaluated here once the
checks have passed. -/
def back_merkle_tree.create {Hash : Type} [Inhabited Hash] (hs : hasher_type Hash)
    (log2_root_size log2_leaf_size log2_word_size : Int) : Except Err (back_merkle_tree Hash) :=
  if log2_root_size < 0 then
    .error (.out_of_range .log2_root_size_is_negative)
  else if log2_leaf_size < 0 then
    .error (.out_of_range .log2_leaf_size_is_negative)
  else if log2_word_size < 0 then
    .error (.out_of_range .log2_word_size_is_negative)
  else if log2_leaf_size > log2_root_size then
    .error (.out_of_range .log2_leaf_size_is_greater_than_log2_root_size)
  else if log2_word_size > log2_leaf_size then
    .error (.out_of_range .log2_word_size_is_greater_than_log2_word_size)
  else if log2_root_size ≥ 64 then
    .error (.out_of_range .tree_is_too_large_for_address_type)
  else
    .ok
      { m_log2_root_size := log2_root_size.toNat
        m_log2_leaf_size := log2_leaf_size.toNat
        m_leaf_count := 0
        m_max_leaves := shl1 (log2_root_size - log2_leaf_size).toNat
        m_context := List.replicate (max 1 (log2_root_size - log2_leaf_size + 1)).toNat default
        m_pristine_hashes :=
          pristine_merkle_tree.create hs log2_root_size.toNat log2_word_size.toNat }

/-- The `for (int i = 0; i <= depth; ++i)` loop of `push_back`: `n` iterations
remain, the next index is `i`; the result is the context when the loop is left
(by `break` or by exhaustion). -/
def back_merkle_tree.push_back_loop {Hash : Type} [Inhabited Hash] (hs : hasher_type Hash)
    (leaf_count : Nat) : Nat → Nat → List Hash → Hash → List Hash
  | 0, _, context, _ => context
  | n + 1, i, context, right =>
    if bit_set leaf_count i then
      back_merkle_tree.push_back_loop hs leaf_count n (i + 1) context
        (hs.concat (context.getD i default) right)
    else
      context.set i right

/-- The method `push_back(leaf_hash)`. -/
def back_merkle_tree.push_back {Hash : Type} [Inhabited Hash] (hs : hasher_type Hash)
    (t : back_merkle_tree Hash) (leaf_hash : Hash) : Except Err Unit × back_merkle_tree Hash :=
  if t.m_leaf_count ≥ t.m_max_leaves then
    (.error (.out_of_range .too_many_leaves), t)
  else
    let depth := t.m_log2_root_size - t.m_log2_leaf_size
    let context := back_merkle_tree.push_back_loop hs t.m_leaf_count (depth + 1) 0
      t.m_context leaf_hash
    (.ok (), { t with m_context := context, m_leaf_count := (t.m_leaf_count + 1) % 2 ^ 64 })

/-- The `for (int i = 0; i < depth; ++i)` loop of `get_root_hash`: `n`
iterations remain, the next index is `i`. -/
def back_merkle_tree.get_root_hash_loop {Hash : Type} [Inhabited Hash] (hs : hasher_type Hash)
    (t : back_merkle_tree Hash) : Nat → Nat → Hash → Except Err Hash
  | 0, _, root => .ok root
  | n + 1, i, root =>
    if bit_set t.m_leaf_count i then
      back_merkle_tree.get_root_hash_loop hs t n (i + 1)
        (hs.concat (t.m_context.getD i default) root)
    else
      match t.m_pristine_hashes.get_hash (t.m_log2_leaf_size + i) with
      | .error e => .error e
      | .ok right =>
        back_merkle_tree.get_root_hash_loop hs t n (i + 1) (hs.concat root right)

/-- The const method `get_root_hash()`. Its `assert(m_leaf_count <=
m_max_leaves)` is not part of the value computed. -/
def back_merkle_tree.get_root_hash {Hash : Type} [Inhabited Hash] (hs : hasher_type Hash)
    (t : back_merkle_tree Hash) : Except Err Hash :=
  let depth := t.m_log2_root_size - t.m_log2_leaf_size
  if t.m_leaf_count < t.m_max_leaves then
    match t.m_pristine_hashes.get_hash t.m_log2_leaf_size with
    | .error e => .error e
    | .ok root => back_merkle_tree.get_root_hash_loop hs t depth 0 root
  else
    .ok (t.m_context.getD depth default)

/-- The `for (int i = 0; i < depth; ++i)` loop of `get_next_leaf_proof`, on the
pair of the proof under construction and the running hash. -/
def back_merkle_tree.get_next_leaf_proof_loop {Hash : Type} [Inhabited Hash]
    (hs : hasher_type Hash) (t : back_merkle_tree Hash) :
    Nat → Nat → merkle_tree_proof Hash → Hash → Except Err (merkle_tree_proof Hash × Hash)
  | 0, _, proof, hash => .ok (proof, hash)
  | n + 1, i, proof, hash =>
    if bit_set t.m_leaf_count i then
      let left := t.m_context.getD i default
      match proof.set_sibling_hash left (t.m_log2_leaf_size + i) with
      | (.error e, _) => .error e
      | (.ok _, proof1) =>
        back_merkle_tree.get_next_leaf_proof_loop hs t n (i + 1) proof1 (hs.concat left hash)
    else
      match t.m_pristine_hashes.get_hash (t.m_log2_leaf_size + i) with
      | .error e => .error e
      | .ok right =>
        match proof.set_sibling_hash right (t.m_log2_leaf_size + i) with
        | (.error e, _) => .error e
        | (.ok _, proof1) =>
          back_merkle_tree.get_next_leaf_proof_loop hs t n (i + 1) proof1 (hs.concat hash right)

/-- The const method `get_next_leaf_proof()`, with the `#ifndef NDEBUG`
self-check of the produced proof included. -/
def back_merkle_tree.get_next_leaf_proof {Hash : Type} [Inhabited Hash] [DecidableEq Hash]
    (hs : hasher_type Hash) (t : back_merkle_tree Hash) : Except Err (merkle_tree_proof Hash) :=
  let depth := t.m_log2_root_size - t.m_log2_leaf_size
  if t.m_leaf_count ≥ t.m_max_leaves then
    .error (.out_of_range .tree_is_full)
  else
    let proof0 : merkle_tree_proof Hash :=
      merkle_tree_proof.create t.m_log2_root_size t.m_log2_leaf_size
    let proof1 := { proof0 with
      target_address := (t.m_leaf_count <<< t.m_log2_leaf_size) % 2 ^ 64 }
    match t.m_pristine_hashes.get_hash t.m_log2_leaf_size with
    | .error e => .error e
    | .ok target =>
      let proof2 := { proof1 with target_hash := target }
      match t.m_pristine_hashes.get_hash t.m_log2_leaf_size with
      | .error e => .error e
      | .ok hash0 =>
        match back_merkle_tree.get_next_leaf_proof_loop hs t depth 0 proof2 hash0 with
        | .error e => .error e
        | .ok (proof3, hash) =>
          let proof := { proof3 with root_hash := hash }
          match proof.verify hs with
          | .error e => .error e
          | .ok false => .error (.runtime_error .produced_invalid_proof)
          | .ok true => .ok proof

/-- The tree after a sequence of `push_back` calls, each applied to the object
the previous one left (a call that throws leaves it as it was). -/
def back_merkle_tree.push_back_all {Hash : Type} [Inhabited Hash] (hs : hasher_type Hash)
    (t : back_merkle_tree Hash) (leaves : List Hash) : back_merkle_tree Hash :=
  leaves.foldl (fun acc h => (back_merkle_tree.push_back hs acc h).2) t

/-! ## The replay verifiers -/

/-- Modelled from the spec: the access record of `access-log.h` (not among the
sources), `{ kind, address, log2_size, read_bytes, written_bytes, optional
proof }`. -/
structure access (Hash : Type) where
  /-- Kind of access (`get_type()`). -/
  type : access_type
  /-- Address of the access (`uint64_t`). -/
  address : Nat
  /-- Log2 of the access size (`int`). -/
  log2_size : Int
  /-- Bytes read, or the bytes overwritten by a write (`get_read()`). -/
  read : List Nat
  /-- Bytes written (`get_written()`). -/
  written : List Nat
  /-- Proof of the value before the access (`get_proof()`). -/
  proof : Option (merkle_tree_proof Hash)

/-- Modelled from the spec: the part of `access_log` (header not among the
sources) the verifiers read, its accesses and the `has_proofs` flag of its log
type. -/
structure access_log (Hash : Type) where
  /-- The recorded accesses (`get_accesses()`). -/
  accesses : List (access Hash)
  /-- The flag `get_log_type().has_proofs()`. -/
  has_proofs : Bool

/-- The data members of `step_state_access` and of `uarch_replay_state_access`
that the log checks use; the two classes declare the same ones. The scratch
hasher carries no state between calls and is left out. The cursor
`m_next_access` is an `unsigned` that is only incremented while smaller than
the size of the log; it is a natural number here. -/
structure replay_state (Hash : Type) where
  /-- Access log generated by step. -/
  m_accesses : List (access Hash)
  /-- Whether to verify proofs in access log. -/
  m_verify_proofs : Bool
  /-- Next access. -/
  m_next_access : Nat
  /-- Add to indices reported in errors. -/
  m_one_based : Nat
  /-- Root hash before next access. -/
  m_root_hash : Hash

/-- A call of one of the two log primitives, with its arguments. -/
inductive primitive_call where
  /-- A call `check_read(paligned, log2_size, text)`. -/
  | read (paligned : Nat) (log2_size : Int)
  /-- A call `check_write(paligned, val, log2_size, text)`. -/
  | write (paligned : Nat) (val : List Nat) (log2_size : Int)

/-! ### `src/src/step-state-access.h` -/

/-- The constructor of `step_state_access`. The class leaves `m_root_hash`
uninitialised when it is not taken from the first access; the
value-initialised hash stands for it. The dehash source `m_source` plays no
part in the log checks and is left out. -/
def step_state_access.create {Hash : Type} [Inhabited Hash] (log : access_log Hash)
    (verify_proofs one_based : Bool) : Except Err (replay_state Hash) :=
  if verify_proofs ∧ ¬ log.has_proofs then
    .error (.invalid_argument .log_has_no_proofs)
  else
    match log.accesses, verify_proofs with
    | access :: _, true =>
      match access.proof with
      | none => .error (.invalid_argument .initial_access_has_no_proof)
      | some proof =>
        .ok
          { m_accesses := log.accesses
            m_verify_proofs := verify_proofs
            m_next_access := 0
            m_one_based := if one_based then 1 else 0
            m_root_hash := proof.root_hash }
    | _, _ =>
      .ok
        { m_accesses := log.accesses
          m_verify_proofs := verify_proofs
          m_next_access := 0
          m_one_based := if one_based then 1 else 0
          m_root_hash := default }

/-- The method `step_state_access::finish()`. -/
def step_state_access.finish {Hash : Type} (s : replay_state Hash) :
    Except Err Unit × replay_state Hash :=
  if s.m_next_access ≠ s.m_accesses.length then
    (.error (.invalid_argument .too_many_word_accesses_in_log), s)
  else
    (.ok (), s)

/-- The method `step_state_access::get_root_hash(hash)`. -/
def step_state_access.get_root_hash {Hash : Type} (s : replay_state Hash) : Hash :=
  s.m_root_hash

/-- The method `step_state_access::access_to_report()`. -/
def step_state_access.access_to_report {Hash : Type} (s : replay_state Hash) : Nat :=
  s.m_next_access + s.m_one_based

/-- The loop of `step_state_access::roll_hash_up_tree(hasher, proof, rolling_hash)`:
`n` levels remain, the next one is `log2_size`. `rolling_hash` is updated in
place, so the result pairs the outcome with the hash the variable holds when
the loop is left. -/
def step_state_access.roll_hash_up_tree_loop {Hash : Type} (hs : hasher_type Hash)
    (proof : merkle_tree_proof Hash) : Nat → Nat → Hash → Except Err Unit × Hash
  | 0, _, rolling_hash => (.ok (), rolling_hash)
  | n + 1, log2_size, rolling_hash =>
    let bit := bit_set proof.target_address log2_size
    match proof.get_sibling_hash log2_size with
    | .error e => (.error e, rolling_hash)
    | .ok sibling_hash =>
      if bit then
        step_state_access.roll_hash_up_tree_loop hs proof n (log2_size + 1)
          (hs.concat sibling_hash rolling_hash)
      else
        step_state_access.roll_hash_up_tree_loop hs proof n (log2_size + 1)
          (hs.concat rolling_hash sibling_hash)

/-- The static method `step_state_access::roll_hash_up_tree`. -/
def step_state_access.roll_hash_up_tree {Hash : Type} (hs : hasher_type Hash)
    (proof : merkle_tree_proof Hash) (rolling_hash : Hash) : Except Err Unit × Hash :=
  step_state_access.roll_hash_up_tree_loop hs proof (proof.log2_root_size - proof.log2_target_size)
    proof.log2_target_size rolling_hash

/-- The recursive `step_state_access::get_hash(hasher, data, len, hash)` on the bytes
starting at the pointer `data`, by recursion on a bound `fuel ≥ len` of the
recursion depth. The two `assert`s are not part of the value computed. -/
def step_state_access.get_hash_rec {Hash : Type} (hs : hasher_type Hash) :
    Nat → List Nat → Nat → Hash
  | 0, data, len => hs.data (data.take len)
  | fuel + 1, data, len =>
    if len ≤ 8 then
      hs.data (data.take len)
    else
      let half := len / 2
      hs.concat (step_state_access.get_hash_rec hs fuel data half)
        (step_state_access.get_hash_rec hs fuel (data.drop half) half)

/-- The overload `step_state_access::get_hash(hasher, data, hash)` on an `access_data`. -/
def step_state_access.get_hash {Hash : Type} (hs : hasher_type Hash) (data : List Nat) : Hash :=
  step_state_access.get_hash_rec hs data.length data data.length

/-- The method `step_state_access::check_read(paligned, log2_size, text)`: the
value returned (the record's `read` bytes) or the exception, and the object
after the call. -/
def step_state_access.check_read {Hash : Type} [DecidableEq Hash] (hs : hasher_type Hash)
    (s : replay_state Hash) (paligned : Nat) (log2_size : Int) :
    Except Err (List Nat) × replay_state Hash :=
  if log2_size < 3 ∨ log2_size > 63 then
    (.error (.invalid_argument .invalid_access_size), s)
  else if (paligned &&& (shl1 log2_size.toNat - 1)) ≠ 0 then
    (.error (.invalid_argument .access_address_not_aligned_to_size), s)
  else if h : s.m_next_access ≥ s.m_accesses.length then
    (.error (.invalid_argument .too_few_accesses_in_log), s)
  else
    let access := s.m_accesses.get ⟨s.m_next_access, Nat.lt_of_not_le h⟩
    if access.type ≠ access_type.read then
      (.error (.invalid_argument (.expected_access_to .read (step_state_access.access_to_report s))), s)
    else if access.log2_size ≠ log2_size then
      (.error (.invalid_argument
        (.expected_access_log2_size .read (step_state_access.access_to_report s) log2_size)), s)
    else if access.read.length ≠ shl1 log2_size.toNat then
      (.error (.invalid_argument
        (.expected_read_data_size .read (step_state_access.access_to_report s) log2_size)), s)
    else if access.address ≠ paligned then
      (.error (.invalid_argument
        (.expected_access_at_address .read (step_state_access.access_to_report s) paligned)), s)
    else if s.m_verify_proofs then
      match access.proof with
      | none =>
        (.error (.invalid_argument (.access_has_no_proof .read (step_state_access.access_to_report s))), s)
      | some proof =>
        if proof.target_address ≠ access.address then
          (.error (.invalid_argument
            (.mismatch_in_proof_address .read (step_state_access.access_to_report s))), s)
        else if s.m_root_hash ≠ proof.root_hash then
          (.error (.invalid_argument
            (.mismatch_in_root_hash .read (step_state_access.access_to_report s))), s)
        else
          let rolling_hash := step_state_access.get_hash hs access.read
          if rolling_hash ≠ proof.target_hash then
            (.error (.invalid_argument
              (.does_not_match_target_hash .read (step_state_access.access_to_report s))), s)
          else
            match step_state_access.roll_hash_up_tree hs proof rolling_hash with
            | (.error e, _) => (.error e, s)
            | (.ok _, rolled) =>
              if rolled ≠ proof.root_hash then
                (.error (.invalid_argument (.fails_proof .read (step_state_access.access_to_report s))), s)
              else
                (.ok access.read, { s with m_next_access := s.m_next_access + 1 })
    else
      (.ok access.read, { s with m_next_access := s.m_next_access + 1 })

/-- The method `step_state_access::check_write(paligned, val, log2_size, text)`. The
second `roll_hash_up_tree` works in place on `m_root_hash`, so an exception
escaping from it would leave the partly rolled hash in the object. -/
def step_state_access.check_write {Hash : Type} [DecidableEq Hash] (hs : hasher_type Hash)
    (s : replay_state Hash) (paligned : Nat) (val : List Nat) (log2_size : Int) :
    Except Err Unit × replay_state Hash :=
  if log2_size < 3 ∨ log2_size > 63 then
    (.error (.invalid_argument .invalid_access_size), s)
  else if (paligned &&& (shl1 log2_size.toNat - 1)) ≠ 0 then
    (.error (.invalid_argument .access_address_not_aligned_to_size), s)
  else if h : s.m_next_access ≥ s.m_accesses.length then
    (.error (.invalid_argument .too_few_word_accesses_in_log), s)
  else
    let access := s.m_accesses.get ⟨s.m_next_access, Nat.lt_of_not_le h⟩
    if access.type ≠ access_type.write then
      (.error (.invalid_argument (.expected_access_to .write (step_state_access.access_to_report s))), s)
    else if access.log2_size ≠ log2_size then
      (.error (.invalid_argument
        (.expected_access_log2_size .write (step_state_access.access_to_report s) log2_size)), s)
    else if access.read.length ≠ shl1 log2_size.toNat then
      (.error (.invalid_argument
        (.expected_read_data_size .write (step_state_access.access_to_report s) log2_size)), s)
    else if access.written.length ≠ shl1 log2_size.toNat then
      (.error (.invalid_argument
        (.expected_written_data_size (step_state_access.access_to_report s) log2_size)), s)
    else if access.address ≠ paligned then
      (.error (.invalid_argument
        (.expected_access_at_address .write (step_state_access.access_to_report s) paligned)), s)
    else if s.m_verify_proofs then
      match access.proof with
      | none =>
        (.error (.invalid_argument (.access_has_no_proof .write (step_state_access.access_to_report s))), s)
      | some proof =>
        if proof.target_address ≠ access.address then
          (.error (.invalid_argument
            (.mismatch_in_proof_address .write (step_state_access.access_to_report s))), s)
        else if s.m_root_hash ≠ proof.root_hash then
          (.error (.invalid_argument
            (.mismatch_in_root_hash .write (step_state_access.access_to_report s))), s)
        else
          let rolling_hash := step_state_access.get_hash hs access.read
          if rolling_hash ≠ proof.target_hash then
            (.error (.invalid_argument
              (.does_not_match_target_hash .write (step_state_access.access_to_report s))), s)
          else
            match step_state_access.roll_hash_up_tree hs proof rolling_hash with
            | (.error e, _) => (.error e, s)
            | (.ok _, rolled) =>
              if rolled ≠ proof.root_hash then
                (.error (.invalid_argument (.fails_proof .write (step_state_access.access_to_report s))), s)
              else if access.written ≠ val then
                (.error (.invalid_argument
                  (.value_written_does_not_match_log (step_state_access.access_to_report s))), s)
              else
                match step_state_access.roll_hash_up_tree hs proof (step_state_access.get_hash hs access.written) with
                | (.error e, partly) => (.error e, { s with m_root_hash := partly })
                | (.ok _, root) =>
                  (.ok (), { s with m_root_hash := root, m_next_access := s.m_next_access + 1 })
    else
      (.ok (), { s with m_next_access := s.m_next_access + 1 })

/-- One call of a primitive on a `step_state_access` object: whether it returned, and
the object after the call. -/
def step_state_access.call {Hash : Type} [DecidableEq Hash] (hs : hasher_type Hash)
    (s : replay_state Hash) : primitive_call → Bool × replay_state Hash
  | .read paligned log2_size =>
    (returned (step_state_access.check_read hs s paligned log2_size).1,
      (step_state_access.check_read hs s paligned log2_size).2)
  | .write paligned val log2_size =>
    (returned (step_state_access.check_write hs s paligned val log2_size).1,
      (step_state_access.check_write hs s paligned val log2_size).2)

/-- The object after a sequence of primitive calls, each applied to the object
the previous one left, whether it returned or threw. -/
def step_state_access.run {Hash : Type} [DecidableEq Hash] (hs : hasher_type Hash)
    (s : replay_state Hash) (calls : List primitive_call) : replay_state Hash :=
  calls.foldl (fun acc c => (step_state_access.call hs acc c).2) s

/-- The cursor values at which the calls of a sequence returned normally, in
call order. -/
def step_state_access.validated {Hash : Type} [DecidableEq Hash] (hs : hasher_type Hash) :
    replay_state Hash → List primitive_call → List Nat
  | _, [] => []
  | s, c :: calls =>
    if (step_state_access.call hs s c).1 then
      s.m_next_access :: step_state_access.validated hs (step_state_access.call hs s c).2 calls
    else
      step_state_access.validated hs (step_state_access.call hs s c).2 calls

/-! ### `src/src/uarch-replay-state-access.h` -/

/-- The constructor of `uarch_replay_state_access`. The member initialiser
`m_root_hash{}` value-initialises the root hash. -/
def uarch_replay_state_access.create {Hash : Type} [Inhabited Hash] (log : access_log Hash)
    (verify_proofs one_based : Bool) : Except Err (replay_state Hash) :=
  if verify_proofs ∧ ¬ log.has_proofs then
    .error (.invalid_argument .log_has_no_proofs)
  else
    match log.accesses, verify_proofs with
    | access :: _, true =>
      match access.proof with
      | none => .error (.invalid_argument .initial_access_has_no_proof)
      | some proof =>
        .ok
          { m_accesses := log.accesses
            m_verify_proofs := verify_proofs
            m_next_access := 0
            m_one_based := if one_based then 1 else 0
            m_root_hash := proof.root_hash }
    | _, _ =>
      .ok
        { m_accesses := log.accesses
          m_verify_proofs := verify_proofs
          m_next_access := 0
          m_one_based := if one_based then 1 else 0
          m_root_hash := default }

/-- The method `uarch_replay_state_access::finish()`. -/
def uarch_replay_state_access.finish {Hash : Type} (s : replay_state Hash) :
    Except Err Unit × replay_state Hash :=
  if s.m_next_access ≠ s.m_accesses.length then
    (.error (.invalid_argument .too_many_word_accesses_in_log), s)
  else
    (.ok (), s)

/-- The method `uarch_replay_state_access::get_root_hash(hash)`. -/
def uarch_replay_state_access.get_root_hash {Hash : Type} (s : replay_state Hash) : Hash :=
  s.m_root_hash

/-- The method `uarch_replay_state_access::access_to_report()`. -/
def uarch_replay_state_access.access_to_report {Hash : Type} (s : replay_state Hash) : Nat :=
  s.m_next_access + s.m_one_based

/-- The loop of `uarch_replay_state_access::roll_hash_up_tree(hasher, proof, rolling_hash)`:
`n` levels remain, the next one is `log2_size`. `rolling_hash` is updated in
place, so the result pairs the outcome with the hash the variable holds when
the loop is left. -/
def uarch_replay_state_access.roll_hash_up_tree_loop {Hash : Type} (hs : hasher_type Hash)
    (proof : merkle_tree_proof Hash) : Nat → Nat → Hash → Except Err Unit × Hash
  | 0, _, rolling_hash => (.ok (), rolling_hash)
  | n + 1, log2_size, rolling_hash =>
    let bit := bit_set proof.target_address log2_size
    match proof.get_sibling_hash log2_size with
    | .error e => (.error e, rolling_hash)
    | .ok sibling_hash =>
      if bit then
        uarch_replay_state_access.roll_hash_up_tree_loop hs proof n (log2_size + 1)
          (hs.concat sibling_hash rolling_hash)
      else
        uarch_replay_state_access.roll_hash_up_tree_loop hs proof n (log2_size + 1)
          (hs.concat rolling_hash sibling_hash)

/-- The static method `uarch_replay_state_access::roll_hash_up_tree`. -/
def uarch_replay_state_access.roll_hash_up_tree {Hash : Type} (hs : hasher_type Hash)
    (proof : merkle_tree_proof Hash) (rolling_hash : Hash) : Except Err Unit × Hash :=
  uarch_replay_state_access.roll_hash_up_tree_loop hs proof (proof.log2_root_size - proof.log2_target_size)
    proof.log2_target_size rolling_hash

/-- The recursive `uarch_replay_state_access::get_hash(hasher, data, len, hash)` on the bytes
starting at the pointer `data`, by recursion on a bound `fuel ≥ len` of the
recursion depth. The two `assert`s are not part of the value computed. -/
def uarch_replay_state_access.get_hash_rec {Hash : Type} (hs : hasher_type Hash) :
    Nat → List Nat → Nat → Hash
  | 0, data, len => hs.data (data.take len)
  | fuel + 1, data, len =>
    if len ≤ 8 then
      hs.data (data.take len)
    else
      let half := len / 2
      hs.concat (uarch_replay_state_access.get_hash_rec hs fuel data half)
        (uarch_replay_state_access.get_hash_rec hs fuel (data.drop half) half)

/-- The overload `uarch_replay_state_access::get_hash(hasher, data, hash)` on an `access_data`. -/
def uarch_replay_state_access.get_hash {Hash : Type} (hs : hasher_type Hash) (data : List Nat) : Hash :=
  uarch_replay_state_access.get_hash_rec hs data.length data data.length

/-- The method `uarch_replay_state_access::check_read(paligned, log2_size, text)`: the
value returned (the record's `read` bytes) or the exception, and the object
after the call. -/
def uarch_replay_state_access.check_read {Hash : Type} [DecidableEq Hash] (hs : hasher_type Hash)
    (s : replay_state Hash) (paligned : Nat) (log2_size : Int) :
    Except Err (List Nat) × replay_state Hash :=
  if log2_size < 3 ∨ log2_size > 63 then
    (.error (.invalid_argument .invalid_access_size), s)
  else if (paligned &&& (shl1 log2_size.toNat - 1)) ≠ 0 then
    (.error (.invalid_argument .access_address_not_aligned_to_size), s)
  else if h : s.m_next_access ≥ s.m_accesses.length then
    (.error (.invalid_argument .too_few_accesses_in_log), s)
  else
    let access := s.m_accesses.get ⟨s.m_next_access, Nat.lt_of_not_le h⟩
    if access.type ≠ access_type.read then
      (.error (.invalid_argument (.expected_access_to .read (uarch_replay_state_access.access_to_report s))), s)
    else if access.log2_size ≠ log2_size then
      (.error (.invalid_argument
        (.expected_access_log2_size .read (uarch_replay_state_access.access_to_report s) log2_size)), s)
    else if access.read.length ≠ shl1 log2_size.toNat then
      (.error (.invalid_argument
        (.expected_read_data_size .read (uarch_replay_state_access.access_to_report s) log2_size)), s)
    else if access.address ≠ paligned then
      (.error (.invalid_argument
        (.expected_access_at_address .read (uarch_replay_state_access.access_to_report s) paligned)), s)
    else if s.m_verify_proofs then
      match access.proof with
      | none =>
        (.error (.invalid_argument (.access_has_no_proof .read (uarch_replay_state_access.access_to_report s))), s)
      | some proof =>
        if proof.target_address ≠ access.address then
          (.error (.invalid_argument
            (.mismatch_in_proof_address .read (uarch_replay_state_access.access_to_report s))), s)
        else if s.m_root_hash ≠ proof.root_hash then
          (.error (.invalid_argument
            (.mismatch_in_root_hash .read (uarch_replay_state_access.access_to_report s))), s)
        else
          let rolling_hash := uarch_replay_state_access.get_hash hs access.read
          if rolling_hash ≠ proof.target_hash then
            (.error (.invalid_argument
              (.does_not_match_target_hash .read (uarch_replay_state_access.access_to_report s))), s)
          else
            match uarch_replay_state_access.roll_hash_up_tree hs proof rolling_hash with
            | (.error e, _) => (.error e, s)
            | (.ok _, rolled) =>
              if rolled ≠ proof.root_hash then
                (.error (.invalid_argument (.fails_proof .read (uarch_replay_state_access.access_to_report s))), s)
              else
                (.ok access.read, { s with m_next_access := s.m_next_access + 1 })
    else
      (.ok access.read, { s with m_next_access := s.m_next_access + 1 })

/-- The method `uarch_replay_state_access::check_write(paligned, val, log2_size, text)`. The
second `roll_hash_up_tree` works in place on `m_root_hash`, so an exception
escaping from it would leave the partly rolled hash in the object. -/
def uarch_replay_state_access.check_write {Hash : Type} [DecidableEq Hash] (hs : hasher_type Hash)
    (s : replay_state Hash) (paligned : Nat) (val : List Nat) (log2_size : Int) :
    Except Err Unit × replay_state Hash :=
  if log2_size < 3 ∨ log2_size > 63 then
    (.error (.invalid_argument .invalid_access_size), s)
  else if (paligned &&& (shl1 log2_size.toNat - 1)) ≠ 0 then
    (.error (.invalid_argument .access_address_not_aligned_to_size), s)
  else if h : s.m_next_access ≥ s.m_accesses.length then
    (.error (.invalid_argument .too_few_word_accesses_in_log), s)
  else
    let access := s.m_accesses.get ⟨s.m_next_access, Nat.lt_of_not_le h⟩
    if access.type ≠ access_type.write then
      (.error (.invalid_argument (.expected_access_to .write (uarch_replay_state_access.access_to_report s))), s)
    else if access.log2_size ≠ log2_size then
      (.error (.invalid_argument
        (.expected_access_log2_size .write (uarch_replay_state_access.access_to_report s) log2_size)), s)
    else if access.read.length ≠ shl1 log2_size.toNat then
      (.error (.invalid_argument
        (.expected_read_data_size .write (uarch_replay_state_access.access_to_report s) log2_size)), s)
    else if access.written.length ≠ shl1 log2_size.toNat then
      (.error (.invalid_argument
        (.expected_written_data_size (uarch_replay_state_access.access_to_report s) log2_size)), s)
    else if access.address ≠ paligned then
      (.error (.invalid_argument
        (.expected_access_at_address .write (uarch_replay_state_access.access_to_report s) paligned)), s)
    else if s.m_verify_proofs then
      match access.proof with
      | none =>
        (.error (.invalid_argument (.access_has_no_proof .write (uarch_replay_state_access.access_to_report s))), s)
      | some proof =>
        if proof.target_address ≠ access.address then
          (.error (.invalid_argument
            (.mismatch_in_proof_address .write (uarch_replay_state_access.access_to_report s))), s)
        else if s.m_root_hash ≠ proof.root_hash then
          (.error (.invalid_argument
            (.mismatch_in_root_hash .write (uarch_replay_state_access.access_to_report s))), s)
        else
          let rolling_hash := uarch_replay_state_access.get_hash hs access.read
          if rolling_hash ≠ proof.target_hash then
            (.error (.invalid_argument
              (.does_not_match_target_hash .write (uarch_replay_state_access.access_to_report s))), s)
          else
            match uarch_replay_state_access.roll_hash_up_tree hs proof rolling_hash with
            | (.error e, _) => (.error e, s)
            | (.ok _, rolled) =>
              if rolled ≠ proof.root_hash then
                (.error (.invalid_argument (.fails_proof .write (uarch_replay_state_access.access_to_report s))), s)
              else if access.written ≠ val then
                (.error (.invalid_argument
                  (.value_written_does_not_match_log (uarch_replay_state_access.access_to_report s))), s)
              else
                match uarch_replay_state_access.roll_hash_up_tree hs proof (uarch_replay_state_access.get_hash hs access.written) with
                | (.error e, partly) => (.error e, { s with m_root_hash := partly })
                | (.ok _, root) =>
                  (.ok (), { s with m_root_hash := root, m_next_access := s.m_next_access + 1 })
    else
      (.ok (), { s with m_next_access := s.m_next_access + 1 })

/-- One call of a primitive on a `uarch_replay_state_access` object: whether it returned, and
the object after the call. -/
def uarch_replay_state_access.call {Hash : Type} [DecidableEq Hash] (hs : hasher_type Hash)
    (s : replay_state Hash) : primitive_call → Bool × replay_state Hash
  | .read paligned log2_size =>
    (returned (uarch_replay_state_access.check_read hs s paligned log2_size).1,
      (uarch_replay_state_access.check_read hs s paligned log2_size).2)
  | .write paligned val log2_size =>
    (returned (uarch_replay_state_access.check_write hs s paligned val log2_size).1,
      (uarch_replay_state_access.check_write hs s paligned val log2_size).2)

/-- The object after a sequence of primitive calls, each applied to the object
the previous one left, whether it returned or threw. -/
def uarch_replay_state_access.run {Hash : Type} [DecidableEq Hash] (hs : hasher_type Hash)
    (s : replay_state Hash) (calls : List primitive_call) : replay_state Hash :=
  calls.foldl (fun acc c => (uarch_replay_state_access.call hs acc c).2) s

/-- The cursor values at which the calls of a sequence returned normally, in
call order. -/
def uarch_replay_state_access.validated {Hash : Type} [DecidableEq Hash] (hs : hasher_type Hash) :
    replay_state Hash → List primitive_call → List Nat
  | _, [] => []
  | s, c :: calls =>
    if (uarch_replay_state_access.call hs s c).1 then
      s.m_next_access :: uarch_replay_state_access.validated hs (uarch_replay_state_access.call hs s c).2 calls
    else
      uarch_replay_state_access.validated hs (uarch_replay_state_access.call hs s c).2 calls

/-! ## Reference definitions used by the statements -/

/-- Root of the fully materialised binary Merkle tree of height `d` over the
first `2 ^ d` entries of `leaves`: a leaf node is the leaf hash itself and an
inner node is `H(left || right)`. -/
def merkle_root {Hash : Type} [Inhabited Hash] (hs : hasher_type Hash) :
    Nat → List Hash → Hash
  | 0, leaves => leaves.headD default
  | d + 1, leaves =>
    hs.concat (merkle_root hs d (leaves.take (2 ^ d))) (merkle_root hs d (leaves.drop (2 ^ d)))

/-- The sequence `leaves` padded on the right with copies of `pristine_leaf` up
to `2 ^ d` entries. -/
def padded_leaves {Hash : Type} (pristine_leaf : Hash) (d : Nat) (leaves : List Hash) :
    List Hash :=
  leaves ++ List.replicate (2 ^ d - leaves.length) pristine_leaf

/-- Leaf `k` of the unbounded sequence that starts with `leaves` and continues
with `pristine_leaf`. -/
def leaf_at {Hash : Type} (pristine_leaf : Hash) (leaves : List Hash) (k : Nat) : Hash :=
  leaves.getD k pristine_leaf

/-- Hash of node `j` of level `i` of the Merkle tree whose leaf `k` is `f k`:
the node covers the leaves `j * 2 ^ i, ..., (j + 1) * 2 ^ i - 1`. -/
def subtree {Hash : Type} (hs : hasher_type Hash) (f : Nat → Hash) : Nat → Nat → Hash
  | 0, j => f j
  | i + 1, j => hs.concat (subtree hs f i (2 * j)) (subtree hs f i (2 * j + 1))

/-- The context invariant from level `i` upwards, for a leaf count whose bits
from position `i` on are those of `m`: where bit `r` of `m` is set, entry
`i + r` of the context is the complete subtree just left of the stream
pointer. -/
def context_inv {Hash : Type} [Inhabited Hash] (hs : hasher_type Hash) (f : Nat → Hash)
    (i m : Nat) (context : List Hash) : Prop :=
  ∀ r, m.testBit r = true → context.getD (i + r) default = subtree hs f (i + r) (m / 2 ^ r - 1)

/-- What holds of a back-tree of geometry `(log2_root, log2_leaf, log2_word)`
after the leaves `leaves` have been pushed. -/
structure tree_inv {Hash : Type} [Inhabited Hash] (hs : hasher_type Hash)
    (log2_root log2_leaf log2_word : Nat) (t : back_merkle_tree Hash) (leaves : List Hash) :
    Prop where
  /-- The geometry is valid. -/
  word_le : log2_word ≤ log2_leaf
  /-- The geometry is valid. -/
  leaf_le : log2_leaf ≤ log2_root
  /-- The geometry is valid. -/
  root_lt : log2_root < 64
  /-- The stored root size. -/
  root_eq : t.m_log2_root_size = log2_root
  /-- The stored leaf size. -/
  leaf_eq : t.m_log2_leaf_size = log2_leaf
  /-- The stored capacity. -/
  max_eq : t.m_max_leaves = 2 ^ (log2_root - log2_leaf)
  /-- The pristine table. -/
  pristine_eq : t.m_pristine_hashes = pristine_merkle_tree.create hs log2_root log2_word
  /-- The leaf count. -/
  count_eq : t.m_leaf_count = leaves.length
  /-- No overflow. -/
  count_le : leaves.length ≤ 2 ^ (log2_root - log2_leaf)
  /-- One context entry per level. -/
  context_length : t.m_context.length = log2_root - log2_leaf + 1
  /-- The context entries of the set bits. -/
  context_ok : context_inv hs
    (leaf_at (pristine_hash hs log2_word (log2_leaf - log2_word)) leaves) 0 leaves.length
    t.m_context

/-- A collision-free hasher for concrete evaluation: digests are the terms
built from the two hashing operations. -/
inductive term_hash where
  /-- The value-initialised digest. -/
  | zero
  /-- Digest of a byte string. -/
  | data (bytes : List Nat)
  /-- Digest of two concatenated digests. -/
  | node (left right : term_hash)
deriving DecidableEq, Repr

instance : Inhabited term_hash := ⟨term_hash.zero⟩

/-- The hasher of `term_hash`. -/
def term_hasher : hasher_type term_hash :=
  { data := term_hash.data, concat := term_hash.node }

/-- The conditions under which `check_read(paligned, log2_size)` accepts the
record `a` as the next access of the log. -/
def read_accepted {Hash : Type} (hs : hasher_type Hash) (s : replay_state Hash)
    (paligned : Nat) (log2_size : Int) (a : access Hash) : Prop :=
  3 ≤ log2_size ∧ log2_size ≤ 63 ∧ 2 ^ log2_size.toNat ∣ paligned ∧
    s.m_accesses[s.m_next_access]? = some a ∧ a.type = access_type.read ∧
    a.log2_size = log2_size ∧ a.read.length = 2 ^ log2_size.toNat ∧ a.address = paligned ∧
    (s.m_verify_proofs = true →
      ∃ p, a.proof = some p ∧ p.target_address = a.address ∧ p.root_hash = s.m_root_hash ∧
        step_state_access.get_hash hs a.read = p.target_hash ∧
        step_state_access.roll_hash_up_tree hs p (step_state_access.get_hash hs a.read) =
          (.ok (), p.root_hash))

/-- The conditions under which `check_write(paligned, val, log2_size)` accepts
the record `a` as the next access of the log. -/
def write_accepted {Hash : Type} (hs : hasher_type Hash) (s : replay_state Hash)
    (paligned : Nat) (val : List Nat) (log2_size : Int) (a : access Hash) : Prop :=
  3 ≤ log2_size ∧ log2_size ≤ 63 ∧ 2 ^ log2_size.toNat ∣ paligned ∧
    s.m_accesses[s.m_next_access]? = some a ∧ a.type = access_type.write ∧
    a.log2_size = log2_size ∧ a.read.length = 2 ^ log2_size.toNat ∧
    a.written.length = 2 ^ log2_size.toNat ∧ a.address = paligned ∧
    (s.m_verify_proofs = true →
      ∃ p, a.proof = some p ∧ p.target_address = a.address ∧ p.root_hash = s.m_root_hash ∧
        step_state_access.get_hash hs a.read = p.target_hash ∧
        step_state_access.roll_hash_up_tree hs p (step_state_access.get_hash hs a.read) =
          (.ok (), p.root_hash) ∧
        a.written = val)

/-- The object an accepting `check_write` leaves when the record it consumed
is `a`. -/
def write_result {Hash : Type} (hs : hasher_type Hash) (s : replay_state Hash)
    (a : access Hash) : replay_state Hash :=
  if s.m_verify_proofs then
    match a.proof with
    | some p =>
      { s with
        m_root_hash :=
          (step_state_access.roll_hash_up_tree hs p
            (step_state_access.get_hash hs a.written)).2
        m_next_access := s.m_next_access + 1 }
    | none => s
  else
    { s with m_next_access := s.m_next_access + 1 }

/-- The root committed to after a sequence of consumed records, starting from
`init`: a read leaves the root as it is, a write replaces it by the roll-up of
its written bytes through the siblings of its proof. So the result is `init`
when the sequence holds no write, and the roll-up of the last write
otherwise. -/
def commitment {Hash : Type} (hs : hasher_type Hash) (init : Hash)
    (records : List (access Hash)) : Hash :=
  records.foldl
    (fun root a =>
      match a.type, a.proof with
      | .write, some p =>
        (step_state_access.roll_hash_up_tree hs p (step_state_access.get_hash hs a.written)).2
      | _, _ => root)
    init

/-- Record `j` of the log chains to the commitments around it: it carries a
proof whose `root_hash` is the commitment after the first `j` records; if it is
a read the commitment after it is the same, and if it is a write the
commitment after it is the roll-up of its written bytes. -/
def chained {Hash : Type} (hs : hasher_type Hash) (init : Hash)
    (accesses : List (access Hash)) (j : Nat) : Prop :=
  ∃ a p, accesses[j]? = some a ∧ a.proof = some p ∧
    p.root_hash = commitment hs init (accesses.take j) ∧
    (a.type = access_type.read →
      commitment hs init (accesses.take (j + 1)) = commitment hs init (accesses.take j)) ∧
    (a.type = access_type.write →
      step_state_access.roll_hash_up_tree hs p (step_state_access.get_hash hs a.written) =
        (.ok (), commitment hs init (accesses.take (j + 1))))

/-! ## Concrete inputs -/

/-- A fresh back-tree of geometry `(3, 1, 0)` over `term_hasher`: four leaves
of two bytes each. -/
def sample_tree : back_merkle_tree term_hash :=
  { m_log2_root_size := 3
    m_log2_leaf_size := 1
    m_leaf_count := 0
    m_max_leaves := 4
    m_context := [term_hash.zero, term_hash.zero, term_hash.zero]
    m_pristine_hashes := pristine_merkle_tree.create term_hasher 3 0 }

/-- Three leaf hashes. -/
def sample_leaves : List term_hash :=
  [term_hash.data [1], term_hash.data [2], term_hash.data [3]]

/-- Eight zero bytes. -/
def zero_word : List Nat := [0, 0, 0, 0, 0, 0, 0, 0]

/-- The word `1` in little-endian bytes. -/
def one_word : List Nat := [1, 0, 0, 0, 0, 0, 0, 0]

/-- The word `2` in little-endian bytes. -/
def two_word : List Nat := [2, 0, 0, 0, 0, 0, 0, 0]

/-- A proof of the zero word at address 8 in a tree of 32 bytes: bit 3 of the
address is set, bit 4 is clear. -/
def sample_proof : merkle_tree_proof term_hash :=
  { target_address := 8
    log2_target_size := 3
    log2_root_size := 5
    target_hash := term_hash.data zero_word
    root_hash := term_hash.node (term_hash.node (term_hash.data [7]) (term_hash.data zero_word))
      (term_hash.data [9])
    sibling_hashes := [term_hash.data [7], term_hash.data [9]] }

/-- A read of the zero word at address 8. -/
def sample_read : access term_hash :=
  { type := access_type.read
    address := 8
    log2_size := 3
    read := zero_word
    written := []
    proof := some sample_proof }

/-- A write of the word `1` over the zero word at address 8. -/
def sample_write : access term_hash :=
  { type := access_type.write
    address := 8
    log2_size := 3
    read := zero_word
    written := one_word
    proof := some sample_proof }

/-- A log of one read followed by one write, with proofs. -/
def sample_log : access_log term_hash :=
  { accesses := [sample_read, sample_write], has_proofs := true }

/-- The verifier constructed from `sample_log` with `verify_proofs` set. -/
def sample_state : replay_state term_hash :=
  { m_accesses := [sample_read, sample_write]
    m_verify_proofs := true
    m_next_access := 0
    m_one_based := 0
    m_root_hash := sample_proof.root_hash }

/-- The verifier of `sample_state` once the read has been consumed. -/
def sample_state_1 : replay_state term_hash :=
  { sample_state with m_next_access := 1 }

/-- A verifier that does not verify proofs, in front of a write record. -/
def sample_state_unverified : replay_state term_hash :=
  { m_accesses := [sample_write]
    m_verify_proofs := false
    m_next_access := 0
    m_one_based := 0
    m_root_hash := term_hash.zero }

/-- A verifier over an empty log. -/
def sample_state_empty : replay_state term_hash :=
  { m_accesses := []
    m_verify_proofs := false
    m_next_access := 0
    m_one_based := 0
    m_root_hash := term_hash.zero }

/-- Calls on the verifier of `sample_log`: a read that is accepted, a read
where the log has a write, the write with a wrong value, the write. -/
def sample_calls : List primitive_call :=
  [primitive_call.read 8 3, primitive_call.read 8 3, primitive_call.write 8 two_word 3,
    primitive_call.write 8 one_word 3]

/-- The indices at which the loop of `push_back` reads or writes `m_context`,
in order: `n` iterations remain, the next index is `i`. -/
def back_merkle_tree.push_back_loop_indices (leaf_count : Nat) : Nat → Nat → List Nat
  | 0, _ => []
  | n + 1, i =>
    if bit_set leaf_count i then
      i :: back_merkle_tree.push_back_loop_indices leaf_count n (i + 1)
    else
      [i]

/-- The indices at which a call of `push_back` accesses `m_context`. -/
def back_merkle_tree.push_back_indices {Hash : Type} (t : back_merkle_tree Hash) : List Nat :=
  if t.m_leaf_count ≥ t.m_max_leaves then
    []
  else
    back_merkle_tree.push_back_loop_indices t.m_leaf_count
      (t.m_log2_root_size - t.m_log2_leaf_size + 1) 0

/-- The indices at which a call of `get_root_hash` accesses `m_context`: in
the loop the indices `i < depth` whose bit is set in `m_leaf_count`, and
`depth` itself when the tree is full. -/
def back_merkle_tree.get_root_hash_indices {Hash : Type} (t : back_merkle_tree Hash) :
    List Nat :=
  if t.m_leaf_count < t.m_max_leaves then
    (List.range (t.m_log2_root_size - t.m_log2_leaf_size)).filter (bit_set t.m_leaf_count)
  else
    [t.m_log2_root_size - t.m_log2_leaf_size]

/-- The indices at which a call of `get_next_leaf_proof` accesses
`m_context`. -/
def back_merkle_tree.get_next_leaf_proof_indices {Hash : Type} (t : back_merkle_tree Hash) :
    List Nat :=
  if t.m_leaf_count ≥ t.m_max_leaves then
    []
  else
    (List.range (t.m_log2_root_size - t.m_log2_leaf_size)).filter (bit_set t.m_leaf_count)

/-- Four leaf hashes, which fill the tree of `sample_tree`. -/
def sample_leaves_full : List term_hash :=
  [term_hash.data [1], term_hash.data [2], term_hash.data [3], term_hash.data [4]]

/-- A fresh back-tree of geometry `(5, 0, 0)` over `term_hasher`: 32 leaves of
one byte each. -/
def sample_tree_5 : back_merkle_tree term_hash :=
  { m_log2_root_size := 5
    m_log2_leaf_size := 0
    m_leaf_count := 0
    m_max_leaves := 32
    m_context := List.replicate 6 term_hash.zero
    m_pristine_hashes := pristine_merkle_tree.create term_hasher 5 0 }

/-- The next-leaf proof of the tree of `sample_tree` after the three pushes of
`sample_leaves`: leaf 3 at address 6 is pristine, its siblings are leaf 2 and
the root of leaves 0 and 1. -/
def sample_next_proof : merkle_tree_proof term_hash :=
  { target_address := 6
    log2_target_size := 1
    log2_root_size := 3
    target_hash := term_hash.node (term_hash.data [0]) (term_hash.data [0])
    root_hash :=
      term_hash.node (term_hash.node (term_hash.data [1]) (term_hash.data [2]))
        (term_hash.node (term_hash.data [3])
          (term_hash.node (term_hash.data [0]) (term_hash.data [0])))
    sibling_hashes :=
      [term_hash.data [3], term_hash.node (term_hash.data [1]) (term_hash.data [2])] }

/-- A proof of the zero word at address 8 like `sample_proof`, in a tree whose
other leaf of the pair holds something else, so that the root differs. -/
def sample_proof_alt : merkle_tree_proof term_hash :=
  { target_address := 8
    log2_target_size := 3
    log2_root_size := 5
    target_hash := term_hash.data zero_word
    root_hash :=
      term_hash.node (term_hash.node (term_hash.data [70]) (term_hash.data zero_word))
        (term_hash.data [9])
    sibling_hashes := [term_hash.data [70], term_hash.data [9]] }

/-- A log of one read of the zero word at address 8, proved against the root
of `sample_proof_alt`. -/
def sample_log_alt : access_log term_hash :=
  { accesses := [{ sample_read with proof := some sample_proof_alt }], has_proofs := true }

/-- The verifier constructed from `sample_log_alt` with `verify_proofs` set. -/
def sample_state_alt : replay_state term_hash :=
  { m_accesses := [{ sample_read with proof := some sample_proof_alt }]
    m_verify_proofs := true
    m_next_access := 0
    m_one_based := 0
    m_root_hash := sample_proof_alt.root_hash }

/-- A log of one read followed by one write whose proof is against another
root than the one the read leaves. -/
def sample_log_stale : access_log term_hash :=
  { accesses := [sample_read, { sample_write with proof := some sample_proof_alt }]
    has_proofs := true }

/-- The verifier constructed from `sample_log_stale` with `verify_proofs` set,
once the read has been consumed. -/
def sample_state_1_stale : replay_state term_hash :=
  { m_accesses := [sample_read, { sample_write with proof := some sample_proof_alt }]
    m_verify_proofs := true
    m_next_access := 1
    m_one_based := 0
    m_root_hash := sample_proof.root_hash }

/-- The proof of the single-write scenario: the zero word at address `0x1000`
in the pristine tree of `2 ^ 64` bytes with 8-byte words, so that the sibling
of level `k` is `P[k]` for `k = 3, ..., 63`, the target hash is `P[3]` and the
root hash is `P[64]`. -/
def single_write_proof {Hash : Type} (hs : hasher_type Hash) : merkle_tree_proof Hash :=
  { target_address := 0x1000
    log2_target_size := 3
    log2_root_size := 64
    target_hash := pristine_hash hs 3 0
    root_hash := pristine_hash hs 3 61
    sibling_hashes := (List.range 61).map (pristine_hash hs 3) }

/-- The record of the single-write scenario: a write of the word `1` over the
zero word at address `0x1000`. -/
def single_write_access {Hash : Type} (hs : hasher_type Hash) : access Hash :=
  { type := access_type.write
    address := 0x1000
    log2_size := 3
    read := zero_word
    written := one_word
    proof := some (single_write_proof hs) }

/-- The one-record log of the single-write scenario. -/
def single_write_log {Hash : Type} (hs : hasher_type Hash) : access_log Hash :=
  { accesses := [single_write_access hs], has_proofs := true }

/-- The root the single-write scenario specifies after the write: `H(01 00 ..
00)` rolled up to level 64 with the siblings `P[3], ..., P[63]` along the bits
of `0x1000`, of which only bit 12 is set: the running hash goes on the left at
the levels 3 to 11 and 13 to 63, and on the right at level 12. -/
def single_write_root {Hash : Type} (hs : hasher_type Hash) : Hash :=
  (List.range' 13 51).foldl (fun acc k => hs.concat acc (pristine_hash hs 3 (k - 3)))
    (hs.concat (pristine_hash hs 3 9)
      ((List.range' 3 9).foldl (fun acc k => hs.concat acc (pristine_hash hs 3 (k - 3)))
        (hs.data one_word)))

/-! ## Words, memory words and flags (`src/src/step-state-access.h`) -/

/-- The access index a message carries in its text (`access_to_report()` at
the `throw`), if it carries one. -/
def Msg.report : Msg → Option Nat
  | .expected_access_to _ report => some report
  | .expected_access_log2_size _ report _ => some report
  | .expected_read_data_size _ report _ => some report
  | .expected_written_data_size report _ => some report
  | .expected_access_at_address _ report _ => some report
  | .access_has_no_proof _ report => some report
  | .mismatch_in_proof_address _ report => some report
  | .mismatch_in_root_hash _ report => some report
  | .does_not_match_target_hash _ report => some report
  | .fails_proof _ report => some report
  | .value_written_does_not_match_log report => some report
  | .invalid_flags_in_access_to_pma report => some report
  | _ => none

/-- The message of an exception, whatever its class. -/
def Err.msg : Err → Msg
  | .out_of_range m => m
  | .invalid_argument m => m
  | .runtime_error m => m

/-- Modelled from the spec: `set_word_access_data(word, val)` of
`access-log.h` (not among the sources), the eight bytes of a 64-bit word in
the little-endian order of the reference machine. -/
def set_word_access_data (word : Nat) : List Nat :=
  (List.range 8).map (fun i => word / 256 ^ i % 256)

/-- Modelled from the spec: `get_word_access_data(data)` of `access-log.h` (not
among the sources), the 64-bit word whose little-endian bytes are the first
eight bytes of `data`. -/
def get_word_access_data (data : List Nat) : Nat :=
  (List.range 8).foldl (fun acc i => acc + data.getD i 0 % 256 * 256 ^ i) 0

/-- Modelled from the spec: `aliased_aligned_write<T>(pval64 + poffset, val)`
of `strict-aliasing.h` (not among the sources) on the eight bytes of a word:
the `size` bytes from `poffset` on are replaced by the little-endian bytes of
`val`. -/
def aliased_aligned_write (size poffset val : Nat) (bytes : List Nat) : List Nat :=
  (List.range 8).map (fun i =>
    if poffset ≤ i ∧ i < poffset + size then val / 256 ^ (i - poffset) % 256
    else bytes.getD i 0)

/-- The method `step_state_access::check_read_word(paligned, text)`. -/
def step_state_access.check_read_word {Hash : Type} [DecidableEq Hash] (hs : hasher_type Hash)
    (s : replay_state Hash) (paligned : Nat) : Except Err Nat × replay_state Hash :=
  match step_state_access.check_read hs s paligned 3 with
  | (.error e, s1) => (.error e, s1)
  | (.ok data, s1) => (.ok (get_word_access_data data), s1)

/-- The method `step_state_access::check_write_word(paligned, word, text)`. -/
def step_state_access.check_write_word {Hash : Type} [DecidableEq Hash] (hs : hasher_type Hash)
    (s : replay_state Hash) (paligned word : Nat) : Except Err Unit × replay_state Hash :=
  step_state_access.check_write hs s paligned (set_word_access_data word) 3

/-- The method template `step_state_access::do_write_memory_word<T>(paddr,
hpage, hoffset, val)` for a type `T` of `size` bytes; `hpage` and `hoffset`
are unused. The `assert` on the alignment of `paddr` is not part of the
effect. `~(sizeof(uint64_t)-1)` is the 64-bit mask `2 ^ 64 - 8`. The bytes of
`val64` in memory, which `aliased_aligned_write` overwrites, are its
little-endian bytes. -/
def step_state_access.do_write_memory_word {Hash : Type} [DecidableEq Hash]
    (hs : hasher_type Hash) (s : replay_state Hash) (size paddr val : Nat) :
    Except Err Unit × replay_state Hash :=
  if size < 8 then
    let paligned := paddr &&& (2 ^ 64 - 8)
    match step_state_access.check_read_word hs s paligned with
    | (.error e, s1) => (.error e, s1)
    | (.ok val64, s1) =>
      let poffset := paddr &&& 7
      let val64 := get_word_access_data
        (aliased_aligned_write size poffset val (set_word_access_data val64))
      step_state_access.check_write_word hs s1 paligned val64
  else
    step_state_access.check_write_word hs s paddr val

/-- The constants and address maps the accessors take from headers that are
not among the sources (`pma-constants.h`, `riscv-constants.h`, `shadow.h`,
`pma.h`): they are parameters of the embedding. -/
structure machine_constants where
  /-- Start of the shadow device. -/
  PMA_SHADOW_START : Nat
  /-- The value `shadow_get_csr_rel_addr(shadow_csr::iflags)`. -/
  shadow_iflags_rel_addr : Nat
  /-- The function `shadow_get_pma_rel_addr(i)`. -/
  shadow_get_pma_rel_addr : Nat → Nat
  /-- Mask of the H flag in iflags. -/
  IFLAGS_H_MASK : Nat
  /-- Mask of the Y flag in iflags. -/
  IFLAGS_Y_MASK : Nat
  /-- Mask of the M bit of istart. -/
  PMA_ISTART_M_MASK : Nat
  /-- Shift of the M bit of istart. -/
  PMA_ISTART_M_SHIFT : Nat
  /-- Mask of the IO bit of istart. -/
  PMA_ISTART_IO_MASK : Nat
  /-- Shift of the IO bit of istart. -/
  PMA_ISTART_IO_SHIFT : Nat
  /-- Mask of the E bit of istart. -/
  PMA_ISTART_E_MASK : Nat
  /-- Shift of the E bit of istart. -/
  PMA_ISTART_E_SHIFT : Nat
  /-- Mask of the R bit of istart. -/
  PMA_ISTART_R_MASK : Nat
  /-- Shift of the R bit of istart. -/
  PMA_ISTART_R_SHIFT : Nat
  /-- Mask of the W bit of istart. -/
  PMA_ISTART_W_MASK : Nat
  /-- Shift of the W bit of istart. -/
  PMA_ISTART_W_SHIFT : Nat
  /-- Mask of the X bit of istart. -/
  PMA_ISTART_X_MASK : Nat
  /-- Shift of the X bit of istart. -/
  PMA_ISTART_X_SHIFT : Nat
  /-- Mask of the IR bit of istart. -/
  PMA_ISTART_IR_MASK : Nat
  /-- Shift of the IR bit of istart. -/
  PMA_ISTART_IR_SHIFT : Nat
  /-- Mask of the IW bit of istart. -/
  PMA_ISTART_IW_MASK : Nat
  /-- Shift of the IW bit of istart. -/
  PMA_ISTART_IW_SHIFT : Nat
  /-- Mask of the DID field of istart. -/
  PMA_ISTART_DID_MASK : Nat
  /-- Shift of the DID field of istart. -/
  PMA_ISTART_DID_SHIFT : Nat
  /-- Mask of the start field of istart. -/
  PMA_ISTART_START_MASK : Nat
  /-- The enumerator `PMA_ISTART_DID::memory`. -/
  DID_memory : Nat
  /-- The enumerator `PMA_ISTART_DID::shadow`. -/
  DID_shadow : Nat
  /-- The enumerator `PMA_ISTART_DID::drive`. -/
  DID_drive : Nat
  /-- The enumerator `PMA_ISTART_DID::CLINT`. -/
  DID_CLINT : Nat
  /-- The enumerator `PMA_ISTART_DID::HTIF`. -/
  DID_HTIF : Nat
  /-- The enumerator `PMA_ISTART_DID::DHD`. -/
  DID_DHD : Nat
  /-- Capacity of the pool of mock PMA entries. -/
  PMA_MAX : Nat

/-- The address `PMA_SHADOW_START + shadow_get_csr_rel_addr(shadow_csr::iflags)`
in 64-bit arithmetic. -/
def machine_constants.iflags_addr (K : machine_constants) : Nat :=
  (K.PMA_SHADOW_START + K.shadow_iflags_rel_addr) % 2 ^ 64

/-- The method `step_state_access::do_set_iflags_H()`. -/
def step_state_access.do_set_iflags_H {Hash : Type} [DecidableEq Hash] (K : machine_constants)
    (hs : hasher_type Hash) (s : replay_state Hash) : Except Err Unit × replay_state Hash :=
  let iflags_addr := K.iflags_addr
  match step_state_access.check_read_word hs s iflags_addr with
  | (.error e, s1) => (.error e, s1)
  | (.ok old_iflags, s1) =>
    let new_iflags := old_iflags ||| K.IFLAGS_H_MASK
    step_state_access.check_write_word hs s1 iflags_addr new_iflags

/-- The method `step_state_access::do_set_iflags_Y()`. -/
def step_state_access.do_set_iflags_Y {Hash : Type} [DecidableEq Hash] (K : machine_constants)
    (hs : hasher_type Hash) (s : replay_state Hash) : Except Err Unit × replay_state Hash :=
  let iflags_addr := K.iflags_addr
  match step_state_access.check_read_word hs s iflags_addr with
  | (.error e, s1) => (.error e, s1)
  | (.ok old_iflags, s1) =>
    let new_iflags := old_iflags ||| K.IFLAGS_Y_MASK
    step_state_access.check_write_word hs s1 iflags_addr new_iflags

/-- The method `step_state_access::do_read_pma_istart(i)`. -/
def step_state_access.do_read_pma_istart {Hash : Type} [DecidableEq Hash]
    (K : machine_constants) (hs : hasher_type Hash) (s : replay_state Hash) (i : Nat) :
    Except Err Nat × replay_state Hash :=
  let rel_addr := K.shadow_get_pma_rel_addr i
  step_state_access.check_read_word hs s ((K.PMA_SHADOW_START + rel_addr) % 2 ^ 64)

/-- The method `step_state_access::do_read_pma_ilength(i)`. -/
def step_state_access.do_read_pma_ilength {Hash : Type} [DecidableEq Hash]
    (K : machine_constants) (hs : hasher_type Hash) (s : replay_state Hash) (i : Nat) :
    Except Err Nat × replay_state Hash :=
  let rel_addr := K.shadow_get_pma_rel_addr i
  step_state_access.check_read_word hs s ((K.PMA_SHADOW_START + rel_addr + 8) % 2 ^ 64)

/-! ## Mock PMA entries (`src/src/step-state-access.h`) -/

/-- Modelled from the spec: `pma_entry::flags` of `pma.h` (not among the
sources), the attribute bits of a PMA entry and its device identifier. The
identifier is kept as the number the `istart` field holds. -/
structure pma_flags where
  /-- Readable. -/
  R : Bool
  /-- Writable. -/
  W : Bool
  /-- Executable. -/
  X : Bool
  /-- Idempotent reads. -/
  IR : Bool
  /-- Idempotent writes. -/
  IW : Bool
  /-- Device identifier. -/
  DID : Nat
deriving DecidableEq, Repr

/-- Modelled from the spec: which of the `make_*_pma_entry` functions of
`pma.h`, `shadow.h`, `clint.h`, `htif.h` and `dhd.h` (not among the sources)
built an entry. -/
inductive pma_kind where
  /-- Built by `make_mockd_memory_pma_entry`. -/
  | mockd_memory
  /-- Built by `make_shadow_pma_entry`. -/
  | shadow
  /-- Built by `make_clint_pma_entry`. -/
  | clint
  /-- Built by `make_htif_pma_entry`. -/
  | htif
  /-- Built by `make_dhd_pma_entry`. -/
  | dhd
  /-- Built by `make_empty_pma_entry`. -/
  | empty
deriving DecidableEq, Repr

/-- Modelled from the spec: a `pma_entry` of `pma.h` (not among the sources)
as `make_*_pma_entry(start, length).set_flags(f)` leaves it. -/
structure pma_entry where
  /-- The function that made the entry. -/
  kind : pma_kind
  /-- Start of the range. -/
  start : Nat
  /-- Length of the range. -/
  length : Nat
  /-- The flags given to `set_flags`. -/
  flags : pma_flags
deriving DecidableEq, Repr

/-- The object of class `step_state_access` with its pool of mock PMA
entries: the members the log checks use, and `m_mock_pmas`, a
`static_vector<pma_entry, PMA_MAX>`. -/
structure step_state (Hash : Type) where
  /-- The members `m_accesses`, `m_verify_proofs`, `m_next_access`,
  `m_one_based` and `m_root_hash`. -/
  replay : replay_state Hash
  /-- Mock PMA entries built so far. -/
  m_mock_pmas : List pma_entry

/-- The method `step_state_access::allocate_mock_pma_entry(pma)`; the
capacity of the static vector is `PMA_MAX`. The reference returned is to the
entry appended. -/
def step_state_access.allocate_mock_pma_entry {Hash : Type} (K : machine_constants)
    (s : step_state Hash) (pma : pma_entry) : Except Err pma_entry × step_state Hash :=
  if s.m_mock_pmas.length = K.PMA_MAX then
    (.error (.invalid_argument .too_many_pma_accesses), s)
  else
    (.ok pma, { s with m_mock_pmas := s.m_mock_pmas ++ [pma] })

/-- The method `step_state_access::error_flags(what)`, which always throws. -/
def step_state_access.error_flags {Hash : Type} (s : step_state Hash) :
    Except Err pma_entry × step_state Hash :=
  (.error (.invalid_argument
    (.invalid_flags_in_access_to_pma (step_state_access.access_to_report s.replay))), s)

/-- The method `step_state_access::build_mock_memory_pma_entry(start, length, f)`. -/
def step_state_access.build_mock_memory_pma_entry {Hash : Type} (K : machine_constants)
    (s : step_state Hash) (start length : Nat) (f : pma_flags) :
    Except Err pma_entry × step_state Hash :=
  if f.DID ≠ K.DID_memory ∧ f.DID ≠ K.DID_drive then
    step_state_access.error_flags s
  else
    step_state_access.allocate_mock_pma_entry K s
      { kind := .mockd_memory, start := start, length := length, flags := f }

/-- The method `step_state_access::build_mock_device_pma_entry(start, length, f)`;
the `switch` is the chain of its cases in source order. -/
def step_state_access.build_mock_device_pma_entry {Hash : Type} (K : machine_constants)
    (s : step_state Hash) (start length : Nat) (f : pma_flags) :
    Except Err pma_entry × step_state Hash :=
  if f.DID = K.DID_shadow then
    step_state_access.allocate_mock_pma_entry K s
      { kind := .shadow, start := start, length := length, flags := f }
  else if f.DID = K.DID_CLINT then
    step_state_access.allocate_mock_pma_entry K s
      { kind := .clint, start := start, length := length, flags := f }
  else if f.DID = K.DID_HTIF then
    step_state_access.allocate_mock_pma_entry K s
      { kind := .htif, start := start, length := length, flags := f }
  else if f.DID = K.DID_DHD then
    step_state_access.allocate_mock_pma_entry K s
      { kind := .dhd, start := start, length := length, flags := f }
  else
    step_state_access.error_flags s

/-- The method `step_state_access::build_mock_empty_pma_entry(start, length, f)`. -/
def step_state_access.build_mock_empty_pma_entry {Hash : Type} (K : machine_constants)
    (s : step_state Hash) (start length : Nat) (f : pma_flags) :
    Except Err pma_entry × step_state Hash :=
  step_state_access.allocate_mock_pma_entry K s
    { kind := .empty, start := start, length := length, flags := f }

/-- The outputs of `split_istart`. -/
structure istart_fields where
  /-- The output `start`. -/
  start : Nat
  /-- The output `M`. -/
  M : Bool
  /-- The output `IO`; the name is kept apart from the input-output monad. -/
  IO_ : Bool
  /-- The output `E`. -/
  E : Bool
  /-- The output `f`. -/
  f : pma_flags
deriving DecidableEq, Repr

/-- The method `step_state_access::split_istart(istart, start, M, IO, E, f)`. A
field converted to `bool` is set when it is not zero; the cast of the DID
field to its enumeration keeps the number. -/
def step_state_access.split_istart (K : machine_constants) (istart : Nat) : istart_fields :=
  { M := ((istart &&& K.PMA_ISTART_M_MASK) >>> K.PMA_ISTART_M_SHIFT) != 0
    IO_ := ((istart &&& K.PMA_ISTART_IO_MASK) >>> K.PMA_ISTART_IO_SHIFT) != 0
    E := ((istart &&& K.PMA_ISTART_E_MASK) >>> K.PMA_ISTART_E_SHIFT) != 0
    f :=
      { R := ((istart &&& K.PMA_ISTART_R_MASK) >>> K.PMA_ISTART_R_SHIFT) != 0
        W := ((istart &&& K.PMA_ISTART_W_MASK) >>> K.PMA_ISTART_W_SHIFT) != 0
        X := ((istart &&& K.PMA_ISTART_X_MASK) >>> K.PMA_ISTART_X_SHIFT) != 0
        IR := ((istart &&& K.PMA_ISTART_IR_MASK) >>> K.PMA_ISTART_IR_SHIFT) != 0
        IW := ((istart &&& K.PMA_ISTART_IW_MASK) >>> K.PMA_ISTART_IW_SHIFT) != 0
        DID := (istart &&& K.PMA_ISTART_DID_MASK) >>> K.PMA_ISTART_DID_SHIFT }
    start := istart &&& K.PMA_ISTART_START_MASK }

/-- The method `step_state_access::build_mock_pma_entry(istart, ilength)`. -/
def step_state_access.build_mock_pma_entry {Hash : Type} (K : machine_constants)
    (s : step_state Hash) (istart ilength : Nat) : Except Err pma_entry × step_state Hash :=
  let r := step_state_access.split_istart K istart
  if r.M.toNat + r.IO_.toNat + r.E.toNat ≠ 1 then
    step_state_access.error_flags s
  else if r.M then
    step_state_access.build_mock_memory_pma_entry K s r.start ilength r.f
  else if r.IO_ then
    step_state_access.build_mock_device_pma_entry K s r.start ilength r.f
  else
    step_state_access.build_mock_empty_pma_entry K s r.start ilength r.f

/-- The loop of the method template `step_state_access::do_find_pma_entry<T>(paddr)`
for a type `T` of `size` bytes, from index `i` on, for at most `fuel`
iterations; `none` when the iterations are used up. `read_pma_istart` and
`read_pma_ilength` of the interface are `do_read_pma_istart` and
`do_read_pma_ilength`. The subtraction `ilength - sizeof(T)` is in 64-bit
arithmetic; the index `i` is an `int` that counts pairs of records of the log
and is a natural number here. -/
def step_state_access.do_find_pma_entry_loop {Hash : Type} [DecidableEq Hash]
    (K : machine_constants) (hs : hasher_type Hash) (size paddr : Nat) :
    Nat → step_state Hash → Nat → Option (Except Err pma_entry × step_state Hash)
  | 0, _, _ => none
  | fuel + 1, s, i =>
    match step_state_access.do_read_pma_istart K hs s.replay i with
    | (.error e, r1) => some (.error e, { s with replay := r1 })
    | (.ok istart, r1) =>
      match step_state_access.do_read_pma_ilength K hs r1 i with
      | (.error e, r2) => some (.error e, { s with replay := r2 })
      | (.ok ilength, r2) =>
        if ilength = 0 then
          some (step_state_access.build_mock_pma_entry K { s with replay := r2 } istart ilength)
        else
          let start := istart &&& K.PMA_ISTART_START_MASK
          if paddr ≥ start ∧ paddr - start ≤ (ilength + 2 ^ 64 - size) % 2 ^ 64 then
            some (step_state_access.build_mock_pma_entry K { s with replay := r2 } istart ilength)
          else
            step_state_access.do_find_pma_entry_loop K hs size paddr fuel
              { s with replay := r2 } (i + 1)

/-- The method template `step_state_access::do_find_pma_entry<T>(paddr)`: every
iteration that goes on consumes two records of the log, so one iteration more
than the log has records is enough for the loop to be left. -/
def step_state_access.do_find_pma_entry {Hash : Type} [DecidableEq Hash]
    (K : machine_constants) (hs : hasher_type Hash) (s : step_state Hash) (size paddr : Nat) :
    Option (Except Err pma_entry × step_state Hash) :=
  step_state_access.do_find_pma_entry_loop K hs size paddr (s.replay.m_accesses.length + 1) s 0

/-- An operation on the pool of a `step_state_access` object. -/
inductive pma_call where
  /-- A call `allocate_mock_pma_entry(pma)`. -/
  | allocate (pma : pma_entry)
  /-- A call `build_mock_pma_entry(istart, ilength)`. -/
  | build (istart ilength : Nat)
  /-- A call `do_find_pma_entry<T>(paddr)` with `T` of `size` bytes. -/
  | find (size paddr : Nat)
  /-- A call of a log primitive. -/
  | primitive (c : primitive_call)

/-- The object after one operation, whether it returned or threw. -/
def step_state_access.pma_step {Hash : Type} [DecidableEq Hash] (K : machine_constants)
    (hs : hasher_type Hash) (s : step_state Hash) : pma_call → step_state Hash
  | .allocate pma => (step_state_access.allocate_mock_pma_entry K s pma).2
  | .build istart ilength => (step_state_access.build_mock_pma_entry K s istart ilength).2
  | .find size paddr =>
    match step_state_access.do_find_pma_entry K hs s size paddr with
    | some r => r.2
    | none => s
  | .primitive c => { s with replay := (step_state_access.call hs s.replay c).2 }

/-- The object after a sequence of operations on a freshly constructed
object, whose pool is empty. -/
def step_state_access.pma_run {Hash : Type} [DecidableEq Hash] (K : machine_constants)
    (hs : hasher_type Hash) (replay : replay_state Hash) (calls : List pma_call) :
    step_state Hash :=
  calls.foldl (step_state_access.pma_step K hs) { replay := replay, m_mock_pmas := [] }

/-- Sample constants: the layout of `istart` with the flag bits M, IO, E, R,
W, X, IR, IW in bits 0 to 7, the device identifier in bits 8 to 11 and the
start in the bits from 12 on, a shadow at address 0 whose PMA board starts at
0x800 with 16 bytes per entry, and a pool of two entries. -/
def sample_constants : machine_constants :=
  { PMA_SHADOW_START := 0
    shadow_iflags_rel_addr := 0x1d0
    shadow_get_pma_rel_addr := fun i => 0x800 + 16 * i
    IFLAGS_H_MASK := 1
    IFLAGS_Y_MASK := 2
    PMA_ISTART_M_MASK := 1
    PMA_ISTART_M_SHIFT := 0
    PMA_ISTART_IO_MASK := 2
    PMA_ISTART_IO_SHIFT := 1
    PMA_ISTART_E_MASK := 4
    PMA_ISTART_E_SHIFT := 2
    PMA_ISTART_R_MASK := 8
    PMA_ISTART_R_SHIFT := 3
    PMA_ISTART_W_MASK := 16
    PMA_ISTART_W_SHIFT := 4
    PMA_ISTART_X_MASK := 32
    PMA_ISTART_X_SHIFT := 5
    PMA_ISTART_IR_MASK := 64
    PMA_ISTART_IR_SHIFT := 6
    PMA_ISTART_IW_MASK := 128
    PMA_ISTART_IW_SHIFT := 7
    PMA_ISTART_DID_MASK := 0xf00
    PMA_ISTART_DID_SHIFT := 8
    PMA_ISTART_START_MASK := 2 ^ 64 - 4096
    DID_memory := 0
    DID_shadow := 1
    DID_drive := 2
    DID_CLINT := 3
    DID_HTIF := 4
    DID_DHD := 5
    PMA_MAX := 2 }

/-- The log of `sample_log` with the proof of its first record removed. -/
def sample_state_proofless : replay_state term_hash :=
  { sample_state with
    m_accesses := [{ sample_read with proof := none }, sample_write] }

/-- The result of one primitive call on a `uarch_replay_state_access` object:
the exception thrown, or the value returned, which is the bytes read for
`check_read` and nothing for `check_write`. -/
def uarch_replay_state_access.result {Hash : Type} [DecidableEq Hash] (hs : hasher_type Hash)
    (s : replay_state Hash) : primitive_call → Except Err (Option (List Nat))
  | .read paligned log2_size =>
    match (uarch_replay_state_access.check_read hs s paligned log2_size).1 with
    | .error e => .error e
    | .ok data => .ok (some data)
  | .write paligned val log2_size =>
    match (uarch_replay_state_access.check_write hs s paligned val log2_size).1 with
    | .error e => .error e
    | .ok _ => .ok none

/-- The results of a sequence of primitive calls, in call order, each call
applied to the object the previous one left. -/
def uarch_replay_state_access.results {Hash : Type} [DecidableEq Hash] (hs : hasher_type Hash) :
    replay_state Hash → List primitive_call → List (Except Err (Option (List Nat)))
  | _, [] => []
  | s, c :: calls =>
    uarch_replay_state_access.result hs s c ::
      uarch_replay_state_access.results hs (uarch_replay_state_access.call hs s c).2 calls

/-- A read of the word at `paligned` followed by a write, at the same address,
of the word `f` makes of the word read: the shape `do_set_iflags_H`,
`do_set_iflags_Y` and the sub-word `do_write_memory_word` share. -/
def read_modify_write {Hash : Type} [DecidableEq Hash] (hs : hasher_type Hash)
    (s : replay_state Hash) (paligned : Nat) (f : Nat → Nat) :
    Except Err Unit × replay_state Hash :=
  match step_state_access.check_read_word hs s paligned with
  | (.error e, s1) => (.error e, s1)
  | (.ok w, s1) => step_state_access.check_write_word hs s1 paligned (f w)

/-- An unverified verifier in front of the two records a write of one byte
to address `0x2001` consumes, the second of which records all-zero bytes as
written. -/
def sample_state_subword : replay_state term_hash :=
  { m_accesses :=
      [{ type := access_type.read, address := 0x2000, log2_size := 3,
         read := [1, 2, 3, 4, 5, 6, 7, 8], written := [], proof := none },
       { type := access_type.write, address := 0x2000, log2_size := 3,
         read := [1, 2, 3, 4, 5, 6, 7, 8], written := zero_word, proof := none }]
    m_verify_proofs := false
    m_next_access := 0
    m_one_based := 0
    m_root_hash := term_hash.zero }

/-- An unverified verifier in front of a read of the zero word and a write
record of the bytes `FE FF 00 00 00 00 00 00`, both at address `0x1d0`, where
`iflags` is with `sample_constants`. -/
def sample_state_iflags : replay_state term_hash :=
  { m_accesses :=
      [{ type := access_type.read, address := 0x1d0, log2_size := 3,
         read := zero_word, written := [], proof := none },
       { type := access_type.write, address := 0x1d0, log2_size := 3,
         read := zero_word, written := [0xFE, 0xFF, 0, 0, 0, 0, 0, 0], proof := none }]
    m_verify_proofs := false
    m_next_access := 0
    m_one_based := 0
    m_root_hash := term_hash.zero }

/-- The flags the PMA validation rejects, in the words of the specification:
M, IO and E are not exactly one-hot; or M is set and the DID is neither memory
nor drive; or IO is set and the DID is none of shadow, CLINT, HTIF and DHD. -/
def invalid_pma_flags (K : machine_constants) (istart : Nat) : Prop :=
  (step_state_access.split_istart K istart).M.toNat +
      (step_state_access.split_istart K istart).IO_.toNat +
      (step_state_access.split_istart K istart).E.toNat ≠ 1 ∨
    ((step_state_access.split_istart K istart).M = true ∧
      (step_state_access.split_istart K istart).f.DID ≠ K.DID_memory ∧
      (step_state_access.split_istart K istart).f.DID ≠ K.DID_drive) ∨
    ((step_state_access.split_istart K istart).IO_ = true ∧
      (step_state_access.split_istart K istart).f.DID ≠ K.DID_shadow ∧
      (step_state_access.split_istart K istart).f.DID ≠ K.DID_CLINT ∧
      (step_state_access.split_istart K istart).f.DID ≠ K.DID_HTIF ∧
      (step_state_access.split_istart K istart).f.DID ≠ K.DID_DHD)

instance (K : machine_constants) (istart : Nat) : Decidable (invalid_pma_flags K istart) := by
  unfold invalid_pma_flags
  infer_instance

/-- A fresh object over the empty log. -/
def sample_step_state : step_state term_hash :=
  { replay := sample_state_empty, m_mock_pmas := [] }

/-- A memory entry at `0x1000` of DID memory with R and W set. -/
def sample_pma : pma_entry :=
  { kind := .mockd_memory, start := 0x1000, length := 0x1000
    flags := { R := true, W := true, X := false, IR := false, IW := false, DID := 0 } }

/-- An object whose pool holds the two entries `sample_constants` allows. -/
def sample_step_state_full : step_state term_hash :=
  { replay := sample_state_empty, m_mock_pmas := [sample_pma, sample_pma] }

/-- The records `r` and `l` are the pair `do_find_pma_entry` consumes for the
entry `i` of the PMA board when they sit at positions `n` and `n + 1` of the
log: reads of 8 bytes at the shadow address of the `istart` of entry `i` and
at that address plus 8. -/
def pma_pair_at {Hash : Type} (K : machine_constants) (accesses : List (access Hash))
    (n i : Nat) (r l : access Hash) : Prop :=
  accesses[n]? = some r ∧ accesses[n + 1]? = some l ∧
    r.type = access_type.read ∧ r.log2_size = 3 ∧ r.read.length = 8 ∧
    r.address = (K.PMA_SHADOW_START + K.shadow_get_pma_rel_addr i) % 2 ^ 64 ∧
    l.type = access_type.read ∧ l.log2_size = 3 ∧ l.read.length = 8 ∧
    l.address = (K.PMA_SHADOW_START + K.shadow_get_pma_rel_addr i + 8) % 2 ^ 64

/-- The test at which the loop of `do_find_pma_entry<T>` stops, for `T` of
`size` bytes: the length is 0 or the range matches `paddr`. -/
def pma_stops (K : machine_constants) (size paddr istart ilength : Nat) : Prop :=
  ilength = 0 ∨
    (paddr ≥ istart &&& K.PMA_ISTART_START_MASK ∧
      paddr - (istart &&& K.PMA_ISTART_START_MASK) ≤ (ilength + 2 ^ 64 - size) % 2 ^ 64)

/-- An `istart` word for `sample_constants`: memory at `0x1000` with R and W
set and DID memory. -/
def sample_istart_memory : Nat := 0x1019

/-- An `istart` word for `sample_constants`: the empty entry at `0x2000`. -/
def sample_istart_empty : Nat := 0x2004

/-- A read of eight bytes at `address`, without proof. -/
def sample_word_read (address : Nat) (bytes : List Nat) : access term_hash :=
  { type := access_type.read, address := address, log2_size := 3, read := bytes, written := []
    proof := none }

/-- A fresh unverified object in front of the records of a PMA board of two
entries under `sample_constants`: memory of `0x1000` bytes at `0x1000`, then
the empty entry of length 0 that ends the board. -/
def sample_find_state : step_state term_hash :=
  { replay :=
      { m_accesses :=
          [sample_word_read 0x800 [0x19, 0x10, 0, 0, 0, 0, 0, 0],
           sample_word_read 0x808 [0, 0x10, 0, 0, 0, 0, 0, 0],
           sample_word_read 0x810 [0x04, 0x20, 0, 0, 0, 0, 0, 0],
           sample_word_read 0x818 zero_word]
        m_verify_proofs := false
        m_next_access := 0
        m_one_based := 0
        m_root_hash := term_hash.zero }
    m_mock_pmas := [] }

/-- The entry built from `sample_istart_empty` and length 0. -/
def sample_find_entry : pma_entry :=
  { kind := .empty, start := 0x2000, length := 0
    flags := { R := false, W := false, X := false, IR := false, IW := false, DID := 0 } }

/-- The object `sample_find_state` after the search for address `0x5000`. -/
def sample_find_final : step_state term_hash :=
  { replay := { sample_find_state.replay with m_next_access := 4 }
    m_mock_pmas := [sample_find_entry] }

/-! ## Assertions of `get_hash` and the data it is called on (`src/src/step-state-access.h`) -/

/-- The two `assert`s of the recursive `step_state_access::get_hash(hasher,
data, len, hash)`, which depend on `len` alone: `some b` when the call on
`len` bytes and the calls it makes are over within a recursion depth of
`fuel`, with `b` telling whether every `assert` met held; `none` when the
depth is used up. -/
def step_state_access.get_hash_asserts : Nat → Nat → Option Bool
  | 0, _ => none
  | fuel + 1, len =>
    if len ≤ 8 then
      some (len == 8)
    else
      match step_state_access.get_hash_asserts fuel (len / 2),
        step_state_access.get_hash_asserts fuel (len / 2) with
      | some left, some right => some (((len &&& 1) == 0) && left && right)
      | _, _ => none

/-- The method `step_state_access::check_read(paligned, log2_size, text)` as
in `step_state_access.check_read`, paired with the byte vectors it has passed
to `get_hash`, in call order. -/
def step_state_access.check_read_hashed {Hash : Type} [DecidableEq Hash] (hs : hasher_type Hash)
    (s : replay_state Hash) (paligned : Nat) (log2_size : Int) :
    (Except Err (List Nat) × replay_state Hash) × List (List Nat) :=
  if log2_size < 3 ∨ log2_size > 63 then
    ((.error (.invalid_argument .invalid_access_size), s), [])
  else if (paligned &&& (shl1 log2_size.toNat - 1)) ≠ 0 then
    ((.error (.invalid_argument .access_address_not_aligned_to_size), s), [])
  else if h : s.m_next_access ≥ s.m_accesses.length then
    ((.error (.invalid_argument .too_few_accesses_in_log), s), [])
  else
    let access := s.m_accesses.get ⟨s.m_next_access, Nat.lt_of_not_le h⟩
    if access.type ≠ access_type.read then
      ((.error (.invalid_argument (.expected_access_to .read (step_state_access.access_to_report s))), s),
        [])
    else if access.log2_size ≠ log2_size then
      ((.error (.invalid_argument
        (.expected_access_log2_size .read (step_state_access.access_to_report s) log2_size)), s), [])
    else if access.read.length ≠ shl1 log2_size.toNat then
      ((.error (.invalid_argument
        (.expected_read_data_size .read (step_state_access.access_to_report s) log2_size)), s), [])
    else if access.address ≠ paligned then
      ((.error (.invalid_argument
        (.expected_access_at_address .read (step_state_access.access_to_report s) paligned)), s), [])
    else if s.m_verify_proofs then
      match access.proof with
      | none =>
        ((.error (.invalid_argument (.access_has_no_proof .read (step_state_access.access_to_report s))),
          s), [])
      | some proof =>
        if proof.target_address ≠ access.address then
          ((.error (.invalid_argument
            (.mismatch_in_proof_address .read (step_state_access.access_to_report s))), s), [])
        else if s.m_root_hash ≠ proof.root_hash then
          ((.error (.invalid_argument
            (.mismatch_in_root_hash .read (step_state_access.access_to_report s))), s), [])
        else
          let rolling_hash := step_state_access.get_hash hs access.read
          if rolling_hash ≠ proof.target_hash then
            ((.error (.invalid_argument
              (.does_not_match_target_hash .read (step_state_access.access_to_report s))), s),
              [access.read])
          else
            match step_state_access.roll_hash_up_tree hs proof rolling_hash with
            | (.error e, _) => ((.error e, s), [access.read])
            | (.ok _, rolled) =>
              if rolled ≠ proof.root_hash then
                ((.error (.invalid_argument (.fails_proof .read (step_state_access.access_to_report s))),
                  s), [access.read])
              else
                ((.ok access.read, { s with m_next_access := s.m_next_access + 1 }), [access.read])
    else
      ((.ok access.read, { s with m_next_access := s.m_next_access + 1 }), [])

/-- The method `step_state_access::check_write(paligned, val, log2_size, text)`
as in `step_state_access.check_write`, paired with the byte vectors it has
passed to `get_hash`, in call order. -/
def step_state_access.check_write_hashed {Hash : Type} [DecidableEq Hash] (hs : hasher_type Hash)
    (s : replay_state Hash) (paligned : Nat) (val : List Nat) (log2_size : Int) :
    (Except Err Unit × replay_state Hash) × List (List Nat) :=
  if log2_size < 3 ∨ log2_size > 63 then
    ((.error (.invalid_argument .invalid_access_size), s), [])
  else if (paligned &&& (shl1 log2_size.toNat - 1)) ≠ 0 then
    ((.error (.invalid_argument .access_address_not_aligned_to_size), s), [])
  else if h : s.m_next_access ≥ s.m_accesses.length then
    ((.error (.invalid_argument .too_few_word_accesses_in_log), s), [])
  else
    let access := s.m_accesses.get ⟨s.m_next_access, Nat.lt_of_not_le h⟩
    if access.type ≠ access_type.write then
      ((.error (.invalid_argument (.expected_access_to .write (step_state_access.access_to_report s))), s),
        [])
    else if access.log2_size ≠ log2_size then
      ((.error (.invalid_argument
        (.expected_access_log2_size .write (step_state_access.access_to_report s) log2_size)), s), [])
    else if access.read.length ≠ shl1 log2_size.toNat then
      ((.error (.invalid_argument
        (.expected_read_data_size .write (step_state_access.access_to_report s) log2_size)), s), [])
    else if access.written.length ≠ shl1 log2_size.toNat then
      ((.error (.invalid_argument
        (.expected_written_data_size (step_state_access.access_to_report s) log2_size)), s), [])
    else if access.address ≠ paligned then
      ((.error (.invalid_argument
        (.expected_access_at_address .write (step_state_access.access_to_report s) paligned)), s), [])
    else if s.m_verify_proofs then
      match access.proof with
      | none =>
        ((.error (.invalid_argument (.access_has_no_proof .write (step_state_access.access_to_report s))),
          s), [])
      | some proof =>
        if proof.target_address ≠ access.address then
          ((.error (.invalid_argument
            (.mismatch_in_proof_address .write (step_state_access.access_to_report s))), s), [])
        else if s.m_root_hash ≠ proof.root_hash then
          ((.error (.invalid_argument
            (.mismatch_in_root_hash .write (step_state_access.access_to_report s))), s), [])
        else
          let rolling_hash := step_state_access.get_hash hs access.read
          if rolling_hash ≠ proof.target_hash then
            ((.error (.invalid_argument
              (.does_not_match_target_hash .write (step_state_access.access_to_report s))), s),
              [access.read])
          else
            match step_state_access.roll_hash_up_tree hs proof rolling_hash with
            | (.error e, _) => ((.error e, s), [access.read])
            | (.ok _, rolled) =>
              if rolled ≠ proof.root_hash then
                ((.error (.invalid_argument (.fails_proof .write (step_state_access.access_to_report s))),
                  s), [access.read])
              else if access.written ≠ val then
                ((.error (.invalid_argument
                  (.value_written_does_not_match_log (step_state_access.access_to_report s))), s),
                  [access.read])
              else
                match step_state_access.roll_hash_up_tree hs proof
                    (step_state_access.get_hash hs access.written) with
                | (.error e, partly) =>
                  ((.error e, { s with m_root_hash := partly }), [access.read, access.written])
                | (.ok _, root) =>
                  ((.ok (), { s with m_root_hash := root, m_next_access := s.m_next_access + 1 }),
                    [access.read, access.written])
    else
      ((.ok (), { s with m_next_access := s.m_next_access + 1 }), [])

/-! ## Reads of memory words (`src/src/step-state-access.h`) -/

/-- Modelled from the spec: `aliased_aligned_read<T>(pval64 + poffset)` of
`strict-aliasing.h` (not among the sources) on the eight bytes of a word, for
`T` of `size` bytes: the number whose little-endian bytes are the `size` bytes
from `poffset` on. A signed `T` is read as its bit pattern. -/
def aliased_aligned_read (size poffset : Nat) (bytes : List Nat) : Nat :=
  (List.range size).foldl (fun acc i => acc + bytes.getD (poffset + i) 0 % 256 * 256 ^ i) 0

/-- The method template `step_state_access::do_read_memory_word<T>(paddr,
hpage, hoffset, pval)` for a type `T` of `size` bytes, with the value stored
through `pval` as its result; `hpage` and `hoffset` are unused. The `assert`
on the alignment of `paddr` is not part of the effect. The bytes of `val64` in
memory are its little-endian bytes. -/
def step_state_access.do_read_memory_word {Hash : Type} [DecidableEq Hash]
    (hs : hasher_type Hash) (s : replay_state Hash) (size paddr : Nat) :
    Except Err Nat × replay_state Hash :=
  let paligned := paddr &&& (2 ^ 64 - 8)
  let poffset := paddr &&& 7
  match step_state_access.check_read_word hs s paligned with
  | (.error e, s1) => (.error e, s1)
  | (.ok val64, s1) =>
    (.ok (aliased_aligned_read size poffset (set_word_access_data val64)), s1)

/-! ## The halt flag of the micro-architecture (`src/src/uarch-replay-state-access.h`) -/

/-- The address the halt-flag accessors take from `shadow-state.h`, which is
not among the sources: a parameter of the embedding. -/
structure shadow_state_constants where
  /-- The value `shadow_state_get_csr_abs_addr(shadow_state_csr::uarch_halt_flag)`. -/
  uarch_halt_flag_abs_addr : Nat

/-- The method `uarch_replay_state_access::check_read_word(paligned, text)`. -/
def uarch_replay_state_access.check_read_word {Hash : Type} [DecidableEq Hash]
    (hs : hasher_type Hash) (s : replay_state Hash) (paligned : Nat) :
    Except Err Nat × replay_state Hash :=
  match uarch_replay_state_access.check_read hs s paligned 3 with
  | (.error e, s1) => (.error e, s1)
  | (.ok data, s1) => (.ok (get_word_access_data data), s1)

/-- The method `uarch_replay_state_access::check_write_word(paligned, word, text)`. -/
def uarch_replay_state_access.check_write_word {Hash : Type} [DecidableEq Hash]
    (hs : hasher_type Hash) (s : replay_state Hash) (paligned word : Nat) :
    Except Err Unit × replay_state Hash :=
  uarch_replay_state_access.check_write hs s paligned (set_word_access_data word) 3

/-- The method `uarch_replay_state_access::do_read_halt_flag()`: the word read
converted to `bool`. -/
def uarch_replay_state_access.do_read_halt_flag {Hash : Type} [DecidableEq Hash]
    (U : shadow_state_constants) (hs : hasher_type Hash) (s : replay_state Hash) :
    Except Err Bool × replay_state Hash :=
  match uarch_replay_state_access.check_read_word hs s U.uarch_halt_flag_abs_addr with
  | (.error e, s1) => (.error e, s1)
  | (.ok word, s1) => (.ok (word != 0), s1)

/-- The method `uarch_replay_state_access::do_set_halt_flag()`: `true`
converted to `uint64_t` is 1. -/
def uarch_replay_state_access.do_set_halt_flag {Hash : Type} [DecidableEq Hash]
    (U : shadow_state_constants) (hs : hasher_type Hash) (s : replay_state Hash) :
    Except Err Unit × replay_state Hash :=
  uarch_replay_state_access.check_write_word hs s U.uarch_halt_flag_abs_addr 1

/-- The method `uarch_replay_state_access::do_reset_halt_flag()`: `false`
converted to `uint64_t` is 0. -/
def uarch_replay_state_access.do_reset_halt_flag {Hash : Type} [DecidableEq Hash]
    (U : shadow_state_constants) (hs : hasher_type Hash) (s : replay_state Hash) :
    Except Err Unit × replay_state Hash :=
  uarch_replay_state_access.check_write_word hs s U.uarch_halt_flag_abs_addr 0

/-! ## The CLINT device (`src/src/emulator/clint.cpp`) -/

/-- Modelled from the spec: the registers the CLINT callbacks reach through
`i_virtual_state_access` (header not among the sources). -/
structure clint_state where
  /-- The register `mip`. -/
  mip : Nat
  /-- The register `mcycle`. -/
  mcycle : Nat
  /-- The register `mtimecmp`. -/
  mtimecmp : Nat
deriving DecidableEq, Repr

/-- The constants and the function `clint.cpp` takes from `riscv-constants.h`
and `rtc.h`, which are not among the sources: parameters of the embedding. -/
structure clint_constants where
  /-- Mask of the machine software interrupt in `mip`. -/
  MIP_MSIP : Nat
  /-- Mask of the machine timer interrupt in `mip`. -/
  MIP_MTIP : Nat
  /-- The function `rtc_cycle_to_time`. -/
  rtc_cycle_to_time : Nat → Nat

/-- The macro `CLINT_MSIP0`. -/
def CLINT_MSIP0 : Nat := 0

/-- The macro `CLINT_MTIMECMP`. -/
def CLINT_MTIMECMP : Nat := 0x4000

/-- The macro `CLINT_MTIME`. -/
def CLINT_MTIME : Nat := 0xbff8

/-- Modelled from the spec: `i_virtual_state_access::set_mip(mask)`, which
sets the bits of `mask` in `mip`. -/
def clint_state.set_mip (a : clint_state) (mask : Nat) : clint_state :=
  { a with mip := a.mip ||| mask }

/-- Modelled from the spec: `i_virtual_state_access::reset_mip(mask)`, which
clears the bits of `mask` in the 64-bit `mip`. -/
def clint_state.reset_mip (a : clint_state) (mask : Nat) : clint_state :=
  { a with mip := a.mip &&& ((2 ^ 64 - 1) ^^^ mask) }

/-- Modelled from the spec: `i_virtual_state_access::write_mtimecmp(val)`. -/
def clint_state.write_mtimecmp (a : clint_state) (val : Nat) : clint_state :=
  { a with mtimecmp := val }

/-- The function `clint_read_msip(a, val, size_log2)`: what it returns and the
value `*val` holds after the call, `val` being what it held before. -/
def clint_read_msip (C : clint_constants) (a : clint_state) (val : Nat) (size_log2 : Int) :
    Bool × Nat :=
  if size_log2 = 2 then
    (true, if (a.mip &&& C.MIP_MSIP) = C.MIP_MSIP then 1 else 0)
  else
    (false, val)

/-- The function `clint_read_mtime(a, val, size_log2)`. -/
def clint_read_mtime (C : clint_constants) (a : clint_state) (val : Nat) (size_log2 : Int) :
    Bool × Nat :=
  if size_log2 = 3 then
    (true, C.rtc_cycle_to_time a.mcycle)
  else
    (false, val)

/-- The function `clint_read_mtimecmp(a, val, size_log2)`. -/
def clint_read_mtimecmp (a : clint_state) (val : Nat) (size_log2 : Int) : Bool × Nat :=
  if size_log2 = 3 then
    (true, a.mtimecmp)
  else
    (false, val)

/-- The function `clint_read(pma, a, offset, val, size_log2)`; `pma` is
unused. The reads leave the registers as they are. -/
def clint_read (C : clint_constants) (a : clint_state) (offset val : Nat) (size_log2 : Int) :
    Bool × Nat :=
  if offset = CLINT_MSIP0 then
    clint_read_msip C a val size_log2
  else if offset = CLINT_MTIMECMP then
    clint_read_mtimecmp a val size_log2
  else if offset = CLINT_MTIME then
    clint_read_mtime C a val size_log2
  else
    (false, val)

/-- The function `clint_write(pma, a, offset, val, size_log2)`: what it
returns and the registers after the call; `pma` is unused. -/
def clint_write (C : clint_constants) (a : clint_state) (offset val : Nat) (size_log2 : Int) :
    Bool × clint_state :=
  if offset = CLINT_MSIP0 then
    if size_log2 = 2 then
      if (val &&& 1) ≠ 0 then
        (true, a.set_mip C.MIP_MSIP)
      else
        (true, a.reset_mip C.MIP_MSIP)
    else
      (false, a)
  else if offset = CLINT_MTIMECMP then
    if size_log2 = 3 then
      (true, (a.write_mtimecmp val).reset_mip C.MIP_MTIP)
    else
      (false, a)
  else
    (false, a)

/-! ## Further reference definitions and concrete inputs -/

/-- The proof-verification fold in the words of the specification: from level
`k` on, one sibling per level, the running hash `acc` becomes
`H(sibling || acc)` when bit `k` of `target_address` is 1 and
`H(acc || sibling)` when it is 0. -/
def proof_fold {Hash : Type} (hs : hasher_type Hash) (target_address : Nat) :
    List Hash → Nat → Hash → Hash
  | [], _, acc => acc
  | sibling :: rest, k, acc =>
    proof_fold hs target_address rest (k + 1)
      (if target_address.testBit k then hs.concat sibling acc else hs.concat acc sibling)

/-- The verifier `s` over the same log with the proof of every record
replaced by what `g` gives for the record. -/
def replace_proofs {Hash : Type} (g : access Hash → Option (merkle_tree_proof Hash))
    (s : replay_state Hash) : replay_state Hash :=
  { s with m_accesses := s.m_accesses.map (fun a => { a with proof := g a }) }

/-- The number of calls of a sequence of operations on which
`do_find_pma_entry` returned an entry. -/
def step_state_access.find_successes {Hash : Type} [DecidableEq Hash] (K : machine_constants)
    (hs : hasher_type Hash) : step_state Hash → List pma_call → Nat
  | _, [] => 0
  | s, c :: calls =>
    (match c with
      | .find size paddr =>
        match step_state_access.do_find_pma_entry K hs s size paddr with
        | some (.ok _, _) => 1
        | _ => 0
      | _ => 0) +
      step_state_access.find_successes K hs (step_state_access.pma_step K hs s c) calls

/-- Sample constants for the CLINT: the software interrupt is bit 3 of `mip`,
the timer interrupt bit 7, and the clock ticks once every 100 cycles. -/
def sample_clint_constants : clint_constants :=
  { MIP_MSIP := 8, MIP_MTIP := 128, rtc_cycle_to_time := fun c => c / 100 }

/-- Sample registers: both interrupts pending. -/
def sample_clint_state : clint_state :=
  { mip := 136, mcycle := 1234, mtimecmp := 77 }

/-- Sample address of the halt flag. -/
def sample_shadow_state_constants : shadow_state_constants :=
  { uarch_halt_flag_abs_addr := 0x328 }

/-- Sample constants with the halt flag at address 8, where the records of
`sample_state` are. -/
def sample_shadow_state_constants_low : shadow_state_constants :=
  { uarch_halt_flag_abs_addr := 8 }

/-- The constants `sample_constants` with `iflags` at address 8, where the
records of `sample_state` are. -/
def sample_constants_low : machine_constants :=
  { sample_constants with shadow_iflags_rel_addr := 8 }

/-- An unverified object in front of the records of a PMA board whose first
entry, under `sample_constants`, is memory at `0x1000` of 4 bytes only. -/
def sample_short_state : step_state term_hash :=
  { replay :=
      { m_accesses :=
          [sample_word_read 0x800 [0x19, 0x10, 0, 0, 0, 0, 0, 0],
           sample_word_read 0x808 [4, 0, 0, 0, 0, 0, 0, 0]]
        m_verify_proofs := false
        m_next_access := 0
        m_one_based := 0
        m_root_hash := term_hash.zero }
    m_mock_pmas := [] }

/-- The entry built from `sample_istart_memory` and length 4. -/
def sample_short_entry : pma_entry :=
  { kind := .mockd_memory, start := 0x1000, length := 4
    flags := { R := true, W := true, X := false, IR := false, IW := false, DID := 0 } }

/-- An unverified verifier in front of a read of the word `0x0807060504030201`
at address `0x2000`. -/
def sample_state_word : replay_state term_hash :=
  { m_accesses :=
      [{ type := access_type.read, address := 0x2000, log2_size := 3,
         read := [1, 2, 3, 4, 5, 6, 7, 8], written := [], proof := none }]
    m_verify_proofs := false
    m_next_access := 0
    m_one_based := 0
    m_root_hash := term_hash.zero }

/-- An unverified verifier in front of a write record of the bytes
`FE FF 00 00 00 00 00 00` at the sample address of the halt flag. -/
def sample_state_halt : replay_state term_hash :=
  { m_accesses :=
      [{ type := access_type.write, address := 0x328, log2_size := 3,
         read := zero_word, written := [0xFE, 0xFF, 0, 0, 0, 0, 0, 0], proof := none }]
    m_verify_proofs := false
    m_next_access := 0
    m_one_based := 0
    m_root_hash := term_hash.zero }

/-- The checks `check_read` makes when proofs are not verified: the arguments,
then the kind, size, data length and address of the record under the cursor,
whose proof is not looked at. -/
def unverified_read {Hash : Type} (s : replay_state Hash) (paligned : Nat) (log2_size : Int) :
    Except Err (List Nat) × replay_state Hash :=
  if log2_size < 3 ∨ log2_size > 63 then
    (.error (.invalid_argument .invalid_access_size), s)
  else if (paligned &&& (shl1 log2_size.toNat - 1)) ≠ 0 then
    (.error (.invalid_argument .access_address_not_aligned_to_size), s)
  else
    match s.m_accesses[s.m_next_access]? with
    | none => (.error (.invalid_argument .too_few_accesses_in_log), s)
    | some access =>
      if access.type ≠ access_type.read then
        (.error (.invalid_argument (.expected_access_to .read (s.m_next_access + s.m_one_based))), s)
      else if access.log2_size ≠ log2_size then
        (.error (.invalid_argument
          (.expected_access_log2_size .read (s.m_next_access + s.m_one_based) log2_size)), s)
      else if access.read.length ≠ shl1 log2_size.toNat then
        (.error (.invalid_argument
          (.expected_read_data_size .read (s.m_next_access + s.m_one_based) log2_size)), s)
      else if access.address ≠ paligned then
        (.error (.invalid_argument
          (.expected_access_at_address .read (s.m_next_access + s.m_one_based) paligned)), s)
      else
        (.ok access.read, { s with m_next_access := s.m_next_access + 1 })

/-- The checks `check_write` makes when proofs are not verified; neither the
proof of the record nor its written bytes are looked at beyond their
length. -/
def unverified_write {Hash : Type} (s : replay_state Hash) (paligned : Nat) (log2_size : Int) :
    Except Err Unit × replay_state Hash :=
  if log2_size < 3 ∨ log2_size > 63 then
    (.error (.invalid_argument .invalid_access_size), s)
  else if (paligned &&& (shl1 log2_size.toNat - 1)) ≠ 0 then
    (.error (.invalid_argument .access_address_not_aligned_to_size), s)
  else
    match s.m_accesses[s.m_next_access]? with
    | none => (.error (.invalid_argument .too_few_word_accesses_in_log), s)
    | some access =>
      if access.type ≠ access_type.write then
        (.error (.invalid_argument (.expected_access_to .write (s.m_next_access + s.m_one_based))), s)
      else if access.log2_size ≠ log2_size then
        (.error (.invalid_argument
          (.expected_access_log2_size .write (s.m_next_access + s.m_one_based) log2_size)), s)
      else if access.read.length ≠ shl1 log2_size.toNat then
        (.error (.invalid_argument
          (.expected_read_data_size .write (s.m_next_access + s.m_one_based) log2_size)), s)
      else if access.written.length ≠ shl1 log2_size.toNat then
        (.error (.invalid_argument
          (.expected_written_data_size (s.m_next_access + s.m_one_based) log2_size)), s)
      else if access.address ≠ paligned then
        (.error (.invalid_argument
          (.expected_access_at_address .write (s.m_next_access + s.m_one_based) paligned)), s)
      else
        (.ok (), { s with m_next_access := s.m_next_access + 1 })

/-! ## Arithmetic of bits -/

theorem shl1_eq {k : Nat} (h : k < 64) : shl1 k = 2 ^ k := by
  unfold shl1
  rw [Nat.one_shiftLeft]
  exact Nat.mod_eq_of_lt (Nat.pow_lt_pow_right (by decide) h)

theorem bit_set_eq_testBit (x : Nat) {i : Nat} (h : i < 64) : bit_set x i = x.testBit i := by
  unfold bit_set
  rw [shl1_eq h]
  cases hb : x.testBit i
  · have : x &&& 2 ^ i = 0 := by
      apply Nat.eq_of_testBit_eq
      intro j
      rw [Nat.testBit_and, Nat.testBit_two_pow, Nat.zero_testBit]
      by_cases hj : i = j
      · subst hj; simp [hb]
      · simp [hj]
    simp [this]
  · have : (x &&& 2 ^ i).testBit i = true := by
      rw [Nat.testBit_and, Nat.testBit_two_pow_self, hb]; rfl
    have hne : x &&& 2 ^ i ≠ 0 := by
      intro h0
      rw [h0, Nat.zero_testBit] at this
      exact Bool.noConfusion this
    simp [hne]

/-! ## Subtrees -/

theorem subtree_congr {Hash : Type} (hs : hasher_type Hash) (f g : Nat → Hash) :
    ∀ (i j : Nat), (∀ k, j * 2 ^ i ≤ k → k < (j + 1) * 2 ^ i → f k = g k) →
      subtree hs f i j = subtree hs g i j := by
  intro i
  induction i with
  | zero =>
    intro j h
    simp only [subtree]
    exact h j (by simp) (by simp)
  | succ i ih =>
    intro j h
    simp only [subtree]
    have e1 : subtree hs f i (2 * j) = subtree hs g i (2 * j) := by
      apply ih
      intro k h1 h2
      apply h k
      · rw [pow_succ]; nlinarith
      · rw [pow_succ]; nlinarith
    have e2 : subtree hs f i (2 * j + 1) = subtree hs g i (2 * j + 1) := by
      apply ih
      intro k h1 h2
      apply h k
      · rw [pow_succ]; nlinarith
      · rw [pow_succ]; nlinarith
    rw [e1, e2]

theorem subtree_pristine {Hash : Type} (hs : hasher_type Hash) (f : Nat → Hash) (w m : Nat) :
    ∀ (i j : Nat), (∀ k, j * 2 ^ i ≤ k → k < (j + 1) * 2 ^ i → f k = pristine_hash hs w m) →
      subtree hs f i j = pristine_hash hs w (m + i) := by
  intro i
  induction i with
  | zero =>
    intro j h
    simp only [subtree]
    exact h j (by simp) (by simp)
  | succ i ih =>
    intro j h
    have e1 : subtree hs f i (2 * j) = pristine_hash hs w (m + i) := by
      apply ih
      intro k h1 h2
      apply h k
      · rw [pow_succ]; nlinarith
      · rw [pow_succ]; nlinarith
    have e2 : subtree hs f i (2 * j + 1) = pristine_hash hs w (m + i) := by
      apply ih
      intro k h1 h2
      apply h k
      · rw [pow_succ]; nlinarith
      · rw [pow_succ]; nlinarith
    show hs.concat (subtree hs f i (2 * j)) (subtree hs f i (2 * j + 1)) =
      pristine_hash hs w (m + i + 1)
    rw [e1, e2]
    rfl

theorem merkle_root_range {Hash : Type} [Inhabited Hash] (hs : hasher_type Hash)
    (f : Nat → Hash) :
    ∀ (d j : Nat),
      merkle_root hs d ((List.range (2 ^ d)).map (fun k => f (j * 2 ^ d + k))) =
        subtree hs f d j := by
  intro d
  induction d with
  | zero =>
    intro j
    have h1 : List.range (2 ^ 0) = [0] := rfl
    rw [h1]
    simp [merkle_root, subtree]
  | succ d ih =>
    intro j
    have hsplit : List.range (2 ^ (d + 1)) =
        List.range (2 ^ d) ++ (List.range (2 ^ d)).map (fun k => 2 ^ d + k) := by
      rw [← List.range_add]
      congr 1
      rw [pow_succ]; omega
    have hlen : ((List.range (2 ^ d)).map (fun k => f (j * 2 ^ (d + 1) + k))).length = 2 ^ d := by
      simp
    have e1 : (List.range (2 ^ d)).map (fun k => f (j * 2 ^ (d + 1) + k)) =
        (List.range (2 ^ d)).map (fun k => f (2 * j * 2 ^ d + k)) := by
      apply List.map_congr_left
      intro k _
      congr 1
      rw [pow_succ]; ring
    have e2 : ((List.range (2 ^ d)).map (fun k => 2 ^ d + k)).map
          (fun k => f (j * 2 ^ (d + 1) + k)) =
        (List.range (2 ^ d)).map (fun k => f ((2 * j + 1) * 2 ^ d + k)) := by
      rw [List.map_map]
      apply List.map_congr_left
      intro k _
      simp only [Function.comp]
      congr 1
      rw [pow_succ]; ring
    simp only [merkle_root, subtree]
    rw [hsplit, List.map_append, List.take_left' hlen, List.drop_left' hlen, e1, e2,
      ih (2 * j), ih (2 * j + 1)]

theorem padded_leaves_eq_range {Hash : Type} (pristine_leaf : Hash) (d : Nat)
    (leaves : List Hash) (h : leaves.length ≤ 2 ^ d) :
    padded_leaves pristine_leaf d leaves =
      (List.range (2 ^ d)).map (fun k => leaf_at pristine_leaf leaves (0 * 2 ^ d + k)) := by
  apply List.ext_getElem
  · simp [padded_leaves]; omega
  · intro k h1 h2
    simp only [padded_leaves, leaf_at, List.getElem_map, List.getElem_range, Nat.zero_mul,
      Nat.zero_add]
    by_cases hk : k < leaves.length
    · rw [List.getElem_append_left hk]
      simp [List.getD_eq_getElem?_getD, List.getElem?_eq_getElem hk]
    · rw [List.getElem_append_right (Nat.le_of_not_lt hk)]
      simp [List.getD_eq_getElem?_getD, List.getElem?_eq_none (Nat.le_of_not_lt hk)]

/-! ## The context invariant of `push_back` -/

theorem div_of_succ_eq {n m i : Nat} (h : n + 1 = (m + 1) * 2 ^ i) : n / 2 ^ i = m := by
  have hp : 0 < 2 ^ i := Nat.two_pow_pos _
  have he : (m + 1) * 2 ^ i = m * 2 ^ i + 2 ^ i := Nat.succ_mul m (2 ^ i)
  apply Nat.div_eq_of_lt_le
  · omega
  · omega

theorem mul_pow_div (M i r : Nat) : M * 2 ^ i / 2 ^ (i + r) = M / 2 ^ r := by
  rw [pow_add, Nat.mul_comm (2 ^ i) (2 ^ r)]
  exact Nat.mul_div_mul_right M (2 ^ r) (Nat.two_pow_pos _)

theorem even_succ_div {m : Nat} (r : Nat) (h : m % 2 = 0) :
    (m + 1) / 2 ^ (r + 1) = m / 2 ^ (r + 1) := by
  rw [pow_succ', ← Nat.div_div_eq_div_mul, ← Nat.div_div_eq_div_mul]
  congr 1
  omega

theorem even_succ_testBit {m : Nat} (r : Nat) (h : m % 2 = 0) :
    (m + 1).testBit (r + 1) = m.testBit (r + 1) := by
  rw [Nat.testBit_succ, Nat.testBit_succ]
  congr 1
  omega

theorem context_inv_lift {Hash : Type} [Inhabited Hash] (hs : hasher_type Hash)
    (f : Nat → Hash) (i M : Nat) (context : List Hash) (h : context_inv hs f i M context) :
    context_inv hs f 0 (M * 2 ^ i) context := by
  intro k hk
  rw [Nat.mul_comm, Nat.testBit_mul_pow_two] at hk
  simp only [Bool.and_eq_true, decide_eq_true_eq] at hk
  obtain ⟨hik, hb⟩ := hk
  have hki : k = i + (k - i) := by omega
  have h1 := h (k - i) hb
  rw [← hki] at h1
  rw [Nat.zero_add, h1]
  congr 2
  rw [hki, mul_pow_div]
  congr 2
  omega

theorem push_back_loop_inv {Hash : Type} [Inhabited Hash] (hs : hasher_type Hash)
    (f : Nat → Hash) (n : Nat) :
    ∀ (fuel i m : Nat) (context : List Hash) (right : Hash),
      n + 1 = (m + 1) * 2 ^ i →
      i + fuel = context.length →
      i + fuel ≤ 64 →
      m + 1 < 2 ^ fuel →
      right = subtree hs f i m →
      context_inv hs f i m context →
      context_inv hs f 0 (n + 1) (back_merkle_tree.push_back_loop hs n fuel i context right) ∧
        (back_merkle_tree.push_back_loop hs n fuel i context right).length = context.length := by
  intro fuel
  induction fuel with
  | zero =>
    intro i m context right _ _ _ hm
    simp at hm
  | succ fuel ih =>
    intro i m context right hn hlen h64 hm hright hinv
    have hbit : bit_set n i = decide (m % 2 = 1) := by
      rw [bit_set_eq_testBit n (by omega), Nat.testBit_to_div_mod, div_of_succ_eq hn]
    simp only [back_merkle_tree.push_back_loop, hbit]
    by_cases hodd : m % 2 = 1
    · simp only [hodd, decide_True, if_true]
      have h0 := hinv 0 (by simp [hodd])
      simp only [Nat.add_zero, pow_zero, Nat.div_one] at h0
      apply ih (i + 1) (m / 2)
      · rw [hn, pow_succ', ← Nat.mul_assoc]
        congr 1
        omega
      · omega
      · omega
      · rw [pow_succ] at hm
        omega
      · rw [h0, hright]
        simp only [subtree]
        congr 2 <;> omega
      · intro r hr
        have h1 := hinv (r + 1) (by rw [Nat.testBit_succ]; exact hr)
        have e : i + 1 + r = i + (r + 1) := by omega
        rw [e, h1]
        congr 2
        rw [pow_succ', ← Nat.div_div_eq_div_mul]
    · have heven : m % 2 = 0 := by omega
      simp only [hodd, decide_False, if_false, Bool.false_eq_true]
      constructor
      · rw [hn]
        apply context_inv_lift
        intro r hr
        cases r with
        | zero =>
          simp only [Nat.add_zero, pow_zero, Nat.div_one, Nat.add_sub_cancel]
          rw [hright]
          have hi : i < context.length := by omega
          simp [List.getD_eq_getElem?_getD, List.getElem?_set, hi]
        | succ r =>
          rw [even_succ_testBit r heven] at hr
          have h1 := hinv (r + 1) hr
          rw [even_succ_div r heven, ← h1]
          have hne : i ≠ i + (r + 1) := by omega
          simp [List.getD_eq_getElem?_getD, List.getElem?_set, hne]
      · simp

theorem leaf_at_lt {Hash : Type} (p : Hash) (leaves : List Hash) (h : Hash) {k : Nat}
    (hk : k < leaves.length) : leaf_at p (leaves ++ [h]) k = leaf_at p leaves k := by
  simp [leaf_at, List.getD_eq_getElem?_getD, List.getElem?_append_left hk]

theorem leaf_at_length {Hash : Type} (p : Hash) (leaves : List Hash) (h : Hash) :
    leaf_at p (leaves ++ [h]) leaves.length = h := by
  simp [leaf_at, List.getD_eq_getElem?_getD]

theorem leaf_at_ge {Hash : Type} (p : Hash) (leaves : List Hash) {k : Nat}
    (hk : leaves.length ≤ k) : leaf_at p leaves k = p := by
  simp [leaf_at, List.getD_eq_getElem?_getD, List.getElem?_eq_none hk]

theorem pristine_get_hash_create {Hash : Type} (hs : hasher_type Hash) (R W k : Nat)
    (h1 : W ≤ k) (h2 : k ≤ R) :
    (pristine_merkle_tree.create hs R W).get_hash k = .ok (pristine_hash hs W (k - W)) := by
  have hlt : k - W < R - W + 1 := by omega
  simp [pristine_merkle_tree.get_hash, pristine_merkle_tree.create, Nat.not_lt.mpr h1,
    Nat.not_lt.mpr h2, List.getElem?_map, List.getElem?_range hlt]

theorem push_back_inv {Hash : Type} [Inhabited Hash] (hs : hasher_type Hash)
    (R Lf W : Nat) (t : back_merkle_tree Hash) (leaves : List Hash) (h : Hash)
    (ht : tree_inv hs R Lf W t leaves) (hlt : leaves.length < 2 ^ (R - Lf)) :
    (back_merkle_tree.push_back hs t h).1 = .ok () ∧
      tree_inv hs R Lf W (back_merkle_tree.push_back hs t h).2 (leaves ++ [h]) := by
  have hpow : 2 ^ (R - Lf) < 2 ^ 64 := Nat.pow_lt_pow_right (by decide) (by have := ht.root_lt; omega)
  have hnot : ¬ (t.m_leaf_count ≥ t.m_max_leaves) := by
    rw [ht.count_eq, ht.max_eq]; omega
  have hctx : context_inv hs
      (leaf_at (pristine_hash hs W (Lf - W)) (leaves ++ [h])) 0 leaves.length t.m_context := by
    intro r hr
    rw [ht.context_ok r hr]
    apply subtree_congr
    intro k _ hk2
    symm
    apply leaf_at_lt
    have h1 : leaves.length / 2 ^ r % 2 = 1 := by
      rw [Nat.testBit_to_div_mod] at hr
      exact of_decide_eq_true hr
    have h2 : leaves.length / 2 ^ r - 1 + 1 = leaves.length / 2 ^ r := by
      generalize leaves.length / 2 ^ r = q at h1
      omega
    rw [h2, Nat.zero_add] at hk2
    exact Nat.lt_of_lt_of_le hk2 (Nat.div_mul_le_self _ _)
  have hloop := push_back_loop_inv hs (leaf_at (pristine_hash hs W (Lf - W)) (leaves ++ [h]))
    leaves.length (R - Lf + 1) 0 leaves.length t.m_context h
    (by simp) (by rw [ht.context_length]; omega) (by have := ht.root_lt; omega)
    (by rw [pow_succ]; omega) (by simp [subtree, leaf_at_length]) hctx
  unfold back_merkle_tree.push_back
  rw [if_neg hnot]
  refine ⟨rfl, ?_⟩
  have hmod : (leaves.length + 1) % 2 ^ 64 = leaves.length + 1 := Nat.mod_eq_of_lt (by omega)
  exact
    { word_le := ht.word_le
      leaf_le := ht.leaf_le
      root_lt := ht.root_lt
      root_eq := ht.root_eq
      leaf_eq := ht.leaf_eq
      max_eq := ht.max_eq
      pristine_eq := ht.pristine_eq
      count_eq := by
        simp only [ht.count_eq, hmod, List.length_append, List.length_singleton]
      count_le := by
        simp only [List.length_append, List.length_singleton]
        omega
      context_length := by
        simp only [ht.root_eq, ht.leaf_eq, ht.count_eq]
        rw [hloop.2, ht.context_length]
      context_ok := by
        simp only [ht.root_eq, ht.leaf_eq, ht.count_eq, List.length_append,
          List.length_singleton]
        exact hloop.1 }

theorem push_back_all_inv {Hash : Type} [Inhabited Hash] (hs : hasher_type Hash)
    (R Lf W : Nat) :
    ∀ (more : List Hash) (t : back_merkle_tree Hash) (leaves : List Hash),
      tree_inv hs R Lf W t leaves → leaves.length + more.length ≤ 2 ^ (R - Lf) →
      tree_inv hs R Lf W (back_merkle_tree.push_back_all hs t more) (leaves ++ more) := by
  intro more
  induction more with
  | nil =>
    intro t leaves ht _
    simpa [back_merkle_tree.push_back_all] using ht
  | cons h more ih =>
    intro t leaves ht hlen
    simp only [List.length_cons] at hlen
    have h1 := (push_back_inv hs R Lf W t leaves h ht (by omega)).2
    have h2 := ih (back_merkle_tree.push_back hs t h).2 (leaves ++ [h]) h1
      (by simp; omega)
    simpa [back_merkle_tree.push_back_all] using h2

theorem create_inv {Hash : Type} [Inhabited Hash] (hs : hasher_type Hash)
    (log2_root_size log2_leaf_size log2_word_size : Int) (t : back_merkle_tree Hash)
    (h : back_merkle_tree.create hs log2_root_size log2_leaf_size log2_word_size = .ok t) :
    0 ≤ log2_word_size ∧ log2_word_size ≤ log2_leaf_size ∧ log2_leaf_size ≤ log2_root_size ∧
      log2_root_size < 64 ∧
      tree_inv hs log2_root_size.toNat log2_leaf_size.toNat log2_word_size.toNat t [] := by
  unfold back_merkle_tree.create at h
  split_ifs at h with h1 h2 h3 h4 h5 h6
  injection h with h
  subst h
  refine ⟨by omega, by omega, by omega, by omega, ?_⟩
  have hD : (log2_root_size - log2_leaf_size).toNat =
      log2_root_size.toNat - log2_leaf_size.toNat := by omega
  exact
    { word_le := by omega
      leaf_le := by omega
      root_lt := by omega
      root_eq := rfl
      leaf_eq := rfl
      max_eq := by
        show shl1 (log2_root_size - log2_leaf_size).toNat = _
        rw [hD, shl1_eq (by omega)]
      pristine_eq := rfl
      count_eq := rfl
      count_le := by simp
      context_length := by
        show (List.replicate _ _).length = _
        rw [List.length_replicate]
        omega
      context_ok := by
        intro r hr
        simp at hr }

/-! ## `get_root_hash` -/

theorem get_root_hash_loop_eq {Hash : Type} [Inhabited Hash] (hs : hasher_type Hash)
    (R Lf W : Nat) (t : back_merkle_tree Hash) (leaves : List Hash)
    (ht : tree_inv hs R Lf W t leaves) :
    ∀ (fuel i : Nat) (root : Hash),
      i + fuel = R - Lf →
      root = subtree hs (leaf_at (pristine_hash hs W (Lf - W)) leaves) i (leaves.length / 2 ^ i) →
      back_merkle_tree.get_root_hash_loop hs t fuel i root =
        .ok (subtree hs (leaf_at (pristine_hash hs W (Lf - W)) leaves) (R - Lf)
          (leaves.length / 2 ^ (R - Lf))) := by
  intro fuel
  induction fuel with
  | zero =>
    intro i root hi hroot
    simp only [Nat.add_zero] at hi
    subst hi
    simp [back_merkle_tree.get_root_hash_loop, hroot]
  | succ fuel ih =>
    intro i root hi hroot
    have hR := ht.root_lt
    have hbit : bit_set t.m_leaf_count i = decide (leaves.length / 2 ^ i % 2 = 1) := by
      rw [bit_set_eq_testBit _ (by omega), Nat.testBit_to_div_mod, ht.count_eq]
    have hdiv : leaves.length / 2 ^ (i + 1) = leaves.length / 2 ^ i / 2 := by
      rw [pow_succ, Nat.div_div_eq_div_mul]
    simp only [back_merkle_tree.get_root_hash_loop, hbit]
    by_cases hodd : leaves.length / 2 ^ i % 2 = 1
    · simp only [hodd, decide_True, if_true]
      apply ih (i + 1) _ (by omega)
      have h0 := ht.context_ok i (by rw [Nat.testBit_to_div_mod]; simp [hodd])
      rw [Nat.zero_add] at h0
      rw [h0, hroot, hdiv]
      simp only [subtree]
      generalize leaves.length / 2 ^ i = q at hodd
      congr 2 <;> omega
    · have heven : leaves.length / 2 ^ i % 2 = 0 := by omega
      simp only [hodd, decide_False, if_false, Bool.false_eq_true, ht.pristine_eq, ht.leaf_eq]
      rw [pristine_get_hash_create hs R W (Lf + i) (by have := ht.word_le; omega) (by omega)]
      simp only
      apply ih (i + 1) _ (by omega)
      have hp : pristine_hash hs W (Lf + i - W) =
          subtree hs (leaf_at (pristine_hash hs W (Lf - W)) leaves) i
            (leaves.length / 2 ^ i + 1) := by
        have e : Lf + i - W = Lf - W + i := by have := ht.word_le; omega
        rw [e]
        symm
        apply subtree_pristine
        intro k hk _
        apply leaf_at_ge
        have := Nat.lt_mul_div_succ leaves.length (Nat.two_pow_pos i)
        rw [Nat.mul_comm] at this
        omega
      rw [hp, hroot, hdiv]
      simp only [subtree]
      generalize leaves.length / 2 ^ i = q at heven
      congr 2 <;> omega

theorem get_root_hash_eq {Hash : Type} [Inhabited Hash] (hs : hasher_type Hash)
    (R Lf W : Nat) (t : back_merkle_tree Hash) (leaves : List Hash)
    (ht : tree_inv hs R Lf W t leaves) :
    back_merkle_tree.get_root_hash hs t =
      .ok (merkle_root hs (R - Lf)
        (padded_leaves (pristine_hash hs W (Lf - W)) (R - Lf) leaves)) := by
  rw [padded_leaves_eq_range _ _ _ ht.count_le, merkle_root_range hs
    (leaf_at (pristine_hash hs W (Lf - W)) leaves) (R - Lf) 0]
  unfold back_merkle_tree.get_root_hash
  by_cases hlt : t.m_leaf_count < t.m_max_leaves
  · rw [if_pos hlt]
    rw [ht.count_eq, ht.max_eq] at hlt
    simp only [ht.pristine_eq, ht.leaf_eq, ht.root_eq]
    rw [pristine_get_hash_create hs R W Lf ht.word_le ht.leaf_le]
    simp only
    rw [get_root_hash_loop_eq hs R Lf W t leaves ht (R - Lf) 0 _ (by omega)
      (by simp [subtree, leaf_at_ge]), Nat.div_eq_of_lt hlt]
  · rw [if_neg hlt]
    rw [ht.count_eq, ht.max_eq] at hlt
    have hn : leaves.length = 2 ^ (R - Lf) := by have := ht.count_le; omega
    have h0 := ht.context_ok (R - Lf) (by rw [hn]; exact Nat.testBit_two_pow_self)
    rw [Nat.zero_add] at h0
    simp only [ht.leaf_eq, ht.root_eq]
    rw [h0, hn, Nat.div_self (Nat.two_pow_pos _)]

/-- C1. Back-tree root equivalence: for every geometry the constructor accepts
and every sequence of at most `2 ^ D` leaf hashes (`D = log2_root - log2_leaf`),
pushing the sequence on a fresh back-tree succeeds at every push, and
`get_root_hash` then returns the root of the fully materialised binary Merkle
tree of `2 ^ D` leaves whose first leaves are the sequence and whose remaining
leaves are `pristine(log2_leaf)`. -/
theorem C1_back_tree_root_equivalence {Hash : Type} [Inhabited Hash] (hs : hasher_type Hash)
    (log2_root_size log2_leaf_size log2_word_size : Int) (t0 : back_merkle_tree Hash)
    (leaves : List Hash)
    (hcreate :
      back_merkle_tree.create hs log2_root_size log2_leaf_size log2_word_size = .ok t0)
    (hlen : leaves.length ≤ 2 ^ (log2_root_size - log2_leaf_size).toNat) :
    (back_merkle_tree.push_back_all hs t0 leaves).m_leaf_count = leaves.length ∧
      back_merkle_tree.get_root_hash hs (back_merkle_tree.push_back_all hs t0 leaves) =
        .ok (merkle_root hs (log2_root_size - log2_leaf_size).toNat
          (padded_leaves
            (pristine_hash hs log2_word_size.toNat (log2_leaf_size - log2_word_size).toNat)
            (log2_root_size - log2_leaf_size).toNat leaves)) := by
  obtain ⟨h0, h1, h2, h3, hinv⟩ := create_inv hs _ _ _ t0 hcreate
  have hD : (log2_root_size - log2_leaf_size).toNat =
      log2_root_size.toNat - log2_leaf_size.toNat := by omega
  have hW : (log2_leaf_size - log2_word_size).toNat =
      log2_leaf_size.toNat - log2_word_size.toNat := by omega
  rw [hD] at hlen
  have hall := push_back_all_inv hs _ _ _ leaves t0 [] hinv (by simpa using hlen)
  rw [List.nil_append] at hall
  rw [hD, hW]
  exact ⟨hall.count_eq, get_root_hash_eq hs _ _ _ _ leaves hall⟩

/-- A run of C1 on geometry `(3, 1, 0)` with three leaves: the fourth leaf of
the materialised tree is the pristine leaf `H(H(0) || H(0))`. -/
theorem C1_back_tree_root_equivalence_witness :
    back_merkle_tree.create term_hasher 3 1 0 = .ok sample_tree ∧
      sample_leaves.length ≤ 2 ^ ((3 : Int) - 1).toNat ∧
      (back_merkle_tree.push_back_all term_hasher sample_tree sample_leaves).m_leaf_count = 3 ∧
      back_merkle_tree.get_root_hash term_hasher
          (back_merkle_tree.push_back_all term_hasher sample_tree sample_leaves) =
        .ok (term_hash.node
          (term_hash.node (term_hash.data [1]) (term_hash.data [2]))
          (term_hash.node (term_hash.data [3])
            (term_hash.node (term_hash.data [0]) (term_hash.data [0])))) :=
  ⟨rfl, by decide,
    (C1_back_tree_root_equivalence term_hasher 3 1 0 sample_tree sample_leaves rfl
      (by decide)).1,
    (C1_back_tree_root_equivalence term_hasher 3 1 0 sample_tree sample_leaves rfl
      (by decide)).2⟩

/-! ## `get_next_leaf_proof` -/

theorem push_back_error_state {Hash : Type} [Inhabited Hash] (hs : hasher_type Hash)
    (t : back_merkle_tree Hash) (h : Hash) (hfull : t.m_leaf_count ≥ t.m_max_leaves) :
    (back_merkle_tree.push_back hs t h).2 = t := by
  unfold back_merkle_tree.push_back
  rw [if_pos hfull]

theorem reachable_inv {Hash : Type} [Inhabited Hash] (hs : hasher_type Hash) (R Lf W : Nat) :
    ∀ (more : List Hash) (t : back_merkle_tree Hash) (leaves : List Hash),
      tree_inv hs R Lf W t leaves →
      ∃ pushed, tree_inv hs R Lf W (back_merkle_tree.push_back_all hs t more) pushed := by
  intro more
  induction more with
  | nil =>
    intro t leaves ht
    exact ⟨leaves, by simpa [back_merkle_tree.push_back_all] using ht⟩
  | cons h more ih =>
    intro t leaves ht
    have hstep : back_merkle_tree.push_back_all hs t (h :: more) =
        back_merkle_tree.push_back_all hs (back_merkle_tree.push_back hs t h).2 more := by
      simp [back_merkle_tree.push_back_all]
    rw [hstep]
    by_cases hlt : leaves.length < 2 ^ (R - Lf)
    · exact ih _ (leaves ++ [h]) (push_back_inv hs R Lf W t leaves h ht hlt).2
    · have hfull : t.m_leaf_count ≥ t.m_max_leaves := by
        rw [ht.count_eq, ht.max_eq]; omega
      rw [push_back_error_state hs t h hfull]
      exact ih t leaves ht

theorem roll_loop_congr {Hash : Type} (hs : hasher_type Hash) (p q : merkle_tree_proof Hash)
    (ha : p.target_address = q.target_address) (ht : p.log2_target_size = q.log2_target_size)
    (hr : p.log2_root_size = q.log2_root_size) (hsib : p.sibling_hashes = q.sibling_hashes) :
    ∀ (n k : Nat) (h : Hash),
      step_state_access.roll_hash_up_tree_loop hs p n k h =
        step_state_access.roll_hash_up_tree_loop hs q n k h := by
  intro n
  induction n with
  | zero => intro k h; rfl
  | succ n ih =>
    intro k h
    simp only [step_state_access.roll_hash_up_tree_loop, merkle_tree_proof.get_sibling_hash,
      ha, ht, hr, hsib, ih]

theorem verify_loop_of_roll {Hash : Type} (hs : hasher_type Hash) (p : merkle_tree_proof Hash) :
    ∀ (n k : Nat) (h x : Hash),
      step_state_access.roll_hash_up_tree_loop hs p n k h = (.ok (), x) →
      merkle_tree_proof.verify_loop hs p n k h = .ok x := by
  intro n
  induction n with
  | zero =>
    intro k h x hroll
    simp only [step_state_access.roll_hash_up_tree_loop, Prod.mk.injEq, true_and] at hroll
    simp [merkle_tree_proof.verify_loop, hroll]
  | succ n ih =>
    intro k h x hroll
    simp only [step_state_access.roll_hash_up_tree_loop] at hroll
    simp only [merkle_tree_proof.verify_loop]
    cases hsib : p.get_sibling_hash k with
    | error e => rw [hsib] at hroll; simp at hroll
    | ok sibling =>
      rw [hsib] at hroll
      simp only at hroll ⊢
      split_ifs at hroll ⊢ with hb
      · exact ih _ _ _ hroll
      · exact ih _ _ _ hroll

theorem target_address_bit {n Lf i D : Nat} (hn : n < 2 ^ D) (hi : i < D) (h64 : Lf + D < 64) :
    bit_set ((n <<< Lf) % 2 ^ 64) (Lf + i) = bit_set n i := by
  have hlt : n <<< Lf < 2 ^ 64 := by
    rw [Nat.shiftLeft_eq]
    calc n * 2 ^ Lf < 2 ^ D * 2 ^ Lf :=
          Nat.mul_lt_mul_of_pos_right hn (Nat.two_pow_pos _)
      _ = 2 ^ (D + Lf) := (pow_add 2 D Lf).symm
      _ ≤ 2 ^ 64 := Nat.pow_le_pow_right (by decide) (by omega)
  rw [Nat.mod_eq_of_lt hlt, bit_set_eq_testBit _ (by omega), bit_set_eq_testBit _ (by omega),
    Nat.testBit_shiftLeft]
  simp

theorem set_sibling_hash_ok {Hash : Type} (p : merkle_tree_proof Hash) (h : Hash) (k : Nat)
    (h1 : p.log2_target_size ≤ k) (h2 : k < p.log2_root_size)
    (h3 : k - p.log2_target_size < p.sibling_hashes.length) :
    p.set_sibling_hash h k =
      (.ok (), { p with sibling_hashes := p.sibling_hashes.set (k - p.log2_target_size) h }) := by
  unfold merkle_tree_proof.set_sibling_hash
  rw [if_neg (by omega), if_pos h3]

theorem get_next_leaf_proof_loop_ok {Hash : Type} [Inhabited Hash] (hs : hasher_type Hash)
    (R Lf W : Nat) (t : back_merkle_tree Hash) (leaves : List Hash)
    (ht : tree_inv hs R Lf W t leaves) (hn : leaves.length < 2 ^ (R - Lf)) :
    ∀ (fuel i : Nat) (proof : merkle_tree_proof Hash) (hash : Hash),
      i + fuel = R - Lf →
      proof.log2_target_size = Lf → proof.log2_root_size = R →
      proof.sibling_hashes.length = R - Lf →
      proof.target_address = (leaves.length <<< Lf) % 2 ^ 64 →
      ∃ proof1 hash1,
        back_merkle_tree.get_next_leaf_proof_loop hs t fuel i proof hash = .ok (proof1, hash1) ∧
        proof1.log2_target_size = Lf ∧ proof1.log2_root_size = R ∧
        proof1.sibling_hashes.length = R - Lf ∧
        proof1.target_address = proof.target_address ∧
        proof1.target_hash = proof.target_hash ∧
        (∀ j, j < i → proof1.sibling_hashes[j]? = proof.sibling_hashes[j]?) ∧
        step_state_access.roll_hash_up_tree_loop hs proof1 fuel (Lf + i) hash =
          (.ok (), hash1) := by
  intro fuel
  induction fuel with
  | zero =>
    intro i proof hash _ h1 h2 h3 _
    exact ⟨proof, hash, rfl, h1, h2, h3, rfl, rfl, fun _ _ => rfl, rfl⟩
  | succ fuel ih =>
    intro i proof hash hi h1 h2 h3 h4
    have hR := ht.root_lt
    have hLf := ht.leaf_le
    have hbit : bit_set proof.target_address (Lf + i) = bit_set t.m_leaf_count i := by
      rw [h4, ht.count_eq]
      exact target_address_bit hn (by omega) (by omega)
    have hset : ∀ x : Hash, proof.set_sibling_hash x (Lf + i) =
        (.ok (), { proof with sibling_hashes := proof.sibling_hashes.set i x }) := by
      intro x
      rw [set_sibling_hash_ok proof x (Lf + i) (by omega) (by omega) (by rw [h1, h3]; omega)]
      simp [h1]
    have key : ∀ (sibling next : Hash),
        (if bit_set t.m_leaf_count i then hs.concat sibling hash else hs.concat hash sibling) =
          next →
        ∃ proof1 hash1,
          back_merkle_tree.get_next_leaf_proof_loop hs t fuel (i + 1)
            { proof with sibling_hashes := proof.sibling_hashes.set i sibling } next =
              .ok (proof1, hash1) ∧
          proof1.log2_target_size = Lf ∧ proof1.log2_root_size = R ∧
          proof1.sibling_hashes.length = R - Lf ∧
          proof1.target_address = proof.target_address ∧
          proof1.target_hash = proof.target_hash ∧
          (∀ j, j < i → proof1.sibling_hashes[j]? = proof.sibling_hashes[j]?) ∧
          step_state_access.roll_hash_up_tree_loop hs proof1 (fuel + 1) (Lf + i) hash =
            (.ok (), hash1) := by
      intro sibling next hnext
      obtain ⟨proof1, hash1, e, g1, g2, g3, g4, g5, g6, g7⟩ :=
        ih (i + 1) { proof with sibling_hashes := proof.sibling_hashes.set i sibling } next
          (by omega) h1 h2 (by simp [h3]) h4
      refine ⟨proof1, hash1, e, g1, g2, g3, g4, g5, ?_, ?_⟩
      · intro j hj
        rw [g6 j (by omega)]
        simp [List.getElem?_set, Nat.ne_of_gt hj]
      · have hsib : proof1.get_sibling_hash (Lf + i) = .ok sibling := by
          have hi3 : i < proof.sibling_hashes.length := by omega
          have := g6 i (by omega)
          simp only [List.getElem?_set, hi3, if_true] at this
          unfold merkle_tree_proof.get_sibling_hash
          rw [if_neg (by omega), g1]
          simp [this]
        simp only [step_state_access.roll_hash_up_tree_loop, hsib, g4, hbit]
        rw [← hnext] at g7
        split_ifs at g7 ⊢ with hb
        · exact g7
        · exact g7
    simp only [back_merkle_tree.get_next_leaf_proof_loop]
    by_cases hb : bit_set t.m_leaf_count i = true
    · simp only [hb, if_true, ht.leaf_eq, hset]
      refine key _ _ ?_
      simp [hb]
    · simp only [hb, if_false, Bool.false_eq_true, ht.pristine_eq, ht.leaf_eq]
      rw [pristine_get_hash_create hs R W (Lf + i) (by have := ht.word_le; omega) (by omega)]
      simp only [hset]
      refine key _ _ ?_
      simp [hb]

theorem get_next_leaf_proof_ok {Hash : Type} [Inhabited Hash] [DecidableEq Hash]
    (hs : hasher_type Hash) (R Lf W : Nat) (t : back_merkle_tree Hash) (leaves : List Hash)
    (ht : tree_inv hs R Lf W t leaves) (hn : leaves.length < 2 ^ (R - Lf)) :
    ∃ proof, back_merkle_tree.get_next_leaf_proof hs t = .ok proof ∧
      proof.log2_target_size = Lf ∧ proof.log2_root_size = R ∧
      proof.sibling_hashes.length = R - Lf ∧
      proof.target_address = (leaves.length <<< Lf) % 2 ^ 64 ∧
      proof.target_hash = pristine_hash hs W (Lf - W) ∧
      step_state_access.roll_hash_up_tree hs proof proof.target_hash =
        (.ok (), proof.root_hash) := by
  have hnot : ¬ (t.m_leaf_count ≥ t.m_max_leaves) := by
    rw [ht.count_eq, ht.max_eq]; omega
  obtain ⟨proof1, hash1, e, g1, g2, g3, g4, g5, _, g7⟩ :=
    get_next_leaf_proof_loop_ok hs R Lf W t leaves ht hn (R - Lf) 0
      { (merkle_tree_proof.create R Lf : merkle_tree_proof Hash) with
        target_address := (leaves.length <<< Lf) % 2 ^ 64
        target_hash := pristine_hash hs W (Lf - W) }
      (pristine_hash hs W (Lf - W)) (by omega) rfl rfl
      (by simp [merkle_tree_proof.create]) rfl
  have hroll : step_state_access.roll_hash_up_tree hs { proof1 with root_hash := hash1 }
      (pristine_hash hs W (Lf - W)) = (.ok (), hash1) := by
    unfold step_state_access.roll_hash_up_tree
    rw [roll_loop_congr hs { proof1 with root_hash := hash1 } proof1 rfl rfl rfl rfl]
    simp only [g1, g2]
    simpa using g7
  have hverify : merkle_tree_proof.verify hs { proof1 with root_hash := hash1 } = .ok true := by
    unfold merkle_tree_proof.verify
    have hr := hroll
    unfold step_state_access.roll_hash_up_tree at hr
    simp only [g5] at hr ⊢
    rw [verify_loop_of_roll hs _ _ _ _ _ hr]
    simp
  refine ⟨{ proof1 with root_hash := hash1 }, ?_, g1, g2, g3, g4, g5, ?_⟩
  · unfold back_merkle_tree.get_next_leaf_proof
    rw [if_neg hnot]
    simp only [ht.pristine_eq, ht.leaf_eq, ht.root_eq, ht.count_eq,
      pristine_get_hash_create hs R W Lf ht.word_le ht.leaf_le, e, hverify]
  · exact (congrArg (step_state_access.roll_hash_up_tree hs _) g5).trans hroll

/-! ## The replay verifier: case analysis of the two primitives -/

theorem aligned_iff (paligned : Nat) {k : Nat} (hk : k < 64) :
    (paligned &&& (shl1 k - 1)) = 0 ↔ 2 ^ k ∣ paligned := by
  rw [shl1_eq hk, Nat.and_pow_two_sub_one_eq_mod, Nat.dvd_iff_mod_eq_zero]

theorem check_read_cases {Hash : Type} [DecidableEq Hash] (hs : hasher_type Hash)
    (s : replay_state Hash) (paligned : Nat) (log2_size : Int) :
    (∃ e, step_state_access.check_read hs s paligned log2_size = (.error e, s) ∧
        ∀ a, ¬ read_accepted hs s paligned log2_size a) ∨
      (∃ a, read_accepted hs s paligned log2_size a ∧
        step_state_access.check_read hs s paligned log2_size =
          (.ok a.read, { s with m_next_access := s.m_next_access + 1 })) := by
  unfold step_state_access.check_read
  by_cases c1 : log2_size < 3 ∨ log2_size > 63
  · rw [if_pos c1]
    exact Or.inl ⟨_, rfl, fun a ha => by have := ha.1; have := ha.2.1; omega⟩
  rw [if_neg c1]
  have hk : log2_size.toNat < 64 := by omega
  by_cases c2 : (paligned &&& (shl1 log2_size.toNat - 1)) ≠ 0
  · rw [if_pos c2]
    exact Or.inl ⟨_, rfl, fun a ha => c2 ((aligned_iff paligned hk).2 ha.2.2.1)⟩
  rw [if_neg c2]
  by_cases c3 : s.m_next_access ≥ s.m_accesses.length
  · rw [dif_pos c3]
    exact Or.inl ⟨_, rfl, fun a ha => by
      have := ha.2.2.2.1
      rw [List.getElem?_eq_none c3] at this
      cases this⟩
  rw [dif_neg c3]
  have hget : s.m_accesses[s.m_next_access]? =
      some (s.m_accesses.get ⟨s.m_next_access, Nat.lt_of_not_le c3⟩) := by
    rw [List.getElem?_eq_getElem (Nat.lt_of_not_le c3)]
    rfl
  generalize s.m_accesses.get ⟨s.m_next_access, Nat.lt_of_not_le c3⟩ = acc at hget
  have hacc : ∀ a, read_accepted hs s paligned log2_size a → a = acc := by
    intro a ha
    have := ha.2.2.2.1
    rw [hget] at this
    exact (Option.some.inj this).symm
  dsimp only
  by_cases c4 : acc.type ≠ access_type.read
  · rw [if_pos c4]
    exact Or.inl ⟨_, rfl, fun a ha => by
      have e := hacc a ha; subst e; exact c4 ha.2.2.2.2.1⟩
  rw [if_neg c4]
  by_cases c5 : acc.log2_size ≠ log2_size
  · rw [if_pos c5]
    exact Or.inl ⟨_, rfl, fun a ha => by
      have e := hacc a ha; subst e; exact c5 ha.2.2.2.2.2.1⟩
  rw [if_neg c5]
  by_cases c6 : acc.read.length ≠ shl1 log2_size.toNat
  · rw [if_pos c6]
    exact Or.inl ⟨_, rfl, fun a ha => by
      have e := hacc a ha; subst e
      rw [shl1_eq hk] at c6
      exact c6 ha.2.2.2.2.2.2.1⟩
  rw [if_neg c6]
  by_cases c7 : acc.address ≠ paligned
  · rw [if_pos c7]
    exact Or.inl ⟨_, rfl, fun a ha => by
      have e := hacc a ha; subst e; exact c7 ha.2.2.2.2.2.2.2.1⟩
  rw [if_neg c7]
  have hshape : 3 ≤ log2_size ∧ log2_size ≤ 63 ∧ 2 ^ log2_size.toNat ∣ paligned ∧
      s.m_accesses[s.m_next_access]? = some acc ∧ acc.type = access_type.read ∧
      acc.log2_size = log2_size ∧ acc.read.length = 2 ^ log2_size.toNat ∧
      acc.address = paligned := by
    refine ⟨by omega, by omega, (aligned_iff paligned hk).1 (not_not.mp c2), hget,
      not_not.mp c4, not_not.mp c5, ?_, not_not.mp c7⟩
    rw [← shl1_eq hk]; exact not_not.mp c6
  obtain ⟨g1, g2, g3, g4, g5, g6, g7, g8⟩ := hshape
  by_cases cv : s.m_verify_proofs = true
  swap
  · rw [if_neg cv]
    exact Or.inr ⟨acc, ⟨g1, g2, g3, g4, g5, g6, g7, g8, fun h => absurd h cv⟩, rfl⟩
  rw [if_pos cv]
  have hpf : ∀ a, read_accepted hs s paligned log2_size a →
      ∃ p, acc.proof = some p ∧ p.target_address = acc.address ∧
        p.root_hash = s.m_root_hash ∧
        step_state_access.get_hash hs acc.read = p.target_hash ∧
        step_state_access.roll_hash_up_tree hs p (step_state_access.get_hash hs acc.read) =
          (.ok (), p.root_hash) := by
    intro a ha
    have e := hacc a ha; subst e
    exact ha.2.2.2.2.2.2.2.2 cv
  rcases hpr : acc.proof with _ | proof
  · dsimp only
    exact Or.inl ⟨_, rfl, fun a ha => by
      obtain ⟨p, hp, _⟩ := hpf a ha
      rw [hpr] at hp; cases hp⟩
  dsimp only
  have hpf2 : ∀ a, read_accepted hs s paligned log2_size a →
      proof.target_address = acc.address ∧ proof.root_hash = s.m_root_hash ∧
        step_state_access.get_hash hs acc.read = proof.target_hash ∧
        step_state_access.roll_hash_up_tree hs proof
          (step_state_access.get_hash hs acc.read) = (.ok (), proof.root_hash) := by
    intro a ha
    obtain ⟨p, hp, hrest⟩ := hpf a ha
    rw [hpr] at hp
    cases hp
    exact hrest
  by_cases c8 : proof.target_address ≠ acc.address
  · rw [if_pos c8]
    exact Or.inl ⟨_, rfl, fun a ha => c8 (hpf2 a ha).1⟩
  rw [if_neg c8]
  by_cases c9 : s.m_root_hash ≠ proof.root_hash
  · rw [if_pos c9]
    exact Or.inl ⟨_, rfl, fun a ha => c9 (hpf2 a ha).2.1.symm⟩
  rw [if_neg c9]
  by_cases c10 : step_state_access.get_hash hs acc.read ≠ proof.target_hash
  · rw [if_pos c10]
    exact Or.inl ⟨_, rfl, fun a ha => c10 (hpf2 a ha).2.2.1⟩
  rw [if_neg c10]
  rcases hroll : step_state_access.roll_hash_up_tree hs proof
      (step_state_access.get_hash hs acc.read) with ⟨_ | _, rolled⟩
  · dsimp only
    exact Or.inl ⟨_, rfl, fun a ha => by
      have := (hpf2 a ha).2.2.2
      rw [hroll] at this
      cases this⟩
  dsimp only
  by_cases c11 : rolled ≠ proof.root_hash
  · rw [if_pos c11]
    exact Or.inl ⟨_, rfl, fun a ha => by
      have := (hpf2 a ha).2.2.2
      rw [hroll] at this
      exact c11 (Prod.mk.inj this).2⟩
  rw [if_neg c11]
  refine Or.inr ⟨acc, ⟨g1, g2, g3, g4, g5, g6, g7, g8, fun _ => ⟨proof, hpr, not_not.mp c8,
    (not_not.mp c9).symm, not_not.mp c10, ?_⟩⟩, rfl⟩
  rw [hroll, not_not.mp c11]

theorem roll_loop_outcome {Hash : Type} (hs : hasher_type Hash) (p : merkle_tree_proof Hash) :
    ∀ (n k : Nat) (h h1 : Hash),
      (step_state_access.roll_hash_up_tree_loop hs p n k h).1 =
        (step_state_access.roll_hash_up_tree_loop hs p n k h1).1 := by
  intro n
  induction n with
  | zero => intro k h h1; rfl
  | succ n ih =>
    intro k h h1
    simp only [step_state_access.roll_hash_up_tree_loop]
    cases p.get_sibling_hash k with
    | error e => rfl
    | ok sibling =>
      dsimp only
      split_ifs
      · exact ih _ _ _
      · exact ih _ _ _

theorem roll_outcome {Hash : Type} (hs : hasher_type Hash) (p : merkle_tree_proof Hash)
    (h h1 : Hash) :
    (step_state_access.roll_hash_up_tree hs p h).1 =
      (step_state_access.roll_hash_up_tree hs p h1).1 :=
  roll_loop_outcome hs p _ _ h h1

theorem check_write_cases {Hash : Type} [DecidableEq Hash] (hs : hasher_type Hash)
    (s : replay_state Hash) (paligned : Nat) (val : List Nat) (log2_size : Int) :
    (∃ e, step_state_access.check_write hs s paligned val log2_size = (.error e, s) ∧
        ∀ a, ¬ write_accepted hs s paligned val log2_size a) ∨
      (∃ a, write_accepted hs s paligned val log2_size a ∧
        step_state_access.check_write hs s paligned val log2_size =
          (.ok (), write_result hs s a)) := by
  unfold step_state_access.check_write
  by_cases c1 : log2_size < 3 ∨ log2_size > 63
  · rw [if_pos c1]
    exact Or.inl ⟨_, rfl, fun a ha => by have := ha.1; have := ha.2.1; omega⟩
  rw [if_neg c1]
  have hk : log2_size.toNat < 64 := by omega
  by_cases c2 : (paligned &&& (shl1 log2_size.toNat - 1)) ≠ 0
  · rw [if_pos c2]
    exact Or.inl ⟨_, rfl, fun a ha => c2 ((aligned_iff paligned hk).2 ha.2.2.1)⟩
  rw [if_neg c2]
  by_cases c3 : s.m_next_access ≥ s.m_accesses.length
  · rw [dif_pos c3]
    exact Or.inl ⟨_, rfl, fun a ha => by
      have := ha.2.2.2.1
      rw [List.getElem?_eq_none c3] at this
      cases this⟩
  rw [dif_neg c3]
  have hget : s.m_accesses[s.m_next_access]? =
      some (s.m_accesses.get ⟨s.m_next_access, Nat.lt_of_not_le c3⟩) := by
    rw [List.getElem?_eq_getElem (Nat.lt_of_not_le c3)]
    rfl
  generalize s.m_accesses.get ⟨s.m_next_access, Nat.lt_of_not_le c3⟩ = acc at hget
  have hacc : ∀ a, write_accepted hs s paligned val log2_size a → a = acc := by
    intro a ha
    have := ha.2.2.2.1
    rw [hget] at this
    exact (Option.some.inj this).symm
  dsimp only
  by_cases c4 : acc.type ≠ access_type.write
  · rw [if_pos c4]
    exact Or.inl ⟨_, rfl, fun a ha => by
      have e := hacc a ha; subst e; exact c4 ha.2.2.2.2.1⟩
  rw [if_neg c4]
  by_cases c5 : acc.log2_size ≠ log2_size
  · rw [if_pos c5]
    exact Or.inl ⟨_, rfl, fun a ha => by
      have e := hacc a ha; subst e; exact c5 ha.2.2.2.2.2.1⟩
  rw [if_neg c5]
  by_cases c6 : acc.read.length ≠ shl1 log2_size.toNat
  · rw [if_pos c6]
    exact Or.inl ⟨_, rfl, fun a ha => by
      have e := hacc a ha; subst e
      rw [shl1_eq hk] at c6
      exact c6 ha.2.2.2.2.2.2.1⟩
  rw [if_neg c6]
  by_cases c6w : acc.written.length ≠ shl1 log2_size.toNat
  · rw [if_pos c6w]
    exact Or.inl ⟨_, rfl, fun a ha => by
      have e := hacc a ha; subst e
      rw [shl1_eq hk] at c6w
      exact c6w ha.2.2.2.2.2.2.2.1⟩
  rw [if_neg c6w]
  by_cases c7 : acc.address ≠ paligned
  · rw [if_pos c7]
    exact Or.inl ⟨_, rfl, fun a ha => by
      have e := hacc a ha; subst e; exact c7 ha.2.2.2.2.2.2.2.2.1⟩
  rw [if_neg c7]
  have hshape : 3 ≤ log2_size ∧ log2_size ≤ 63 ∧ 2 ^ log2_size.toNat ∣ paligned ∧
      s.m_accesses[s.m_next_access]? = some acc ∧ acc.type = access_type.write ∧
      acc.log2_size = log2_size ∧ acc.read.length = 2 ^ log2_size.toNat ∧
      acc.written.length = 2 ^ log2_size.toNat ∧ acc.address = paligned := by
    refine ⟨by omega, by omega, (aligned_iff paligned hk).1 (not_not.mp c2), hget,
      not_not.mp c4, not_not.mp c5, ?_, ?_, not_not.mp c7⟩
    · rw [← shl1_eq hk]; exact not_not.mp c6
    · rw [← shl1_eq hk]; exact not_not.mp c6w
  obtain ⟨g1, g2, g3, g4, g5, g6, g7, g7w, g8⟩ := hshape
  by_cases cv : s.m_verify_proofs = true
  swap
  · rw [if_neg cv]
    refine Or.inr ⟨acc, ⟨g1, g2, g3, g4, g5, g6, g7, g7w, g8, fun h => absurd h cv⟩, ?_⟩
    simp only [write_result, cv, if_false, Bool.false_eq_true]
  rw [if_pos cv]
  have hpf : ∀ a, write_accepted hs s paligned val log2_size a →
      ∃ p, acc.proof = some p ∧ p.target_address = acc.address ∧
        p.root_hash = s.m_root_hash ∧
        step_state_access.get_hash hs acc.read = p.target_hash ∧
        step_state_access.roll_hash_up_tree hs p (step_state_access.get_hash hs acc.read) =
          (.ok (), p.root_hash) ∧
        acc.written = val := by
    intro a ha
    have e := hacc a ha; subst e
    exact ha.2.2.2.2.2.2.2.2.2 cv
  rcases hpr : acc.proof with _ | proof
  · dsimp only
    exact Or.inl ⟨_, rfl, fun a ha => by
      obtain ⟨p, hp, _⟩ := hpf a ha
      rw [hpr] at hp; cases hp⟩
  dsimp only
  have hpf2 : ∀ a, write_accepted hs s paligned val log2_size a →
      proof.target_address = acc.address ∧ proof.root_hash = s.m_root_hash ∧
        step_state_access.get_hash hs acc.read = proof.target_hash ∧
        step_state_access.roll_hash_up_tree hs proof
          (step_state_access.get_hash hs acc.read) = (.ok (), proof.root_hash) ∧
        acc.written = val := by
    intro a ha
    obtain ⟨p, hp, hrest⟩ := hpf a ha
    rw [hpr] at hp
    cases hp
    exact hrest
  by_cases c8 : proof.target_address ≠ acc.address
  · rw [if_pos c8]
    exact Or.inl ⟨_, rfl, fun a ha => c8 (hpf2 a ha).1⟩
  rw [if_neg c8]
  by_cases c9 : s.m_root_hash ≠ proof.root_hash
  · rw [if_pos c9]
    exact Or.inl ⟨_, rfl, fun a ha => c9 (hpf2 a ha).2.1.symm⟩
  rw [if_neg c9]
  by_cases c10 : step_state_access.get_hash hs acc.read ≠ proof.target_hash
  · rw [if_pos c10]
    exact Or.inl ⟨_, rfl, fun a ha => c10 (hpf2 a ha).2.2.1⟩
  rw [if_neg c10]
  rcases hroll : step_state_access.roll_hash_up_tree hs proof
      (step_state_access.get_hash hs acc.read) with ⟨_ | _, rolled⟩
  · dsimp only
    exact Or.inl ⟨_, rfl, fun a ha => by
      have := (hpf2 a ha).2.2.2.1
      rw [hroll] at this
      cases this⟩
  dsimp only
  by_cases c11 : rolled ≠ proof.root_hash
  · rw [if_pos c11]
    exact Or.inl ⟨_, rfl, fun a ha => by
      have := (hpf2 a ha).2.2.2.1
      rw [hroll] at this
      exact c11 (Prod.mk.inj this).2⟩
  rw [if_neg c11]
  by_cases c12 : acc.written ≠ val
  · rw [if_pos c12]
    exact Or.inl ⟨_, rfl, fun a ha => c12 (hpf2 a ha).2.2.2.2⟩
  rw [if_neg c12]
  have hout := roll_outcome hs proof (step_state_access.get_hash hs acc.written)
    (step_state_access.get_hash hs acc.read)
  rw [hroll] at hout
  rcases hroll2 : step_state_access.roll_hash_up_tree hs proof
      (step_state_access.get_hash hs acc.written) with ⟨_ | _, root⟩
  · rw [hroll2] at hout
    cases hout
  dsimp only
  refine Or.inr ⟨acc, ⟨g1, g2, g3, g4, g5, g6, g7, g7w, g8, fun _ => ⟨proof, hpr,
    not_not.mp c8, (not_not.mp c9).symm, not_not.mp c10, ?_, not_not.mp c12⟩⟩, ?_⟩
  · rw [hroll, not_not.mp c11]
  · simp only [write_result, cv, if_true, hpr, hroll2]

/-! ## The two verifier classes run the same checks -/

theorem uarch_get_hash_rec_eq {Hash : Type} (hs : hasher_type Hash) :
    ∀ (fuel : Nat) (data : List Nat) (len : Nat),
      uarch_replay_state_access.get_hash_rec hs fuel data len =
        step_state_access.get_hash_rec hs fuel data len := by
  intro fuel
  induction fuel with
  | zero => intro data len; rfl
  | succ fuel ih =>
    intro data len
    simp only [uarch_replay_state_access.get_hash_rec, step_state_access.get_hash_rec, ih]

theorem uarch_get_hash_eq {Hash : Type} (hs : hasher_type Hash) (data : List Nat) :
    uarch_replay_state_access.get_hash hs data = step_state_access.get_hash hs data :=
  uarch_get_hash_rec_eq hs _ _ _

theorem uarch_roll_loop_eq {Hash : Type} (hs : hasher_type Hash) (p : merkle_tree_proof Hash) :
    ∀ (n k : Nat) (h : Hash),
      uarch_replay_state_access.roll_hash_up_tree_loop hs p n k h =
        step_state_access.roll_hash_up_tree_loop hs p n k h := by
  intro n
  induction n with
  | zero => intro k h; rfl
  | succ n ih =>
    intro k h
    simp only [uarch_replay_state_access.roll_hash_up_tree_loop,
      step_state_access.roll_hash_up_tree_loop, ih]

theorem uarch_roll_eq {Hash : Type} (hs : hasher_type Hash) (p : merkle_tree_proof Hash)
    (h : Hash) :
    uarch_replay_state_access.roll_hash_up_tree hs p h =
      step_state_access.roll_hash_up_tree hs p h :=
  uarch_roll_loop_eq hs p _ _ h

theorem uarch_check_read_eq {Hash : Type} [DecidableEq Hash] (hs : hasher_type Hash)
    (s : replay_state Hash) (paligned : Nat) (log2_size : Int) :
    uarch_replay_state_access.check_read hs s paligned log2_size =
      step_state_access.check_read hs s paligned log2_size := by
  unfold uarch_replay_state_access.check_read step_state_access.check_read
  simp only [uarch_get_hash_eq, uarch_roll_eq, uarch_replay_state_access.access_to_report,
    step_state_access.access_to_report]

theorem uarch_check_write_eq {Hash : Type} [DecidableEq Hash] (hs : hasher_type Hash)
    (s : replay_state Hash) (paligned : Nat) (val : List Nat) (log2_size : Int) :
    uarch_replay_state_access.check_write hs s paligned val log2_size =
      step_state_access.check_write hs s paligned val log2_size := by
  unfold uarch_replay_state_access.check_write step_state_access.check_write
  simp only [uarch_get_hash_eq, uarch_roll_eq, uarch_replay_state_access.access_to_report,
    step_state_access.access_to_report]

theorem uarch_finish_eq {Hash : Type} (s : replay_state Hash) :
    uarch_replay_state_access.finish s = step_state_access.finish s := rfl

theorem uarch_create_eq {Hash : Type} [Inhabited Hash] (log : access_log Hash)
    (verify_proofs one_based : Bool) :
    (uarch_replay_state_access.create log verify_proofs one_based : Except Err (replay_state Hash)) =
      step_state_access.create log verify_proofs one_based := rfl

theorem uarch_call_eq {Hash : Type} [DecidableEq Hash] (hs : hasher_type Hash)
    (s : replay_state Hash) (c : primitive_call) :
    uarch_replay_state_access.call hs s c = step_state_access.call hs s c := by
  cases c with
  | read p k =>
    simp only [uarch_replay_state_access.call, step_state_access.call, uarch_check_read_eq]
  | write p v k =>
    simp only [uarch_replay_state_access.call, step_state_access.call, uarch_check_write_eq]

theorem uarch_run_eq {Hash : Type} [DecidableEq Hash] (hs : hasher_type Hash)
    (calls : List primitive_call) :
    ∀ (s : replay_state Hash),
      uarch_replay_state_access.run hs s calls = step_state_access.run hs s calls := by
  induction calls with
  | nil => intro s; rfl
  | cons c calls ih =>
    intro s
    have h1 : uarch_replay_state_access.run hs s (c :: calls) =
        uarch_replay_state_access.run hs (uarch_replay_state_access.call hs s c).2 calls := rfl
    have h2 : step_state_access.run hs s (c :: calls) =
        step_state_access.run hs (step_state_access.call hs s c).2 calls := rfl
    rw [h1, h2, uarch_call_eq, ih]

/-! ## Claims on the replay verifier -/

/-- C3. Acceptance of `check_read`: with `verify_proofs` set,
`check_read(paligned, log2_size)` returns normally if and only if
`3 ≤ log2_size ≤ 63`, `paligned` is a multiple of `2 ^ log2_size`, the cursor
is inside the log, and the record under it is a read of that `log2_size` whose
`read` bytes have length `2 ^ log2_size`, whose address is `paligned`, and
which carries a proof with `target_address` equal to the record address,
`root_hash` equal to the current root, `target_hash` equal to the tree hash of
the `read` bytes, and whose roll-up from that hash reproduces `root_hash`. On
success the call returns the record's `read` bytes, advances the cursor by one
and leaves every other member, the current root included, unchanged. -/
theorem C3_check_read_acceptance {Hash : Type} [DecidableEq Hash] (hs : hasher_type Hash)
    (s : replay_state Hash) (paligned : Nat) (log2_size : Int)
    (hverify : s.m_verify_proofs = true) :
    (returned (step_state_access.check_read hs s paligned log2_size).1 = true ↔
      3 ≤ log2_size ∧ log2_size ≤ 63 ∧ 2 ^ log2_size.toNat ∣ paligned ∧
        s.m_next_access < s.m_accesses.length ∧
        ∃ a, s.m_accesses[s.m_next_access]? = some a ∧ a.type = access_type.read ∧
          a.log2_size = log2_size ∧ a.read.length = 2 ^ log2_size.toNat ∧
          a.address = paligned ∧
          ∃ p, a.proof = some p ∧ p.target_address = a.address ∧
            p.root_hash = s.m_root_hash ∧
            step_state_access.get_hash hs a.read = p.target_hash ∧
            step_state_access.roll_hash_up_tree hs p (step_state_access.get_hash hs a.read) =
              (.ok (), p.root_hash)) ∧
      (returned (step_state_access.check_read hs s paligned log2_size).1 = true →
        ∃ a, s.m_accesses[s.m_next_access]? = some a ∧
          step_state_access.check_read hs s paligned log2_size =
            (.ok a.read, { s with m_next_access := s.m_next_access + 1 })) := by
  rcases check_read_cases hs s paligned log2_size with ⟨e, he, hno⟩ | ⟨a, ha, hok⟩
  · constructor
    · constructor
      · intro h
        rw [he] at h
        cases h
      · rintro ⟨g1, g2, g3, _, a, g4, g5, g6, g7, g8, g9⟩
        exact absurd ⟨g1, g2, g3, g4, g5, g6, g7, g8, fun _ => g9⟩ (hno a)
    · intro h
      rw [he] at h
      cases h
  · obtain ⟨g1, g2, g3, g4, g5, g6, g7, g8, g9⟩ := ha
    have hlt : s.m_next_access < s.m_accesses.length := by
      by_contra hc
      rw [List.getElem?_eq_none (Nat.le_of_not_lt hc)] at g4
      cases g4
    constructor
    · constructor
      · intro _
        exact ⟨g1, g2, g3, hlt, a, g4, g5, g6, g7, g8, g9 hverify⟩
      · intro _
        rw [hok]
        rfl
    · intro _
      exact ⟨a, g4, hok⟩

/-- A run of C3 on the first record of `sample_log`, which is accepted. -/
theorem C3_check_read_acceptance_witness :
    sample_state.m_verify_proofs = true ∧
      returned (step_state_access.check_read term_hasher sample_state 8 3).1 = true ∧
      ∃ a, sample_state.m_accesses[sample_state.m_next_access]? = some a ∧
        step_state_access.check_read term_hasher sample_state 8 3 =
          (.ok a.read, { sample_state with m_next_access := sample_state.m_next_access + 1 }) :=
  ⟨rfl, by decide,
    (C3_check_read_acceptance term_hasher sample_state 8 3 rfl).2 (by decide)⟩

theorem check_write_ok {Hash : Type} [DecidableEq Hash] (hs : hasher_type Hash)
    (s : replay_state Hash) (paligned : Nat) (val : List Nat) (log2_size : Int)
    (h : returned (step_state_access.check_write hs s paligned val log2_size).1 = true) :
    ∃ a, write_accepted hs s paligned val log2_size a ∧
      step_state_access.check_write hs s paligned val log2_size =
        (.ok (), write_result hs s a) := by
  rcases check_write_cases hs s paligned val log2_size with ⟨e, he, _⟩ | hok
  · rw [he] at h
    cases h
  · exact hok

theorem check_write_error {Hash : Type} [DecidableEq Hash] (hs : hasher_type Hash)
    (s : replay_state Hash) (paligned : Nat) (val : List Nat) (log2_size : Int)
    (h : returned (step_state_access.check_write hs s paligned val log2_size).1 = false) :
    (step_state_access.check_write hs s paligned val log2_size).2 = s ∧
      ∀ a, ¬ write_accepted hs s paligned val log2_size a := by
  rcases check_write_cases hs s paligned val log2_size with ⟨e, he, hno⟩ | ⟨a, _, hok⟩
  · rw [he]
    exact ⟨rfl, hno⟩
  · rw [hok] at h
    cases h

theorem check_read_ok {Hash : Type} [DecidableEq Hash] (hs : hasher_type Hash)
    (s : replay_state Hash) (paligned : Nat) (log2_size : Int)
    (h : returned (step_state_access.check_read hs s paligned log2_size).1 = true) :
    ∃ a, read_accepted hs s paligned log2_size a ∧
      step_state_access.check_read hs s paligned log2_size =
        (.ok a.read, { s with m_next_access := s.m_next_access + 1 }) := by
  rcases check_read_cases hs s paligned log2_size with ⟨e, he, _⟩ | hok
  · rw [he] at h
    cases h
  · exact hok

theorem check_read_error {Hash : Type} [DecidableEq Hash] (hs : hasher_type Hash)
    (s : replay_state Hash) (paligned : Nat) (log2_size : Int)
    (h : returned (step_state_access.check_read hs s paligned log2_size).1 = false) :
    (step_state_access.check_read hs s paligned log2_size).2 = s ∧
      ∀ a, ¬ read_accepted hs s paligned log2_size a := by
  rcases check_read_cases hs s paligned log2_size with ⟨e, he, hno⟩ | ⟨a, _, hok⟩
  · rw [he]
    exact ⟨rfl, hno⟩
  · rw [hok] at h
    cases h

theorem write_result_verified {Hash : Type} (hs : hasher_type Hash) (s : replay_state Hash)
    (a : access Hash) (p : merkle_tree_proof Hash) (hv : s.m_verify_proofs = true)
    (hp : a.proof = some p) :
    write_result hs s a =
      { s with
        m_root_hash :=
          (step_state_access.roll_hash_up_tree hs p
            (step_state_access.get_hash hs a.written)).2
        m_next_access := s.m_next_access + 1 } := by
  simp only [write_result, hv, if_true, hp]

theorem write_root_rolled {Hash : Type} (hs : hasher_type Hash) (p : merkle_tree_proof Hash)
    (h h1 x : Hash) (hroll : step_state_access.roll_hash_up_tree hs p h = (.ok (), x)) :
    step_state_access.roll_hash_up_tree hs p h1 =
      (.ok (), (step_state_access.roll_hash_up_tree hs p h1).2) := by
  have := roll_outcome hs p h1 h
  rw [hroll] at this
  exact Prod.ext this rfl

/-- C4. Root re-roll on write: with `verify_proofs` set, whenever
`check_write(paligned, val, log2_size)` returns normally, the record `r` under
the cursor carries a proof `p` such that the new current root is the roll-up
of the tree hash of `r.written` through the siblings of `p` along the bits of
`p.target_address`, the old current root was the roll-up of the tree hash of
`r.read` through the same siblings, and the cursor has advanced by exactly
one. This holds of `step_state_access` and of `uarch_replay_state_access`. -/
theorem C4_root_reroll_on_write {Hash : Type} [DecidableEq Hash] (hs : hasher_type Hash)
    (s : replay_state Hash) (paligned : Nat) (val : List Nat) (log2_size : Int)
    (hverify : s.m_verify_proofs = true) :
    (returned (step_state_access.check_write hs s paligned val log2_size).1 = true →
      ∃ r p, s.m_accesses[s.m_next_access]? = some r ∧ r.proof = some p ∧
        step_state_access.roll_hash_up_tree hs p (step_state_access.get_hash hs r.written) =
          (.ok (), (step_state_access.check_write hs s paligned val log2_size).2.m_root_hash) ∧
        step_state_access.roll_hash_up_tree hs p (step_state_access.get_hash hs r.read) =
          (.ok (), s.m_root_hash) ∧
        (step_state_access.check_write hs s paligned val log2_size).2.m_next_access =
          s.m_next_access + 1) ∧
    (returned (uarch_replay_state_access.check_write hs s paligned val log2_size).1 = true →
      ∃ r p, s.m_accesses[s.m_next_access]? = some r ∧ r.proof = some p ∧
        uarch_replay_state_access.roll_hash_up_tree hs p
            (uarch_replay_state_access.get_hash hs r.written) =
          (.ok (),
            (uarch_replay_state_access.check_write hs s paligned val log2_size).2.m_root_hash) ∧
        uarch_replay_state_access.roll_hash_up_tree hs p
            (uarch_replay_state_access.get_hash hs r.read) =
          (.ok (), s.m_root_hash) ∧
        (uarch_replay_state_access.check_write hs s paligned val log2_size).2.m_next_access =
          s.m_next_access + 1) := by
  have main : returned (step_state_access.check_write hs s paligned val log2_size).1 = true →
      ∃ r p, s.m_accesses[s.m_next_access]? = some r ∧ r.proof = some p ∧
        step_state_access.roll_hash_up_tree hs p (step_state_access.get_hash hs r.written) =
          (.ok (), (step_state_access.check_write hs s paligned val log2_size).2.m_root_hash) ∧
        step_state_access.roll_hash_up_tree hs p (step_state_access.get_hash hs r.read) =
          (.ok (), s.m_root_hash) ∧
        (step_state_access.check_write hs s paligned val log2_size).2.m_next_access =
          s.m_next_access + 1 := by
    intro h
    obtain ⟨a, ha, hok⟩ := check_write_ok hs s paligned val log2_size h
    obtain ⟨p, hp, _, hroot, _, hroll, _⟩ := ha.2.2.2.2.2.2.2.2.2 hverify
    refine ⟨a, p, ha.2.2.2.1, hp, ?_, ?_, ?_⟩
    · rw [hok, write_result_verified hs s a p hverify hp]
      exact write_root_rolled hs p _ _ _ hroll
    · rw [hroll, hroot]
    · rw [hok, write_result_verified hs s a p hverify hp]
  refine ⟨main, ?_⟩
  simp only [uarch_check_write_eq, uarch_roll_eq, uarch_get_hash_eq]
  exact main

/-- A run of C4 on the write record of `sample_log`: the root moves from the
roll-up of the zero word to the roll-up of the word `1`. -/
theorem C4_root_reroll_on_write_witness :
    sample_state_1.m_verify_proofs = true ∧
      returned (step_state_access.check_write term_hasher sample_state_1 8 one_word 3).1 = true ∧
      (step_state_access.check_write term_hasher sample_state_1 8 one_word 3).2.m_root_hash =
        term_hash.node (term_hash.node (term_hash.data [7]) (term_hash.data one_word))
          (term_hash.data [9]) ∧
      ∃ r p, sample_state_1.m_accesses[sample_state_1.m_next_access]? = some r ∧
        r.proof = some p ∧
        step_state_access.roll_hash_up_tree term_hasher p
            (step_state_access.get_hash term_hasher r.written) =
          (.ok (),
            (step_state_access.check_write term_hasher sample_state_1 8 one_word 3).2.m_root_hash) ∧
        step_state_access.roll_hash_up_tree term_hasher p
            (step_state_access.get_hash term_hasher r.read) =
          (.ok (), sample_state_1.m_root_hash) ∧
        (step_state_access.check_write term_hasher sample_state_1 8 one_word 3).2.m_next_access =
          sample_state_1.m_next_access + 1 :=
  ⟨rfl, by decide, by decide,
    (C4_root_reroll_on_write term_hasher sample_state_1 8 one_word 3 rfl).1 (by decide)⟩

/-- C5 as stated fails: a verifier that does not verify proofs accepts a write
record whose `written` bytes (the word `1`) differ from the value supplied
(the word `2`), and advances its cursor, in both verifier classes. -/
theorem C5_written_value_check_counterexample :
    sample_state_unverified.m_accesses[sample_state_unverified.m_next_access]? =
        some sample_write ∧
      sample_write.written ≠ two_word ∧
      returned (step_state_access.check_write term_hasher sample_state_unverified 8
        two_word 3).1 = true ∧
      (step_state_access.check_write term_hasher sample_state_unverified 8
        two_word 3).2.m_next_access = sample_state_unverified.m_next_access + 1 ∧
      returned (uarch_replay_state_access.check_write term_hasher sample_state_unverified 8
        two_word 3).1 = true ∧
      (uarch_replay_state_access.check_write term_hasher sample_state_unverified 8
        two_word 3).2.m_next_access = sample_state_unverified.m_next_access + 1 :=
  ⟨rfl, by decide, by decide, by decide, by decide, by decide⟩

/-- C5, amended. Written-value check under proof verification: for every
`check_write` call on a verifier with `verify_proofs` set, if the `written`
bytes of the record under the cursor differ from the value supplied, the call
throws and leaves the object, its cursor included, as it was. This holds of
`step_state_access` and of `uarch_replay_state_access`. -/
theorem C5_written_value_check_verified {Hash : Type} [DecidableEq Hash]
    (hs : hasher_type Hash) (s : replay_state Hash) (paligned : Nat) (val : List Nat)
    (log2_size : Int) (r : access Hash) (hverify : s.m_verify_proofs = true)
    (hr : s.m_accesses[s.m_next_access]? = some r) (hne : r.written ≠ val) :
    (returned (step_state_access.check_write hs s paligned val log2_size).1 = false ∧
      (step_state_access.check_write hs s paligned val log2_size).2 = s) ∧
    (returned (uarch_replay_state_access.check_write hs s paligned val log2_size).1 = false ∧
      (uarch_replay_state_access.check_write hs s paligned val log2_size).2 = s) := by
  have hfail : returned (step_state_access.check_write hs s paligned val log2_size).1 =
      false := by
    cases hret : returned (step_state_access.check_write hs s paligned val log2_size).1 with
    | false => rfl
    | true =>
      exfalso
      obtain ⟨a, ha, _⟩ := check_write_ok hs s paligned val log2_size hret
      have ha4 := ha.2.2.2.1
      rw [hr] at ha4
      cases ha4
      obtain ⟨p, _, _, _, _, _, hw⟩ := ha.2.2.2.2.2.2.2.2.2 hverify
      exact hne hw
  have main := And.intro hfail (check_write_error hs s paligned val log2_size hfail).1
  refine ⟨main, ?_⟩
  rw [uarch_check_write_eq]
  exact main

/-- A run of the amended C5: `sample_state_1` stands before a write of the
word `1`, and a `check_write` supplying the word `2` is rejected. -/
theorem C5_written_value_check_verified_witness :
    sample_state_1.m_verify_proofs = true ∧
      sample_state_1.m_accesses[sample_state_1.m_next_access]? = some sample_write ∧
      sample_write.written ≠ two_word ∧
      (returned (step_state_access.check_write term_hasher sample_state_1 8 two_word 3).1 =
          false ∧
        (step_state_access.check_write term_hasher sample_state_1 8 two_word 3).2 =
          sample_state_1) ∧
      (returned (uarch_replay_state_access.check_write term_hasher sample_state_1 8
          two_word 3).1 = false ∧
        (uarch_replay_state_access.check_write term_hasher sample_state_1 8 two_word 3).2 =
          sample_state_1) :=
  ⟨rfl, rfl, by decide,
    (C5_written_value_check_verified term_hasher sample_state_1 8 two_word 3 sample_write
      rfl rfl (by decide)).1,
    (C5_written_value_check_verified term_hasher sample_state_1 8 two_word 3 sample_write
      rfl rfl (by decide)).2⟩

theorem write_result_frame {Hash : Type} (hs : hasher_type Hash) (s : replay_state Hash)
    (a : access Hash) (hp : s.m_verify_proofs = true → ∃ p, a.proof = some p) :
    (write_result hs s a).m_next_access = s.m_next_access + 1 ∧
      (write_result hs s a).m_accesses = s.m_accesses ∧
      (write_result hs s a).m_verify_proofs = s.m_verify_proofs ∧
      (write_result hs s a).m_one_based = s.m_one_based := by
  unfold write_result
  by_cases hv : s.m_verify_proofs = true
  · obtain ⟨p, hp⟩ := hp hv
    simp [hv, hp]
  · simp [hv]

theorem write_accepted_frame {Hash : Type} [DecidableEq Hash] (hs : hasher_type Hash)
    (s : replay_state Hash) (paligned : Nat) (val : List Nat) (log2_size : Int)
    (a : access Hash) (ha : write_accepted hs s paligned val log2_size a) :
    (write_result hs s a).m_next_access = s.m_next_access + 1 ∧
      (write_result hs s a).m_accesses = s.m_accesses ∧
      (write_result hs s a).m_verify_proofs = s.m_verify_proofs ∧
      (write_result hs s a).m_one_based = s.m_one_based :=
  write_result_frame hs s a (fun hv => by
    obtain ⟨p, hp, _⟩ := ha.2.2.2.2.2.2.2.2.2 hv
    exact ⟨p, hp⟩)

theorem getElem?_some_lt {α : Type} {l : List α} {i : Nat} {a : α} (h : l[i]? = some a) :
    i < l.length := by
  by_contra hc
  rw [List.getElem?_eq_none (Nat.le_of_not_lt hc)] at h
  cases h

/-- What one primitive call does to the cursor and to the log: either it
throws and leaves the object as it was, or it returns and the cursor, which
was inside the log, has advanced by one. -/
theorem call_cases {Hash : Type} [DecidableEq Hash] (hs : hasher_type Hash)
    (s : replay_state Hash) (c : primitive_call) :
    ((step_state_access.call hs s c).1 = false ∧ (step_state_access.call hs s c).2 = s) ∨
      ((step_state_access.call hs s c).1 = true ∧ s.m_next_access < s.m_accesses.length ∧
        (step_state_access.call hs s c).2.m_next_access = s.m_next_access + 1 ∧
        (step_state_access.call hs s c).2.m_accesses = s.m_accesses ∧
        (step_state_access.call hs s c).2.m_verify_proofs = s.m_verify_proofs) := by
  cases c with
  | read paligned log2_size =>
    simp only [step_state_access.call]
    cases hret : returned (step_state_access.check_read hs s paligned log2_size).1 with
    | false => exact Or.inl ⟨rfl, (check_read_error hs s paligned log2_size hret).1⟩
    | true =>
      obtain ⟨a, ha, hok⟩ := check_read_ok hs s paligned log2_size hret
      rw [hok]
      exact Or.inr ⟨rfl, getElem?_some_lt ha.2.2.2.1, rfl, rfl, rfl⟩
  | write paligned val log2_size =>
    simp only [step_state_access.call]
    cases hret : returned (step_state_access.check_write hs s paligned val log2_size).1 with
    | false => exact Or.inl ⟨rfl, (check_write_error hs s paligned val log2_size hret).1⟩
    | true =>
      obtain ⟨a, ha, hok⟩ := check_write_ok hs s paligned val log2_size hret
      obtain ⟨f1, f2, f3, _⟩ := write_accepted_frame hs s paligned val log2_size a ha
      rw [hok]
      exact Or.inr ⟨rfl, getElem?_some_lt ha.2.2.2.1, f1, f2, f3⟩

theorem run_cons {Hash : Type} [DecidableEq Hash] (hs : hasher_type Hash)
    (s : replay_state Hash) (c : primitive_call) (calls : List primitive_call) :
    step_state_access.run hs s (c :: calls) =
      step_state_access.run hs (step_state_access.call hs s c).2 calls := rfl

theorem run_frame {Hash : Type} [DecidableEq Hash] (hs : hasher_type Hash)
    (calls : List primitive_call) :
    ∀ (s : replay_state Hash), s.m_next_access ≤ s.m_accesses.length →
      (step_state_access.run hs s calls).m_next_access ≤ s.m_accesses.length ∧
        (step_state_access.run hs s calls).m_accesses = s.m_accesses ∧
        (step_state_access.run hs s calls).m_verify_proofs = s.m_verify_proofs := by
  induction calls with
  | nil => intro s h; exact ⟨h, rfl, rfl⟩
  | cons c calls ih =>
    intro s h
    rw [run_cons]
    rcases call_cases hs s c with ⟨_, he⟩ | ⟨_, hlt, h1, h2, h3⟩
    · rw [he]
      exact ih s h
    · have := ih (step_state_access.call hs s c).2 (by rw [h1, h2]; omega)
      rw [h2, h3] at this
      exact this

theorem run_validated {Hash : Type} [DecidableEq Hash] (hs : hasher_type Hash)
    (calls : List primitive_call) :
    ∀ (s : replay_state Hash),
      (step_state_access.run hs s calls).m_next_access =
          s.m_next_access + (step_state_access.validated hs s calls).length ∧
        step_state_access.validated hs s calls =
          List.range' s.m_next_access (step_state_access.validated hs s calls).length := by
  induction calls with
  | nil => intro s; exact ⟨rfl, rfl⟩
  | cons c calls ih =>
    intro s
    rw [run_cons]
    rcases call_cases hs s c with ⟨hf, he⟩ | ⟨ht, _, h1, _, _⟩
    · have hv : step_state_access.validated hs s (c :: calls) =
          step_state_access.validated hs s calls := by
        simp only [step_state_access.validated, hf, he, if_false, Bool.false_eq_true]
      rw [hv, he]
      exact ih s
    · have hv : step_state_access.validated hs s (c :: calls) =
          s.m_next_access ::
            step_state_access.validated hs (step_state_access.call hs s c).2 calls := by
        simp only [step_state_access.validated, ht, if_true]
      obtain ⟨i1, i2⟩ := ih (step_state_access.call hs s c).2
      rw [hv, i1, h1]
      constructor
      · simp only [List.length_cons]; omega
      · simp only [List.length_cons, List.range'_succ]
        rw [h1] at i2
        rw [← i2]

theorem create_fields {Hash : Type} [Inhabited Hash] (log : access_log Hash)
    (verify_proofs one_based : Bool) (s0 : replay_state Hash)
    (h : step_state_access.create log verify_proofs one_based = .ok s0) :
    s0.m_next_access = 0 ∧ s0.m_accesses = log.accesses ∧
      s0.m_verify_proofs = verify_proofs ∧
      (verify_proofs = true → ∀ first rest, log.accesses = first :: rest →
        ∃ p, first.proof = some p ∧ s0.m_root_hash = p.root_hash) := by
  unfold step_state_access.create at h
  by_cases hc : (verify_proofs = true ∧ ¬ log.has_proofs = true)
  · rw [if_pos hc] at h
    cases h
  rw [if_neg hc] at h
  rcases hacc : log.accesses with _ | ⟨first, rest⟩ <;>
    rcases hv : verify_proofs with _ | _ <;> simp only [hacc, hv] at h
  · injection h with h
    subst h
    exact ⟨rfl, rfl, rfl, fun h0 => by cases h0⟩
  · injection h with h
    subst h
    exact ⟨rfl, rfl, rfl, fun _ first rest he => by cases he⟩
  · injection h with h
    subst h
    exact ⟨rfl, rfl, rfl, fun h0 => by cases h0⟩
  · rcases hp : first.proof with _ | p
    · rw [hp] at h
      cases h
    · rw [hp] at h
      injection h with h
      subst h
      refine ⟨rfl, rfl, rfl, ?_⟩
      intro _ first1 rest1 he
      cases he
      exact ⟨p, hp, rfl⟩

/-- C6. Failure atomicity and strict order: a `check_read` or `check_write`
that throws leaves the object, hence cursor and current root, exactly as it
was; one that returns has checked the record under the cursor (its kind, its
address and its size are those of the call) and advances the cursor by exactly
one. Hence, for any sequence of primitive calls on a fresh verifier, the
cursor equals the number `k` of calls that returned, and these calls were made
at the cursors `0, 1, ..., k - 1` in this order: the `i`-th of them validated
`accesses[i - 1]`. -/
theorem C6_failure_atomicity_strict_order {Hash : Type} [Inhabited Hash] [DecidableEq Hash]
    (hs : hasher_type Hash) :
    (∀ (s : replay_state Hash) (paligned : Nat) (log2_size : Int),
      (returned (step_state_access.check_read hs s paligned log2_size).1 = false →
        (step_state_access.check_read hs s paligned log2_size).2 = s) ∧
      (returned (step_state_access.check_read hs s paligned log2_size).1 = true →
        (step_state_access.check_read hs s paligned log2_size).2 =
            { s with m_next_access := s.m_next_access + 1 } ∧
          ∃ a, s.m_accesses[s.m_next_access]? = some a ∧ a.type = access_type.read ∧
            a.address = paligned ∧ a.log2_size = log2_size)) ∧
    (∀ (s : replay_state Hash) (paligned : Nat) (val : List Nat) (log2_size : Int),
      (returned (step_state_access.check_write hs s paligned val log2_size).1 = false →
        (step_state_access.check_write hs s paligned val log2_size).2 = s) ∧
      (returned (step_state_access.check_write hs s paligned val log2_size).1 = true →
        (step_state_access.check_write hs s paligned val log2_size).2.m_next_access =
            s.m_next_access + 1 ∧
          ∃ a, s.m_accesses[s.m_next_access]? = some a ∧ a.type = access_type.write ∧
            a.address = paligned ∧ a.log2_size = log2_size)) ∧
    (∀ (log : access_log Hash) (verify_proofs one_based : Bool) (s0 : replay_state Hash)
      (calls : List primitive_call),
      step_state_access.create log verify_proofs one_based = .ok s0 →
        (step_state_access.run hs s0 calls).m_next_access =
            (step_state_access.validated hs s0 calls).length ∧
          step_state_access.validated hs s0 calls =
            List.range (step_state_access.validated hs s0 calls).length) := by
  refine ⟨?_, ?_, ?_⟩
  · intro s paligned log2_size
    constructor
    · intro h
      exact (check_read_error hs s paligned log2_size h).1
    · intro h
      obtain ⟨a, ha, hok⟩ := check_read_ok hs s paligned log2_size h
      rw [hok]
      exact ⟨rfl, a, ha.2.2.2.1, ha.2.2.2.2.1, ha.2.2.2.2.2.2.2.1, ha.2.2.2.2.2.1⟩
  · intro s paligned val log2_size
    constructor
    · intro h
      exact (check_write_error hs s paligned val log2_size h).1
    · intro h
      obtain ⟨a, ha, hok⟩ := check_write_ok hs s paligned val log2_size h
      rw [hok]
      exact ⟨(write_accepted_frame hs s paligned val log2_size a ha).1, a, ha.2.2.2.1,
        ha.2.2.2.2.1, ha.2.2.2.2.2.2.2.2.1, ha.2.2.2.2.2.1⟩
  · intro log verify_proofs one_based s0 calls hcreate
    obtain ⟨h0, _, _, _⟩ := create_fields log verify_proofs one_based s0 hcreate
    obtain ⟨h1, h2⟩ := run_validated hs calls s0
    rw [h0, Nat.zero_add] at h1
    rw [h0] at h2
    refine ⟨h1, ?_⟩
    rw [List.range_eq_range']
    exact h2

/-- A run of C6 on `sample_log`: of the four calls of `sample_calls` the first
and the last return, at cursors 0 and 1, and the cursor ends at 2. -/
theorem C6_failure_atomicity_strict_order_witness :
    step_state_access.create sample_log true false = .ok sample_state ∧
      step_state_access.validated term_hasher sample_state sample_calls = [0, 1] ∧
      (step_state_access.run term_hasher sample_state sample_calls).m_next_access =
        (step_state_access.validated term_hasher sample_state sample_calls).length ∧
      step_state_access.validated term_hasher sample_state sample_calls =
        List.range (step_state_access.validated term_hasher sample_state sample_calls).length :=
  ⟨rfl, by decide,
    ((C6_failure_atomicity_strict_order term_hasher).2.2 sample_log true false sample_state
      sample_calls rfl).1,
    ((C6_failure_atomicity_strict_order term_hasher).2.2 sample_log true false sample_state
      sample_calls rfl).2⟩

/-- C9 as stated fails: on an exhausted log (`cursor == len(accesses)`) a
`check_read` or `check_write` with `log2_size = 2` throws "invalid access
size", and one with a misaligned address throws "access address not aligned to
size", not the too-few-accesses error. -/
theorem C9_advance_check_counterexample :
    sample_state_empty.m_next_access = sample_state_empty.m_accesses.length ∧
      (step_state_access.check_read term_hasher sample_state_empty 0 2).1 =
        .error (.invalid_argument .invalid_access_size) ∧
      (step_state_access.check_write term_hasher sample_state_empty 0 zero_word 2).1 =
        .error (.invalid_argument .invalid_access_size) ∧
      (step_state_access.check_read term_hasher sample_state_empty 4 3).1 =
        .error (.invalid_argument .access_address_not_aligned_to_size) ∧
      (step_state_access.check_write term_hasher sample_state_empty 4 zero_word 3).1 =
        .error (.invalid_argument .access_address_not_aligned_to_size) :=
  ⟨rfl, rfl, rfl, rfl, rfl⟩

/-- C9, amended. Advance check: if `cursor == len(accesses)`, every
`check_read` and `check_write` call throws and leaves the object as it was;
when moreover `3 ≤ log2_size ≤ 63` and the address is a multiple of
`2 ^ log2_size`, the exception is the too-few-accesses one ("too few accesses
in log" for `check_read`, "too few word accesses in log" for `check_write`). -/
theorem C9_advance_check_valid_arguments {Hash : Type} [DecidableEq Hash]
    (hs : hasher_type Hash) (s : replay_state Hash) (paligned : Nat) (val : List Nat)
    (log2_size : Int) (hend : s.m_next_access = s.m_accesses.length) :
    returned (step_state_access.check_read hs s paligned log2_size).1 = false ∧
      (step_state_access.check_read hs s paligned log2_size).2 = s ∧
      returned (step_state_access.check_write hs s paligned val log2_size).1 = false ∧
      (step_state_access.check_write hs s paligned val log2_size).2 = s ∧
      (3 ≤ log2_size → log2_size ≤ 63 → 2 ^ log2_size.toNat ∣ paligned →
        (step_state_access.check_read hs s paligned log2_size).1 =
            .error (.invalid_argument .too_few_accesses_in_log) ∧
          (step_state_access.check_write hs s paligned val log2_size).1 =
            .error (.invalid_argument .too_few_word_accesses_in_log)) := by
  have hnone : s.m_accesses[s.m_next_access]? = none :=
    List.getElem?_eq_none (Nat.le_of_eq hend.symm)
  have hr : returned (step_state_access.check_read hs s paligned log2_size).1 = false := by
    cases hret : returned (step_state_access.check_read hs s paligned log2_size).1 with
    | false => rfl
    | true =>
      obtain ⟨a, ha, _⟩ := check_read_ok hs s paligned log2_size hret
      have := ha.2.2.2.1
      rw [hnone] at this
      cases this
  have hw : returned (step_state_access.check_write hs s paligned val log2_size).1 =
      false := by
    cases hret : returned (step_state_access.check_write hs s paligned val log2_size).1 with
    | false => rfl
    | true =>
      obtain ⟨a, ha, _⟩ := check_write_ok hs s paligned val log2_size hret
      have := ha.2.2.2.1
      rw [hnone] at this
      cases this
  refine ⟨hr, (check_read_error hs s paligned log2_size hr).1, hw,
    (check_write_error hs s paligned val log2_size hw).1, ?_⟩
  intro h3 h63 hdvd
  have c1 : ¬ (log2_size < 3 ∨ log2_size > 63) := by omega
  have c2 : ¬ ((paligned &&& (shl1 log2_size.toNat - 1)) ≠ 0) :=
    not_not.mpr ((aligned_iff paligned (by omega)).2 hdvd)
  have c3 : s.m_next_access ≥ s.m_accesses.length := Nat.le_of_eq hend.symm
  constructor
  · unfold step_state_access.check_read
    rw [if_neg c1, if_neg c2, dif_pos c3]
  · unfold step_state_access.check_write
    rw [if_neg c1, if_neg c2, dif_pos c3]

/-- A run of the amended C9 at the end of `sample_log`, with valid
arguments. -/
theorem C9_advance_check_valid_arguments_witness :
    ({ sample_state with m_next_access := 2 } : replay_state term_hash).m_next_access =
        ({ sample_state with m_next_access := 2 } : replay_state term_hash).m_accesses.length ∧
      (step_state_access.check_read term_hasher { sample_state with m_next_access := 2 }
        8 3).1 = .error (.invalid_argument .too_few_accesses_in_log) ∧
      (step_state_access.check_write term_hasher { sample_state with m_next_access := 2 }
        8 one_word 3).1 = .error (.invalid_argument .too_few_word_accesses_in_log) :=
  ⟨rfl,
    (C9_advance_check_valid_arguments term_hasher { sample_state with m_next_access := 2 }
      8 one_word 3 rfl).2.2.2.2 (by decide) (by decide) (by decide)⟩

/-- C10. The terminal check: in every state a verifier reaches from its
constructor by primitive calls (returning or throwing), `finish()` throws "too
many word accesses in log" if and only if `cursor < len(accesses)`, returns
normally if and only if every record has been consumed, and leaves the object,
cursor and current root included, as it was. This holds of
`step_state_access` and of `uarch_replay_state_access`. -/
theorem C10_finish {Hash : Type} [Inhabited Hash] [DecidableEq Hash] (hs : hasher_type Hash)
    (log : access_log Hash) (verify_proofs one_based : Bool) (calls : List primitive_call) :
    (∀ s0, step_state_access.create log verify_proofs one_based = .ok s0 →
      ((step_state_access.finish (step_state_access.run hs s0 calls)).1 =
            .error (.invalid_argument .too_many_word_accesses_in_log) ↔
          (step_state_access.run hs s0 calls).m_next_access < log.accesses.length) ∧
        ((step_state_access.finish (step_state_access.run hs s0 calls)).1 = .ok () ↔
          (step_state_access.run hs s0 calls).m_next_access = log.accesses.length) ∧
        (step_state_access.finish (step_state_access.run hs s0 calls)).2 =
          step_state_access.run hs s0 calls) ∧
    (∀ s0, uarch_replay_state_access.create log verify_proofs one_based = .ok s0 →
      ((uarch_replay_state_access.finish (uarch_replay_state_access.run hs s0 calls)).1 =
            .error (.invalid_argument .too_many_word_accesses_in_log) ↔
          (uarch_replay_state_access.run hs s0 calls).m_next_access < log.accesses.length) ∧
        ((uarch_replay_state_access.finish (uarch_replay_state_access.run hs s0 calls)).1 =
            .ok () ↔
          (uarch_replay_state_access.run hs s0 calls).m_next_access = log.accesses.length) ∧
        (uarch_replay_state_access.finish (uarch_replay_state_access.run hs s0 calls)).2 =
          uarch_replay_state_access.run hs s0 calls) := by
  have main : ∀ s0, step_state_access.create log verify_proofs one_based = .ok s0 →
      ((step_state_access.finish (step_state_access.run hs s0 calls)).1 =
            .error (.invalid_argument .too_many_word_accesses_in_log) ↔
          (step_state_access.run hs s0 calls).m_next_access < log.accesses.length) ∧
        ((step_state_access.finish (step_state_access.run hs s0 calls)).1 = .ok () ↔
          (step_state_access.run hs s0 calls).m_next_access = log.accesses.length) ∧
        (step_state_access.finish (step_state_access.run hs s0 calls)).2 =
          step_state_access.run hs s0 calls := by
    intro s0 hcreate
    obtain ⟨h0, hacc, _, _⟩ := create_fields log verify_proofs one_based s0 hcreate
    obtain ⟨hle, hsame, _⟩ := run_frame hs calls s0 (by rw [h0]; exact Nat.zero_le _)
    rw [hacc] at hle
    have hlen : (step_state_access.run hs s0 calls).m_accesses.length = log.accesses.length := by
      rw [hsame, hacc]
    unfold step_state_access.finish
    by_cases hc : (step_state_access.run hs s0 calls).m_next_access ≠
        (step_state_access.run hs s0 calls).m_accesses.length
    · rw [if_pos hc]
      rw [hlen] at hc
      refine ⟨⟨fun _ => (by omega), fun _ => rfl⟩,
        ⟨fun h => (by cases h), fun h => absurd h hc⟩, rfl⟩
    · rw [if_neg hc]
      rw [hlen] at hc
      refine ⟨⟨fun h => (by cases h), fun h => (by omega)⟩,
        ⟨fun _ => (by omega), fun _ => rfl⟩, rfl⟩
  refine ⟨main, ?_⟩
  intro s0 hcreate
  rw [uarch_create_eq] at hcreate
  rw [uarch_run_eq, uarch_finish_eq]
  exact main s0 hcreate

/-- A run of C10 on `sample_log`: after the accepted read alone `finish()`
throws, after the read and the write it returns. -/
theorem C10_finish_witness :
    step_state_access.create sample_log true false = .ok sample_state ∧
      (step_state_access.finish
          (step_state_access.run term_hasher sample_state [primitive_call.read 8 3])).1 =
        .error (.invalid_argument .too_many_word_accesses_in_log) ∧
      (step_state_access.finish
          (step_state_access.run term_hasher sample_state sample_calls)).1 = .ok () :=
  ⟨rfl,
    ((C10_finish term_hasher sample_log true false [primitive_call.read 8 3]).1 sample_state
      rfl).1.2 (by decide),
    ((C10_finish term_hasher sample_log true false sample_calls).1 sample_state rfl).2.1.2
      (by decide)⟩

theorem commitment_take_succ {Hash : Type} (hs : hasher_type Hash) (init : Hash)
    (accesses : List (access Hash)) (c : Nat) (a : access Hash)
    (h : accesses[c]? = some a) :
    commitment hs init (accesses.take (c + 1)) =
      (match a.type, a.proof with
        | .write, some p =>
          (step_state_access.roll_hash_up_tree hs p
            (step_state_access.get_hash hs a.written)).2
        | _, _ => commitment hs init (accesses.take c)) := by
  unfold commitment
  rw [List.take_succ, h, List.foldl_append]
  rfl

theorem commitment_take_read {Hash : Type} (hs : hasher_type Hash) (init : Hash)
    (accesses : List (access Hash)) (c : Nat) (a : access Hash)
    (h : accesses[c]? = some a) (hr : a.type = access_type.read) :
    commitment hs init (accesses.take (c + 1)) = commitment hs init (accesses.take c) := by
  rw [commitment_take_succ hs init accesses c a h, hr]

theorem commitment_take_write {Hash : Type} (hs : hasher_type Hash) (init : Hash)
    (accesses : List (access Hash)) (c : Nat) (a : access Hash) (p : merkle_tree_proof Hash)
    (h : accesses[c]? = some a) (hw : a.type = access_type.write) (hp : a.proof = some p) :
    commitment hs init (accesses.take (c + 1)) =
      (step_state_access.roll_hash_up_tree hs p (step_state_access.get_hash hs a.written)).2 := by
  rw [commitment_take_succ hs init accesses c a h, hw, hp]

theorem call_chained {Hash : Type} [DecidableEq Hash] (hs : hasher_type Hash) (init : Hash)
    (s : replay_state Hash) (c : primitive_call) (hv : s.m_verify_proofs = true)
    (hroot : s.m_root_hash = commitment hs init (s.m_accesses.take s.m_next_access))
    (hch : ∀ j, j < s.m_next_access → chained hs init s.m_accesses j) :
    (step_state_access.call hs s c).2.m_accesses = s.m_accesses ∧
      (step_state_access.call hs s c).2.m_verify_proofs = true ∧
      (step_state_access.call hs s c).2.m_root_hash =
        commitment hs init (s.m_accesses.take (step_state_access.call hs s c).2.m_next_access) ∧
      (∀ j, j < (step_state_access.call hs s c).2.m_next_access →
        chained hs init s.m_accesses j) := by
  cases c with
  | read paligned log2_size =>
    simp only [step_state_access.call]
    cases hret : returned (step_state_access.check_read hs s paligned log2_size).1 with
    | false =>
      rw [(check_read_error hs s paligned log2_size hret).1]
      exact ⟨rfl, hv, hroot, hch⟩
    | true =>
      obtain ⟨a, ha, hok⟩ := check_read_ok hs s paligned log2_size hret
      obtain ⟨p, hp, _, hproot, _, _⟩ := ha.2.2.2.2.2.2.2.2 hv
      have hget := ha.2.2.2.1
      have hty := ha.2.2.2.2.1
      have hsame := commitment_take_read hs init s.m_accesses s.m_next_access a hget hty
      rw [hok]
      refine ⟨rfl, hv, ?_, ?_⟩
      · show s.m_root_hash = _
        rw [hroot]
        exact hsame.symm
      · intro j hj
        by_cases hjc : j < s.m_next_access
        · exact hch j hjc
        · have hje : j = s.m_next_access := by
            have : j < s.m_next_access + 1 := hj
            omega
          subst hje
          refine ⟨a, p, hget, hp, ?_, fun _ => hsame, fun hw => ?_⟩
          · rw [hproot, hroot]
          · rw [hty] at hw
            cases hw
  | write paligned val log2_size =>
    simp only [step_state_access.call]
    cases hret : returned (step_state_access.check_write hs s paligned val log2_size).1 with
    | false =>
      rw [(check_write_error hs s paligned val log2_size hret).1]
      exact ⟨rfl, hv, hroot, hch⟩
    | true =>
      obtain ⟨a, ha, hok⟩ := check_write_ok hs s paligned val log2_size hret
      obtain ⟨p, hp, _, hproot, _, hroll, _⟩ := ha.2.2.2.2.2.2.2.2.2 hv
      have hget := ha.2.2.2.1
      have hty := ha.2.2.2.2.1
      have hnew := commitment_take_write hs init s.m_accesses s.m_next_access a p hget hty hp
      rw [hok, write_result_verified hs s a p hv hp]
      refine ⟨rfl, hv, hnew.symm, ?_⟩
      intro j hj
      by_cases hjc : j < s.m_next_access
      · exact hch j hjc
      · have hje : j = s.m_next_access := by
          have : j < s.m_next_access + 1 := hj
          omega
        subst hje
        refine ⟨a, p, hget, hp, ?_, fun hr => ?_, fun _ => ?_⟩
        · rw [hproot, hroot]
        · rw [hty] at hr
          cases hr
        · rw [hnew]
          exact write_root_rolled hs p _ _ _ hroll

theorem run_chained {Hash : Type} [DecidableEq Hash] (hs : hasher_type Hash) (init : Hash)
    (calls : List primitive_call) :
    ∀ (s : replay_state Hash), s.m_verify_proofs = true →
      s.m_root_hash = commitment hs init (s.m_accesses.take s.m_next_access) →
      (∀ j, j < s.m_next_access → chained hs init s.m_accesses j) →
      (step_state_access.run hs s calls).m_root_hash =
          commitment hs init
            (s.m_accesses.take (step_state_access.run hs s calls).m_next_access) ∧
        (∀ j, j < (step_state_access.run hs s calls).m_next_access →
          chained hs init s.m_accesses j) := by
  induction calls with
  | nil => intro s _ hroot hch; exact ⟨hroot, hch⟩
  | cons c calls ih =>
    intro s hv hroot hch
    rw [run_cons]
    obtain ⟨h1, h2, h3, h4⟩ := call_chained hs init s c hv hroot hch
    have := ih (step_state_access.call hs s c).2 h2 (by rw [h1]; exact h3)
      (by rw [h1]; exact h4)
    rw [h1] at this
    exact this

/-- C7. Root chaining invariant: for a verifier constructed with
`verify_proofs` set, in every state reached by primitive calls the current
root is the commitment after the consumed records `accesses[0 .. cursor - 1]`:
the initial root, which is `accesses[0].proof.root_hash`, if no write has been
consumed, and otherwise the roll-up of the `written` bytes of the last
consumed write (`commitment`). Moreover every consumed record `j` carries a
proof whose `root_hash` is the commitment after the first `j` records, a read
leaving the commitment unchanged and a write replacing it by the roll-up of
its `written` bytes through its proof. -/
theorem C7_root_chaining {Hash : Type} [Inhabited Hash] [DecidableEq Hash]
    (hs : hasher_type Hash) (log : access_log Hash) (one_based : Bool)
    (s0 : replay_state Hash) (calls : List primitive_call)
    (hcreate : step_state_access.create log true one_based = .ok s0) :
    (∀ first rest, log.accesses = first :: rest →
      ∃ p, first.proof = some p ∧ s0.m_root_hash = p.root_hash) ∧
    (step_state_access.run hs s0 calls).m_root_hash =
      commitment hs s0.m_root_hash
        (log.accesses.take (step_state_access.run hs s0 calls).m_next_access) ∧
    (∀ j, j < (step_state_access.run hs s0 calls).m_next_access →
      ∃ a p, log.accesses[j]? = some a ∧ a.proof = some p ∧
        p.root_hash = commitment hs s0.m_root_hash (log.accesses.take j) ∧
        (a.type = access_type.read →
          commitment hs s0.m_root_hash (log.accesses.take (j + 1)) =
            commitment hs s0.m_root_hash (log.accesses.take j)) ∧
        (a.type = access_type.write →
          step_state_access.roll_hash_up_tree hs p (step_state_access.get_hash hs a.written) =
            (.ok (), commitment hs s0.m_root_hash (log.accesses.take (j + 1))))) := by
  obtain ⟨h0, hacc, hv, hfirst⟩ := create_fields log true one_based s0 hcreate
  have hrun := run_chained hs s0.m_root_hash calls s0 hv
    (by rw [h0]; rfl) (by intro j hj; rw [h0] at hj; omega)
  rw [hacc] at hrun
  exact ⟨hfirst rfl, hrun.1, hrun.2⟩

/-- A run of C7 on `sample_log`: after the read and the write the current
root is the roll-up of the word `1`. -/
theorem C7_root_chaining_witness :
    step_state_access.create sample_log true false = .ok sample_state ∧
      (step_state_access.run term_hasher sample_state sample_calls).m_next_access = 2 ∧
      (step_state_access.run term_hasher sample_state sample_calls).m_root_hash =
        term_hash.node (term_hash.node (term_hash.data [7]) (term_hash.data one_word))
          (term_hash.data [9]) ∧
      (step_state_access.run term_hasher sample_state sample_calls).m_root_hash =
        commitment term_hasher sample_state.m_root_hash
          (sample_log.accesses.take
            (step_state_access.run term_hasher sample_state sample_calls).m_next_access) :=
  ⟨rfl, by decide, by decide,
    (C7_root_chaining term_hasher sample_log false sample_state sample_calls rfl).2.1⟩

theorem get_hash_rec_injective {Hash : Type} (hs : hasher_type Hash)
    (hdata : Function.Injective hs.data)
    (hconcat : ∀ a b c d, hs.concat a b = hs.concat c d → a = c ∧ b = d) :
    ∀ (fuel k : Nat) (data data1 : List Nat),
      step_state_access.get_hash_rec hs fuel data (2 ^ k) =
        step_state_access.get_hash_rec hs fuel data1 (2 ^ k) →
      data.take (2 ^ k) = data1.take (2 ^ k) := by
  intro fuel
  induction fuel with
  | zero =>
    intro k data data1 h
    exact hdata h
  | succ fuel ih =>
    intro k data data1 h
    simp only [step_state_access.get_hash_rec] at h
    by_cases hle : 2 ^ k ≤ 8
    · rw [if_pos hle, if_pos hle] at h
      exact hdata h
    · rw [if_neg hle, if_neg hle] at h
      cases k with
      | zero => simp at hle
      | succ k =>
        have hhalf : 2 ^ (k + 1) / 2 = 2 ^ k := by
          rw [pow_succ]; omega
        rw [hhalf] at h
        obtain ⟨h1, h2⟩ := hconcat _ _ _ _ h
        have e1 := ih k data data1 h1
        have e2 := ih k (data.drop (2 ^ k)) (data1.drop (2 ^ k)) h2
        have hsum : 2 ^ (k + 1) = 2 ^ k + 2 ^ k := by rw [pow_succ]; omega
        rw [hsum, List.take_add, List.take_add, e1, e2]

theorem get_hash_injective {Hash : Type} (hs : hasher_type Hash)
    (hdata : Function.Injective hs.data)
    (hconcat : ∀ a b c d, hs.concat a b = hs.concat c d → a = c ∧ b = d)
    (k : Nat) (data data1 : List Nat) (h1 : data.length = 2 ^ k) (h2 : data1.length = 2 ^ k)
    (h : step_state_access.get_hash hs data = step_state_access.get_hash hs data1) :
    data = data1 := by
  unfold step_state_access.get_hash at h
  rw [h1, h2] at h
  have := get_hash_rec_injective hs hdata hconcat (2 ^ k) k data data1 h
  rw [← h1] at this
  rw [List.take_length] at this
  rw [this, h1, ← h2, List.take_length]

theorem roll_loop_injective {Hash : Type} (hs : hasher_type Hash)
    (hconcat : ∀ a b c d, hs.concat a b = hs.concat c d → a = c ∧ b = d)
    (p : merkle_tree_proof Hash) :
    ∀ (n k : Nat) (h h1 x : Hash),
      step_state_access.roll_hash_up_tree_loop hs p n k h = (.ok (), x) →
      step_state_access.roll_hash_up_tree_loop hs p n k h1 = (.ok (), x) →
      h = h1 := by
  intro n
  induction n with
  | zero =>
    intro k h h1 x e1 e2
    simp only [step_state_access.roll_hash_up_tree_loop, Prod.mk.injEq, true_and] at e1 e2
    rw [e1, e2]
  | succ n ih =>
    intro k h h1 x e1 e2
    simp only [step_state_access.roll_hash_up_tree_loop] at e1 e2
    cases hsib : p.get_sibling_hash k with
    | error e =>
      rw [hsib] at e1
      simp at e1
    | ok sibling =>
      rw [hsib] at e1 e2
      dsimp only at e1 e2
      split_ifs at e1 e2
      · exact (hconcat _ _ _ _ (ih _ _ _ _ e1 e2)).2
      · exact (hconcat _ _ _ _ (ih _ _ _ _ e1 e2)).1

/-- C8. Write reversibility: let the hasher be collision-free (both hashing
operations injective). For every write record `r` that `check_write` accepts
with `verify_proofs` set, the root after the write (the roll-up of
`r.written`) differs from the root before it (the roll-up of `r.read` through
the same siblings) if and only if `r.read ≠ r.written`; in particular a write
whose `written` bytes equal its `read` bytes leaves the current root
unchanged. -/
theorem C8_write_reversibility {Hash : Type} [DecidableEq Hash] (hs : hasher_type Hash)
    (hdata : Function.Injective hs.data)
    (hconcat : ∀ a b c d, hs.concat a b = hs.concat c d → a = c ∧ b = d)
    (s : replay_state Hash) (paligned : Nat) (val : List Nat) (log2_size : Int)
    (r : access Hash) (hverify : s.m_verify_proofs = true)
    (hr : s.m_accesses[s.m_next_access]? = some r)
    (hok : returned (step_state_access.check_write hs s paligned val log2_size).1 = true) :
    ((step_state_access.check_write hs s paligned val log2_size).2.m_root_hash ≠
        s.m_root_hash ↔ r.read ≠ r.written) ∧
      (r.written = r.read →
        (step_state_access.check_write hs s paligned val log2_size).2.m_root_hash =
          s.m_root_hash) := by
  obtain ⟨a, ha, hres⟩ := check_write_ok hs s paligned val log2_size hok
  have hget := ha.2.2.2.1
  rw [hr] at hget
  cases hget
  obtain ⟨p, hp, _, hproot, _, hroll, _⟩ := ha.2.2.2.2.2.2.2.2.2 hverify
  have hnew : (step_state_access.check_write hs s paligned val log2_size).2.m_root_hash =
      (step_state_access.roll_hash_up_tree hs p (step_state_access.get_hash hs r.written)).2 := by
    rw [hres, write_result_verified hs s r p hverify hp]
  have hroll2 := write_root_rolled hs p _ (step_state_access.get_hash hs r.written) _ hroll
  rw [hproot] at hroll
  have hiff : (step_state_access.roll_hash_up_tree hs p
      (step_state_access.get_hash hs r.written)).2 = s.m_root_hash ↔ r.read = r.written := by
    constructor
    · intro e
      rw [e] at hroll2
      have := roll_loop_injective hs hconcat p _ _ _ _ _ hroll hroll2
      exact get_hash_injective hs hdata hconcat log2_size.toNat r.read r.written
        ha.2.2.2.2.2.2.1 ha.2.2.2.2.2.2.2.1 this
    · intro e
      rw [← e, hroll]
  rw [hnew]
  exact ⟨not_congr hiff, fun e => hiff.2 e.symm⟩

theorem term_hasher_data_injective : Function.Injective term_hasher.data := by
  intro a b h
  exact term_hash.data.inj h

theorem term_hasher_concat_injective (a b c d : term_hash)
    (h : term_hasher.concat a b = term_hasher.concat c d) : a = c ∧ b = d :=
  term_hash.node.inj h

/-- A run of C8 on the write record of `sample_log`, whose `written` bytes
differ from its `read` bytes: the root changes. -/
theorem C8_write_reversibility_witness :
    sample_state_1.m_verify_proofs = true ∧
      sample_state_1.m_accesses[sample_state_1.m_next_access]? = some sample_write ∧
      returned (step_state_access.check_write term_hasher sample_state_1 8 one_word 3).1 = true ∧
      sample_write.read ≠ sample_write.written ∧
      (step_state_access.check_write term_hasher sample_state_1 8 one_word 3).2.m_root_hash ≠
        sample_state_1.m_root_hash :=
  ⟨rfl, rfl, by decide, by decide,
    (C8_write_reversibility term_hasher term_hasher_data_injective
      term_hasher_concat_injective sample_state_1 8 one_word 3 sample_write rfl rfl
      (by decide)).1.2 (by decide)⟩

/-! ## The recursion bound of `get_hash` -/

theorem get_hash_rec_fuel {Hash : Type} (hs : hasher_type Hash) :
    ∀ (fuel fuel1 : Nat) (data : List Nat) (len : Nat), len ≤ fuel → len ≤ fuel1 →
      step_state_access.get_hash_rec hs fuel data len =
        step_state_access.get_hash_rec hs fuel1 data len := by
  intro fuel
  induction fuel with
  | zero =>
    intro fuel1 data len h _
    have h0 : len = 0 := by omega
    subst h0
    cases fuel1 with
    | zero => rfl
    | succ fuel1 => simp [step_state_access.get_hash_rec]
  | succ fuel ih =>
    intro fuel1 data len h h1
    cases fuel1 with
    | zero =>
      have h0 : len = 0 := by omega
      subst h0
      simp [step_state_access.get_hash_rec]
    | succ fuel1 =>
      simp only [step_state_access.get_hash_rec]
      by_cases hle : len ≤ 8
      · rw [if_pos hle, if_pos hle]
      · rw [if_neg hle, if_neg hle]
        rw [ih fuel1 data (len / 2) (by omega) (by omega),
          ih fuel1 (data.drop (len / 2)) (len / 2) (by omega) (by omega)]

/-! ## Further claims on the back-tree -/

theorem reachable_tree {Hash : Type} [Inhabited Hash] (hs : hasher_type Hash)
    (log2_root_size log2_leaf_size log2_word_size : Int) (t0 : back_merkle_tree Hash)
    (pushed : List Hash)
    (hcreate :
      back_merkle_tree.create hs log2_root_size log2_leaf_size log2_word_size = .ok t0) :
    (log2_root_size - log2_leaf_size).toNat = log2_root_size.toNat - log2_leaf_size.toNat ∧
      (log2_leaf_size - log2_word_size).toNat = log2_leaf_size.toNat - log2_word_size.toNat ∧
      ∃ leaves, tree_inv hs log2_root_size.toNat log2_leaf_size.toNat log2_word_size.toNat
        (back_merkle_tree.push_back_all hs t0 pushed) leaves := by
  obtain ⟨h0, h1, h2, h3, hinv⟩ := create_inv hs _ _ _ t0 hcreate
  exact ⟨by omega, by omega, reachable_inv hs _ _ _ pushed t0 [] hinv⟩

/-- C13. Overflow of `push_back`: in every state reached from a fresh
back-tree by `push_back` calls, `push_back` throws `std::out_of_range` ("too
many leaves") if and only if `leaf_count == 2 ^ D` before the call; a call
that throws leaves the object, so `leaf_count` and every context entry, as it
was, and a call that returns increases `leaf_count` by exactly one. -/
theorem C13_push_back_out_of_range {Hash : Type} [Inhabited Hash] (hs : hasher_type Hash)
    (log2_root_size log2_leaf_size log2_word_size : Int) (t0 : back_merkle_tree Hash)
    (pushed : List Hash) (h : Hash)
    (hcreate :
      back_merkle_tree.create hs log2_root_size log2_leaf_size log2_word_size = .ok t0) :
    ((back_merkle_tree.push_back hs (back_merkle_tree.push_back_all hs t0 pushed) h).1 =
          .error (.out_of_range .too_many_leaves) ↔
        (back_merkle_tree.push_back_all hs t0 pushed).m_leaf_count =
          2 ^ (log2_root_size - log2_leaf_size).toNat) ∧
      (returned (back_merkle_tree.push_back hs (back_merkle_tree.push_back_all hs t0 pushed) h).1 =
          false ↔
        (back_merkle_tree.push_back_all hs t0 pushed).m_leaf_count =
          2 ^ (log2_root_size - log2_leaf_size).toNat) ∧
      (returned (back_merkle_tree.push_back hs (back_merkle_tree.push_back_all hs t0 pushed) h).1 =
          false →
        (back_merkle_tree.push_back hs (back_merkle_tree.push_back_all hs t0 pushed) h).2 =
          back_merkle_tree.push_back_all hs t0 pushed) ∧
      (returned (back_merkle_tree.push_back hs (back_merkle_tree.push_back_all hs t0 pushed) h).1 =
          true →
        (back_merkle_tree.push_back hs (back_merkle_tree.push_back_all hs t0 pushed)
            h).2.m_leaf_count =
          (back_merkle_tree.push_back_all hs t0 pushed).m_leaf_count + 1) := by
  obtain ⟨hD, _, leaves, ht⟩ := reachable_tree hs _ _ _ t0 pushed hcreate
  rw [hD]
  generalize back_merkle_tree.push_back_all hs t0 pushed = t at ht
  have hle := ht.count_le
  by_cases hfull : t.m_leaf_count ≥ t.m_max_leaves
  · have heq : t.m_leaf_count = 2 ^ (log2_root_size.toNat - log2_leaf_size.toNat) := by
      rw [ht.count_eq, ht.max_eq] at hfull
      rw [ht.count_eq]
      omega
    have hres : back_merkle_tree.push_back hs t h =
        (.error (.out_of_range .too_many_leaves), t) := by
      unfold back_merkle_tree.push_back
      rw [if_pos hfull]
    rw [hres]
    exact ⟨⟨fun _ => heq, fun _ => rfl⟩, ⟨fun _ => heq, fun _ => rfl⟩, fun _ => rfl,
      fun h0 => (by cases h0)⟩
  · have hlt : leaves.length < 2 ^ (log2_root_size.toNat - log2_leaf_size.toNat) := by
      rw [ht.count_eq, ht.max_eq] at hfull
      omega
    have hne : t.m_leaf_count ≠ 2 ^ (log2_root_size.toNat - log2_leaf_size.toNat) := by
      rw [ht.count_eq]
      omega
    obtain ⟨hok, hnext⟩ := push_back_inv hs _ _ _ t leaves h ht hlt
    have hcount : (back_merkle_tree.push_back hs t h).2.m_leaf_count = t.m_leaf_count + 1 := by
      rw [hnext.count_eq, ht.count_eq]
      simp
    refine ⟨⟨fun h0 => ?_, fun h0 => absurd h0 hne⟩, ⟨fun h0 => ?_, fun h0 => absurd h0 hne⟩,
      fun h0 => ?_, fun _ => hcount⟩
    · rw [hok] at h0
      cases h0
    · rw [hok] at h0
      cases h0
    · rw [hok] at h0
      cases h0

/-- A run of C13 on the tree of geometry `(3, 1, 0)`: the fourth push
returns, the fifth throws. -/
theorem C13_push_back_out_of_range_witness :
    back_merkle_tree.create term_hasher 3 1 0 = .ok sample_tree ∧
      returned (back_merkle_tree.push_back term_hasher
        (back_merkle_tree.push_back_all term_hasher sample_tree sample_leaves)
        (term_hash.data [4])).1 = true ∧
      (back_merkle_tree.push_back term_hasher
          (back_merkle_tree.push_back_all term_hasher sample_tree sample_leaves_full)
          (term_hash.data [5])).1 = .error (.out_of_range .too_many_leaves) :=
  ⟨rfl, by decide,
    (C13_push_back_out_of_range term_hasher 3 1 0 sample_tree sample_leaves_full
      (term_hash.data [5]) rfl).1.2 (by decide)⟩

/-- C14 as stated fails: on the tree of geometry `(3, 1, 0)` the fourth
`push_back` returns and brings `leaf_count` to `2 ^ D = 4`, after which
`get_next_leaf_proof` throws `std::out_of_range` ("tree is full"). -/
theorem C14_next_leaf_proof_after_push_counterexample :
    back_merkle_tree.create term_hasher 3 1 0 = .ok sample_tree ∧
      returned (back_merkle_tree.push_back term_hasher
        (back_merkle_tree.push_back_all term_hasher sample_tree sample_leaves)
        (term_hash.data [4])).1 = true ∧
      (back_merkle_tree.push_back term_hasher
        (back_merkle_tree.push_back_all term_hasher sample_tree sample_leaves)
        (term_hash.data [4])).2.m_leaf_count = 4 ∧
      back_merkle_tree.get_next_leaf_proof term_hasher
          (back_merkle_tree.push_back term_hasher
            (back_merkle_tree.push_back_all term_hasher sample_tree sample_leaves)
            (term_hash.data [4])).2 =
        .error (.out_of_range .tree_is_full) :=
  ⟨rfl, by decide, by decide, rfl⟩

/-- C14, amended. After each `push_back` that returns, in any state reached
from a fresh back-tree, `get_root_hash` returns a hash; `get_next_leaf_proof`
returns a proof when the push left `leaf_count < 2 ^ D`, and throws
`std::out_of_range` ("tree is full") when the push brought `leaf_count` to
`2 ^ D`. -/
theorem C14_queries_after_push {Hash : Type} [Inhabited Hash] [DecidableEq Hash]
    (hs : hasher_type Hash) (log2_root_size log2_leaf_size log2_word_size : Int)
    (t0 : back_merkle_tree Hash) (pushed : List Hash) (h : Hash)
    (hcreate :
      back_merkle_tree.create hs log2_root_size log2_leaf_size log2_word_size = .ok t0)
    (_hpush : returned (back_merkle_tree.push_back hs
      (back_merkle_tree.push_back_all hs t0 pushed) h).1 = true) :
    (∃ root, back_merkle_tree.get_root_hash hs
        (back_merkle_tree.push_back hs (back_merkle_tree.push_back_all hs t0 pushed) h).2 =
          .ok root) ∧
      ((back_merkle_tree.push_back hs (back_merkle_tree.push_back_all hs t0 pushed)
            h).2.m_leaf_count < 2 ^ (log2_root_size - log2_leaf_size).toNat →
        ∃ proof, back_merkle_tree.get_next_leaf_proof hs
          (back_merkle_tree.push_back hs (back_merkle_tree.push_back_all hs t0 pushed) h).2 =
            .ok proof) ∧
      ((back_merkle_tree.push_back hs (back_merkle_tree.push_back_all hs t0 pushed)
            h).2.m_leaf_count = 2 ^ (log2_root_size - log2_leaf_size).toNat →
        back_merkle_tree.get_next_leaf_proof hs
          (back_merkle_tree.push_back hs (back_merkle_tree.push_back_all hs t0 pushed) h).2 =
            .error (.out_of_range .tree_is_full)) := by
  have hstep : (back_merkle_tree.push_back hs (back_merkle_tree.push_back_all hs t0 pushed) h).2 =
      back_merkle_tree.push_back_all hs t0 (pushed ++ [h]) := by
    simp [back_merkle_tree.push_back_all, List.foldl_append]
  rw [hstep]
  obtain ⟨hD, _, leaves, ht⟩ := reachable_tree hs _ _ _ t0 (pushed ++ [h]) hcreate
  rw [hD]
  generalize back_merkle_tree.push_back_all hs t0 (pushed ++ [h]) = t at ht
  refine ⟨⟨_, get_root_hash_eq hs _ _ _ t leaves ht⟩, fun hlt => ?_, fun heq => ?_⟩
  · rw [ht.count_eq] at hlt
    obtain ⟨proof, e, _⟩ := get_next_leaf_proof_ok hs _ _ _ t leaves ht hlt
    exact ⟨proof, e⟩
  · unfold back_merkle_tree.get_next_leaf_proof
    rw [if_pos (by rw [ht.max_eq, heq])]

/-- A run of the amended C14: after the third push on the tree of geometry
`(3, 1, 0)` both queries return. -/
theorem C14_queries_after_push_witness :
    back_merkle_tree.create term_hasher 3 1 0 = .ok sample_tree ∧
      returned (back_merkle_tree.push_back term_hasher
        (back_merkle_tree.push_back_all term_hasher sample_tree
          [term_hash.data [1], term_hash.data [2]]) (term_hash.data [3])).1 = true ∧
      (∃ root, back_merkle_tree.get_root_hash term_hasher
        (back_merkle_tree.push_back term_hasher
          (back_merkle_tree.push_back_all term_hasher sample_tree
            [term_hash.data [1], term_hash.data [2]]) (term_hash.data [3])).2 = .ok root) ∧
      ∃ proof, back_merkle_tree.get_next_leaf_proof term_hasher
        (back_merkle_tree.push_back term_hasher
          (back_merkle_tree.push_back_all term_hasher sample_tree
            [term_hash.data [1], term_hash.data [2]]) (term_hash.data [3])).2 = .ok proof :=
  ⟨rfl, by decide,
    (C14_queries_after_push term_hasher 3 1 0 sample_tree
      [term_hash.data [1], term_hash.data [2]] (term_hash.data [3]) rfl (by decide)).1,
    (C14_queries_after_push term_hasher 3 1 0 sample_tree
      [term_hash.data [1], term_hash.data [2]] (term_hash.data [3]) rfl (by decide)).2.1
      (by decide)⟩

/-- C17. Geometry validation: the constructor of `back_merkle_tree` returns
if and only if `0 ≤ log2_word_size ≤ log2_leaf_size ≤ log2_root_size < 64`;
for every other triple it throws `std::out_of_range`; and a freshly
constructed tree has `leaf_count = 0`. -/
theorem C17_geometry_validation {Hash : Type} [Inhabited Hash] (hs : hasher_type Hash)
    (log2_root_size log2_leaf_size log2_word_size : Int) :
    ((∃ t, back_merkle_tree.create hs log2_root_size log2_leaf_size log2_word_size = .ok t) ↔
        0 ≤ log2_word_size ∧ log2_word_size ≤ log2_leaf_size ∧
          log2_leaf_size ≤ log2_root_size ∧ log2_root_size < 64) ∧
      (¬ (0 ≤ log2_word_size ∧ log2_word_size ≤ log2_leaf_size ∧
          log2_leaf_size ≤ log2_root_size ∧ log2_root_size < 64) →
        ∃ m, back_merkle_tree.create hs log2_root_size log2_leaf_size log2_word_size =
          .error (.out_of_range m)) ∧
      (∀ t, back_merkle_tree.create hs log2_root_size log2_leaf_size log2_word_size = .ok t →
        t.m_leaf_count = 0) := by
  have hfail : ¬ (0 ≤ log2_word_size ∧ log2_word_size ≤ log2_leaf_size ∧
      log2_leaf_size ≤ log2_root_size ∧ log2_root_size < 64) →
      ∃ m, back_merkle_tree.create hs log2_root_size log2_leaf_size log2_word_size =
        .error (.out_of_range m) := by
    intro hbad
    unfold back_merkle_tree.create
    split_ifs with h1 h2 h3 h4 h5 h6
    · exact ⟨_, rfl⟩
    · exact ⟨_, rfl⟩
    · exact ⟨_, rfl⟩
    · exact ⟨_, rfl⟩
    · exact ⟨_, rfl⟩
    · exact ⟨_, rfl⟩
    · exact absurd ⟨by omega, by omega, by omega, by omega⟩ hbad
  refine ⟨⟨?_, ?_⟩, hfail, ?_⟩
  · rintro ⟨t, ht⟩
    obtain ⟨h0, h1, h2, h3, _⟩ := create_inv hs _ _ _ t ht
    exact ⟨h0, h1, h2, h3⟩
  · rintro ⟨h0, h1, h2, h3⟩
    unfold back_merkle_tree.create
    rw [if_neg (by omega), if_neg (by omega), if_neg (by omega), if_neg (by omega),
      if_neg (by omega), if_neg (by omega)]
    exact ⟨_, rfl⟩
  · intro t ht
    obtain ⟨_, _, _, _, hinv⟩ := create_inv hs _ _ _ t ht
    rw [hinv.count_eq]
    rfl

/-- A run of C17: the geometry `(3, 1, 0)` is accepted, the geometries
`(64, 12, 3)`, `(3, 4, 0)`, `(3, 1, 2)` and `(3, 1, -1)` are rejected. -/
theorem C17_geometry_validation_witness :
    (∃ t, back_merkle_tree.create term_hasher 3 1 0 = .ok t) ∧
      (∃ m, back_merkle_tree.create term_hasher 64 12 3 = .error (.out_of_range m)) ∧
      (∃ m, back_merkle_tree.create term_hasher 3 4 0 = .error (.out_of_range m)) ∧
      (∃ m, back_merkle_tree.create term_hasher 3 1 2 = .error (.out_of_range m)) ∧
      (∃ m, back_merkle_tree.create term_hasher 3 1 (-1) = .error (.out_of_range m)) :=
  ⟨(C17_geometry_validation term_hasher 3 1 0).1.2 (by decide),
    (C17_geometry_validation term_hasher 64 12 3).2.1 (by decide),
    (C17_geometry_validation term_hasher 3 4 0).2.1 (by decide),
    (C17_geometry_validation term_hasher 3 1 2).2.1 (by decide),
    (C17_geometry_validation term_hasher 3 1 (-1)).2.1 (by decide)⟩

theorem push_back_loop_indices_lt (leaf_count : Nat) :
    ∀ (n i j : Nat), j ∈ back_merkle_tree.push_back_loop_indices leaf_count n i → j < i + n := by
  intro n
  induction n with
  | zero =>
    intro i j hj
    simp [back_merkle_tree.push_back_loop_indices] at hj
  | succ n ih =>
    intro i j hj
    simp only [back_merkle_tree.push_back_loop_indices] at hj
    split_ifs at hj
    · rcases List.mem_cons.mp hj with h | h
      · omega
      · have := ih (i + 1) j h
        omega
    · have : j = i := by simpa using hj
      omega

/-- C19. Overflow invariant: in every state reached from a successfully
constructed back-tree by `push_back` calls, returning or throwing
(`get_root_hash` and `get_next_leaf_proof` are const and change nothing),
`leaf_count ≤ 2 ^ D`; so the assertion `m_leaf_count <= m_max_leaves` of
`get_root_hash` holds, the context vector has `D + 1` entries, and every index
at which `push_back`, `get_root_hash` or `get_next_leaf_proof` accesses the
context lies inside it. -/
theorem C19_overflow_invariant {Hash : Type} [Inhabited Hash] (hs : hasher_type Hash)
    (log2_root_size log2_leaf_size log2_word_size : Int) (t0 : back_merkle_tree Hash)
    (pushed : List Hash)
    (hcreate :
      back_merkle_tree.create hs log2_root_size log2_leaf_size log2_word_size = .ok t0) :
    (back_merkle_tree.push_back_all hs t0 pushed).m_leaf_count ≤
        2 ^ (log2_root_size - log2_leaf_size).toNat ∧
      (back_merkle_tree.push_back_all hs t0 pushed).m_leaf_count ≤
        (back_merkle_tree.push_back_all hs t0 pushed).m_max_leaves ∧
      (back_merkle_tree.push_back_all hs t0 pushed).m_context.length =
        (log2_root_size - log2_leaf_size).toNat + 1 ∧
      (∀ i, i ∈ back_merkle_tree.push_back_indices (back_merkle_tree.push_back_all hs t0 pushed) →
        i < (back_merkle_tree.push_back_all hs t0 pushed).m_context.length) ∧
      (∀ i,
        i ∈ back_merkle_tree.get_root_hash_indices (back_merkle_tree.push_back_all hs t0 pushed) →
        i < (back_merkle_tree.push_back_all hs t0 pushed).m_context.length) ∧
      (∀ i,
        i ∈ back_merkle_tree.get_next_leaf_proof_indices
          (back_merkle_tree.push_back_all hs t0 pushed) →
        i < (back_merkle_tree.push_back_all hs t0 pushed).m_context.length) := by
  obtain ⟨hD, _, leaves, ht⟩ := reachable_tree hs _ _ _ t0 pushed hcreate
  rw [hD]
  generalize back_merkle_tree.push_back_all hs t0 pushed = t at ht
  have hlen := ht.context_length
  refine ⟨?_, ?_, hlen, ?_, ?_, ?_⟩
  · rw [ht.count_eq]
    exact ht.count_le
  · rw [ht.count_eq, ht.max_eq]
    exact ht.count_le
  · intro i hi
    unfold back_merkle_tree.push_back_indices at hi
    split_ifs at hi
    · simp at hi
    · have := push_back_loop_indices_lt _ _ _ _ hi
      rw [ht.root_eq, ht.leaf_eq] at this
      omega
  · intro i hi
    unfold back_merkle_tree.get_root_hash_indices at hi
    rw [ht.root_eq, ht.leaf_eq] at hi
    split_ifs at hi
    · have := (List.mem_range.mp (List.mem_filter.mp hi).1)
      omega
    · have : i = log2_root_size.toNat - log2_leaf_size.toNat := by simpa using hi
      omega
  · intro i hi
    unfold back_merkle_tree.get_next_leaf_proof_indices at hi
    rw [ht.root_eq, ht.leaf_eq] at hi
    split_ifs at hi
    · simp at hi
    · have := (List.mem_range.mp (List.mem_filter.mp hi).1)
      omega

/-- A run of C19 on the tree of geometry `(3, 1, 0)` after six `push_back`
calls, of which the last two throw: `leaf_count` stays at `4 = 2 ^ D`. -/
theorem C19_overflow_invariant_witness :
    back_merkle_tree.create term_hasher 3 1 0 = .ok sample_tree ∧
      (back_merkle_tree.push_back_all term_hasher sample_tree
        (sample_leaves_full ++ [term_hash.data [5], term_hash.data [6]])).m_leaf_count = 4 ∧
      (back_merkle_tree.push_back_all term_hasher sample_tree
          (sample_leaves_full ++ [term_hash.data [5], term_hash.data [6]])).m_leaf_count ≤
        2 ^ ((3 : Int) - 1).toNat ∧
      (back_merkle_tree.push_back_all term_hasher sample_tree
          (sample_leaves_full ++ [term_hash.data [5], term_hash.data [6]])).m_context.length =
        ((3 : Int) - 1).toNat + 1 :=
  ⟨rfl, by decide,
    (C19_overflow_invariant term_hasher 3 1 0 sample_tree
      (sample_leaves_full ++ [term_hash.data [5], term_hash.data [6]]) rfl).1,
    (C19_overflow_invariant term_hasher 3 1 0 sample_tree
      (sample_leaves_full ++ [term_hash.data [5], term_hash.data [6]]) rfl).2.2.1⟩

theorem next_leaf_loop_root {Hash : Type} [Inhabited Hash] (hs : hasher_type Hash)
    (t : back_merkle_tree Hash) :
    ∀ (fuel i : Nat) (proof : merkle_tree_proof Hash) (hash : Hash)
      (proof1 : merkle_tree_proof Hash) (hash1 : Hash),
      back_merkle_tree.get_next_leaf_proof_loop hs t fuel i proof hash = .ok (proof1, hash1) →
      back_merkle_tree.get_root_hash_loop hs t fuel i hash = .ok hash1 := by
  intro fuel
  induction fuel with
  | zero =>
    intro i proof hash proof1 hash1 h
    simp only [back_merkle_tree.get_next_leaf_proof_loop] at h
    injection h with h
    injection h with _ h2
    rw [← h2]
    rfl
  | succ fuel ih =>
    intro i proof hash proof1 hash1 h
    simp only [back_merkle_tree.get_next_leaf_proof_loop] at h
    simp only [back_merkle_tree.get_root_hash_loop]
    by_cases hb : bit_set t.m_leaf_count i = true
    · rw [if_pos hb] at h
      rw [if_pos hb]
      rcases hset : proof.set_sibling_hash (t.m_context.getD i default)
          (t.m_log2_leaf_size + i) with ⟨_ | _, p2⟩
      · rw [hset] at h
        cases h
      · rw [hset] at h
        exact ih _ _ _ _ _ h
    · rw [if_neg hb] at h
      rw [if_neg hb]
      cases hp : t.m_pristine_hashes.get_hash (t.m_log2_leaf_size + i) with
      | error e =>
        rw [hp] at h
        cases h
      | ok right =>
        rw [hp] at h
        dsimp only at h ⊢
        rcases hset : proof.set_sibling_hash right (t.m_log2_leaf_size + i) with ⟨_ | _, p2⟩
        · rw [hset] at h
          cases h
        · rw [hset] at h
          exact ih _ _ _ _ _ h

theorem get_next_leaf_proof_root {Hash : Type} [Inhabited Hash] [DecidableEq Hash]
    (hs : hasher_type Hash) (t : back_merkle_tree Hash) (proof : merkle_tree_proof Hash)
    (h : back_merkle_tree.get_next_leaf_proof hs t = .ok proof) :
    back_merkle_tree.get_root_hash hs t = .ok proof.root_hash := by
  unfold back_merkle_tree.get_next_leaf_proof at h
  unfold back_merkle_tree.get_root_hash
  by_cases hfull : t.m_leaf_count ≥ t.m_max_leaves
  · rw [if_pos hfull] at h
    cases h
  rw [if_neg hfull] at h
  rw [if_pos (Nat.lt_of_not_le hfull)]
  cases hp : t.m_pristine_hashes.get_hash t.m_log2_leaf_size with
  | error e =>
    rw [hp] at h
    cases h
  | ok target =>
    rw [hp] at h
    dsimp only at h ⊢
    cases hloop : back_merkle_tree.get_next_leaf_proof_loop hs t
        (t.m_log2_root_size - t.m_log2_leaf_size) 0
        { (merkle_tree_proof.create t.m_log2_root_size t.m_log2_leaf_size :
            merkle_tree_proof Hash) with
          target_address := (t.m_leaf_count <<< t.m_log2_leaf_size) % 2 ^ 64
          target_hash := target } target with
    | error e =>
      rw [hloop] at h
      cases h
    | ok res =>
      obtain ⟨proof3, hash⟩ := res
      rw [hloop] at h
      dsimp only at h
      rw [next_leaf_loop_root hs t _ _ _ _ _ _ hloop]
      split at h
      · cases h
      · cases h
      · injection h with h
        rw [← h]

/-- C15. Content of the next-leaf proof: in every state reached from a fresh
back-tree in which `leaf_count < 2 ^ D`, `get_next_leaf_proof` returns a proof
with `log2_target_size = log2_leaf`, `log2_root_size = log2_root`,
`target_hash = pristine(log2_leaf)` (the entry of the pristine table),
`target_address = leaf_count << log2_leaf` (which does not leave 64 bits), and
`root_hash` equal to the value `get_root_hash` returns in the same state. Both
methods are const: they are functions of the tree that return no new state. -/
theorem C15_next_leaf_proof_content {Hash : Type} [Inhabited Hash] [DecidableEq Hash]
    (hs : hasher_type Hash) (log2_root_size log2_leaf_size log2_word_size : Int)
    (t0 : back_merkle_tree Hash) (pushed : List Hash)
    (hcreate :
      back_merkle_tree.create hs log2_root_size log2_leaf_size log2_word_size = .ok t0)
    (hlt : (back_merkle_tree.push_back_all hs t0 pushed).m_leaf_count <
      2 ^ (log2_root_size - log2_leaf_size).toNat) :
    ∃ proof,
      back_merkle_tree.get_next_leaf_proof hs (back_merkle_tree.push_back_all hs t0 pushed) =
        .ok proof ∧
      proof.log2_target_size = log2_leaf_size.toNat ∧
      proof.log2_root_size = log2_root_size.toNat ∧
      proof.target_hash =
        pristine_hash hs log2_word_size.toNat (log2_leaf_size - log2_word_size).toNat ∧
      (back_merkle_tree.push_back_all hs t0 pushed).m_pristine_hashes.get_hash
        log2_leaf_size.toNat = .ok proof.target_hash ∧
      proof.target_address =
        (back_merkle_tree.push_back_all hs t0 pushed).m_leaf_count <<< log2_leaf_size.toNat ∧
      proof.target_address < 2 ^ 64 ∧
      back_merkle_tree.get_root_hash hs (back_merkle_tree.push_back_all hs t0 pushed) =
        .ok proof.root_hash := by
  obtain ⟨hD, hW, leaves, ht⟩ := reachable_tree hs _ _ _ t0 pushed hcreate
  rw [hD] at hlt
  rw [hW]
  generalize back_merkle_tree.push_back_all hs t0 pushed = t at ht hlt
  rw [ht.count_eq] at hlt
  obtain ⟨proof, e, g1, g2, _, g4, g5, _⟩ := get_next_leaf_proof_ok hs _ _ _ t leaves ht hlt
  have hshift : leaves.length <<< log2_leaf_size.toNat < 2 ^ 64 := by
    rw [Nat.shiftLeft_eq]
    have hR := ht.root_lt
    have hL := ht.leaf_le
    calc leaves.length * 2 ^ log2_leaf_size.toNat
        < 2 ^ (log2_root_size.toNat - log2_leaf_size.toNat) * 2 ^ log2_leaf_size.toNat :=
          Nat.mul_lt_mul_of_pos_right hlt (Nat.two_pow_pos _)
      _ = 2 ^ (log2_root_size.toNat - log2_leaf_size.toNat + log2_leaf_size.toNat) :=
          (pow_add 2 _ _).symm
      _ ≤ 2 ^ 64 := Nat.pow_le_pow_right (by decide) (by omega)
  rw [Nat.mod_eq_of_lt hshift] at g4
  refine ⟨proof, e, g1, g2, g5, ?_, ?_, ?_, get_next_leaf_proof_root hs t proof e⟩
  · rw [ht.pristine_eq, pristine_get_hash_create hs _ _ _ ht.word_le ht.leaf_le, g5]
  · rw [g4, ht.count_eq]
  · rw [g4]
    exact hshift

/-- A run of C15 on the tree of geometry `(3, 1, 0)` after three pushes: the
next leaf is leaf 3, at address `3 << 1 = 6`. -/
theorem C15_next_leaf_proof_content_witness :
    back_merkle_tree.create term_hasher 3 1 0 = .ok sample_tree ∧
      (back_merkle_tree.push_back_all term_hasher sample_tree sample_leaves).m_leaf_count <
        2 ^ ((3 : Int) - 1).toNat ∧
      ∃ proof,
        back_merkle_tree.get_next_leaf_proof term_hasher
            (back_merkle_tree.push_back_all term_hasher sample_tree sample_leaves) = .ok proof ∧
          proof.target_address = 6 ∧
          back_merkle_tree.get_root_hash term_hasher
              (back_merkle_tree.push_back_all term_hasher sample_tree sample_leaves) =
            .ok proof.root_hash :=
  ⟨rfl, by decide,
    (C15_next_leaf_proof_content term_hasher 3 1 0 sample_tree sample_leaves rfl
      (by decide)).elim
      (fun proof hp => ⟨proof, hp.1, hp.2.2.2.2.2.1.trans (by decide), hp.2.2.2.2.2.2.2⟩)⟩

theorem leaf_at_replicate {Hash : Type} (p : Hash) (n k : Nat) :
    leaf_at p (List.replicate n p) k = p := by
  unfold leaf_at
  rw [List.getD_eq_getElem?_getD]
  by_cases hk : k < n
  · simp [List.getElem?_replicate, hk]
  · simp [List.getElem?_replicate, hk]

/-- C16. Pristine back-tree: for every geometry the constructor accepts and
every `n ≤ 2 ^ D`, after pushing `n` copies of `pristine(log2_leaf)` on a fresh
back-tree, `get_root_hash` returns `pristine(log2_root)`, the entry of the
pristine table for `log2_root`, where the table satisfies
`P[i + 1] = H(P[i] || P[i])`. -/
theorem C16_pristine_back_tree {Hash : Type} [Inhabited Hash] (hs : hasher_type Hash)
    (log2_root_size log2_leaf_size log2_word_size : Int) (t0 : back_merkle_tree Hash)
    (n : Nat)
    (hcreate :
      back_merkle_tree.create hs log2_root_size log2_leaf_size log2_word_size = .ok t0)
    (hn : n ≤ 2 ^ (log2_root_size - log2_leaf_size).toNat) :
    back_merkle_tree.get_root_hash hs
        (back_merkle_tree.push_back_all hs t0
          (List.replicate n
            (pristine_hash hs log2_word_size.toNat (log2_leaf_size - log2_word_size).toNat))) =
        .ok (pristine_hash hs log2_word_size.toNat (log2_root_size - log2_word_size).toNat) ∧
      t0.m_pristine_hashes.get_hash log2_root_size.toNat =
        .ok (pristine_hash hs log2_word_size.toNat (log2_root_size - log2_word_size).toNat) ∧
      t0.m_pristine_hashes.get_hash log2_leaf_size.toNat =
        .ok (pristine_hash hs log2_word_size.toNat (log2_leaf_size - log2_word_size).toNat) ∧
      (∀ i, pristine_hash hs log2_word_size.toNat (i + 1) =
        hs.concat (pristine_hash hs log2_word_size.toNat i)
          (pristine_hash hs log2_word_size.toNat i)) := by
  obtain ⟨h0, h1, h2, h3, hinv⟩ := create_inv hs _ _ _ t0 hcreate
  have hD : (log2_root_size - log2_leaf_size).toNat =
      log2_root_size.toNat - log2_leaf_size.toNat := by omega
  have hW : (log2_leaf_size - log2_word_size).toNat =
      log2_leaf_size.toNat - log2_word_size.toNat := by omega
  have hRW : (log2_root_size - log2_word_size).toNat =
      log2_root_size.toNat - log2_word_size.toNat := by omega
  rw [hD] at hn
  rw [hW, hRW]
  have hall := push_back_all_inv hs _ _ _
    (List.replicate n (pristine_hash hs log2_word_size.toNat
      (log2_leaf_size.toNat - log2_word_size.toNat))) t0 [] hinv (by simpa using hn)
  rw [List.nil_append] at hall
  refine ⟨?_, ?_, ?_, fun i => rfl⟩
  · rw [get_root_hash_eq hs _ _ _ _ _ hall, padded_leaves_eq_range _ _ _ hall.count_le,
      merkle_root_range hs _ _ 0]
    congr 1
    have := subtree_pristine hs
      (leaf_at (pristine_hash hs log2_word_size.toNat
        (log2_leaf_size.toNat - log2_word_size.toNat))
        (List.replicate n (pristine_hash hs log2_word_size.toNat
          (log2_leaf_size.toNat - log2_word_size.toNat))))
      log2_word_size.toNat (log2_leaf_size.toNat - log2_word_size.toNat)
      (log2_root_size.toNat - log2_leaf_size.toNat) 0
      (fun k _ _ => leaf_at_replicate _ _ _)
    rw [this]
    congr 1
    omega
  · rw [hinv.pristine_eq, pristine_get_hash_create hs _ _ _ (by omega) (Nat.le_refl _)]
  · rw [hinv.pristine_eq, pristine_get_hash_create hs _ _ _ (by omega) (by omega)]

/-- The two runs of C16 on geometry `(5, 0, 0)`: the empty tree (`n = 0`) and
the tree filled with 32 pristine leaves (`n = 32`) both have root `P[5]`. -/
theorem C16_pristine_back_tree_witness :
    back_merkle_tree.create term_hasher 5 0 0 = .ok sample_tree_5 ∧
      back_merkle_tree.get_root_hash term_hasher sample_tree_5 =
        .ok (pristine_hash term_hasher 0 5) ∧
      (32 : Nat) ≤ 2 ^ ((5 : Int) - 0).toNat ∧
      back_merkle_tree.get_root_hash term_hasher
          (back_merkle_tree.push_back_all term_hasher sample_tree_5
            (List.replicate 32 (pristine_hash term_hasher 0 0))) =
        .ok (pristine_hash term_hasher 0 5) :=
  ⟨rfl,
    (C16_pristine_back_tree term_hasher 5 0 0 sample_tree_5 0 rfl (by decide)).1,
    by decide,
    (C16_pristine_back_tree term_hasher 5 0 0 sample_tree_5 32 rfl (by decide)).1⟩

theorem slice_eq_range {Hash : Type} (p : Hash) (leaves : List Hash) (a m : Nat)
    (h : a + m ≤ leaves.length) :
    (leaves.drop a).take m = (List.range m).map (fun k => leaf_at p leaves (a + k)) := by
  apply List.ext_getElem
  · simp
    omega
  · intro k h1 h2
    have hk : k < m := by simpa using h2
    simp only [List.getElem_take, List.getElem_drop, List.getElem_map, List.getElem_range,
      leaf_at]
    rw [List.getD_eq_getElem?_getD, List.getElem?_eq_getElem (by omega)]
    rfl

/-- C18. Context invariant: after pushing any sequence `h_0 .. h_{n-1}` with
`n ≤ 2 ^ D` on a fresh back-tree, `leaf_count = n`, and for every `i ≤ D` such
that bit `i` of `n` is set, `context[i]` is the Merkle root of the `2 ^ i`
consecutive pushed leaves that start at index `a`, where `a` is `n` with the
bits `0 .. i` cleared. -/
theorem C18_context_invariant {Hash : Type} [Inhabited Hash] (hs : hasher_type Hash)
    (log2_root_size log2_leaf_size log2_word_size : Int) (t0 : back_merkle_tree Hash)
    (leaves : List Hash) (i : Nat)
    (hcreate :
      back_merkle_tree.create hs log2_root_size log2_leaf_size log2_word_size = .ok t0)
    (hlen : leaves.length ≤ 2 ^ (log2_root_size - log2_leaf_size).toNat)
    (hi : i ≤ (log2_root_size - log2_leaf_size).toNat)
    (hbit : bit_set (back_merkle_tree.push_back_all hs t0 leaves).m_leaf_count i = true) :
    (back_merkle_tree.push_back_all hs t0 leaves).m_leaf_count = leaves.length ∧
      leaves.length / 2 ^ (i + 1) * 2 ^ (i + 1) + 2 ^ i ≤ leaves.length ∧
      (back_merkle_tree.push_back_all hs t0 leaves).m_context[i]? =
        some (merkle_root hs i
          ((leaves.drop (leaves.length / 2 ^ (i + 1) * 2 ^ (i + 1))).take (2 ^ i))) := by
  obtain ⟨h0, h1, h2, h3, hinv⟩ := create_inv hs _ _ _ t0 hcreate
  have hD : (log2_root_size - log2_leaf_size).toNat =
      log2_root_size.toNat - log2_leaf_size.toNat := by omega
  rw [hD] at hlen hi
  have hall := push_back_all_inv hs _ _ _ leaves t0 [] hinv (by simpa using hlen)
  rw [List.nil_append] at hall
  generalize back_merkle_tree.push_back_all hs t0 leaves = t at hall hbit
  rw [hall.count_eq, bit_set_eq_testBit _ (by omega)] at hbit
  have hodd : leaves.length / 2 ^ i % 2 = 1 := by
    rw [Nat.testBit_to_div_mod] at hbit
    exact of_decide_eq_true hbit
  have ha : leaves.length / 2 ^ (i + 1) * 2 ^ (i + 1) = (leaves.length / 2 ^ i - 1) * 2 ^ i := by
    have hdiv : leaves.length / 2 ^ (i + 1) = leaves.length / 2 ^ i / 2 := by
      rw [pow_succ, Nat.div_div_eq_div_mul]
    have hpow : 2 ^ (i + 1) = 2 * 2 ^ i := pow_succ' 2 i
    rw [hdiv, hpow, ← Nat.mul_assoc]
    congr 1
    generalize leaves.length / 2 ^ i = q at hodd
    omega
  have hfit : (leaves.length / 2 ^ i - 1) * 2 ^ i + 2 ^ i ≤ leaves.length := by
    have h1 : (leaves.length / 2 ^ i - 1) * 2 ^ i + 2 ^ i = leaves.length / 2 ^ i * 2 ^ i := by
      have hq : leaves.length / 2 ^ i - 1 + 1 = leaves.length / 2 ^ i := by
        generalize leaves.length / 2 ^ i = q at hodd
        omega
      rw [← Nat.succ_mul, Nat.succ_eq_add_one, hq]
    rw [h1]
    exact Nat.div_mul_le_self _ _
  have hctx := hall.context_ok i hbit
  rw [Nat.zero_add] at hctx
  refine ⟨hall.count_eq, by rw [ha]; exact hfit, ?_⟩
  have hlt : i < t.m_context.length := by rw [hall.context_length]; omega
  rw [ha, slice_eq_range (pristine_hash hs log2_word_size.toNat
      (log2_leaf_size.toNat - log2_word_size.toNat)) leaves _ _ hfit,
    merkle_root_range hs _ i (leaves.length / 2 ^ i - 1), ← hctx,
    List.getD_eq_getElem?_getD, List.getElem?_eq_getElem hlt]
  rfl

/-- A run of C18 on the tree of geometry `(3, 1, 0)` after three pushes
(`n = 3`, bits 0 and 1 set): `context[1]` is the root of leaves 0 and 1. -/
theorem C18_context_invariant_witness :
    back_merkle_tree.create term_hasher 3 1 0 = .ok sample_tree ∧
      sample_leaves.length ≤ 2 ^ ((3 : Int) - 1).toNat ∧
      bit_set (back_merkle_tree.push_back_all term_hasher sample_tree sample_leaves).m_leaf_count
        1 = true ∧
      (back_merkle_tree.push_back_all term_hasher sample_tree sample_leaves).m_context[1]? =
        some (term_hash.node (term_hash.data [1]) (term_hash.data [2])) :=
  ⟨rfl, by decide, by decide,
    (C18_context_invariant term_hasher 3 1 0 sample_tree sample_leaves 1 rfl (by decide)
      (by decide) (by decide)).2.2⟩

theorem roll_loop_total {Hash : Type} (hs : hasher_type Hash) (p : merkle_tree_proof Hash)
    (hlen : p.sibling_hashes.length = p.log2_root_size - p.log2_target_size) :
    ∀ (n lvl : Nat) (acc : Hash), p.log2_target_size ≤ lvl → lvl + n ≤ p.log2_root_size →
      ∃ x, step_state_access.roll_hash_up_tree_loop hs p n lvl acc = (.ok (), x) := by
  intro n
  induction n with
  | zero => intro lvl acc _ _; exact ⟨acc, rfl⟩
  | succ n ih =>
    intro lvl acc h1 h2
    have hidx : lvl - p.log2_target_size < p.sibling_hashes.length := by omega
    have hsib : p.get_sibling_hash lvl =
        .ok (p.sibling_hashes.get ⟨lvl - p.log2_target_size, hidx⟩) := by
      unfold merkle_tree_proof.get_sibling_hash
      rw [if_neg (by omega), List.getElem?_eq_getElem hidx]
      rfl
    simp only [step_state_access.roll_hash_up_tree_loop, hsib]
    split_ifs
    · exact ih _ _ (by omega) (by omega)
    · exact ih _ _ (by omega) (by omega)

theorem get_sibling_hash_set_ne {Hash : Type} (p : merkle_tree_proof Hash) (h : Hash)
    (k lvl : Nat) (hk : p.log2_target_size ≤ k) (hne : lvl ≠ k) :
    merkle_tree_proof.get_sibling_hash
        { p with sibling_hashes := p.sibling_hashes.set (k - p.log2_target_size) h } lvl =
      p.get_sibling_hash lvl := by
  unfold merkle_tree_proof.get_sibling_hash
  by_cases hr : lvl < p.log2_target_size ∨ lvl ≥ p.log2_root_size
  · rw [if_pos hr, if_pos hr]
  · rw [if_neg hr, if_neg hr]
    have hidx : k - p.log2_target_size ≠ lvl - p.log2_target_size := by omega
    simp only [List.getElem?_set, hidx, if_false]

theorem get_sibling_hash_set_eq {Hash : Type} (p : merkle_tree_proof Hash) (h : Hash)
    (k : Nat) (hk1 : p.log2_target_size ≤ k) (hk2 : k < p.log2_root_size)
    (hlen : p.sibling_hashes.length = p.log2_root_size - p.log2_target_size) :
    merkle_tree_proof.get_sibling_hash
        { p with sibling_hashes := p.sibling_hashes.set (k - p.log2_target_size) h } k =
      .ok h := by
  unfold merkle_tree_proof.get_sibling_hash
  dsimp only
  rw [if_neg (by omega)]
  have hidx : k - p.log2_target_size < p.sibling_hashes.length := by omega
  simp [List.getElem?_set, hidx]

theorem roll_loop_set_ne {Hash : Type} (hs : hasher_type Hash)
    (hconcat : ∀ a b c d, hs.concat a b = hs.concat c d → a = c ∧ b = d)
    (p : merkle_tree_proof Hash) (h : Hash) (k : Nat)
    (hk1 : p.log2_target_size ≤ k) (hk2 : k < p.log2_root_size)
    (hlen : p.sibling_hashes.length = p.log2_root_size - p.log2_target_size)
    (hne : p.get_sibling_hash k ≠ .ok h) :
    ∀ (n lvl : Nat) (acc acc1 x x1 : Hash),
      (lvl ≤ k → acc = acc1) → (k < lvl → acc ≠ acc1) → k < lvl + n →
      step_state_access.roll_hash_up_tree_loop hs p n lvl acc = (.ok (), x) →
      step_state_access.roll_hash_up_tree_loop hs
        { p with sibling_hashes := p.sibling_hashes.set (k - p.log2_target_size) h }
        n lvl acc1 = (.ok (), x1) →
      x ≠ x1 := by
  intro n
  induction n with
  | zero =>
    intro lvl acc acc1 x x1 _ hgt hk e e1
    simp only [step_state_access.roll_hash_up_tree_loop, Prod.mk.injEq, true_and] at e e1
    rw [← e, ← e1]
    exact hgt (by omega)
  | succ n ih =>
    intro lvl acc acc1 x x1 hle hgt hk e e1
    simp only [step_state_access.roll_hash_up_tree_loop] at e e1
    cases hsib : p.get_sibling_hash lvl with
    | error err =>
      rw [hsib] at e
      simp at e
    | ok sibling =>
      rw [hsib] at e
      dsimp only at e e1
      by_cases hlk : lvl = k
      · subst hlk
        rw [get_sibling_hash_set_eq p h lvl hk1 hk2 hlen] at e1
        dsimp only at e1
        have hsne : sibling ≠ h := by
          intro hc
          rw [hc] at hsib
          exact hne hsib
        have hacc := hle (Nat.le_refl _)
        split_ifs at e e1
        · refine ih _ _ _ _ _ (fun hc => (by omega)) (fun _ hc => ?_) (by omega) e e1
          exact hsne (hconcat _ _ _ _ hc).1
        · refine ih _ _ _ _ _ (fun hc => (by omega)) (fun _ hc => ?_) (by omega) e e1
          exact hsne (hconcat _ _ _ _ hc).2
      · rw [get_sibling_hash_set_ne p h k lvl hk1 hlk, hsib] at e1
        dsimp only at e1
        by_cases hlt : lvl < k
        · have hacc := hle (by omega)
          subst hacc
          split_ifs at e e1
          · exact ih _ _ _ _ _ (fun _ => rfl) (fun hc => (by omega)) (by omega) e e1
          · exact ih _ _ _ _ _ (fun _ => rfl) (fun hc => (by omega)) (by omega) e e1
        · have hacc := hgt (by omega)
          split_ifs at e e1
          · refine ih _ _ _ _ _ (fun hc => (by omega)) (fun _ hc => ?_) (by omega) e e1
            exact hacc (hconcat _ _ _ _ hc).2
          · refine ih _ _ _ _ _ (fun hc => (by omega)) (fun _ hc => ?_) (by omega) e e1
            exact hacc (hconcat _ _ _ _ hc).1

/-- C12. Proof tightness for the back-tree: let the hasher be collision-free
on pairs of digests. For every proof returned by `get_next_leaf_proof` in a
state reached from a fresh back-tree, every level `k` in
`[log2_leaf, log2_root)` and every hash `h` other than the sibling the proof
holds at level `k`, storing `h` as the sibling of level `k` yields a proof
whose roll-up from `target_hash` differs from its `root_hash`, so that
`verify` returns `false`. -/
theorem C12_next_leaf_proof_tight {Hash : Type} [Inhabited Hash] [DecidableEq Hash]
    (hs : hasher_type Hash)
    (hconcat : ∀ a b c d, hs.concat a b = hs.concat c d → a = c ∧ b = d)
    (log2_root_size log2_leaf_size log2_word_size : Int)
    (t0 : back_merkle_tree Hash) (pushed : List Hash) (proof : merkle_tree_proof Hash)
    (k : Nat) (h : Hash)
    (hcreate :
      back_merkle_tree.create hs log2_root_size log2_leaf_size log2_word_size = .ok t0)
    (hproof :
      back_merkle_tree.get_next_leaf_proof hs (back_merkle_tree.push_back_all hs t0 pushed) =
        .ok proof)
    (hk1 : log2_leaf_size.toNat ≤ k) (hk2 : k < log2_root_size.toNat)
    (hne : proof.get_sibling_hash k ≠ .ok h) :
    (proof.set_sibling_hash h k).1 = .ok () ∧
      (proof.set_sibling_hash h k).2.get_sibling_hash k = .ok h ∧
      (∃ x, step_state_access.roll_hash_up_tree hs (proof.set_sibling_hash h k).2
            (proof.set_sibling_hash h k).2.target_hash = (.ok (), x) ∧
          x ≠ (proof.set_sibling_hash h k).2.root_hash) ∧
      merkle_tree_proof.verify hs (proof.set_sibling_hash h k).2 = .ok false := by
  obtain ⟨hD, _, leaves, ht⟩ := reachable_tree hs _ _ _ t0 pushed hcreate
  generalize back_merkle_tree.push_back_all hs t0 pushed = t at ht hproof
  have hlt : leaves.length < 2 ^ (log2_root_size.toNat - log2_leaf_size.toNat) := by
    by_contra hc
    have hfull : t.m_leaf_count ≥ t.m_max_leaves := by
      rw [ht.count_eq, ht.max_eq]; omega
    unfold back_merkle_tree.get_next_leaf_proof at hproof
    rw [if_pos hfull] at hproof
    cases hproof
  obtain ⟨proof1, e, g1, g2, g3, _, _, hroll⟩ := get_next_leaf_proof_ok hs _ _ _ t leaves ht hlt
  rw [hproof] at e
  injection e with e
  subst e
  have hlen : proof.sibling_hashes.length = proof.log2_root_size - proof.log2_target_size := by
    rw [g1, g2, g3]
  have hset := set_sibling_hash_ok proof h k (by omega) (by omega) (by omega)
  rw [hset]
  have hlen1 : (List.set proof.sibling_hashes (k - proof.log2_target_size) h).length =
      proof.log2_root_size - proof.log2_target_size := by
    rw [List.length_set, hlen]
  obtain ⟨x, hx⟩ := roll_loop_total hs
    { proof with sibling_hashes := proof.sibling_hashes.set (k - proof.log2_target_size) h }
    hlen1 (proof.log2_root_size - proof.log2_target_size) proof.log2_target_size
    proof.target_hash (Nat.le_refl _) (by dsimp only; omega)
  have hxne : proof.root_hash ≠ x :=
    roll_loop_set_ne hs hconcat proof h k (by omega) (by omega) hlen hne _ _ _ _ _ _
      (fun _ => rfl) (fun hc => (by omega)) (by omega) hroll hx
  refine ⟨rfl, get_sibling_hash_set_eq proof h k (by omega) (by omega) hlen,
    ⟨x, hx, fun hc => hxne hc.symm⟩, ?_⟩
  unfold merkle_tree_proof.verify
  dsimp only
  rw [verify_loop_of_roll hs _ _ _ _ _ hx]
  simp only [decide_eq_false_iff_not, Except.ok.injEq]
  exact fun hc => hxne hc.symm

/-- A run of C12 on the tree of geometry `(3, 1, 0)` after three pushes: the
sibling of level 1 in the next-leaf proof is leaf 2, and replacing it by
another hash makes `verify` return `false`. -/
theorem C12_next_leaf_proof_tight_witness :
    back_merkle_tree.create term_hasher 3 1 0 = .ok sample_tree ∧
      back_merkle_tree.get_next_leaf_proof term_hasher
          (back_merkle_tree.push_back_all term_hasher sample_tree sample_leaves) =
        .ok sample_next_proof ∧
      sample_next_proof.get_sibling_hash 1 = .ok (term_hash.data [3]) ∧
      merkle_tree_proof.verify term_hasher sample_next_proof = .ok true ∧
      merkle_tree_proof.verify term_hasher
        (sample_next_proof.set_sibling_hash (term_hash.data [30]) 1).2 = .ok false :=
  ⟨rfl, rfl, rfl, rfl,
    (C12_next_leaf_proof_tight term_hasher term_hasher_concat_injective 3 1 0 sample_tree
      sample_leaves sample_next_proof 1 (term_hash.data [30]) rfl (by rfl) (by decide) (by decide)
      (fun hc => by cases hc)).2.2.2⟩

/-! ## The single-write scenario -/

theorem check_write_of_accepted {Hash : Type} [DecidableEq Hash] (hs : hasher_type Hash)
    (s : replay_state Hash) (paligned : Nat) (val : List Nat) (log2_size : Int)
    (a : access Hash) (ha : write_accepted hs s paligned val log2_size a) :
    step_state_access.check_write hs s paligned val log2_size =
      (.ok (), write_result hs s a) := by
  rcases check_write_cases hs s paligned val log2_size with ⟨e, _, hno⟩ | ⟨b, hb, hok⟩
  · exact absurd ha (hno a)
  · have h1 := ha.2.2.2.1
    rw [hb.2.2.2.1] at h1
    cases h1
    exact hok

theorem roll_loop_add {Hash : Type} (hs : hasher_type Hash) (p : merkle_tree_proof Hash) :
    ∀ (a b lvl : Nat) (acc x : Hash),
      step_state_access.roll_hash_up_tree_loop hs p a lvl acc = (.ok (), x) →
      step_state_access.roll_hash_up_tree_loop hs p (a + b) lvl acc =
        step_state_access.roll_hash_up_tree_loop hs p b (lvl + a) x := by
  intro a
  induction a with
  | zero =>
    intro b lvl acc x h
    simp only [step_state_access.roll_hash_up_tree_loop, Prod.mk.injEq, true_and] at h
    rw [h, Nat.zero_add, Nat.add_zero]
  | succ a ih =>
    intro b lvl acc x h
    have e : a + 1 + b = (a + b) + 1 := by omega
    rw [e]
    simp only [step_state_access.roll_hash_up_tree_loop] at h ⊢
    cases hsib : p.get_sibling_hash lvl with
    | error err =>
      rw [hsib] at h
      simp at h
    | ok sibling =>
      rw [hsib] at h
      dsimp only at h ⊢
      have e2 : lvl + (a + 1) = lvl + 1 + a := by omega
      rw [e2]
      split_ifs at h ⊢
      · exact ih _ _ _ _ h
      · exact ih _ _ _ _ h

theorem roll_loop_clear {Hash : Type} (hs : hasher_type Hash) (p : merkle_tree_proof Hash)
    (S : Nat → Hash) :
    ∀ (n lvl : Nat) (acc : Hash),
      (∀ k, lvl ≤ k → k < lvl + n →
        bit_set p.target_address k = false ∧ p.get_sibling_hash k = .ok (S k)) →
      step_state_access.roll_hash_up_tree_loop hs p n lvl acc =
        (.ok (), (List.range' lvl n).foldl (fun acc k => hs.concat acc (S k)) acc) := by
  intro n
  induction n with
  | zero => intro lvl acc _; rfl
  | succ n ih =>
    intro lvl acc h
    obtain ⟨hb, hsib⟩ := h lvl (Nat.le_refl _) (by omega)
    simp only [step_state_access.roll_hash_up_tree_loop, hsib, hb, List.range'_succ,
      List.foldl_cons]
    exact ih _ _ (fun k h1 h2 => h k (by omega) (by omega))

theorem single_write_sibling {Hash : Type} (hs : hasher_type Hash) (k : Nat) (h1 : 3 ≤ k)
    (h2 : k < 64) :
    (single_write_proof hs).get_sibling_hash k = .ok (pristine_hash hs 3 (k - 3)) := by
  unfold merkle_tree_proof.get_sibling_hash
  have hlt : k - 3 < 61 := by omega
  simp only [single_write_proof]
  rw [if_neg (by omega)]
  simp [List.getElem?_map, List.getElem?_range hlt]

theorem single_write_bit (k : Nat) (h : k < 64) : bit_set 0x1000 k = decide (k = 12) := by
  rw [bit_set_eq_testBit _ h]
  have h0 : (0x1000 : Nat) = 2 ^ 12 := by decide
  rw [h0, Nat.testBit_two_pow]
  by_cases hk : k = 12
  · subst hk; rfl
  · have : ¬ (12 = k) := fun hc => hk hc.symm
    simp [hk, this]

theorem single_write_roll_pristine {Hash : Type} (hs : hasher_type Hash) :
    ∀ (n lvl : Nat), 3 ≤ lvl → lvl + n ≤ 64 →
      step_state_access.roll_hash_up_tree_loop hs (single_write_proof hs) n lvl
          (pristine_hash hs 3 (lvl - 3)) =
        (.ok (), pristine_hash hs 3 (lvl - 3 + n)) := by
  intro n
  induction n with
  | zero => intro lvl _ _; rfl
  | succ n ih =>
    intro lvl h1 h2
    simp only [step_state_access.roll_hash_up_tree_loop,
      single_write_sibling hs lvl h1 (by omega)]
    have hnext : hs.concat (pristine_hash hs 3 (lvl - 3)) (pristine_hash hs 3 (lvl - 3)) =
        pristine_hash hs 3 (lvl + 1 - 3) := by
      have e : lvl + 1 - 3 = (lvl - 3) + 1 := by omega
      rw [e]
      rfl
    have hidx : lvl - 3 + (n + 1) = lvl + 1 - 3 + n := by omega
    rw [hidx]
    split_ifs
    · rw [hnext]
      exact ih _ (by omega) (by omega)
    · rw [hnext]
      exact ih _ (by omega) (by omega)

theorem single_write_roll_written {Hash : Type} (hs : hasher_type Hash) :
    step_state_access.roll_hash_up_tree hs (single_write_proof hs) (hs.data one_word) =
      (.ok (), single_write_root hs) := by
  unfold step_state_access.roll_hash_up_tree
  have hlevels : (single_write_proof hs).log2_root_size -
      (single_write_proof hs).log2_target_size = 9 + (1 + 51) := rfl
  have htarget : (single_write_proof hs).log2_target_size = 3 := rfl
  rw [hlevels, htarget]
  have h1 := roll_loop_clear hs (single_write_proof hs) (fun k => pristine_hash hs 3 (k - 3))
    9 3 (hs.data one_word) (fun k hk1 hk2 =>
      ⟨by
        have := single_write_bit k (by omega)
        have hne : ¬ (k = 12) := by omega
        simpa [single_write_proof, hne] using this,
      single_write_sibling hs k hk1 (by omega)⟩)
  rw [roll_loop_add hs _ 9 (1 + 51) 3 _ _ h1]
  have h2 : step_state_access.roll_hash_up_tree_loop hs (single_write_proof hs) 1 (3 + 9)
      ((List.range' 3 9).foldl (fun acc k => hs.concat acc (pristine_hash hs 3 (k - 3)))
        (hs.data one_word)) =
      (.ok (), hs.concat (pristine_hash hs 3 9)
        ((List.range' 3 9).foldl (fun acc k => hs.concat acc (pristine_hash hs 3 (k - 3)))
          (hs.data one_word))) := by
    have hb : bit_set (single_write_proof hs).target_address 12 = true := by
      have := single_write_bit 12 (by decide)
      simpa [single_write_proof] using this
    simp only [step_state_access.roll_hash_up_tree_loop,
      single_write_sibling hs 12 (by decide) (by decide), hb, if_true]
  rw [roll_loop_add hs _ 1 51 (3 + 9) _ _ h2]
  exact roll_loop_clear hs (single_write_proof hs) (fun k => pristine_hash hs 3 (k - 3))
    51 13 _ (fun k hk1 hk2 =>
      ⟨by
        have := single_write_bit k (by omega)
        have hne : ¬ (k = 12) := by omega
        simpa [single_write_proof, hne] using this,
      single_write_sibling hs k (by omega) (by omega)⟩)

theorem single_write_accepted {Hash : Type} [Inhabited Hash] [DecidableEq Hash]
    (hs : hasher_type Hash) (one_based : Nat) :
    write_accepted hs
      { m_accesses := [single_write_access hs]
        m_verify_proofs := true
        m_next_access := 0
        m_one_based := one_based
        m_root_hash := pristine_hash hs 3 61 }
      0x1000 one_word 3 (single_write_access hs) := by
  refine ⟨by decide, by decide, by decide, rfl, rfl, rfl, rfl, rfl, rfl, fun _ => ?_⟩
  refine ⟨single_write_proof hs, rfl, rfl, rfl, rfl, ?_, rfl⟩
  have h := single_write_roll_pristine hs 61 3 (Nat.le_refl _) (by decide)
  exact h

/-- C20. Single write replay: over the one-record log `{write, address 0x1000,
log2_size 3, read = eight zero bytes, written = 01 00 00 00 00 00 00 00, proof
with target_address 0x1000, target_hash P[3], siblings [P[3], ..., P[63]],
root_hash P[64]}` (`P` the pristine table with `log2_word = 3`), the
constructor with `verify_proofs` set returns a verifier whose current root is
`P[64]`; `check_write(0x1000, word 1, 3)` returns and advances the cursor to
1; `finish()` then returns; and the final root is `H(01 00 .. 00)` rolled up
to level 64 with those siblings along the address bits of `0x1000`. -/
theorem C20_single_write_replay {Hash : Type} [Inhabited Hash] [DecidableEq Hash]
    (hs : hasher_type Hash) (one_based : Bool) :
    ∃ s0, step_state_access.create (single_write_log hs) true one_based = .ok s0 ∧
      s0.m_root_hash = pristine_hash hs 3 61 ∧
      (step_state_access.check_write hs s0 0x1000 one_word 3).1 = .ok () ∧
      (step_state_access.check_write hs s0 0x1000 one_word 3).2.m_next_access = 1 ∧
      (step_state_access.finish (step_state_access.check_write hs s0 0x1000 one_word 3).2).1 =
        .ok () ∧
      step_state_access.roll_hash_up_tree hs (single_write_proof hs)
          (step_state_access.get_hash hs one_word) =
        (.ok (), (step_state_access.check_write hs s0 0x1000 one_word 3).2.m_root_hash) ∧
      (step_state_access.finish
          (step_state_access.check_write hs s0 0x1000 one_word 3).2).2.m_root_hash =
        single_write_root hs := by
  have hacc := single_write_accepted hs (if one_based then 1 else 0)
  have hres := check_write_of_accepted hs _ _ _ _ _ hacc
  have hwr := write_result_verified hs
    { m_accesses := [single_write_access hs]
      m_verify_proofs := true
      m_next_access := 0
      m_one_based := if one_based then 1 else 0
      m_root_hash := pristine_hash hs 3 61 }
    (single_write_access hs) (single_write_proof hs) rfl rfl
  have hroll : step_state_access.roll_hash_up_tree hs (single_write_proof hs)
      (step_state_access.get_hash hs (single_write_access hs).written) =
      (.ok (), single_write_root hs) := single_write_roll_written hs
  rw [hroll] at hwr
  rw [hwr] at hres
  refine ⟨{ m_accesses := [single_write_access hs]
            m_verify_proofs := true
            m_next_access := 0
            m_one_based := if one_based then 1 else 0
            m_root_hash := pristine_hash hs 3 61 }, rfl, rfl, ?_, ?_, ?_, ?_, ?_⟩
  · rw [hres]
  · rw [hres]
  · rw [hres]
    rfl
  · rw [hres]
    exact hroll
  · rw [hres]
    rfl

/-! ## Root mismatch -/

theorem get_sibling_hash_error {Hash : Type} (p : merkle_tree_proof Hash) (k : Nat) (e : Err)
    (h : p.get_sibling_hash k = .error e) :
    e = .out_of_range .sibling_log2_size_out_of_range := by
  unfold merkle_tree_proof.get_sibling_hash at h
  split_ifs at h
  · injection h with h
    exact h.symm
  · split at h
    · cases h
    · injection h with h
      exact h.symm

theorem roll_loop_error {Hash : Type} (hs : hasher_type Hash) (p : merkle_tree_proof Hash) :
    ∀ (n lvl : Nat) (acc x : Hash) (e : Err),
      step_state_access.roll_hash_up_tree_loop hs p n lvl acc = (.error e, x) →
      e = .out_of_range .sibling_log2_size_out_of_range := by
  intro n
  induction n with
  | zero =>
    intro lvl acc x e h
    simp [step_state_access.roll_hash_up_tree_loop] at h
  | succ n ih =>
    intro lvl acc x e h
    simp only [step_state_access.roll_hash_up_tree_loop] at h
    cases hsib : p.get_sibling_hash lvl with
    | error err =>
      rw [hsib] at h
      simp only [Prod.mk.injEq, Except.error.injEq] at h
      rw [← h.1]
      exact get_sibling_hash_error p lvl err hsib
    | ok sibling =>
      rw [hsib] at h
      dsimp only at h
      split_ifs at h
      · exact ih _ _ _ _ h
      · exact ih _ _ _ _ h

theorem check_read_root_mismatch {Hash : Type} [DecidableEq Hash] (hs : hasher_type Hash)
    (s : replay_state Hash) (paligned : Nat) (log2_size : Int) (t : access_type) (n : Nat)
    (h : (step_state_access.check_read hs s paligned log2_size).1 =
      .error (.invalid_argument (.mismatch_in_root_hash t n))) :
    ∃ a p, s.m_accesses[s.m_next_access]? = some a ∧ a.proof = some p ∧
      s.m_root_hash ≠ p.root_hash := by
  revert h
  unfold step_state_access.check_read
  by_cases c1 : log2_size < 3 ∨ log2_size > 63
  · rw [if_pos c1]; intro h; cases h
  rw [if_neg c1]
  by_cases c2 : (paligned &&& (shl1 log2_size.toNat - 1)) ≠ 0
  · rw [if_pos c2]; intro h; cases h
  rw [if_neg c2]
  by_cases c3 : s.m_next_access ≥ s.m_accesses.length
  · rw [dif_pos c3]; intro h; cases h
  rw [dif_neg c3]
  have hget : s.m_accesses[s.m_next_access]? =
      some (s.m_accesses.get ⟨s.m_next_access, Nat.lt_of_not_le c3⟩) := by
    rw [List.getElem?_eq_getElem (Nat.lt_of_not_le c3)]
    rfl
  generalize s.m_accesses.get ⟨s.m_next_access, Nat.lt_of_not_le c3⟩ = acc at hget
  dsimp only
  by_cases c4 : acc.type ≠ access_type.read
  · rw [if_pos c4]; intro h; cases h
  rw [if_neg c4]
  by_cases c5 : acc.log2_size ≠ log2_size
  · rw [if_pos c5]; intro h; cases h
  rw [if_neg c5]
  by_cases c6 : acc.read.length ≠ shl1 log2_size.toNat
  · rw [if_pos c6]; intro h; cases h
  rw [if_neg c6]
  by_cases c7 : acc.address ≠ paligned
  · rw [if_pos c7]; intro h; cases h
  rw [if_neg c7]
  by_cases cv : s.m_verify_proofs = true
  swap
  · rw [if_neg cv]; intro h; cases h
  rw [if_pos cv]
  rcases hpr : acc.proof with _ | proof
  · dsimp only; intro h; cases h
  dsimp only
  by_cases c8 : proof.target_address ≠ acc.address
  · rw [if_pos c8]; intro h; cases h
  rw [if_neg c8]
  by_cases c9 : s.m_root_hash ≠ proof.root_hash
  · rw [if_pos c9]
    intro _
    exact ⟨acc, proof, hget, hpr, c9⟩
  rw [if_neg c9]
  by_cases c10 : step_state_access.get_hash hs acc.read ≠ proof.target_hash
  · rw [if_pos c10]; intro h; cases h
  rw [if_neg c10]
  rcases hroll : step_state_access.roll_hash_up_tree hs proof
      (step_state_access.get_hash hs acc.read) with ⟨_ | _, rolled⟩
  · dsimp only
    intro h
    have := roll_loop_error hs proof _ _ _ _ _ hroll
    rw [this] at h
    cases h
  dsimp only
  by_cases c11 : rolled ≠ proof.root_hash
  · rw [if_pos c11]; intro h; cases h
  rw [if_neg c11]
  intro h
  cases h

theorem check_write_root_mismatch {Hash : Type} [DecidableEq Hash] (hs : hasher_type Hash)
    (s : replay_state Hash) (paligned : Nat) (val : List Nat) (log2_size : Int)
    (t : access_type) (n : Nat)
    (h : (step_state_access.check_write hs s paligned val log2_size).1 =
      .error (.invalid_argument (.mismatch_in_root_hash t n))) :
    ∃ a p, s.m_accesses[s.m_next_access]? = some a ∧ a.proof = some p ∧
      s.m_root_hash ≠ p.root_hash := by
  revert h
  unfold step_state_access.check_write
  by_cases c1 : log2_size < 3 ∨ log2_size > 63
  · rw [if_pos c1]; intro h; cases h
  rw [if_neg c1]
  by_cases c2 : (paligned &&& (shl1 log2_size.toNat - 1)) ≠ 0
  · rw [if_pos c2]; intro h; cases h
  rw [if_neg c2]
  by_cases c3 : s.m_next_access ≥ s.m_accesses.length
  · rw [dif_pos c3]; intro h; cases h
  rw [dif_neg c3]
  have hget : s.m_accesses[s.m_next_access]? =
      some (s.m_accesses.get ⟨s.m_next_access, Nat.lt_of_not_le c3⟩) := by
    rw [List.getElem?_eq_getElem (Nat.lt_of_not_le c3)]
    rfl
  generalize s.m_accesses.get ⟨s.m_next_access, Nat.lt_of_not_le c3⟩ = acc at hget
  dsimp only
  by_cases c4 : acc.type ≠ access_type.write
  · rw [if_pos c4]; intro h; cases h
  rw [if_neg c4]
  by_cases c5 : acc.log2_size ≠ log2_size
  · rw [if_pos c5]; intro h; cases h
  rw [if_neg c5]
  by_cases c6 : acc.read.length ≠ shl1 log2_size.toNat
  · rw [if_pos c6]; intro h; cases h
  rw [if_neg c6]
  by_cases c6w : acc.written.length ≠ shl1 log2_size.toNat
  · rw [if_pos c6w]; intro h; cases h
  rw [if_neg c6w]
  by_cases c7 : acc.address ≠ paligned
  · rw [if_pos c7]; intro h; cases h
  rw [if_neg c7]
  by_cases cv : s.m_verify_proofs = true
  swap
  · rw [if_neg cv]; intro h; cases h
  rw [if_pos cv]
  rcases hpr : acc.proof with _ | proof
  · dsimp only; intro h; cases h
  dsimp only
  by_cases c8 : proof.target_address ≠ acc.address
  · rw [if_pos c8]; intro h; cases h
  rw [if_neg c8]
  by_cases c9 : s.m_root_hash ≠ proof.root_hash
  · rw [if_pos c9]
    intro _
    exact ⟨acc, proof, hget, hpr, c9⟩
  rw [if_neg c9]
  by_cases c10 : step_state_access.get_hash hs acc.read ≠ proof.target_hash
  · rw [if_pos c10]; intro h; cases h
  rw [if_neg c10]
  rcases hroll : step_state_access.roll_hash_up_tree hs proof
      (step_state_access.get_hash hs acc.read) with ⟨_ | _, rolled⟩
  · dsimp only
    intro h
    have := roll_loop_error hs proof _ _ _ _ _ hroll
    rw [this] at h
    cases h
  dsimp only
  by_cases c11 : rolled ≠ proof.root_hash
  · rw [if_pos c11]; intro h; cases h
  rw [if_neg c11]
  by_cases c12 : acc.written ≠ val
  · rw [if_pos c12]; intro h; cases h
  rw [if_neg c12]
  rcases hroll2 : step_state_access.roll_hash_up_tree hs proof
      (step_state_access.get_hash hs acc.written) with ⟨_ | _, root⟩
  · dsimp only
    intro h
    have := roll_loop_error hs proof _ _ _ _ _ hroll2
    rw [this] at h
    cases h
  · dsimp only
    intro h
    cases h

theorem check_read_stale_root {Hash : Type} [DecidableEq Hash] (hs : hasher_type Hash)
    (s : replay_state Hash) (paligned : Nat) (log2_size : Int) (a : access Hash)
    (p : merkle_tree_proof Hash) (hv : s.m_verify_proofs = true)
    (h3 : 3 ≤ log2_size) (h63 : log2_size ≤ 63) (hdvd : 2 ^ log2_size.toNat ∣ paligned)
    (ha : s.m_accesses[s.m_next_access]? = some a) (hty : a.type = access_type.read)
    (hsz : a.log2_size = log2_size) (hlen : a.read.length = 2 ^ log2_size.toNat)
    (haddr : a.address = paligned) (hp : a.proof = some p)
    (hpa : p.target_address = a.address) (hroot : p.root_hash ≠ s.m_root_hash) :
    step_state_access.check_read hs s paligned log2_size =
      (.error (.invalid_argument
        (.mismatch_in_root_hash .read (step_state_access.access_to_report s))), s) := by
  have hk : log2_size.toNat < 64 := by omega
  have c1 : ¬ (log2_size < 3 ∨ log2_size > 63) := by omega
  have c2 : ¬ ((paligned &&& (shl1 log2_size.toNat - 1)) ≠ 0) :=
    not_not.mpr ((aligned_iff paligned hk).2 hdvd)
  have c3 : ¬ (s.m_next_access ≥ s.m_accesses.length) :=
    Nat.not_le.mpr (getElem?_some_lt ha)
  unfold step_state_access.check_read
  rw [if_neg c1, if_neg c2, dif_neg c3]
  have hget : s.m_accesses[s.m_next_access]? =
      some (s.m_accesses.get ⟨s.m_next_access, Nat.lt_of_not_le c3⟩) := by
    rw [List.getElem?_eq_getElem (Nat.lt_of_not_le c3)]
    rfl
  generalize s.m_accesses.get ⟨s.m_next_access, Nat.lt_of_not_le c3⟩ = acc at hget
  rw [ha] at hget
  cases hget
  dsimp only
  rw [if_neg (not_not.mpr hty), if_neg (not_not.mpr hsz),
    if_neg (not_not.mpr (by rw [shl1_eq hk]; exact hlen)), if_neg (not_not.mpr haddr),
    if_pos hv, hp]
  dsimp only
  rw [if_neg (not_not.mpr hpa), if_pos (fun hc => hroot hc.symm)]

theorem check_write_stale_root {Hash : Type} [DecidableEq Hash] (hs : hasher_type Hash)
    (s : replay_state Hash) (paligned : Nat) (val : List Nat) (log2_size : Int)
    (a : access Hash) (p : merkle_tree_proof Hash) (hv : s.m_verify_proofs = true)
    (h3 : 3 ≤ log2_size) (h63 : log2_size ≤ 63) (hdvd : 2 ^ log2_size.toNat ∣ paligned)
    (ha : s.m_accesses[s.m_next_access]? = some a) (hty : a.type = access_type.write)
    (hsz : a.log2_size = log2_size) (hlen : a.read.length = 2 ^ log2_size.toNat)
    (hlenw : a.written.length = 2 ^ log2_size.toNat)
    (haddr : a.address = paligned) (hp : a.proof = some p)
    (hpa : p.target_address = a.address) (hroot : p.root_hash ≠ s.m_root_hash) :
    step_state_access.check_write hs s paligned val log2_size =
      (.error (.invalid_argument
        (.mismatch_in_root_hash .write (step_state_access.access_to_report s))), s) := by
  have hk : log2_size.toNat < 64 := by omega
  have c1 : ¬ (log2_size < 3 ∨ log2_size > 63) := by omega
  have c2 : ¬ ((paligned &&& (shl1 log2_size.toNat - 1)) ≠ 0) :=
    not_not.mpr ((aligned_iff paligned hk).2 hdvd)
  have c3 : ¬ (s.m_next_access ≥ s.m_accesses.length) :=
    Nat.not_le.mpr (getElem?_some_lt ha)
  unfold step_state_access.check_write
  rw [if_neg c1, if_neg c2, dif_neg c3]
  have hget : s.m_accesses[s.m_next_access]? =
      some (s.m_accesses.get ⟨s.m_next_access, Nat.lt_of_not_le c3⟩) := by
    rw [List.getElem?_eq_getElem (Nat.lt_of_not_le c3)]
    rfl
  generalize s.m_accesses.get ⟨s.m_next_access, Nat.lt_of_not_le c3⟩ = acc at hget
  rw [ha] at hget
  cases hget
  dsimp only
  rw [if_neg (not_not.mpr hty), if_neg (not_not.mpr hsz),
    if_neg (not_not.mpr (by rw [shl1_eq hk]; exact hlen)),
    if_neg (not_not.mpr (by rw [shl1_eq hk]; exact hlenw)), if_neg (not_not.mpr haddr),
    if_pos hv, hp]
  dsimp only
  rw [if_neg (not_not.mpr hpa), if_pos (fun hc => hroot hc.symm)]

/-- The constructor is not given a root hash: it takes its initial root from
the first record of the log. `sample_log` and `sample_log_alt` start with
proofs of two different roots, and with `verify_proofs` set the first record
of each is accepted by the verifier constructed from it. -/
theorem create_root_samples :
    sample_proof_alt.root_hash ≠ sample_proof.root_hash ∧
      step_state_access.create sample_log true false = .ok sample_state ∧
      sample_state.m_root_hash = sample_proof.root_hash ∧
      returned (step_state_access.check_read term_hasher sample_state 8 3).1 = true ∧
      step_state_access.create sample_log_alt true false = .ok sample_state_alt ∧
      sample_state_alt.m_root_hash = sample_proof_alt.root_hash ∧
      returned (step_state_access.check_read term_hasher sample_state_alt 8 3).1 = true :=
  ⟨by decide, rfl, rfl, by decide, rfl, rfl, by decide⟩

/-- A verifier constructed with `verify_proofs` set over a non-empty log takes
the `root_hash` of the proof of the first record as its current root, so no
call made at cursor 0 of the fresh verifier throws the root-hash mismatch. At
any cursor, a `check_read` or `check_write` whose arguments are valid, whose
record under the cursor has the kind, size, data lengths and address of the
call and a proof for its own address, but whose `proof.root_hash` differs from
the current root, throws "mismatch in read (write) access N root hash" and
leaves the verifier as it was. -/
theorem create_root_and_stale_root {Hash : Type} [Inhabited Hash] [DecidableEq Hash]
    (hs : hasher_type Hash) :
    (∀ (log : access_log Hash) (one_based : Bool) (s0 : replay_state Hash),
      step_state_access.create log true one_based = .ok s0 →
        s0.m_next_access = 0 ∧
        (∀ first rest, log.accesses = first :: rest →
          ∃ p, first.proof = some p ∧ s0.m_root_hash = p.root_hash) ∧
        (∀ paligned log2_size t n,
          (step_state_access.check_read hs s0 paligned log2_size).1 ≠
            .error (.invalid_argument (.mismatch_in_root_hash t n))) ∧
        (∀ paligned val log2_size t n,
          (step_state_access.check_write hs s0 paligned val log2_size).1 ≠
            .error (.invalid_argument (.mismatch_in_root_hash t n)))) ∧
    (∀ (s : replay_state Hash) (paligned : Nat) (val : List Nat) (log2_size : Int)
      (a : access Hash) (p : merkle_tree_proof Hash),
      s.m_verify_proofs = true → 3 ≤ log2_size → log2_size ≤ 63 →
      2 ^ log2_size.toNat ∣ paligned → s.m_accesses[s.m_next_access]? = some a →
      a.log2_size = log2_size → a.read.length = 2 ^ log2_size.toNat →
      a.address = paligned → a.proof = some p → p.target_address = a.address →
      p.root_hash ≠ s.m_root_hash →
        (a.type = access_type.read →
          step_state_access.check_read hs s paligned log2_size =
            (.error (.invalid_argument
              (.mismatch_in_root_hash .read (step_state_access.access_to_report s))), s)) ∧
        (a.type = access_type.write → a.written.length = 2 ^ log2_size.toNat →
          step_state_access.check_write hs s paligned val log2_size =
            (.error (.invalid_argument
              (.mismatch_in_root_hash .write (step_state_access.access_to_report s))), s))) := by
  constructor
  · intro log one_based s0 hcreate
    obtain ⟨h0, hacc, _, hfirst⟩ := create_fields log true one_based s0 hcreate
    have hno : ∀ a p, s0.m_accesses[s0.m_next_access]? = some a → a.proof = some p →
        ¬ (s0.m_root_hash ≠ p.root_hash) := by
      intro a p ha hp
      rw [h0, hacc] at ha
      rcases hl : log.accesses with _ | ⟨first, rest⟩
      · rw [hl] at ha
        cases ha
      · rw [hl] at ha
        simp only [List.getElem?_cons_zero, Option.some.injEq] at ha
        subst ha
        obtain ⟨p1, hp1, hr⟩ := hfirst rfl first rest hl
        rw [hp] at hp1
        cases hp1
        exact not_not.mpr hr
    refine ⟨h0, hfirst rfl, ?_, ?_⟩
    · intro paligned log2_size t n hc
      obtain ⟨a, p, ha, hp, hne⟩ := check_read_root_mismatch hs s0 paligned log2_size t n hc
      exact hno a p ha hp hne
    · intro paligned val log2_size t n hc
      obtain ⟨a, p, ha, hp, hne⟩ :=
        check_write_root_mismatch hs s0 paligned val log2_size t n hc
      exact hno a p ha hp hne
  · intro s paligned val log2_size a p hv h3 h63 hdvd ha hsz hlen haddr hp hpa hroot
    exact ⟨fun hty => check_read_stale_root hs s paligned log2_size a p hv h3 h63 hdvd ha hty
        hsz hlen haddr hp hpa hroot,
      fun hty hlenw => check_write_stale_root hs s paligned val log2_size a p hv h3 h63 hdvd
        ha hty hsz hlen hlenw haddr hp hpa hroot⟩

/-- A run on `sample_log_stale`: the read is accepted at cursor 0, and the
write, whose proof is against another root than the current one, is rejected
at cursor 1 with the root-hash mismatch. -/
theorem create_root_and_stale_root_sample :
    step_state_access.create sample_log_stale true false =
        .ok { sample_state_1_stale with m_next_access := 0 } ∧
      (step_state_access.check_read term_hasher
          { sample_state_1_stale with m_next_access := 0 } 8 3).2.m_next_access = 1 ∧
      step_state_access.check_write term_hasher sample_state_1_stale 8 one_word 3 =
        (.error (.invalid_argument (.mismatch_in_root_hash .write 1)), sample_state_1_stale) :=
  ⟨rfl, by decide,
    ((create_root_and_stale_root term_hasher).2 sample_state_1_stale 8 one_word 3
      { sample_write with proof := some sample_proof_alt } sample_proof_alt rfl (by decide)
      (by decide) (by decide) rfl rfl rfl rfl rfl rfl (by decide)).2 rfl rfl⟩

/-! ## Proof-less reads -/

theorem check_read_no_proof {Hash : Type} [DecidableEq Hash] (hs : hasher_type Hash)
    (s : replay_state Hash) (paligned : Nat) (log2_size : Int) (a : access Hash)
    (hv : s.m_verify_proofs = true) (h1 : 3 ≤ log2_size) (h2 : log2_size ≤ 63)
    (hal : 2 ^ log2_size.toNat ∣ paligned)
    (hget : s.m_accesses[s.m_next_access]? = some a) (ht : a.type = access_type.read)
    (hl : a.log2_size = log2_size) (hlen : a.read.length = 2 ^ log2_size.toNat)
    (haddr : a.address = paligned) (hp : a.proof = none) :
    step_state_access.check_read hs s paligned log2_size =
      (.error (.invalid_argument
        (.access_has_no_proof .read (step_state_access.access_to_report s))), s) := by
  unfold step_state_access.check_read
  have hk : log2_size.toNat < 64 := by omega
  have c1 : ¬ (log2_size < 3 ∨ log2_size > 63) := by omega
  rw [if_neg c1]
  have c2 : ¬ ((paligned &&& (shl1 log2_size.toNat - 1)) ≠ 0) :=
    fun h => h ((aligned_iff paligned hk).2 hal)
  rw [if_neg c2]
  have c3 : ¬ (s.m_next_access ≥ s.m_accesses.length) :=
    Nat.not_le_of_lt (getElem?_some_lt hget)
  rw [dif_neg c3]
  have hget2 : s.m_accesses[s.m_next_access]? =
      some (s.m_accesses.get ⟨s.m_next_access, Nat.lt_of_not_le c3⟩) := by
    rw [List.getElem?_eq_getElem (Nat.lt_of_not_le c3)]
    rfl
  generalize s.m_accesses.get ⟨s.m_next_access, Nat.lt_of_not_le c3⟩ = acc at hget2
  have hacc : acc = a := by
    rw [hget] at hget2
    exact (Option.some.inj hget2).symm
  subst hacc
  dsimp only
  rw [if_neg (fun h => h ht), if_neg (fun h => h hl),
    if_neg (fun h => h (by rw [hlen, shl1_eq hk])), if_neg (fun h => h haddr), if_pos hv, hp]

/-- C28 (proof-less read): with `m_verify_proofs` set, `check_read` of either
class on a log whose next record is a read of the requested size and address
with data of the right length, but without a proof, throws
`std::invalid_argument` ("... access N has no proof") and leaves the object,
in particular the cursor, as it was. -/
theorem C28_proofless_read {Hash : Type} [DecidableEq Hash] (hs : hasher_type Hash)
    (s : replay_state Hash) (paligned : Nat) (log2_size : Int) (a : access Hash)
    (hv : s.m_verify_proofs = true) (h1 : 3 ≤ log2_size) (h2 : log2_size ≤ 63)
    (hal : 2 ^ log2_size.toNat ∣ paligned)
    (hget : s.m_accesses[s.m_next_access]? = some a) (ht : a.type = access_type.read)
    (hl : a.log2_size = log2_size) (hlen : a.read.length = 2 ^ log2_size.toNat)
    (haddr : a.address = paligned) (hp : a.proof = none) :
    (step_state_access.check_read hs s paligned log2_size =
        (.error (.invalid_argument
          (.access_has_no_proof .read (s.m_next_access + s.m_one_based))), s) ∧
      (step_state_access.check_read hs s paligned log2_size).2.m_next_access =
        s.m_next_access) ∧
    (uarch_replay_state_access.check_read hs s paligned log2_size =
        (.error (.invalid_argument
          (.access_has_no_proof .read (s.m_next_access + s.m_one_based))), s) ∧
      (uarch_replay_state_access.check_read hs s paligned log2_size).2.m_next_access =
        s.m_next_access) := by
  have key := check_read_no_proof hs s paligned log2_size a hv h1 h2 hal hget ht hl hlen haddr hp
  rw [uarch_check_read_eq, key]
  exact ⟨⟨rfl, rfl⟩, rfl, rfl⟩

theorem C28_proofless_read_witness :
    (step_state_access.check_read term_hasher sample_state_proofless 8 3 =
        (.error (.invalid_argument (.access_has_no_proof .read 0)), sample_state_proofless) ∧
      (step_state_access.check_read term_hasher sample_state_proofless 8 3).2.m_next_access
        = 0) ∧
    (uarch_replay_state_access.check_read term_hasher sample_state_proofless 8 3 =
        (.error (.invalid_argument (.access_has_no_proof .read 0)), sample_state_proofless) ∧
      (uarch_replay_state_access.check_read term_hasher sample_state_proofless 8 3).2.m_next_access
        = 0) :=
  C28_proofless_read term_hasher sample_state_proofless 8 3 { sample_read with proof := none }
    rfl (by decide) (by decide) (by decide) rfl rfl rfl rfl rfl rfl

/-! ## The hash of access data -/

theorem get_hash_rec_take {Hash : Type} (hs : hasher_type Hash) :
    ∀ (fuel : Nat) (data : List Nat) (len : Nat),
      step_state_access.get_hash_rec hs fuel (data.take len) len =
        step_state_access.get_hash_rec hs fuel data len := by
  intro fuel
  induction fuel with
  | zero =>
    intro data len
    simp [step_state_access.get_hash_rec, List.take_take]
  | succ fuel ih =>
    intro data len
    unfold step_state_access.get_hash_rec
    by_cases c : len ≤ 8
    · rw [if_pos c, if_pos c, List.take_take, Nat.min_self]
    · rw [if_neg c, if_neg c]
      dsimp only
      have h1 : len / 2 ≤ len := Nat.div_le_self _ _
      have h2 : len / 2 ≤ len - len / 2 := by omega
      congr 1
      · rw [← ih (data.take len), ← ih data, List.take_take, Nat.min_eq_left h1]
      · rw [← ih ((data.take len).drop (len / 2)), ← ih (data.drop (len / 2)),
          List.drop_take, List.take_take, Nat.min_eq_left h2]

theorem get_hash_rec_succ {Hash : Type} (hs : hasher_type Hash) (fuel : Nat)
    (data : List Nat) (len : Nat) :
    step_state_access.get_hash_rec hs (fuel + 1) data len =
      if len ≤ 8 then hs.data (data.take len)
      else hs.concat (step_state_access.get_hash_rec hs fuel data (len / 2))
        (step_state_access.get_hash_rec hs fuel (data.drop (len / 2)) (len / 2)) := rfl

theorem get_hash_word {Hash : Type} (hs : hasher_type Hash) (data : List Nat)
    (h : data.length ≤ 8) : step_state_access.get_hash hs data = hs.data data := by
  unfold step_state_access.get_hash
  rcases hn : data.length with _ | n
  · rw [List.length_eq_zero.1 hn]
    rfl
  · rw [get_hash_rec_succ, if_pos (by omega), ← hn, List.take_length]

theorem get_hash_node {Hash : Type} (hs : hasher_type Hash) (data : List Nat) (k : Nat)
    (hk : 3 < k) (h : data.length = 2 ^ k) :
    step_state_access.get_hash hs data =
      hs.concat (step_state_access.get_hash hs (data.take (2 ^ (k - 1))))
        (step_state_access.get_hash hs (data.drop (2 ^ (k - 1)))) := by
  obtain ⟨j, rfl⟩ : ∃ j, k = j + 1 := ⟨k - 1, by omega⟩
  have hj : 8 ≤ 2 ^ j := by
    have : 2 ^ 3 ≤ 2 ^ j := Nat.pow_le_pow_right (by decide) (by omega)
    simpa using this
  have hpow : 2 ^ (j + 1) = 2 ^ j + 2 ^ j := by rw [pow_succ]; omega
  have hhalf : 2 ^ (j + 1) / 2 = 2 ^ j := by omega
  have htake : (data.take (2 ^ j)).length = 2 ^ j := by
    rw [List.length_take, h]; omega
  have hdrop : (data.drop (2 ^ j)).length = 2 ^ j := by
    rw [List.length_drop, h]; omega
  unfold step_state_access.get_hash
  rw [Nat.add_sub_cancel, htake, hdrop, h]
  obtain ⟨n, hn⟩ : ∃ n, 2 ^ (j + 1) = n + 1 := ⟨2 ^ (j + 1) - 1, by omega⟩
  rw [hn, get_hash_rec_succ, if_neg (by omega), ← hn, hhalf]
  congr 1
  · rw [get_hash_rec_take, get_hash_rec_fuel hs n (2 ^ j) data (2 ^ j) (by omega) (le_refl _)]
  · exact get_hash_rec_fuel hs n (2 ^ j) _ (2 ^ j) (by omega) (le_refl _)

theorem get_hash_pristine {Hash : Type} (hs : hasher_type Hash) :
    ∀ (i : Nat), step_state_access.get_hash hs (List.replicate (2 ^ (3 + i)) 0) =
      pristine_hash hs 3 i := by
  intro i
  induction i with
  | zero =>
    rw [get_hash_word hs _ (by simp)]
    rfl
  | succ i ih =>
    have hpow : 2 ^ (3 + (i + 1)) = 2 ^ (3 + i) + 2 ^ (3 + i) := by
      rw [← Nat.add_assoc, pow_succ]; omega
    rw [get_hash_node hs _ (3 + (i + 1)) (by omega) (by simp)]
    have e : 3 + (i + 1) - 1 = 3 + i := by omega
    rw [e, List.take_replicate, List.drop_replicate, hpow, Nat.add_sub_cancel,
      Nat.min_eq_left (Nat.le_add_right _ _), ih]
    rfl

/-- C30 (tree hash): `get_hash` of either class hashes the data as a tree of
8-byte words. For data of exactly 8 bytes it is the hash of the data; for data
of `2 ^ k` bytes with `k > 3` it is the hash of the concatenation of the
`get_hash` of the first half and the `get_hash` of the second half; so for
`2 ^ k` zero bytes, `3 ≤ k`, it is the entry for log2 size `k` of the pristine
table built with a log2 word size of 3. -/
theorem C30_tree_hash {Hash : Type} (hs : hasher_type Hash) (data : List Nat) (k R : Nat) :
    (data.length = 8 →
      step_state_access.get_hash hs data = hs.data data ∧
        uarch_replay_state_access.get_hash hs data = hs.data data) ∧
    (3 < k → data.length = 2 ^ k →
      step_state_access.get_hash hs data =
          hs.concat (step_state_access.get_hash hs (data.take (2 ^ (k - 1))))
            (step_state_access.get_hash hs (data.drop (2 ^ (k - 1)))) ∧
        uarch_replay_state_access.get_hash hs data =
          hs.concat (uarch_replay_state_access.get_hash hs (data.take (2 ^ (k - 1))))
            (uarch_replay_state_access.get_hash hs (data.drop (2 ^ (k - 1))))) ∧
    (3 ≤ k → k ≤ R →
      (pristine_merkle_tree.create hs R 3).get_hash k =
          .ok (step_state_access.get_hash hs (List.replicate (2 ^ k) 0)) ∧
        (pristine_merkle_tree.create hs R 3).get_hash k =
          .ok (uarch_replay_state_access.get_hash hs (List.replicate (2 ^ k) 0))) := by
  simp only [uarch_get_hash_eq]
  refine ⟨fun h => ⟨get_hash_word hs data (by omega), get_hash_word hs data (by omega)⟩,
    fun hk h => ⟨get_hash_node hs data k hk h, get_hash_node hs data k hk h⟩, fun h3 hR => ?_⟩
  have e : k = 3 + (k - 3) := by omega
  rw [pristine_get_hash_create hs R 3 k h3 hR]
  have hp : step_state_access.get_hash hs (List.replicate (2 ^ k) 0) =
      pristine_hash hs 3 (k - 3) := by
    rw [← get_hash_pristine hs (k - 3), ← e]
  rw [hp]
  exact ⟨rfl, rfl⟩

theorem C30_tree_hash_witness :
    (step_state_access.get_hash term_hasher (List.replicate 16 0) =
        term_hasher.concat (step_state_access.get_hash term_hasher (List.replicate 8 0))
          (step_state_access.get_hash term_hasher (List.replicate 8 0)) ∧
      uarch_replay_state_access.get_hash term_hasher (List.replicate 16 0) =
        term_hasher.concat (uarch_replay_state_access.get_hash term_hasher (List.replicate 8 0))
          (uarch_replay_state_access.get_hash term_hasher (List.replicate 8 0))) ∧
    ((pristine_merkle_tree.create term_hasher 5 3).get_hash 4 =
        .ok (step_state_access.get_hash term_hasher (List.replicate 16 0)) ∧
      (pristine_merkle_tree.create term_hasher 5 3).get_hash 4 =
        .ok (uarch_replay_state_access.get_hash term_hasher (List.replicate 16 0))) :=
  ⟨(C30_tree_hash term_hasher (List.replicate 16 0) 4 5).2.1 (by decide) rfl,
    (C30_tree_hash term_hasher (List.replicate 16 0) 4 5).2.2 (by decide) (by decide)⟩

/-! ## The access index in error messages -/

theorem roll_error {Hash : Type} (hs : hasher_type Hash) (p : merkle_tree_proof Hash)
    (acc x : Hash) (e : Err)
    (h : step_state_access.roll_hash_up_tree hs p acc = (.error e, x)) :
    e = .out_of_range .sibling_log2_size_out_of_range :=
  roll_loop_error hs p _ _ acc x e h

theorem check_read_error_index {Hash : Type} [DecidableEq Hash] (hs : hasher_type Hash)
    (s : replay_state Hash) (paligned : Nat) (log2_size : Int)
    (h1 : 3 ≤ log2_size) (h2 : log2_size ≤ 63) (hal : 2 ^ log2_size.toNat ∣ paligned)
    (hlt : s.m_next_access < s.m_accesses.length) :
    ∀ e, (step_state_access.check_read hs s paligned log2_size).1 = .error e →
      e.msg.report = some (s.m_next_access + s.m_one_based) ∨
        e = .out_of_range .sibling_log2_size_out_of_range := by
  unfold step_state_access.check_read
  have hk : log2_size.toNat < 64 := by omega
  have c1 : ¬ (log2_size < 3 ∨ log2_size > 63) := by omega
  rw [if_neg c1]
  have c2 : ¬ ((paligned &&& (shl1 log2_size.toNat - 1)) ≠ 0) :=
    fun h => h ((aligned_iff paligned hk).2 hal)
  rw [if_neg c2]
  have c3 : ¬ (s.m_next_access ≥ s.m_accesses.length) := Nat.not_le_of_lt hlt
  rw [dif_neg c3]
  generalize s.m_accesses.get ⟨s.m_next_access, Nat.lt_of_not_le c3⟩ = acc
  dsimp only
  by_cases c4 : acc.type ≠ access_type.read
  · rw [if_pos c4]
    exact fun e h => by cases h; exact Or.inl rfl
  rw [if_neg c4]
  by_cases c5 : acc.log2_size ≠ log2_size
  · rw [if_pos c5]
    exact fun e h => by cases h; exact Or.inl rfl
  rw [if_neg c5]
  by_cases c6 : acc.read.length ≠ shl1 log2_size.toNat
  · rw [if_pos c6]
    exact fun e h => by cases h; exact Or.inl rfl
  rw [if_neg c6]
  by_cases c7 : acc.address ≠ paligned
  · rw [if_pos c7]
    exact fun e h => by cases h; exact Or.inl rfl
  rw [if_neg c7]
  by_cases cv : s.m_verify_proofs = true
  swap
  · rw [if_neg cv]
    exact fun e h => by cases h
  rw [if_pos cv]
  rcases hpr : acc.proof with _ | proof
  · dsimp only
    exact fun e h => by cases h; exact Or.inl rfl
  dsimp only
  by_cases c8 : proof.target_address ≠ acc.address
  · rw [if_pos c8]
    exact fun e h => by cases h; exact Or.inl rfl
  rw [if_neg c8]
  by_cases c9 : s.m_root_hash ≠ proof.root_hash
  · rw [if_pos c9]
    exact fun e h => by cases h; exact Or.inl rfl
  rw [if_neg c9]
  by_cases c10 : step_state_access.get_hash hs acc.read ≠ proof.target_hash
  · rw [if_pos c10]
    exact fun e h => by cases h; exact Or.inl rfl
  rw [if_neg c10]
  rcases hroll : step_state_access.roll_hash_up_tree hs proof
      (step_state_access.get_hash hs acc.read) with ⟨_ | _, rolled⟩
  · dsimp only
    exact fun e h => by cases h; exact Or.inr (roll_error hs proof _ _ _ hroll)
  dsimp only
  by_cases c11 : rolled ≠ proof.root_hash
  · rw [if_pos c11]
    exact fun e h => by cases h; exact Or.inl rfl
  rw [if_neg c11]
  exact fun e h => by cases h

theorem check_write_error_index {Hash : Type} [DecidableEq Hash] (hs : hasher_type Hash)
    (s : replay_state Hash) (paligned : Nat) (val : List Nat) (log2_size : Int)
    (h1 : 3 ≤ log2_size) (h2 : log2_size ≤ 63) (hal : 2 ^ log2_size.toNat ∣ paligned)
    (hlt : s.m_next_access < s.m_accesses.length) :
    ∀ e, (step_state_access.check_write hs s paligned val log2_size).1 = .error e →
      e.msg.report = some (s.m_next_access + s.m_one_based) ∨
        e = .out_of_range .sibling_log2_size_out_of_range := by
  unfold step_state_access.check_write
  have hk : log2_size.toNat < 64 := by omega
  have c1 : ¬ (log2_size < 3 ∨ log2_size > 63) := by omega
  rw [if_neg c1]
  have c2 : ¬ ((paligned &&& (shl1 log2_size.toNat - 1)) ≠ 0) :=
    fun h => h ((aligned_iff paligned hk).2 hal)
  rw [if_neg c2]
  have c3 : ¬ (s.m_next_access ≥ s.m_accesses.length) := Nat.not_le_of_lt hlt
  rw [dif_neg c3]
  generalize s.m_accesses.get ⟨s.m_next_access, Nat.lt_of_not_le c3⟩ = acc
  dsimp only
  by_cases c4 : acc.type ≠ access_type.write
  · rw [if_pos c4]
    exact fun e h => by cases h; exact Or.inl rfl
  rw [if_neg c4]
  by_cases c5 : acc.log2_size ≠ log2_size
  · rw [if_pos c5]
    exact fun e h => by cases h; exact Or.inl rfl
  rw [if_neg c5]
  by_cases c6 : acc.read.length ≠ shl1 log2_size.toNat
  · rw [if_pos c6]
    exact fun e h => by cases h; exact Or.inl rfl
  rw [if_neg c6]
  by_cases c6b : acc.written.length ≠ shl1 log2_size.toNat
  · rw [if_pos c6b]
    exact fun e h => by cases h; exact Or.inl rfl
  rw [if_neg c6b]
  by_cases c7 : acc.address ≠ paligned
  · rw [if_pos c7]
    exact fun e h => by cases h; exact Or.inl rfl
  rw [if_neg c7]
  by_cases cv : s.m_verify_proofs = true
  swap
  · rw [if_neg cv]
    exact fun e h => by cases h
  rw [if_pos cv]
  rcases hpr : acc.proof with _ | proof
  · dsimp only
    exact fun e h => by cases h; exact Or.inl rfl
  dsimp only
  by_cases c8 : proof.target_address ≠ acc.address
  · rw [if_pos c8]
    exact fun e h => by cases h; exact Or.inl rfl
  rw [if_neg c8]
  by_cases c9 : s.m_root_hash ≠ proof.root_hash
  · rw [if_pos c9]
    exact fun e h => by cases h; exact Or.inl rfl
  rw [if_neg c9]
  by_cases c10 : step_state_access.get_hash hs acc.read ≠ proof.target_hash
  · rw [if_pos c10]
    exact fun e h => by cases h; exact Or.inl rfl
  rw [if_neg c10]
  rcases hroll : step_state_access.roll_hash_up_tree hs proof
      (step_state_access.get_hash hs acc.read) with ⟨_ | _, rolled⟩
  · dsimp only
    exact fun e h => by cases h; exact Or.inr (roll_error hs proof _ _ _ hroll)
  dsimp only
  by_cases c11 : rolled ≠ proof.root_hash
  · rw [if_pos c11]
    exact fun e h => by cases h; exact Or.inl rfl
  rw [if_neg c11]
  by_cases c12 : acc.written ≠ val
  · rw [if_pos c12]
    exact fun e h => by cases h; exact Or.inl rfl
  rw [if_neg c12]
  rcases hroll2 : step_state_access.roll_hash_up_tree hs proof
      (step_state_access.get_hash hs acc.written) with ⟨_ | _, root⟩
  · dsimp only
    exact fun e h => by cases h; exact Or.inr (roll_error hs proof _ _ _ hroll2)
  dsimp only
  exact fun e h => by cases h

/-- C27 (error index reporting), against the claim as stated: `finish()` on
`sample_state`, whose two records are both unconsumed, throws "too many word
accesses in log", a message that carries no access index; so do `check_read`
and `check_write` for an invalid access size. -/
theorem C27_error_index_counterexample :
    sample_state.m_next_access < sample_state.m_accesses.length ∧
      (step_state_access.finish sample_state).1 =
        .error (.invalid_argument .too_many_word_accesses_in_log) ∧
      (uarch_replay_state_access.finish sample_state).1 =
        .error (.invalid_argument .too_many_word_accesses_in_log) ∧
      (Err.invalid_argument Msg.too_many_word_accesses_in_log).msg.report = none ∧
      (step_state_access.check_read term_hasher sample_state 8 2).1 =
        .error (.invalid_argument .invalid_access_size) ∧
      (step_state_access.check_write term_hasher sample_state 8 one_word 2).1 =
        .error (.invalid_argument .invalid_access_size) ∧
      (Err.invalid_argument Msg.invalid_access_size).msg.report = none := by
  refine ⟨by decide, rfl, rfl, rfl, rfl, rfl, rfl⟩

/-- C27 (error index reporting), amended: when the access size is valid, the
address aligned and a record is under the cursor, every exception thrown by
`check_read` and `check_write` of either class carries in its message the
index `m_next_access + m_one_based` of that record, but for the
`std::out_of_range` of a proof that lacks a sibling hash. The exceptions for an
invalid access size, a misaligned address and an exhausted log, and the one
`finish()` throws when records are left, carry no index. -/
theorem C27_error_index {Hash : Type} [DecidableEq Hash] (hs : hasher_type Hash)
    (s : replay_state Hash) (paligned : Nat) (val : List Nat) (log2_size : Int) (e : Err)
    (h1 : 3 ≤ log2_size) (h2 : log2_size ≤ 63) (hal : 2 ^ log2_size.toNat ∣ paligned)
    (hlt : s.m_next_access < s.m_accesses.length) :
    ((step_state_access.check_read hs s paligned log2_size).1 = .error e →
      e.msg.report = some (s.m_next_access + s.m_one_based) ∨
        e = .out_of_range .sibling_log2_size_out_of_range) ∧
    ((step_state_access.check_write hs s paligned val log2_size).1 = .error e →
      e.msg.report = some (s.m_next_access + s.m_one_based) ∨
        e = .out_of_range .sibling_log2_size_out_of_range) ∧
    ((uarch_replay_state_access.check_read hs s paligned log2_size).1 = .error e →
      e.msg.report = some (s.m_next_access + s.m_one_based) ∨
        e = .out_of_range .sibling_log2_size_out_of_range) ∧
    ((uarch_replay_state_access.check_write hs s paligned val log2_size).1 = .error e →
      e.msg.report = some (s.m_next_access + s.m_one_based) ∨
        e = .out_of_range .sibling_log2_size_out_of_range) ∧
    (step_state_access.finish s).1 =
      .error (.invalid_argument .too_many_word_accesses_in_log) ∧
    (uarch_replay_state_access.finish s).1 =
      .error (.invalid_argument .too_many_word_accesses_in_log) ∧
    (Err.invalid_argument Msg.too_many_word_accesses_in_log).msg.report = none := by
  rw [uarch_check_read_eq, uarch_check_write_eq, uarch_finish_eq]
  have hf : (step_state_access.finish s).1 =
      .error (.invalid_argument .too_many_word_accesses_in_log) := by
    unfold step_state_access.finish
    rw [if_pos (by omega)]
  exact ⟨check_read_error_index hs s paligned log2_size h1 h2 hal hlt e,
    check_write_error_index hs s paligned val log2_size h1 h2 hal hlt e,
    check_read_error_index hs s paligned log2_size h1 h2 hal hlt e,
    check_write_error_index hs s paligned val log2_size h1 h2 hal hlt e, hf, hf, rfl⟩

theorem C27_error_index_witness :
    (step_state_access.check_read term_hasher sample_state_proofless 8 3).1 =
        .error (.invalid_argument (.access_has_no_proof .read 0)) ∧
      ((Err.invalid_argument (Msg.access_has_no_proof access_type.read 0)).msg.report = some 0 ∨
        Err.invalid_argument (Msg.access_has_no_proof access_type.read 0) =
          .out_of_range .sibling_log2_size_out_of_range) :=
  ⟨rfl, (C27_error_index term_hasher sample_state_proofless 8 one_word 3
    (.invalid_argument (.access_has_no_proof .read 0))
    (by decide) (by decide) (by decide) (by decide)).1 (by rfl)⟩

/-! ## Determinism of the replay -/

/-- C29 (replay determinism): two `uarch_replay_state_access` objects
constructed from the same log with the same flags and driven by the same
sequence of primitive calls give the same sequence of results (exception or
value returned) and end with the same cursor and the same root hash. The
constructor value-initialises `m_root_hash` and the methods read nothing but
their arguments and the members of the object. -/
theorem C29_replay_determinism {Hash : Type} [DecidableEq Hash] [Inhabited Hash]
    (hs : hasher_type Hash) (log : access_log Hash) (verify_proofs one_based : Bool)
    (calls : List primitive_call) (s1 s2 : replay_state Hash)
    (h1 : uarch_replay_state_access.create log verify_proofs one_based = .ok s1)
    (h2 : uarch_replay_state_access.create log verify_proofs one_based = .ok s2) :
    uarch_replay_state_access.results hs s1 calls =
        uarch_replay_state_access.results hs s2 calls ∧
      (uarch_replay_state_access.run hs s1 calls).m_next_access =
        (uarch_replay_state_access.run hs s2 calls).m_next_access ∧
      uarch_replay_state_access.get_root_hash (uarch_replay_state_access.run hs s1 calls) =
        uarch_replay_state_access.get_root_hash (uarch_replay_state_access.run hs s2 calls) := by
  have e : s1 = s2 := by
    rw [h1] at h2
    injection h2
  subst e
  exact ⟨rfl, rfl, rfl⟩

theorem C29_replay_determinism_witness :
    uarch_replay_state_access.create sample_log true false = .ok sample_state ∧
      uarch_replay_state_access.results term_hasher sample_state sample_calls =
        [.ok (some zero_word),
          .error (.invalid_argument (.expected_access_to .read 1)),
          .error (.invalid_argument (.value_written_does_not_match_log 1)),
          .ok none] ∧
      (uarch_replay_state_access.run term_hasher sample_state sample_calls).m_next_access = 2 ∧
      (uarch_replay_state_access.results term_hasher sample_state sample_calls =
          uarch_replay_state_access.results term_hasher sample_state sample_calls ∧
        (uarch_replay_state_access.run term_hasher sample_state sample_calls).m_next_access =
          (uarch_replay_state_access.run term_hasher sample_state sample_calls).m_next_access ∧
        uarch_replay_state_access.get_root_hash
            (uarch_replay_state_access.run term_hasher sample_state sample_calls) =
          uarch_replay_state_access.get_root_hash
            (uarch_replay_state_access.run term_hasher sample_state sample_calls)) :=
  ⟨rfl, by rfl, by rfl,
    C29_replay_determinism term_hasher sample_log true false sample_calls sample_state
      sample_state rfl rfl⟩

/-! ## Words and their bytes -/

theorem set_word_access_data_eq (w : Nat) :
    set_word_access_data w =
      [w % 256, w / 256 % 256, w / 256 ^ 2 % 256, w / 256 ^ 3 % 256, w / 256 ^ 4 % 256,
        w / 256 ^ 5 % 256, w / 256 ^ 6 % 256, w / 256 ^ 7 % 256] := by
  simp [set_word_access_data, List.range_succ]

theorem set_word_access_data_length (w : Nat) : (set_word_access_data w).length = 8 := by
  rw [set_word_access_data_eq]
  rfl

theorem set_word_access_data_lt (w : Nat) : ∀ b ∈ set_word_access_data w, b < 256 := by
  intro b hb
  unfold set_word_access_data at hb
  rw [List.mem_map] at hb
  obtain ⟨i, _, rfl⟩ := hb
  exact Nat.mod_lt _ (by decide)

theorem get_word_access_data_eq (b0 b1 b2 b3 b4 b5 b6 b7 : Nat) :
    get_word_access_data [b0, b1, b2, b3, b4, b5, b6, b7] =
      b0 % 256 + b1 % 256 * 256 + b2 % 256 * 256 ^ 2 + b3 % 256 * 256 ^ 3 + b4 % 256 * 256 ^ 4 +
        b5 % 256 * 256 ^ 5 + b6 % 256 * 256 ^ 6 + b7 % 256 * 256 ^ 7 := by
  simp [get_word_access_data, List.range_succ]

theorem get_word_access_data_lt (data : List Nat) : get_word_access_data data < 2 ^ 64 := by
  have h : ∀ i, data.getD i 0 % 256 < 256 := fun i => Nat.mod_lt _ (by decide)
  have h0 := h 0
  have h1 := h 1
  have h2 := h 2
  have h3 := h 3
  have h4 := h 4
  have h5 := h 5
  have h6 := h 6
  have h7 := h 7
  simp only [get_word_access_data, List.range_succ, List.range_zero, List.nil_append,
    List.cons_append, List.foldl_cons, List.foldl_nil]
  norm_num
  omega

theorem get_set_word_access_data (w : Nat) (h : w < 2 ^ 64) :
    get_word_access_data (set_word_access_data w) = w := by
  rw [set_word_access_data_eq, get_word_access_data_eq]
  norm_num at h ⊢
  omega

theorem list_length_eight {α : Type} (l : List α) (h : l.length = 8) :
    ∃ b0 b1 b2 b3 b4 b5 b6 b7, l = [b0, b1, b2, b3, b4, b5, b6, b7] := by
  rcases l with _ | ⟨b0, _ | ⟨b1, _ | ⟨b2, _ | ⟨b3, _ | ⟨b4, _ | ⟨b5, _ | ⟨b6, _ | ⟨b7, _ | ⟨b8, l⟩⟩⟩⟩⟩⟩⟩⟩⟩ <;>
    simp at h
  exact ⟨b0, b1, b2, b3, b4, b5, b6, b7, rfl⟩

theorem set_get_word_access_data (data : List Nat) (hlen : data.length = 8)
    (hb : ∀ b ∈ data, b < 256) : set_word_access_data (get_word_access_data data) = data := by
  obtain ⟨b0, b1, b2, b3, b4, b5, b6, b7, rfl⟩ := list_length_eight data hlen
  have h0 := hb b0 (by simp)
  have h1 := hb b1 (by simp)
  have h2 := hb b2 (by simp)
  have h3 := hb b3 (by simp)
  have h4 := hb b4 (by simp)
  have h5 := hb b5 (by simp)
  have h6 := hb b6 (by simp)
  have h7 := hb b7 (by simp)
  rw [get_word_access_data_eq, set_word_access_data_eq]
  norm_num
  refine ⟨?_, ?_, ?_, ?_, ?_, ?_, ?_, ?_⟩ <;> omega

theorem aliased_aligned_write_length (size poffset val : Nat) (bytes : List Nat) :
    (aliased_aligned_write size poffset val bytes).length = 8 := by
  simp [aliased_aligned_write]

theorem aliased_aligned_write_lt (size poffset val : Nat) (bytes : List Nat)
    (hb : ∀ b ∈ bytes, b < 256) :
    ∀ b ∈ aliased_aligned_write size poffset val bytes, b < 256 := by
  intro b hmem
  unfold aliased_aligned_write at hmem
  rw [List.mem_map] at hmem
  obtain ⟨i, _, rfl⟩ := hmem
  split_ifs
  · exact Nat.mod_lt _ (by decide)
  · rw [List.getD_eq_getElem?_getD]
    rcases hg : bytes[i]? with _ | x
    · simp
    · simp only [Option.getD_some]
      exact hb x (List.getElem?_mem hg)

/-- The bytes `do_write_memory_word` passes to `check_write` are the bytes of
the word read with the bytes of the value written over them. -/
theorem merged_word_bytes (size poffset val : Nat) (data : List Nat) (hlen : data.length = 8)
    (hb : ∀ b ∈ data, b < 256) :
    set_word_access_data (get_word_access_data
      (aliased_aligned_write size poffset val
        (set_word_access_data (get_word_access_data data)))) =
      aliased_aligned_write size poffset val data := by
  rw [set_get_word_access_data data hlen hb,
    set_get_word_access_data _ (aliased_aligned_write_length _ _ _ _)
      (aliased_aligned_write_lt _ _ _ _ hb)]

theorem or_eq_of_and_eq (a m : Nat) (h : a &&& m = m) : a ||| m = a := by
  apply Nat.eq_of_testBit_eq
  intro i
  have hi := congrArg (fun x => x.testBit i) h
  simp only [Nat.testBit_and] at hi
  rw [Nat.testBit_or]
  cases ha : a.testBit i <;> cases hm : m.testBit i <;> simp_all

/-! ## Word accesses -/

theorem check_read_word_cases {Hash : Type} [DecidableEq Hash] (hs : hasher_type Hash)
    (s : replay_state Hash) (paligned : Nat) :
    (∃ e, step_state_access.check_read_word hs s paligned = (.error e, s) ∧
        ∀ a, ¬ read_accepted hs s paligned 3 a) ∨
      (∃ a, read_accepted hs s paligned 3 a ∧
        step_state_access.check_read_word hs s paligned =
          (.ok (get_word_access_data a.read), { s with m_next_access := s.m_next_access + 1 })) := by
  unfold step_state_access.check_read_word
  rcases check_read_cases hs s paligned 3 with ⟨e, he, hno⟩ | ⟨a, ha, hok⟩
  · rw [he]
    exact Or.inl ⟨e, rfl, hno⟩
  · rw [hok]
    exact Or.inr ⟨a, ha, rfl⟩

theorem check_write_word_cases {Hash : Type} [DecidableEq Hash] (hs : hasher_type Hash)
    (s : replay_state Hash) (paligned word : Nat) :
    (∃ e, step_state_access.check_write_word hs s paligned word = (.error e, s) ∧
        ∀ a, ¬ write_accepted hs s paligned (set_word_access_data word) 3 a) ∨
      (∃ a, write_accepted hs s paligned (set_word_access_data word) 3 a ∧
        step_state_access.check_write_word hs s paligned word =
          (.ok (), write_result hs s a)) :=
  check_write_cases hs s paligned (set_word_access_data word) 3

/-- What a read of a word followed by a write of a word computed from it does:
it fails on the read and leaves the object as it was, or consumes the read and
fails on the write, or consumes both. -/
theorem read_then_write_cases {Hash : Type} [DecidableEq Hash] (hs : hasher_type Hash)
    (s : replay_state Hash) (paligned : Nat) (f : Nat → Nat) :
    (∃ e, read_modify_write hs s paligned f =
          (.error e, s) ∧
        ∀ a, ¬ read_accepted hs s paligned 3 a) ∨
      (∃ r, read_accepted hs s paligned 3 r ∧
        ((∃ e, read_modify_write hs s paligned f =
            (.error e, { s with m_next_access := s.m_next_access + 1 }) ∧
          ∀ a, ¬ write_accepted hs { s with m_next_access := s.m_next_access + 1 } paligned
            (set_word_access_data (f (get_word_access_data r.read))) 3 a) ∨
        (∃ w, write_accepted hs { s with m_next_access := s.m_next_access + 1 } paligned
            (set_word_access_data (f (get_word_access_data r.read))) 3 w ∧
          read_modify_write hs s paligned f =
            (.ok (), write_result hs { s with m_next_access := s.m_next_access + 1 } w)))) := by
  unfold read_modify_write
  rcases check_read_word_cases hs s paligned with ⟨e, he, hno⟩ | ⟨r, hr, hok⟩
  · rw [he]
    exact Or.inl ⟨e, rfl, hno⟩
  · rw [hok]
    dsimp only
    refine Or.inr ⟨r, hr, ?_⟩
    rcases check_write_word_cases hs { s with m_next_access := s.m_next_access + 1 } paligned
      (f (get_word_access_data r.read)) with ⟨e, he, hno⟩ | ⟨w, hw, hok2⟩
    · exact Or.inl ⟨e, he, hno⟩
    · exact Or.inr ⟨w, hw, hok2⟩

/-- The records a successful read of a word followed by a write of a word
consumed, and the cursor after them. -/
theorem read_then_write_ok {Hash : Type} [DecidableEq Hash] (hs : hasher_type Hash)
    (s : replay_state Hash) (paligned : Nat) (f : Nat → Nat)
    (hok : returned (read_modify_write hs s paligned f).1 = true) :
    ∃ r w, s.m_accesses[s.m_next_access]? = some r ∧
      s.m_accesses[s.m_next_access + 1]? = some w ∧
      r.type = access_type.read ∧ r.log2_size = 3 ∧ r.read.length = 8 ∧ r.address = paligned ∧
      w.type = access_type.write ∧ w.log2_size = 3 ∧ w.read.length = 8 ∧
      w.written.length = 8 ∧ w.address = paligned ∧
      (s.m_verify_proofs = true →
        w.written = set_word_access_data (f (get_word_access_data r.read))) ∧
      read_modify_write hs s paligned f =
        (.ok (), write_result hs { s with m_next_access := s.m_next_access + 1 } w) ∧
      (write_result hs { s with m_next_access := s.m_next_access + 1 } w).m_next_access =
        s.m_next_access + 2 := by
  rcases read_then_write_cases hs s paligned f with ⟨e, he, _⟩ | ⟨r, hr, ⟨e, he, _⟩ | ⟨w, hw, h2⟩⟩
  · rw [he] at hok
    cases hok
  · rw [he] at hok
    cases hok
  · obtain ⟨_, _, _, r4, r5, r6, r7, r8, _⟩ := hr
    have hfr := (write_accepted_frame hs _ _ _ _ w hw).1
    obtain ⟨_, _, _, w4, w5, w6, w7, w8, w9, w10⟩ := hw
    refine ⟨r, w, r4, w4, r5, r6, r7, r8, w5, w6, w7, w8, w9, ?_, h2, hfr⟩
    intro hv
    obtain ⟨p, _, _, _, _, _, hwr⟩ := w10 hv
    exact hwr

theorem do_set_iflags_H_eq {Hash : Type} [DecidableEq Hash] (K : machine_constants)
    (hs : hasher_type Hash) (s : replay_state Hash) :
    step_state_access.do_set_iflags_H K hs s =
      read_modify_write hs s K.iflags_addr (fun w => w ||| K.IFLAGS_H_MASK) := rfl

theorem do_set_iflags_Y_eq {Hash : Type} [DecidableEq Hash] (K : machine_constants)
    (hs : hasher_type Hash) (s : replay_state Hash) :
    step_state_access.do_set_iflags_Y K hs s =
      read_modify_write hs s K.iflags_addr (fun w => w ||| K.IFLAGS_Y_MASK) := rfl

theorem do_write_memory_word_sub {Hash : Type} [DecidableEq Hash] (hs : hasher_type Hash)
    (s : replay_state Hash) (size paddr val : Nat) (h : size < 8) :
    step_state_access.do_write_memory_word hs s size paddr val =
      read_modify_write hs s (paddr &&& (2 ^ 64 - 8)) (fun w =>
        get_word_access_data
          (aliased_aligned_write size (paddr &&& 7) val (set_word_access_data w))) := by
  unfold step_state_access.do_write_memory_word
  rw [if_pos h]
  rfl

theorem do_write_memory_word_full {Hash : Type} [DecidableEq Hash] (hs : hasher_type Hash)
    (s : replay_state Hash) (size paddr val : Nat) (h : ¬ size < 8) :
    step_state_access.do_write_memory_word hs s size paddr val =
      step_state_access.check_write hs s paddr (set_word_access_data val) 3 := by
  unfold step_state_access.do_write_memory_word
  rw [if_neg h]
  rfl

theorem read_modify_write_of_read {Hash : Type} [DecidableEq Hash] (hs : hasher_type Hash)
    (s : replay_state Hash) (paligned : Nat) (f : Nat → Nat) (r : access Hash)
    (hr : s.m_accesses[s.m_next_access]? = some r)
    (hok : returned (read_modify_write hs s paligned f).1 = true) :
    read_modify_write hs s paligned f =
      step_state_access.check_write_word hs { s with m_next_access := s.m_next_access + 1 }
        paligned (f (get_word_access_data r.read)) := by
  unfold read_modify_write at hok ⊢
  rcases check_read_word_cases hs s paligned with ⟨e, he, _⟩ | ⟨a, ha, hrd⟩
  · rw [he] at hok
    cases hok
  · have e : a = r := by
      have := ha.2.2.2.1
      rw [hr] at this
      exact (Option.some.inj this).symm
    subst e
    rw [hrd]

theorem and_not_seven (paddr : Nat) (h : paddr < 2 ^ 64) :
    paddr &&& (2 ^ 64 - 8) = 8 * (paddr / 8) := by
  have e1 : (2 : Nat) ^ 64 - 8 = 2 ^ 3 * (2 ^ 61 - 1) := by norm_num
  have e2 : 8 * (paddr / 8) = 2 ^ 3 * (paddr / 2 ^ 3) := by norm_num
  rw [e1, e2]
  apply Nat.eq_of_testBit_eq
  intro i
  rw [Nat.testBit_and, Nat.testBit_mul_pow_two, Nat.testBit_mul_pow_two,
    Nat.testBit_two_pow_sub_one, ← Nat.shiftRight_eq_div_pow, Nat.testBit_shiftRight]
  by_cases h3 : 3 ≤ i
  · have e3 : 3 + (i - 3) = i := by omega
    by_cases h64 : i < 64
    · have : i - 3 < 61 := by omega
      simp [h3, this, e3]
    · have hf : paddr.testBit i = false :=
        Nat.testBit_lt_two_pow (Nat.lt_of_lt_of_le h (Nat.pow_le_pow_right (by decide) (by omega)))
      simp [h3, e3, hf]
  · simp [h3]

theorem and_seven (paddr : Nat) : paddr &&& 7 = paddr % 8 :=
  Nat.and_pow_two_sub_one_eq_mod paddr 3

theorem subword_offset (size paddr : Nat) (hsize : size = 1 ∨ size = 2 ∨ size = 4)
    (halign : paddr % size = 0) : paddr % 8 + size ≤ 8 := by
  rcases hsize with rfl | rfl | rfl <;> omega

/-- C21 (sub-word write consumes two records): when `do_write_memory_word<T>`
returns normally for a `T` of 1, 2 or 4 bytes, the record under the cursor is
a read of 8 bytes at `paddr & ~7`, the next one is a write of 8 bytes at the
same address, and the cursor has advanced by exactly two; for a `T` of 8
bytes the record under the cursor is a write of 8 bytes at `paddr` and the
cursor has advanced by exactly one. The `assert` on the alignment of `paddr`
plays no part in which records are consumed. -/
theorem C21_subword_write_two_records {Hash : Type} [DecidableEq Hash]
    (hs : hasher_type Hash) (s : replay_state Hash) (size paddr val : Nat)
    (hok : returned (step_state_access.do_write_memory_word hs s size paddr val).1 = true) :
    (size = 1 ∨ size = 2 ∨ size = 4 →
      ∃ r w, s.m_accesses[s.m_next_access]? = some r ∧
        s.m_accesses[s.m_next_access + 1]? = some w ∧
        r.type = access_type.read ∧ r.log2_size = 3 ∧ r.read.length = 8 ∧
        r.address = paddr &&& (2 ^ 64 - 8) ∧
        w.type = access_type.write ∧ w.log2_size = 3 ∧ w.written.length = 8 ∧
        w.address = paddr &&& (2 ^ 64 - 8) ∧
        (paddr < 2 ^ 64 → paddr &&& (2 ^ 64 - 8) = 8 * (paddr / 8)) ∧
        (step_state_access.do_write_memory_word hs s size paddr val).2.m_next_access =
          s.m_next_access + 2) ∧
    (size = 8 →
      ∃ w, s.m_accesses[s.m_next_access]? = some w ∧
        w.type = access_type.write ∧ w.log2_size = 3 ∧ w.written.length = 8 ∧
        w.address = paddr ∧
        (step_state_access.do_write_memory_word hs s size paddr val).2.m_next_access =
          s.m_next_access + 1) := by
  constructor
  · intro hsize
    have hlt : size < 8 := by omega
    rw [do_write_memory_word_sub hs s size paddr val hlt] at hok ⊢
    obtain ⟨r, w, h1, h2, h3, h4, h5, h6, h7, h8, _, h10, h11, _, h13, h14⟩ :=
      read_then_write_ok hs s _ _ hok
    refine ⟨r, w, h1, h2, h3, h4, h5, h6, h7, h8, h10, h11, and_not_seven paddr, ?_⟩
    rw [h13]
    exact h14
  · intro hsize
    have hge : ¬ size < 8 := by omega
    rw [do_write_memory_word_full hs s size paddr val hge] at hok ⊢
    obtain ⟨w, hw, hres⟩ := check_write_ok hs s paddr _ 3 hok
    have hfr := (write_accepted_frame hs _ _ _ _ w hw).1
    obtain ⟨_, _, _, w4, w5, w6, _, w8, w9, _⟩ := hw
    refine ⟨w, w4, w5, w6, w8, w9, ?_⟩
    rw [hres]
    exact hfr

theorem C21_subword_write_two_records_witness :
    (∃ r w, sample_state.m_accesses[sample_state.m_next_access]? = some r ∧
        sample_state.m_accesses[sample_state.m_next_access + 1]? = some w ∧
        r.type = access_type.read ∧ r.log2_size = 3 ∧ r.read.length = 8 ∧
        r.address = 8 &&& (2 ^ 64 - 8) ∧
        w.type = access_type.write ∧ w.log2_size = 3 ∧ w.written.length = 8 ∧
        w.address = 8 &&& (2 ^ 64 - 8) ∧
        (8 < 2 ^ 64 → 8 &&& (2 ^ 64 - 8) = 8 * (8 / 8)) ∧
        (step_state_access.do_write_memory_word term_hasher sample_state 1 8 1).2.m_next_access =
          sample_state.m_next_access + 2) ∧
      (step_state_access.do_write_memory_word term_hasher sample_state 1 8 1).2.m_next_access
        = 2 :=
  ⟨(C21_subword_write_two_records term_hasher sample_state 1 8 1 (by rfl)).1 (Or.inl rfl),
    by rfl⟩

/-- C22 (sub-word write merge), against the claim as stated: a verifier that
does not verify proofs accepts, for the write of the byte `0xAB` to `0x2001`,
a log whose write record at `0x2000` records all-zero bytes as written, which
are not the bytes of the word read with byte 1 replaced. -/
theorem C22_subword_write_merge_counterexample :
    (step_state_access.do_write_memory_word term_hasher sample_state_subword 1 0x2001 0xAB).1 =
        .ok () ∧
      (step_state_access.do_write_memory_word term_hasher sample_state_subword 1 0x2001
        0xAB).2.m_next_access = 2 ∧
      aliased_aligned_write 1 (0x2001 % 8) 0xAB [1, 2, 3, 4, 5, 6, 7, 8] =
        [1, 0xAB, 3, 4, 5, 6, 7, 8] ∧
      sample_state_subword.m_accesses.map (fun a => a.written) = [[], zero_word] := by
  refine ⟨by rfl, by rfl, by decide, rfl⟩

/-- C22 (sub-word write merge), amended: with `m_verify_proofs` set, when
`do_write_memory_word<T>` returns normally for a `T` of 1, 2 or 4 bytes at an
address aligned to `sizeof(T)`, the next two records are a read of 8 bytes at
`paddr & ~7` and a write of 8 bytes at the same address whose written bytes
are the bytes read with the bytes from `paddr & 7` up to
`(paddr & 7) + sizeof(T)`, which lie inside the word, replaced by the
little-endian bytes of the value. The data of a record are bytes. Without
`m_verify_proofs` the written bytes of the record are not compared. -/
theorem C22_subword_write_merge {Hash : Type} [DecidableEq Hash]
    (hs : hasher_type Hash) (s : replay_state Hash) (size paddr val : Nat)
    (hsize : size = 1 ∨ size = 2 ∨ size = 4) (halign : paddr % size = 0)
    (hbytes : ∀ a ∈ s.m_accesses, ∀ b ∈ a.read, b < 256)
    (hv : s.m_verify_proofs = true)
    (hok : returned (step_state_access.do_write_memory_word hs s size paddr val).1 = true) :
    ∃ r w, s.m_accesses[s.m_next_access]? = some r ∧
      s.m_accesses[s.m_next_access + 1]? = some w ∧
      r.type = access_type.read ∧ r.log2_size = 3 ∧ r.read.length = 8 ∧
      r.address = paddr &&& (2 ^ 64 - 8) ∧
      w.type = access_type.write ∧ w.log2_size = 3 ∧ w.written.length = 8 ∧
      w.address = paddr &&& (2 ^ 64 - 8) ∧
      paddr % 8 + size ≤ 8 ∧
      w.written = aliased_aligned_write size (paddr % 8) val r.read := by
  have hlt : size < 8 := by omega
  rw [do_write_memory_word_sub hs s size paddr val hlt] at hok
  obtain ⟨r, w, h1, h2, h3, h4, h5, h6, h7, h8, _, h10, h11, h12, _, _⟩ :=
    read_then_write_ok hs s _ _ hok
  refine ⟨r, w, h1, h2, h3, h4, h5, h6, h7, h8, h10, h11, subword_offset size paddr hsize halign,
    ?_⟩
  rw [h12 hv, and_seven]
  exact merged_word_bytes size (paddr % 8) val r.read h5
    (hbytes r (List.getElem?_mem h1))

theorem C22_subword_write_merge_witness :
    ∃ r w, sample_state.m_accesses[sample_state.m_next_access]? = some r ∧
      sample_state.m_accesses[sample_state.m_next_access + 1]? = some w ∧
      r.type = access_type.read ∧ r.log2_size = 3 ∧ r.read.length = 8 ∧
      r.address = 8 &&& (2 ^ 64 - 8) ∧
      w.type = access_type.write ∧ w.log2_size = 3 ∧ w.written.length = 8 ∧
      w.address = 8 &&& (2 ^ 64 - 8) ∧
      8 % 8 + 1 ≤ 8 ∧
      w.written = aliased_aligned_write 1 (8 % 8) 1 r.read :=
  C22_subword_write_merge term_hasher sample_state 1 8 1 (Or.inl rfl) (by decide) (by decide)
    rfl (by rfl)

/-! ## The pool of mock PMA entries -/

theorem allocate_cases {Hash : Type} (K : machine_constants) (s : step_state Hash)
    (pma : pma_entry) :
    (s.m_mock_pmas.length = K.PMA_MAX ∧
        step_state_access.allocate_mock_pma_entry K s pma =
          (.error (.invalid_argument .too_many_pma_accesses), s)) ∨
      (s.m_mock_pmas.length ≠ K.PMA_MAX ∧
        step_state_access.allocate_mock_pma_entry K s pma =
          (.ok pma, { s with m_mock_pmas := s.m_mock_pmas ++ [pma] })) := by
  unfold step_state_access.allocate_mock_pma_entry
  by_cases h : s.m_mock_pmas.length = K.PMA_MAX
  · rw [if_pos h]
    exact Or.inl ⟨h, rfl⟩
  · rw [if_neg h]
    exact Or.inr ⟨h, rfl⟩

theorem allocate_bound {Hash : Type} (K : machine_constants) (s : step_state Hash)
    (pma : pma_entry) (h : s.m_mock_pmas.length ≤ K.PMA_MAX) :
    (step_state_access.allocate_mock_pma_entry K s pma).2.m_mock_pmas.length ≤ K.PMA_MAX ∧
      (step_state_access.allocate_mock_pma_entry K s pma).2.replay = s.replay := by
  rcases allocate_cases K s pma with ⟨_, he⟩ | ⟨hne, he⟩
  · rw [he]
    exact ⟨h, rfl⟩
  · rw [he]
    refine ⟨?_, rfl⟩
    simp only [List.length_append, List.length_singleton]
    omega

/-- What `build_mock_pma_entry` does: it throws for the flags and leaves the
object as it was, or it is the allocation of an entry made from the fields of
`istart`. -/
theorem build_cases {Hash : Type} (K : machine_constants) (s : step_state Hash)
    (istart ilength : Nat) :
    (invalid_pma_flags K istart ∧
        step_state_access.build_mock_pma_entry K s istart ilength =
          (.error (.invalid_argument (.invalid_flags_in_access_to_pma
            (s.replay.m_next_access + s.replay.m_one_based))), s)) ∨
      (¬ invalid_pma_flags K istart ∧
        ∃ kind, step_state_access.build_mock_pma_entry K s istart ilength =
          step_state_access.allocate_mock_pma_entry K s
            { kind := kind
              start := (step_state_access.split_istart K istart).start
              length := ilength
              flags := (step_state_access.split_istart K istart).f } ∧
          ((step_state_access.split_istart K istart).E = true → kind = .empty)) := by
  unfold step_state_access.build_mock_pma_entry invalid_pma_flags
  dsimp only
  generalize step_state_access.split_istart K istart = r
  rcases r with ⟨start, M, IO_, E, f⟩
  dsimp only
  by_cases c1 : M.toNat + IO_.toNat + E.toNat ≠ 1
  · rw [if_pos c1]
    exact Or.inl ⟨Or.inl c1, rfl⟩
  rw [if_neg c1]
  by_cases cM : M = true
  · rw [if_pos cM]
    unfold step_state_access.build_mock_memory_pma_entry
    have hdev : IO_ = false := by
      cases IO_ <;> cases E <;> simp_all
    by_cases c2 : f.DID ≠ K.DID_memory ∧ f.DID ≠ K.DID_drive
    · rw [if_pos c2]
      exact Or.inl ⟨Or.inr (Or.inl ⟨cM, c2⟩), rfl⟩
    · rw [if_neg c2]
      refine Or.inr ⟨?_, _, rfl, ?_⟩
      · rintro (h | ⟨_, h⟩ | ⟨h, _⟩)
        · exact c1 h
        · exact c2 h
        · rw [hdev] at h
          cases h
      · intro hE
        subst cM hE
        cases IO_ <;> simp at c1
  rw [if_neg cM]
  by_cases cdev : IO_ = true
  · rw [if_pos cdev]
    unfold step_state_access.build_mock_device_pma_entry
    have valid : ∀ (_ : f.DID = K.DID_shadow ∨ f.DID = K.DID_CLINT ∨ f.DID = K.DID_HTIF ∨
        f.DID = K.DID_DHD),
        ¬ (M.toNat + IO_.toNat + E.toNat ≠ 1 ∨
          (M = true ∧ f.DID ≠ K.DID_memory ∧ f.DID ≠ K.DID_drive) ∨
          (IO_ = true ∧ f.DID ≠ K.DID_shadow ∧ f.DID ≠ K.DID_CLINT ∧ f.DID ≠ K.DID_HTIF ∧
            f.DID ≠ K.DID_DHD)) := by
      rintro hd (h | ⟨h, _⟩ | ⟨_, h1, h2, h3, h4⟩)
      · exact c1 h
      · exact cM h
      · rcases hd with hd | hd | hd | hd
        · exact h1 hd
        · exact h2 hd
        · exact h3 hd
        · exact h4 hd
    have hE : E = true → False := by
      intro hE
      subst cdev hE
      cases M <;> simp at c1
    by_cases d1 : f.DID = K.DID_shadow
    · rw [if_pos d1]
      exact Or.inr ⟨valid (Or.inl d1), _, rfl, fun h => (hE h).elim⟩
    rw [if_neg d1]
    by_cases d2 : f.DID = K.DID_CLINT
    · rw [if_pos d2]
      exact Or.inr ⟨valid (Or.inr (Or.inl d2)), _, rfl, fun h => (hE h).elim⟩
    rw [if_neg d2]
    by_cases d3 : f.DID = K.DID_HTIF
    · rw [if_pos d3]
      exact Or.inr ⟨valid (Or.inr (Or.inr (Or.inl d3))), _, rfl, fun h => (hE h).elim⟩
    rw [if_neg d3]
    by_cases d4 : f.DID = K.DID_DHD
    · rw [if_pos d4]
      exact Or.inr ⟨valid (Or.inr (Or.inr (Or.inr d4))), _, rfl, fun h => (hE h).elim⟩
    rw [if_neg d4]
    exact Or.inl ⟨Or.inr (Or.inr ⟨cdev, d1, d2, d3, d4⟩), rfl⟩
  rw [if_neg cdev]
  unfold step_state_access.build_mock_empty_pma_entry
  refine Or.inr ⟨?_, _, rfl, fun _ => rfl⟩
  rintro (h | ⟨h, _⟩ | ⟨h, _⟩)
  · exact c1 h
  · exact cM h
  · exact cdev h

theorem build_bound {Hash : Type} (K : machine_constants) (s : step_state Hash)
    (istart ilength : Nat) (h : s.m_mock_pmas.length ≤ K.PMA_MAX) :
    (step_state_access.build_mock_pma_entry K s istart ilength).2.m_mock_pmas.length ≤
        K.PMA_MAX ∧
      (step_state_access.build_mock_pma_entry K s istart ilength).2.replay = s.replay := by
  rcases build_cases K s istart ilength with ⟨_, he⟩ | ⟨_, kind, he, _⟩
  · rw [he]
    exact ⟨h, rfl⟩
  · rw [he]
    exact allocate_bound K s _ h

/-! ## The search for a PMA entry -/

theorem allocate_replay {Hash : Type} (K : machine_constants) (s : step_state Hash)
    (pma : pma_entry) :
    (step_state_access.allocate_mock_pma_entry K s pma).2.replay = s.replay := by
  rcases allocate_cases K s pma with ⟨_, he⟩ | ⟨_, he⟩ <;> rw [he]

theorem build_replay {Hash : Type} (K : machine_constants) (s : step_state Hash)
    (istart ilength : Nat) :
    (step_state_access.build_mock_pma_entry K s istart ilength).2.replay = s.replay := by
  rcases build_cases K s istart ilength with ⟨_, he⟩ | ⟨_, kind, he, _⟩
  · rw [he]
  · rw [he]
    exact allocate_replay K s _

theorem find_loop_succ {Hash : Type} [DecidableEq Hash] (K : machine_constants)
    (hs : hasher_type Hash) (size paddr fuel : Nat) (s : step_state Hash) (i : Nat) :
    step_state_access.do_find_pma_entry_loop K hs size paddr (fuel + 1) s i =
      match step_state_access.check_read_word hs s.replay
          ((K.PMA_SHADOW_START + K.shadow_get_pma_rel_addr i) % 2 ^ 64) with
      | (.error e, r1) => some (.error e, { s with replay := r1 })
      | (.ok istart, r1) =>
        match step_state_access.check_read_word hs r1
            ((K.PMA_SHADOW_START + K.shadow_get_pma_rel_addr i + 8) % 2 ^ 64) with
        | (.error e, r2) => some (.error e, { s with replay := r2 })
        | (.ok ilength, r2) =>
          if ilength = 0 then
            some (step_state_access.build_mock_pma_entry K { s with replay := r2 } istart ilength)
          else
            if paddr ≥ istart &&& K.PMA_ISTART_START_MASK ∧
                paddr - (istart &&& K.PMA_ISTART_START_MASK) ≤
                  (ilength + 2 ^ 64 - size) % 2 ^ 64 then
              some (step_state_access.build_mock_pma_entry K { s with replay := r2 } istart
                ilength)
            else
              step_state_access.do_find_pma_entry_loop K hs size paddr fuel
                { s with replay := r2 } (i + 1) := rfl

/-- One iteration of the loop of `do_find_pma_entry`: it throws on one of its
two reads, or it consumes a pair of records and either stops at it, with the
entry built from the pair, or goes on with the next index. -/
theorem find_loop_step {Hash : Type} [DecidableEq Hash] (K : machine_constants)
    (hs : hasher_type Hash) (size paddr fuel : Nat) (s : step_state Hash) (i : Nat) :
    (∃ e s1, step_state_access.do_find_pma_entry_loop K hs size paddr (fuel + 1) s i =
        some (.error e, s1) ∧ s1.m_mock_pmas = s.m_mock_pmas) ∨
      (∃ r l, pma_pair_at K s.replay.m_accesses s.replay.m_next_access i r l ∧
        ((pma_stops K size paddr (get_word_access_data r.read) (get_word_access_data l.read) ∧
          step_state_access.do_find_pma_entry_loop K hs size paddr (fuel + 1) s i =
            some (step_state_access.build_mock_pma_entry K
              { s with replay := { s.replay with m_next_access := s.replay.m_next_access + 2 } }
              (get_word_access_data r.read) (get_word_access_data l.read))) ∨
        (¬ pma_stops K size paddr (get_word_access_data r.read)
            (get_word_access_data l.read) ∧
          step_state_access.do_find_pma_entry_loop K hs size paddr (fuel + 1) s i =
            step_state_access.do_find_pma_entry_loop K hs size paddr fuel
              { s with replay := { s.replay with m_next_access := s.replay.m_next_access + 2 } }
              (i + 1)))) := by
  rw [find_loop_succ]
  rcases check_read_word_cases hs s.replay
      ((K.PMA_SHADOW_START + K.shadow_get_pma_rel_addr i) % 2 ^ 64) with
    ⟨e, he, _⟩ | ⟨r, hr, hok⟩
  · rw [he]
    exact Or.inl ⟨e, _, rfl, rfl⟩
  rw [hok]
  dsimp only
  rcases check_read_word_cases hs { s.replay with m_next_access := s.replay.m_next_access + 1 }
      ((K.PMA_SHADOW_START + K.shadow_get_pma_rel_addr i + 8) % 2 ^ 64) with
    ⟨e, he, _⟩ | ⟨l, hl, hok2⟩
  · rw [he]
    exact Or.inl ⟨e, _, rfl, rfl⟩
  rw [hok2]
  dsimp only
  obtain ⟨_, _, _, r4, r5, r6, r7, r8, _⟩ := hr
  obtain ⟨_, _, _, l4, l5, l6, l7, l8, _⟩ := hl
  refine Or.inr ⟨r, l, ⟨r4, l4, r5, r6, r7, r8, l5, l6, l7, l8⟩, ?_⟩
  by_cases c0 : get_word_access_data l.read = 0
  · rw [if_pos c0]
    exact Or.inl ⟨Or.inl c0, rfl⟩
  rw [if_neg c0]
  by_cases c1 : paddr ≥ get_word_access_data r.read &&& K.PMA_ISTART_START_MASK ∧
      paddr - (get_word_access_data r.read &&& K.PMA_ISTART_START_MASK) ≤
        (get_word_access_data l.read + 2 ^ 64 - size) % 2 ^ 64
  · rw [if_pos c1]
    exact Or.inl ⟨Or.inr c1, rfl⟩
  rw [if_neg c1]
  refine Or.inr ⟨?_, rfl⟩
  rintro (h | h)
  · exact c0 h
  · exact c1 h

theorem find_loop_total {Hash : Type} [DecidableEq Hash] (K : machine_constants)
    (hs : hasher_type Hash) (size paddr : Nat) :
    ∀ (fuel : Nat) (s : step_state Hash) (i : Nat),
      s.replay.m_accesses.length < s.replay.m_next_access + 2 * (fuel + 1) →
      ∃ res, step_state_access.do_find_pma_entry_loop K hs size paddr (fuel + 1) s i =
        some res := by
  intro fuel
  induction fuel with
  | zero =>
    intro s i h
    rcases find_loop_step K hs size paddr 0 s i with ⟨e, s1, he, _⟩ | ⟨r, l, hp, hc⟩
    · exact ⟨_, he⟩
    · rcases hc with ⟨_, he⟩ | ⟨_, _⟩
      · exact ⟨_, he⟩
      · have := getElem?_some_lt hp.2.1
        omega
  | succ fuel ih =>
    intro s i h
    rcases find_loop_step K hs size paddr (fuel + 1) s i with ⟨e, s1, he, _⟩ | ⟨r, l, hp, hc⟩
    · exact ⟨_, he⟩
    · rcases hc with ⟨_, he⟩ | ⟨_, he⟩
      · exact ⟨_, he⟩
      · rw [he]
        apply ih
        dsimp only
        omega

theorem find_loop_bound {Hash : Type} [DecidableEq Hash] (K : machine_constants)
    (hs : hasher_type Hash) (size paddr : Nat) :
    ∀ (fuel : Nat) (s : step_state Hash) (i : Nat) (res : Except Err pma_entry × step_state Hash),
      s.m_mock_pmas.length ≤ K.PMA_MAX →
      step_state_access.do_find_pma_entry_loop K hs size paddr fuel s i = some res →
      res.2.m_mock_pmas.length ≤ K.PMA_MAX := by
  intro fuel
  induction fuel with
  | zero =>
    intro s i res _ h
    cases h
  | succ fuel ih =>
    intro s i res hb h
    rcases find_loop_step K hs size paddr fuel s i with ⟨e, s1, he, hp⟩ | ⟨r, l, _, hc⟩
    · rw [he] at h
      cases h
      dsimp only
      rw [hp]
      exact hb
    · rcases hc with ⟨_, he⟩ | ⟨_, he⟩
      · rw [he] at h
        cases h
        refine (build_bound K _ _ _ ?_).1
        exact hb
      · rw [he] at h
        refine ih _ _ res ?_ h
        exact hb

/-- The records a successful search consumed and the entry it built: the loop
from index `i` on stops at the first index `i + k` whose pair of records
passes the test. -/
theorem find_loop_ok {Hash : Type} [DecidableEq Hash] (K : machine_constants)
    (hs : hasher_type Hash) (size paddr : Nat) :
    ∀ (fuel : Nat) (s : step_state Hash) (i : Nat) (e : pma_entry) (s1 : step_state Hash),
      step_state_access.do_find_pma_entry_loop K hs size paddr fuel s i = some (.ok e, s1) →
      ∃ k rk lk,
        (∀ j, j < k → ∃ r l,
          pma_pair_at K s.replay.m_accesses (s.replay.m_next_access + 2 * j) (i + j) r l ∧
            ¬ pma_stops K size paddr (get_word_access_data r.read)
              (get_word_access_data l.read)) ∧
        pma_pair_at K s.replay.m_accesses (s.replay.m_next_access + 2 * k) (i + k) rk lk ∧
        pma_stops K size paddr (get_word_access_data rk.read) (get_word_access_data lk.read) ∧
        step_state_access.build_mock_pma_entry K
            { s with replay :=
                { s.replay with m_next_access := s.replay.m_next_access + 2 * (k + 1) } }
            (get_word_access_data rk.read) (get_word_access_data lk.read) = (.ok e, s1) ∧
        s1.replay.m_next_access = s.replay.m_next_access + 2 * (k + 1) := by
  intro fuel
  induction fuel with
  | zero =>
    intro s i e s1 h
    cases h
  | succ fuel ih =>
    intro s i e s1 h
    rcases find_loop_step K hs size paddr fuel s i with ⟨e0, s0, he, _⟩ | ⟨r, l, hp, hc⟩
    · rw [he] at h
      cases h
    · rcases hc with ⟨hst, he⟩ | ⟨hst, he⟩
      · rw [he] at h
        have hb := Option.some.inj h
        refine ⟨0, r, l, fun j hj => absurd hj (Nat.not_lt_zero j), hp, hst, hb, ?_⟩
        have hr := build_replay K
          { s with replay := { s.replay with m_next_access := s.replay.m_next_access + 2 } }
          (get_word_access_data r.read) (get_word_access_data l.read)
        rw [hb] at hr
        exact congrArg replay_state.m_next_access hr
      · rw [he] at h
        obtain ⟨k, rk, lk, hbefore, hat, hstop, hbuild, hcur⟩ := ih _ _ e s1 h
        dsimp only at hbefore hat hbuild hcur
        have e1 : s.replay.m_next_access + 2 + 2 * k = s.replay.m_next_access + 2 * (k + 1) := by
          omega
        have e2 : i + 1 + k = i + (k + 1) := by omega
        have e3 : s.replay.m_next_access + 2 + 2 * (k + 1) =
            s.replay.m_next_access + 2 * (k + 1 + 1) := by omega
        rw [e1, e2] at hat
        rw [e3] at hbuild hcur
        refine ⟨k + 1, rk, lk, ?_, hat, hstop, hbuild, hcur⟩
        intro j hj
        rcases j with _ | j
        · exact ⟨r, l, hp, hst⟩
        · obtain ⟨r1, l1, hp1, hn1⟩ := hbefore j (by omega)
          have e4 : s.replay.m_next_access + 2 + 2 * j = s.replay.m_next_access + 2 * (j + 1) := by
            omega
          have e5 : i + 1 + j = i + (j + 1) := by omega
          rw [e4, e5] at hp1
          exact ⟨r1, l1, hp1, hn1⟩

/-! ## Claims on the mock PMA entries -/

/-- C24 (PMA flag validation): `build_mock_pma_entry(istart, ilength)` throws
"invalid flags in access N to PMA" exactly when the M, IO and E bits of
`istart` are not exactly one-hot, or M is set and the DID is neither memory
nor drive, or IO is set and the DID is none of shadow, CLINT, HTIF and DHD;
the object is then left as it was. With only E set it throws for no DID.
When it does not throw for the flags, it is the allocation of one entry whose
start is `istart & PMA_ISTART_START_MASK`, whose length is `ilength` and
whose R, W, X, IR, IW and DID flags are the fields of `istart`; the entry is
appended to the pool unless the pool is full. -/
theorem C24_pma_flag_validation {Hash : Type} (K : machine_constants) (s : step_state Hash)
    (istart ilength : Nat) :
    ((∃ n, (step_state_access.build_mock_pma_entry K s istart ilength).1 =
        .error (.invalid_argument (.invalid_flags_in_access_to_pma n))) ↔
      invalid_pma_flags K istart) ∧
    (invalid_pma_flags K istart →
      step_state_access.build_mock_pma_entry K s istart ilength =
        (.error (.invalid_argument (.invalid_flags_in_access_to_pma
          (s.replay.m_next_access + s.replay.m_one_based))), s)) ∧
    ((step_state_access.split_istart K istart).E = true ∧
        (step_state_access.split_istart K istart).M = false ∧
        (step_state_access.split_istart K istart).IO_ = false →
      ¬ invalid_pma_flags K istart) ∧
    (¬ invalid_pma_flags K istart →
      ∃ pma, step_state_access.build_mock_pma_entry K s istart ilength =
          step_state_access.allocate_mock_pma_entry K s pma ∧
        pma.start = istart &&& K.PMA_ISTART_START_MASK ∧ pma.length = ilength ∧
        pma.flags.R = ((istart &&& K.PMA_ISTART_R_MASK) >>> K.PMA_ISTART_R_SHIFT != 0) ∧
        pma.flags.W = ((istart &&& K.PMA_ISTART_W_MASK) >>> K.PMA_ISTART_W_SHIFT != 0) ∧
        pma.flags.X = ((istart &&& K.PMA_ISTART_X_MASK) >>> K.PMA_ISTART_X_SHIFT != 0) ∧
        pma.flags.IR = ((istart &&& K.PMA_ISTART_IR_MASK) >>> K.PMA_ISTART_IR_SHIFT != 0) ∧
        pma.flags.IW = ((istart &&& K.PMA_ISTART_IW_MASK) >>> K.PMA_ISTART_IW_SHIFT != 0) ∧
        pma.flags.DID = (istart &&& K.PMA_ISTART_DID_MASK) >>> K.PMA_ISTART_DID_SHIFT ∧
        (s.m_mock_pmas.length ≠ K.PMA_MAX →
          step_state_access.build_mock_pma_entry K s istart ilength =
            (.ok pma, { s with m_mock_pmas := s.m_mock_pmas ++ [pma] }))) := by
  refine ⟨⟨?_, ?_⟩, ?_, ?_, ?_⟩
  · rintro ⟨n, hn⟩
    by_contra hv
    rcases build_cases K s istart ilength with ⟨hi, _⟩ | ⟨_, kind, he, _⟩
    · exact hv hi
    · rw [he] at hn
      rcases allocate_cases K s
          { kind := kind, start := (step_state_access.split_istart K istart).start
            length := ilength, flags := (step_state_access.split_istart K istart).f } with
        ⟨_, ha⟩ | ⟨_, ha⟩
      · rw [ha] at hn
        cases hn
      · rw [ha] at hn
        cases hn
  · intro hi
    rcases build_cases K s istart ilength with ⟨_, he⟩ | ⟨hv, _⟩
    · exact ⟨_, congrArg Prod.fst he⟩
    · exact absurd hi hv
  · intro hi
    rcases build_cases K s istart ilength with ⟨_, he⟩ | ⟨hv, _⟩
    · exact he
    · exact absurd hi hv
  · rintro ⟨hE, hM, hdev⟩
    unfold invalid_pma_flags
    rw [hE, hM, hdev]
    simp
  · intro hv
    rcases build_cases K s istart ilength with ⟨hi, _⟩ | ⟨_, kind, he, _⟩
    · exact absurd hi hv
    · refine ⟨_, he, rfl, rfl, rfl, rfl, rfl, rfl, rfl, rfl, ?_⟩
      intro hne
      rw [he]
      rcases allocate_cases K s
          { kind := kind, start := (step_state_access.split_istart K istart).start
            length := ilength, flags := (step_state_access.split_istart K istart).f } with
        ⟨hf, _⟩ | ⟨_, ha⟩
      · exact absurd hf hne
      · exact ha

theorem C24_pma_flag_validation_witness :
    ¬ invalid_pma_flags sample_constants sample_istart_memory ∧
      invalid_pma_flags sample_constants 0x1003 ∧
      ∃ pma, step_state_access.build_mock_pma_entry sample_constants sample_step_state
            sample_istart_memory 0x1000 =
          step_state_access.allocate_mock_pma_entry sample_constants sample_step_state pma ∧
        pma.start = sample_istart_memory &&& sample_constants.PMA_ISTART_START_MASK ∧
        pma.length = 0x1000 ∧
        pma.flags.R = ((sample_istart_memory &&& sample_constants.PMA_ISTART_R_MASK) >>>
          sample_constants.PMA_ISTART_R_SHIFT != 0) ∧
        pma.flags.W = ((sample_istart_memory &&& sample_constants.PMA_ISTART_W_MASK) >>>
          sample_constants.PMA_ISTART_W_SHIFT != 0) ∧
        pma.flags.X = ((sample_istart_memory &&& sample_constants.PMA_ISTART_X_MASK) >>>
          sample_constants.PMA_ISTART_X_SHIFT != 0) ∧
        pma.flags.IR = ((sample_istart_memory &&& sample_constants.PMA_ISTART_IR_MASK) >>>
          sample_constants.PMA_ISTART_IR_SHIFT != 0) ∧
        pma.flags.IW = ((sample_istart_memory &&& sample_constants.PMA_ISTART_IW_MASK) >>>
          sample_constants.PMA_ISTART_IW_SHIFT != 0) ∧
        pma.flags.DID = (sample_istart_memory &&& sample_constants.PMA_ISTART_DID_MASK) >>>
          sample_constants.PMA_ISTART_DID_SHIFT ∧
        (sample_step_state.m_mock_pmas.length ≠ sample_constants.PMA_MAX →
          step_state_access.build_mock_pma_entry sample_constants sample_step_state
              sample_istart_memory 0x1000 =
            (.ok pma, { sample_step_state with
              m_mock_pmas := sample_step_state.m_mock_pmas ++ [pma] })) :=
  ⟨by decide, by decide,
    (C24_pma_flag_validation sample_constants sample_step_state sample_istart_memory
      0x1000).2.2.2 (by decide)⟩

theorem pma_step_bound {Hash : Type} [DecidableEq Hash] (K : machine_constants)
    (hs : hasher_type Hash) (s : step_state Hash) (c : pma_call)
    (h : s.m_mock_pmas.length ≤ K.PMA_MAX) :
    (step_state_access.pma_step K hs s c).m_mock_pmas.length ≤ K.PMA_MAX := by
  cases c with
  | allocate pma => exact (allocate_bound K s pma h).1
  | build istart ilength => exact (build_bound K s istart ilength h).1
  | find size paddr =>
    simp only [step_state_access.pma_step, step_state_access.do_find_pma_entry]
    rcases hres : step_state_access.do_find_pma_entry_loop K hs size paddr
        (s.replay.m_accesses.length + 1) s 0 with _ | res
    · exact h
    · exact find_loop_bound K hs size paddr _ s 0 res h hres
  | primitive c => exact h

theorem pma_run_bound {Hash : Type} [DecidableEq Hash] (K : machine_constants)
    (hs : hasher_type Hash) (calls : List pma_call) :
    ∀ (s : step_state Hash), s.m_mock_pmas.length ≤ K.PMA_MAX →
      (calls.foldl (step_state_access.pma_step K hs) s).m_mock_pmas.length ≤ K.PMA_MAX := by
  induction calls with
  | nil => intro s h; exact h
  | cons c calls ih =>
    intro s h
    exact ih _ (pma_step_bound K hs s c h)

/-- C25 (bounded mock-PMA pool): `allocate_mock_pma_entry` throws "too many
PMA accesses" exactly when the pool already holds `PMA_MAX` entries; the
allocation that throws leaves the object as it was; the one that returns
appends exactly the entry given and returns it; and after any sequence of
allocations, entry builds, searches and log primitives on a freshly
constructed object the pool holds at most `PMA_MAX` entries. -/
theorem C25_bounded_mock_pma_pool {Hash : Type} [DecidableEq Hash] (K : machine_constants)
    (hs : hasher_type Hash) (s : step_state Hash) (pma : pma_entry)
    (replay : replay_state Hash) (calls : List pma_call) :
    ((step_state_access.allocate_mock_pma_entry K s pma).1 =
        .error (.invalid_argument .too_many_pma_accesses) ↔
      s.m_mock_pmas.length = K.PMA_MAX) ∧
    (returned (step_state_access.allocate_mock_pma_entry K s pma).1 = false ↔
      s.m_mock_pmas.length = K.PMA_MAX) ∧
    ((step_state_access.allocate_mock_pma_entry K s pma).2 = s ↔
      s.m_mock_pmas.length = K.PMA_MAX) ∧
    (returned (step_state_access.allocate_mock_pma_entry K s pma).1 = true ↔
      step_state_access.allocate_mock_pma_entry K s pma =
        (.ok pma, { s with m_mock_pmas := s.m_mock_pmas ++ [pma] })) ∧
    (step_state_access.pma_run K hs replay calls).m_mock_pmas.length ≤ K.PMA_MAX := by
  refine ⟨?_, ?_, ?_, ?_, pma_run_bound K hs calls _ (Nat.zero_le _)⟩
  · rcases allocate_cases K s pma with ⟨hf, he⟩ | ⟨hne, he⟩
    · rw [he]
      exact ⟨fun _ => hf, fun _ => rfl⟩
    · rw [he]
      exact ⟨fun h => (by cases h), fun h => absurd h hne⟩
  · rcases allocate_cases K s pma with ⟨hf, he⟩ | ⟨hne, he⟩
    · rw [he]
      exact ⟨fun _ => hf, fun _ => rfl⟩
    · rw [he]
      exact ⟨fun h => (by cases h), fun h => absurd h hne⟩
  · rcases allocate_cases K s pma with ⟨hf, he⟩ | ⟨hne, he⟩
    · rw [he]
      exact ⟨fun _ => hf, fun _ => rfl⟩
    · rw [he]
      refine ⟨fun h => ?_, fun h => absurd h hne⟩
      have hl := congrArg (fun x => x.m_mock_pmas.length) h
      simp at hl
  · rcases allocate_cases K s pma with ⟨hf, he⟩ | ⟨hne, he⟩
    · rw [he]
      exact ⟨fun h => (by cases h), fun h => (by cases h)⟩
    · rw [he]
      exact ⟨fun _ => rfl, fun _ => rfl⟩

theorem C25_bounded_mock_pma_pool_witness :
    (step_state_access.allocate_mock_pma_entry sample_constants sample_step_state_full
        sample_pma).1 = .error (.invalid_argument .too_many_pma_accesses) ∧
      (step_state_access.allocate_mock_pma_entry sample_constants sample_step_state_full
        sample_pma).2 = sample_step_state_full ∧
      step_state_access.allocate_mock_pma_entry sample_constants sample_step_state sample_pma =
        (.ok sample_pma, { sample_step_state with m_mock_pmas := [sample_pma] }) ∧
      (step_state_access.pma_run sample_constants term_hasher sample_state_empty
        [.allocate sample_pma, .build sample_istart_memory 0x1000, .allocate sample_pma,
          .find 8 0x5000]).m_mock_pmas.length ≤ sample_constants.PMA_MAX :=
  ⟨(C25_bounded_mock_pma_pool sample_constants term_hasher sample_step_state_full sample_pma
      sample_state_empty []).1.2 rfl,
    (C25_bounded_mock_pma_pool sample_constants term_hasher sample_step_state_full sample_pma
      sample_state_empty []).2.2.1.2 rfl,
    (C25_bounded_mock_pma_pool sample_constants term_hasher sample_step_state sample_pma
      sample_state_empty []).2.2.2.1.1 (by rfl),
    (C25_bounded_mock_pma_pool sample_constants term_hasher sample_step_state sample_pma
      sample_state_empty [.allocate sample_pma, .build sample_istart_memory 0x1000,
        .allocate sample_pma, .find 8 0x5000]).2.2.2.2⟩

/-- C26 (PMA enumeration order): `do_find_pma_entry<T>(paddr)` always leaves
its loop, and when it returns an entry there is an index `k` such that, for
`j = 0, ..., k` in ascending order, the records at positions `cursor + 2 j`
and `cursor + 2 j + 1` are reads of 8 bytes at the shadow address of the
`istart` of board entry `j` and at that address plus 8; no pair before the
`k`-th has length 0 or a range that matches `paddr`, the `k`-th has; the
cursor has advanced by exactly `2 (k + 1)`; and the entry returned is the one
`build_mock_pma_entry` makes of the `istart` and `ilength` words of entry
`k`. -/
theorem C26_pma_enumeration_order {Hash : Type} [DecidableEq Hash] (K : machine_constants)
    (hs : hasher_type Hash) (s : step_state Hash) (size paddr : Nat) :
    (∃ res, step_state_access.do_find_pma_entry K hs s size paddr = some res) ∧
    ∀ (e : pma_entry) (s1 : step_state Hash),
      step_state_access.do_find_pma_entry K hs s size paddr = some (.ok e, s1) →
      ∃ k rk lk,
        (∀ j, j < k → ∃ r l,
          pma_pair_at K s.replay.m_accesses (s.replay.m_next_access + 2 * j) j r l ∧
            ¬ pma_stops K size paddr (get_word_access_data r.read)
              (get_word_access_data l.read)) ∧
        pma_pair_at K s.replay.m_accesses (s.replay.m_next_access + 2 * k) k rk lk ∧
        pma_stops K size paddr (get_word_access_data rk.read) (get_word_access_data lk.read) ∧
        step_state_access.build_mock_pma_entry K
            { s with replay :=
                { s.replay with m_next_access := s.replay.m_next_access + 2 * (k + 1) } }
            (get_word_access_data rk.read) (get_word_access_data lk.read) = (.ok e, s1) ∧
        s1.replay.m_next_access = s.replay.m_next_access + 2 * (k + 1) := by
  constructor
  · exact find_loop_total K hs size paddr _ s 0 (by omega)
  · intro e s1 h
    have := find_loop_ok K hs size paddr _ s 0 e s1 h
    simpa only [Nat.zero_add] using this

theorem C26_pma_enumeration_order_witness :
    step_state_access.do_find_pma_entry sample_constants term_hasher sample_find_state 8 0x5000 =
        some (.ok sample_find_entry, sample_find_final) ∧
      ∃ k rk lk,
        (∀ j, j < k → ∃ r l,
          pma_pair_at sample_constants sample_find_state.replay.m_accesses
              (sample_find_state.replay.m_next_access + 2 * j) j r l ∧
            ¬ pma_stops sample_constants 8 0x5000 (get_word_access_data r.read)
              (get_word_access_data l.read)) ∧
        pma_pair_at sample_constants sample_find_state.replay.m_accesses
          (sample_find_state.replay.m_next_access + 2 * k) k rk lk ∧
        pma_stops sample_constants 8 0x5000 (get_word_access_data rk.read)
          (get_word_access_data lk.read) ∧
        step_state_access.build_mock_pma_entry sample_constants
            { sample_find_state with replay :=
                { sample_find_state.replay with
                  m_next_access := sample_find_state.replay.m_next_access + 2 * (k + 1) } }
            (get_word_access_data rk.read) (get_word_access_data lk.read) =
          (.ok sample_find_entry, sample_find_final) ∧
        sample_find_final.replay.m_next_access =
          sample_find_state.replay.m_next_access + 2 * (k + 1) :=
  ⟨by rfl,
    (C26_pma_enumeration_order sample_constants term_hasher sample_find_state 8 0x5000).2
      sample_find_entry sample_find_final (by rfl)⟩

/-! ## The fold of `roll_hash_up_tree` -/

theorem roll_loop_fold {Hash : Type} (hs : hasher_type Hash) (p : merkle_tree_proof Hash)
    (hlen : p.sibling_hashes.length = p.log2_root_size - p.log2_target_size)
    (hroot : p.log2_root_size ≤ 64) :
    ∀ (n lvl : Nat) (acc : Hash), p.log2_target_size ≤ lvl → lvl + n = p.log2_root_size →
      step_state_access.roll_hash_up_tree_loop hs p n lvl acc =
        (.ok (), proof_fold hs p.target_address
          (p.sibling_hashes.drop (lvl - p.log2_target_size)) lvl acc) := by
  intro n
  induction n with
  | zero =>
    intro lvl acc h1 h2
    rw [List.drop_of_length_le (by omega)]
    rfl
  | succ n ih =>
    intro lvl acc h1 h2
    have hidx : lvl - p.log2_target_size < p.sibling_hashes.length := by omega
    have hsib : p.get_sibling_hash lvl =
        .ok (p.sibling_hashes.get ⟨lvl - p.log2_target_size, hidx⟩) := by
      unfold merkle_tree_proof.get_sibling_hash
      rw [if_neg (by omega), List.getElem?_eq_getElem hidx]
      rfl
    have hdrop : p.sibling_hashes.drop (lvl - p.log2_target_size) =
        p.sibling_hashes.get ⟨lvl - p.log2_target_size, hidx⟩ ::
          p.sibling_hashes.drop (lvl + 1 - p.log2_target_size) := by
      have e : lvl + 1 - p.log2_target_size = lvl - p.log2_target_size + 1 := by omega
      rw [e]
      exact List.drop_eq_getElem_cons hidx
    have hbit : bit_set p.target_address lvl = p.target_address.testBit lvl :=
      bit_set_eq_testBit _ (by omega)
    simp only [step_state_access.roll_hash_up_tree_loop, hsib, hdrop, proof_fold, hbit]
    cases p.target_address.testBit lvl
    · simp only [Bool.false_eq_true, if_false]
      exact ih _ _ (by omega) (by omega)
    · simp only [if_true]
      exact ih _ _ (by omega) (by omega)

/-- C31 (roll_hash_up_tree): on a proof that holds one sibling hash per level
from `log2_target_size` to `log2_root_size - 1`, in a tree of at most `2 ^ 64`
bytes, `roll_hash_up_tree` of either class returns the fold that, for each of
these levels `k` in increasing order, replaces the running hash `acc` by
`H(sibling || acc)` when bit `k` of `target_address` is 1 and by
`H(acc || sibling)` when it is 0, starting from the hash given; with
`log2_target_size = log2_root_size` it returns the hash given. -/
theorem C31_roll_hash_up_tree_fold {Hash : Type} (hs : hasher_type Hash)
    (p : merkle_tree_proof Hash) (h : Hash) :
    (p.sibling_hashes.length = p.log2_root_size - p.log2_target_size →
      p.log2_root_size ≤ 64 →
      step_state_access.roll_hash_up_tree hs p h =
          (.ok (), proof_fold hs p.target_address p.sibling_hashes p.log2_target_size h) ∧
        uarch_replay_state_access.roll_hash_up_tree hs p h =
          (.ok (), proof_fold hs p.target_address p.sibling_hashes p.log2_target_size h)) ∧
    (p.log2_target_size = p.log2_root_size →
      step_state_access.roll_hash_up_tree hs p h = (.ok (), h) ∧
        uarch_replay_state_access.roll_hash_up_tree hs p h = (.ok (), h)) := by
  rw [uarch_roll_eq]
  constructor
  · intro hlen hroot
    have key : step_state_access.roll_hash_up_tree hs p h =
        (.ok (), proof_fold hs p.target_address p.sibling_hashes p.log2_target_size h) := by
      unfold step_state_access.roll_hash_up_tree
      by_cases hle : p.log2_target_size ≤ p.log2_root_size
      · have := roll_loop_fold hs p hlen hroot (p.log2_root_size - p.log2_target_size)
          p.log2_target_size h (Nat.le_refl _) (by omega)
        rw [Nat.sub_self, List.drop_zero] at this
        exact this
      · have h0 : p.log2_root_size - p.log2_target_size = 0 := by omega
        have hnil : p.sibling_hashes = [] := List.length_eq_zero.1 (by omega)
        rw [h0, hnil]
        rfl
    exact ⟨key, key⟩
  · intro heq
    have key : step_state_access.roll_hash_up_tree hs p h = (.ok (), h) := by
      unfold step_state_access.roll_hash_up_tree
      rw [heq, Nat.sub_self]
      rfl
    exact ⟨key, key⟩

theorem C31_roll_hash_up_tree_fold_witness :
    step_state_access.roll_hash_up_tree term_hasher sample_proof (term_hash.data zero_word) =
        (.ok (), term_hash.node (term_hash.node (term_hash.data [7]) (term_hash.data zero_word))
          (term_hash.data [9])) ∧
      (step_state_access.roll_hash_up_tree term_hasher sample_proof (term_hash.data zero_word) =
          (.ok (), proof_fold term_hasher sample_proof.target_address sample_proof.sibling_hashes
            sample_proof.log2_target_size (term_hash.data zero_word)) ∧
        uarch_replay_state_access.roll_hash_up_tree term_hasher sample_proof
            (term_hash.data zero_word) =
          (.ok (), proof_fold term_hasher sample_proof.target_address sample_proof.sibling_hashes
            sample_proof.log2_target_size (term_hash.data zero_word))) :=
  ⟨by rfl, (C31_roll_hash_up_tree_fold term_hasher sample_proof (term_hash.data zero_word)).1
    rfl (by decide)⟩

/-! ## Coverage and termination of the search for a PMA entry -/

/-- One iteration of the loop of `do_find_pma_entry`, whatever the number of
iterations left: it ends the loop, or it has consumed two records and the loop
goes on from the next index. -/
theorem find_loop_unfold {Hash : Type} [DecidableEq Hash] (K : machine_constants)
    (hs : hasher_type Hash) (size paddr : Nat) (s : step_state Hash) (i : Nat) :
    (∃ res, ∀ fuel,
        step_state_access.do_find_pma_entry_loop K hs size paddr (fuel + 1) s i = some res) ∨
      (s.replay.m_next_access + 2 ≤ s.replay.m_accesses.length ∧
        ∀ fuel, step_state_access.do_find_pma_entry_loop K hs size paddr (fuel + 1) s i =
          step_state_access.do_find_pma_entry_loop K hs size paddr fuel
            { s with replay := { s.replay with m_next_access := s.replay.m_next_access + 2 } }
            (i + 1)) := by
  rcases check_read_word_cases hs s.replay
      ((K.PMA_SHADOW_START + K.shadow_get_pma_rel_addr i) % 2 ^ 64) with
    ⟨e, he, _⟩ | ⟨r, hr, hok⟩
  · refine Or.inl ⟨(.error e, { s with replay := s.replay }), fun fuel => ?_⟩
    rw [find_loop_succ, he]
  rcases check_read_word_cases hs { s.replay with m_next_access := s.replay.m_next_access + 1 }
      ((K.PMA_SHADOW_START + K.shadow_get_pma_rel_addr i + 8) % 2 ^ 64) with
    ⟨e, he, _⟩ | ⟨l, hl, hok2⟩
  · refine Or.inl ⟨(.error e, { s with replay :=
      { s.replay with m_next_access := s.replay.m_next_access + 1 } }), fun fuel => ?_⟩
    rw [find_loop_succ, hok]
    dsimp only
    rw [he]
  have hlt := getElem?_some_lt hl.2.2.2.1
  dsimp only at hlt
  by_cases c0 : get_word_access_data l.read = 0
  · refine Or.inl ⟨step_state_access.build_mock_pma_entry K
      { s with replay := { s.replay with m_next_access := s.replay.m_next_access + 2 } }
      (get_word_access_data r.read) (get_word_access_data l.read), fun fuel => ?_⟩
    rw [find_loop_succ, hok]
    dsimp only
    rw [hok2]
    dsimp only
    rw [if_pos c0]
  by_cases c1 : paddr ≥ get_word_access_data r.read &&& K.PMA_ISTART_START_MASK ∧
      paddr - (get_word_access_data r.read &&& K.PMA_ISTART_START_MASK) ≤
        (get_word_access_data l.read + 2 ^ 64 - size) % 2 ^ 64
  · refine Or.inl ⟨step_state_access.build_mock_pma_entry K
      { s with replay := { s.replay with m_next_access := s.replay.m_next_access + 2 } }
      (get_word_access_data r.read) (get_word_access_data l.read), fun fuel => ?_⟩
    rw [find_loop_succ, hok]
    dsimp only
    rw [hok2]
    dsimp only
    rw [if_neg c0, if_pos c1]
  · refine Or.inr ⟨by omega, fun fuel => ?_⟩
    rw [find_loop_succ, hok]
    dsimp only
    rw [hok2]
    dsimp only
    rw [if_neg c0, if_neg c1]

/-- Once the iterations allowed exceed half the number of records left, the
loop of `do_find_pma_entry` is left with the same result whatever their
number. -/
theorem find_loop_enough {Hash : Type} [DecidableEq Hash] (K : machine_constants)
    (hs : hasher_type Hash) (size paddr : Nat) :
    ∀ (fuel : Nat) (s : step_state Hash) (i : Nat),
      (s.replay.m_accesses.length - s.replay.m_next_access) / 2 ≤ fuel →
      ∃ res, ∀ fuel1, fuel ≤ fuel1 →
        step_state_access.do_find_pma_entry_loop K hs size paddr (fuel1 + 1) s i = some res := by
  intro fuel
  induction fuel with
  | zero =>
    intro s i h
    rcases find_loop_unfold K hs size paddr s i with ⟨res, hres⟩ | ⟨hlt, _⟩
    · exact ⟨res, fun fuel1 _ => hres fuel1⟩
    · omega
  | succ fuel ih =>
    intro s i h
    rcases find_loop_unfold K hs size paddr s i with ⟨res, hres⟩ | ⟨hlt, hstep⟩
    · exact ⟨res, fun fuel1 _ => hres fuel1⟩
    · obtain ⟨res, hres⟩ := ih
        { s with replay := { s.replay with m_next_access := s.replay.m_next_access + 2 } }
        (i + 1) (by dsimp only; omega)
      refine ⟨res, fun fuel1 h1 => ?_⟩
      obtain ⟨f, rfl⟩ : ∃ f, fuel1 = f + 1 := ⟨fuel1 - 1, by omega⟩
      rw [hstep]
      exact hres f (by omega)

/-- C33 (termination of the PMA lookup): for every log, cursor and `paddr`,
`do_find_pma_entry` leaves its loop, with an entry or an exception; each
iteration that goes on consumes two records, so `(len - cursor) / 2`
iterations and one more are enough: allowing the loop that many iterations or
any larger number gives the same result. -/
theorem C33_pma_lookup_terminates {Hash : Type} [DecidableEq Hash] (K : machine_constants)
    (hs : hasher_type Hash) (s : step_state Hash) (size paddr : Nat) :
    ∃ res, step_state_access.do_find_pma_entry K hs s size paddr = some res ∧
      ∀ fuel, (s.replay.m_accesses.length - s.replay.m_next_access) / 2 + 1 ≤ fuel →
        step_state_access.do_find_pma_entry_loop K hs size paddr fuel s 0 = some res := by
  obtain ⟨res, hres⟩ := find_loop_enough K hs size paddr
    ((s.replay.m_accesses.length - s.replay.m_next_access) / 2) s 0 (Nat.le_refl _)
  refine ⟨res, ?_, fun fuel hf => ?_⟩
  · unfold step_state_access.do_find_pma_entry
    exact hres _ (by omega)
  · obtain ⟨f, rfl⟩ : ∃ f, fuel = f + 1 := ⟨fuel - 1, by omega⟩
    exact hres f (by omega)

theorem C33_pma_lookup_terminates_witness :
    step_state_access.do_find_pma_entry sample_constants term_hasher sample_find_state 8 0x5000 =
        some (.ok sample_find_entry, sample_find_final) ∧
      step_state_access.do_find_pma_entry_loop sample_constants term_hasher 8 0x5000 3
        sample_find_state 0 = some (.ok sample_find_entry, sample_find_final) ∧
      step_state_access.do_find_pma_entry_loop sample_constants term_hasher 8 0x5000 1
        sample_find_state 0 = none ∧
      ∃ res, step_state_access.do_find_pma_entry sample_constants term_hasher sample_find_state 8
          0x5000 = some res ∧
        ∀ fuel, (sample_find_state.replay.m_accesses.length -
            sample_find_state.replay.m_next_access) / 2 + 1 ≤ fuel →
          step_state_access.do_find_pma_entry_loop sample_constants term_hasher 8 0x5000 fuel
            sample_find_state 0 = some res :=
  ⟨by rfl, by rfl, by rfl,
    C33_pma_lookup_terminates sample_constants term_hasher sample_find_state 8 0x5000⟩

/-- C32 (PMA coverage), against the claim as stated: for an access of 8 bytes
at `0x1100`, `do_find_pma_entry` returns the entry of the board entry at
`0x1000` whose length is 4, because `ilength - sizeof(T)` wraps around to
`2 ^ 64 - 4`; the entry does not cover the access. -/
theorem C32_pma_coverage_counterexample :
    step_state_access.do_find_pma_entry sample_constants term_hasher sample_short_state 8 0x1100 =
        some (.ok sample_short_entry,
          { replay := { sample_short_state.replay with m_next_access := 2 }
            m_mock_pmas := [sample_short_entry] }) ∧
      sample_short_entry.length ≠ 0 ∧
      (4 + 2 ^ 64 - 8) % 2 ^ 64 = 2 ^ 64 - 4 ∧
      ¬ (0x1100 + 8 ≤ sample_short_entry.start + sample_short_entry.length) := by
  refine ⟨by rfl, by decide, by norm_num, by decide⟩

/-- C32 (PMA coverage), for entries at least as long as the access: when
`do_find_pma_entry<T>(paddr)` returns the entry of a board entry whose
`ilength` is not zero and not smaller than `sizeof(T)`, the entry covers the
access: `start ≤ paddr` and `paddr + sizeof(T) ≤ start + ilength`, with
`start = istart & PMA_ISTART_START_MASK`. For a shorter entry the test
`paddr - start <= ilength - sizeof(T)` compares with a wrapped difference. -/
theorem C32_pma_coverage {Hash : Type} [DecidableEq Hash] (K : machine_constants)
    (hs : hasher_type Hash) (s : step_state Hash) (size paddr : Nat) (e : pma_entry)
    (s1 : step_state Hash)
    (hok : step_state_access.do_find_pma_entry K hs s size paddr = some (.ok e, s1)) :
    ∃ k rk lk,
      pma_pair_at K s.replay.m_accesses (s.replay.m_next_access + 2 * k) k rk lk ∧
      e.start = get_word_access_data rk.read &&& K.PMA_ISTART_START_MASK ∧
      e.length = get_word_access_data lk.read ∧
      (e.length ≠ 0 → size ≤ e.length → e.start ≤ paddr ∧ paddr + size ≤ e.start + e.length) := by
  obtain ⟨k, rk, lk, _, hat, hstop, hbuild, _⟩ := find_loop_ok K hs size paddr _ s 0 e s1 hok
  rw [Nat.zero_add] at hat
  refine ⟨k, rk, lk, hat, ?_⟩
  rcases build_cases K
      { s with replay :=
          { s.replay with m_next_access := s.replay.m_next_access + 2 * (k + 1) } }
      (get_word_access_data rk.read) (get_word_access_data lk.read) with
    ⟨_, he⟩ | ⟨_, kind, he, _⟩
  · rw [he] at hbuild
    cases hbuild
  rw [he] at hbuild
  rcases allocate_cases K
      { s with replay :=
          { s.replay with m_next_access := s.replay.m_next_access + 2 * (k + 1) } }
      { kind := kind
        start := (step_state_access.split_istart K (get_word_access_data rk.read)).start
        length := get_word_access_data lk.read
        flags := (step_state_access.split_istart K (get_word_access_data rk.read)).f } with
    ⟨_, ha⟩ | ⟨_, ha⟩
  · rw [ha] at hbuild
    cases hbuild
  rw [ha] at hbuild
  cases hbuild
  refine ⟨rfl, rfl, ?_⟩
  dsimp only
  intro hne hsz
  have hlt := get_word_access_data_lt lk.read
  rcases hstop with h0 | ⟨h1, h2⟩
  · exact absurd h0 hne
  · have hw : (get_word_access_data lk.read + 2 ^ 64 - size) % 2 ^ 64 =
        get_word_access_data lk.read - size := by
      have e1 : get_word_access_data lk.read + 2 ^ 64 - size =
          (get_word_access_data lk.read - size) + 2 ^ 64 := by omega
      rw [e1, Nat.add_mod_right]
      exact Nat.mod_eq_of_lt (by omega)
    rw [hw] at h2
    have hs : (step_state_access.split_istart K (get_word_access_data rk.read)).start =
        get_word_access_data rk.read &&& K.PMA_ISTART_START_MASK := rfl
    rw [hs]
    constructor
    · exact h1
    · omega

theorem C32_pma_coverage_witness :
    ∃ k rk lk,
      pma_pair_at sample_constants sample_find_state.replay.m_accesses
        (sample_find_state.replay.m_next_access + 2 * k) k rk lk ∧
      sample_find_entry.start =
        get_word_access_data rk.read &&& sample_constants.PMA_ISTART_START_MASK ∧
      sample_find_entry.length = get_word_access_data lk.read ∧
      (sample_find_entry.length ≠ 0 → 8 ≤ sample_find_entry.length →
        sample_find_entry.start ≤ 0x5000 ∧
          0x5000 + 8 ≤ sample_find_entry.start + sample_find_entry.length) :=
  C32_pma_coverage sample_constants term_hasher sample_find_state 8 0x5000 sample_find_entry
    sample_find_final (by rfl)

/-! ## Mock PMA entries are not reused -/

theorem allocate_pool {Hash : Type} (K : machine_constants) (s : step_state Hash)
    (pma : pma_entry) :
    (∀ e, (step_state_access.allocate_mock_pma_entry K s pma).1 = .ok e →
      (step_state_access.allocate_mock_pma_entry K s pma).2.m_mock_pmas =
          s.m_mock_pmas ++ [e] ∧ s.m_mock_pmas.length ≠ K.PMA_MAX) ∧
    (∀ x, (step_state_access.allocate_mock_pma_entry K s pma).1 = .error x →
      (step_state_access.allocate_mock_pma_entry K s pma).2.m_mock_pmas = s.m_mock_pmas) := by
  rcases allocate_cases K s pma with ⟨_, he⟩ | ⟨hne, he⟩
  · rw [he]
    exact ⟨fun e h => (by cases h), fun _ _ => rfl⟩
  · rw [he]
    refine ⟨fun e h => ?_, fun x h => (by cases h)⟩
    cases h
    exact ⟨rfl, hne⟩

theorem build_pool {Hash : Type} (K : machine_constants) (s : step_state Hash)
    (istart ilength : Nat) :
    (∀ e, (step_state_access.build_mock_pma_entry K s istart ilength).1 = .ok e →
      (step_state_access.build_mock_pma_entry K s istart ilength).2.m_mock_pmas =
          s.m_mock_pmas ++ [e] ∧ s.m_mock_pmas.length ≠ K.PMA_MAX) ∧
    (∀ x, (step_state_access.build_mock_pma_entry K s istart ilength).1 = .error x →
      (step_state_access.build_mock_pma_entry K s istart ilength).2.m_mock_pmas =
        s.m_mock_pmas) := by
  rcases build_cases K s istart ilength with ⟨_, he⟩ | ⟨_, kind, he, _⟩
  · rw [he]
    exact ⟨fun e h => (by cases h), fun _ _ => rfl⟩
  · rw [he]
    exact allocate_pool K s _

theorem find_loop_pool {Hash : Type} [DecidableEq Hash] (K : machine_constants)
    (hs : hasher_type Hash) (size paddr : Nat) :
    ∀ (fuel : Nat) (s : step_state Hash) (i : Nat) (res : Except Err pma_entry × step_state Hash),
      step_state_access.do_find_pma_entry_loop K hs size paddr fuel s i = some res →
      (∀ e, res.1 = .ok e →
        res.2.m_mock_pmas = s.m_mock_pmas ++ [e] ∧ s.m_mock_pmas.length ≠ K.PMA_MAX) ∧
      (∀ x, res.1 = .error x → res.2.m_mock_pmas = s.m_mock_pmas) := by
  intro fuel
  induction fuel with
  | zero =>
    intro s i res h
    cases h
  | succ fuel ih =>
    intro s i res h
    rcases find_loop_step K hs size paddr fuel s i with ⟨e, s1, he, hp⟩ | ⟨r, l, _, hc⟩
    · rw [he] at h
      cases h
      exact ⟨fun e h => (by cases h), fun _ _ => hp⟩
    · rcases hc with ⟨_, he⟩ | ⟨_, he⟩
      · rw [he] at h
        cases h
        exact build_pool K _ _ _
      · rw [he] at h
        have := ih _ _ res h
        exact this

theorem build_full {Hash : Type} (K : machine_constants) (s : step_state Hash)
    (istart ilength : Nat) (P : List pma_entry) (e : pma_entry) (s1 : step_state Hash)
    (hok : step_state_access.build_mock_pma_entry K { s with m_mock_pmas := P } istart ilength =
      (.ok e, s1))
    (hfull : s.m_mock_pmas.length = K.PMA_MAX) :
    step_state_access.build_mock_pma_entry K s istart ilength =
      (.error (.invalid_argument .too_many_pma_accesses),
        { s1 with m_mock_pmas := s.m_mock_pmas }) := by
  have hrep := build_replay K { s with m_mock_pmas := P } istart ilength
  rw [hok] at hrep
  dsimp only at hrep
  rcases build_cases K { s with m_mock_pmas := P } istart ilength with ⟨_, he⟩ | ⟨hv, _⟩
  · rw [he] at hok
    cases hok
  rcases build_cases K s istart ilength with ⟨hi, _⟩ | ⟨_, kind, he, _⟩
  · exact absurd hi hv
  rw [he]
  rcases allocate_cases K s
      { kind := kind, start := (step_state_access.split_istart K istart).start
        length := ilength, flags := (step_state_access.split_istart K istart).f } with
    ⟨_, ha⟩ | ⟨hne, _⟩
  · rw [ha]
    congr 1
    rcases s with ⟨rep, pool⟩
    rcases s1 with ⟨rep1, pool1⟩
    dsimp only at hrep ⊢
    rw [hrep]
  · exact absurd hfull hne

theorem find_loop_full {Hash : Type} [DecidableEq Hash] (K : machine_constants)
    (hs : hasher_type Hash) (size paddr : Nat) (P : List pma_entry) :
    ∀ (fuel : Nat) (s : step_state Hash) (i : Nat) (e : pma_entry) (s1 : step_state Hash),
      s.m_mock_pmas.length = K.PMA_MAX →
      step_state_access.do_find_pma_entry_loop K hs size paddr fuel
        { s with m_mock_pmas := P } i = some (.ok e, s1) →
      step_state_access.do_find_pma_entry_loop K hs size paddr fuel s i =
        some (.error (.invalid_argument .too_many_pma_accesses),
          { s1 with m_mock_pmas := s.m_mock_pmas }) := by
  intro fuel
  induction fuel with
  | zero =>
    intro s i e s1 _ h
    cases h
  | succ fuel ih =>
    intro s i e s1 hfull h
    rw [find_loop_succ] at h ⊢
    dsimp only at h
    rcases h1 : step_state_access.check_read_word hs s.replay
        ((K.PMA_SHADOW_START + K.shadow_get_pma_rel_addr i) % 2 ^ 64) with ⟨_ | istart, r1⟩
    · rw [h1] at h
      cases h
    rw [h1] at h
    dsimp only at h ⊢
    rcases h2 : step_state_access.check_read_word hs r1
        ((K.PMA_SHADOW_START + K.shadow_get_pma_rel_addr i + 8) % 2 ^ 64) with ⟨_ | ilength, r2⟩
    · rw [h2] at h
      cases h
    rw [h2] at h
    dsimp only at h ⊢
    by_cases c0 : ilength = 0
    · rw [if_pos c0] at h ⊢
      have hb := Option.some.inj h
      exact congrArg some (build_full K { s with replay := r2 } istart ilength P e s1 hb hfull)
    rw [if_neg c0] at h ⊢
    by_cases c1 : paddr ≥ istart &&& K.PMA_ISTART_START_MASK ∧
        paddr - (istart &&& K.PMA_ISTART_START_MASK) ≤ (ilength + 2 ^ 64 - size) % 2 ^ 64
    · rw [if_pos c1] at h ⊢
      have hb := Option.some.inj h
      exact congrArg some (build_full K { s with replay := r2 } istart ilength P e s1 hb hfull)
    rw [if_neg c1] at h ⊢
    exact ih { s with replay := r2 } (i + 1) e s1 hfull h

theorem pma_step_grows {Hash : Type} [DecidableEq Hash] (K : machine_constants)
    (hs : hasher_type Hash) (s : step_state Hash) (c : pma_call) :
    step_state_access.find_successes K hs s [c] + s.m_mock_pmas.length ≤
      (step_state_access.pma_step K hs s c).m_mock_pmas.length := by
  cases c with
  | allocate pma =>
    simp only [step_state_access.find_successes, step_state_access.pma_step, Nat.zero_add]
    rcases allocate_cases K s pma with ⟨_, he⟩ | ⟨_, he⟩
    · rw [he]
    · rw [he]
      simp
  | build istart ilength =>
    simp only [step_state_access.find_successes, step_state_access.pma_step, Nat.zero_add]
    rcases hb : (step_state_access.build_mock_pma_entry K s istart ilength).1 with x | e
    · rw [(build_pool K s istart ilength).2 x hb]
    · rw [((build_pool K s istart ilength).1 e hb).1]
      simp
  | find size paddr =>
    simp only [step_state_access.find_successes, step_state_access.pma_step,
      step_state_access.do_find_pma_entry, Nat.add_zero]
    rcases hres : step_state_access.do_find_pma_entry_loop K hs size paddr
        (s.replay.m_accesses.length + 1) s 0 with _ | ⟨⟨x | e, s1⟩⟩
    · simp
    · have := (find_loop_pool K hs size paddr _ s 0 _ hres).2 x rfl
      dsimp only at this ⊢
      rw [this]
      simp
    · have := ((find_loop_pool K hs size paddr _ s 0 _ hres).1 e rfl).1
      dsimp only at this ⊢
      rw [this]
      simp
      omega
  | primitive c =>
    simp [step_state_access.find_successes, step_state_access.pma_step]

theorem find_successes_cons {Hash : Type} [DecidableEq Hash] (K : machine_constants)
    (hs : hasher_type Hash) (s : step_state Hash) (c : pma_call) (calls : List pma_call) :
    step_state_access.find_successes K hs s (c :: calls) =
      step_state_access.find_successes K hs s [c] +
        step_state_access.find_successes K hs (step_state_access.pma_step K hs s c) calls := by
  simp [step_state_access.find_successes]

theorem find_successes_le {Hash : Type} [DecidableEq Hash] (K : machine_constants)
    (hs : hasher_type Hash) (calls : List pma_call) :
    ∀ (s : step_state Hash),
      step_state_access.find_successes K hs s calls + s.m_mock_pmas.length ≤
        (calls.foldl (step_state_access.pma_step K hs) s).m_mock_pmas.length := by
  induction calls with
  | nil =>
    intro s
    simp [step_state_access.find_successes]
  | cons c calls ih =>
    intro s
    rw [find_successes_cons, List.foldl_cons]
    have h1 := pma_step_grows K hs s c
    have h2 := ih (step_state_access.pma_step K hs s c)
    omega

/-- C37 (mock PMA entries are not reused), against the claim as stated: on an
object whose pool is full and whose log is empty, `do_find_pma_entry` fails on
its first read with "too few accesses in log", not with "too many PMA
accesses". -/
theorem C37_mock_pma_not_reused_counterexample :
    sample_step_state_full.m_mock_pmas.length = sample_constants.PMA_MAX ∧
      step_state_access.do_find_pma_entry sample_constants term_hasher sample_step_state_full 8
          0x5000 =
        some (.error (.invalid_argument .too_few_accesses_in_log), sample_step_state_full) := by
  refine ⟨by decide, by rfl⟩

/-- C37 (mock PMA entries are not reused), amended: every `do_find_pma_entry`
call that returns an entry appends exactly that entry to the pool, whatever
the pool held before; so among any sequence of operations on a freshly
constructed object at most `PMA_MAX` searches return an entry; and once the
pool holds `PMA_MAX` entries every search throws and leaves the pool as it
was: it throws "too many PMA accesses" when the same search would have
returned an entry with another pool, and otherwise the exception of the read
or of the flag validation that comes first. -/
theorem C37_mock_pma_not_reused {Hash : Type} [DecidableEq Hash] (K : machine_constants)
    (hs : hasher_type Hash) (s : step_state Hash) (size paddr : Nat)
    (replay : replay_state Hash) (calls : List pma_call) :
    (∀ e s1, step_state_access.do_find_pma_entry K hs s size paddr = some (.ok e, s1) →
      s1.m_mock_pmas = s.m_mock_pmas ++ [e]) ∧
    step_state_access.find_successes K hs { replay := replay, m_mock_pmas := [] } calls ≤
      K.PMA_MAX ∧
    (s.m_mock_pmas.length = K.PMA_MAX →
      ∀ res, step_state_access.do_find_pma_entry K hs s size paddr = some res →
        (∃ x, res.1 = .error x) ∧ res.2.m_mock_pmas = s.m_mock_pmas) ∧
    (s.m_mock_pmas.length = K.PMA_MAX →
      ∀ P e s1,
        step_state_access.do_find_pma_entry K hs { s with m_mock_pmas := P } size paddr =
          some (.ok e, s1) →
        step_state_access.do_find_pma_entry K hs s size paddr =
          some (.error (.invalid_argument .too_many_pma_accesses),
            { s1 with m_mock_pmas := s.m_mock_pmas })) := by
  refine ⟨?_, ?_, ?_, ?_⟩
  · intro e s1 h
    exact ((find_loop_pool K hs size paddr _ s 0 _ h).1 e rfl).1
  · have h1 := find_successes_le K hs calls { replay := replay, m_mock_pmas := [] }
    have h2 := pma_run_bound K hs calls { replay := replay, m_mock_pmas := [] } (Nat.zero_le _)
    omega
  · intro hfull res h
    have hp := find_loop_pool K hs size paddr _ s 0 _ h
    rcases hr : res.1 with x | e
    · exact ⟨⟨x, rfl⟩, hp.2 x hr⟩
    · exact absurd hfull (hp.1 e hr).2
  · intro hfull P e s1 h
    exact find_loop_full K hs size paddr P _ s 0 e s1 hfull h

theorem C37_mock_pma_not_reused_witness :
    step_state_access.do_find_pma_entry sample_constants term_hasher
        { sample_find_state with m_mock_pmas := [sample_pma, sample_pma] } 8 0x5000 =
      some (.error (.invalid_argument .too_many_pma_accesses),
        { sample_find_final with m_mock_pmas := [sample_pma, sample_pma] }) :=
  (C37_mock_pma_not_reused sample_constants term_hasher
    { sample_find_state with m_mock_pmas := [sample_pma, sample_pma] } 8 0x5000
    sample_state_empty []).2.2.2 (by decide) [] sample_find_entry sample_find_final (by rfl)

/-! ## The CLINT access table -/

theorem or_and_self_eq (m k : Nat) : (m ||| k) &&& k = k := by
  apply Nat.eq_of_testBit_eq
  intro i
  rw [Nat.testBit_and, Nat.testBit_or]
  cases m.testBit i <;> cases k.testBit i <;> rfl

theorem testBit_not_mask (k : Nat) (hk : k < 2 ^ 64) (i : Nat) :
    ((2 ^ 64 - 1) ^^^ k).testBit i = (decide (i < 64) && !k.testBit i) := by
  rw [Nat.testBit_xor, Nat.testBit_two_pow_sub_one]
  by_cases hi : i < 64
  · simp [hi]
  · have hf : k.testBit i = false :=
      Nat.testBit_lt_two_pow (Nat.lt_of_lt_of_le hk (Nat.pow_le_pow_right (by decide) (by omega)))
    simp [hi, hf]

theorem and_not_mask_and (m k : Nat) (hk : k < 2 ^ 64) :
    (m &&& ((2 ^ 64 - 1) ^^^ k)) &&& k = 0 := by
  apply Nat.eq_of_testBit_eq
  intro i
  rw [Nat.testBit_and, Nat.testBit_and, testBit_not_mask k hk, Nat.zero_testBit]
  cases m.testBit i <;> cases k.testBit i <;> simp

theorem and_not_mask_other (m k : Nat) (hm : m < 2 ^ 64) (hk : k < 2 ^ 64) (i : Nat)
    (hi : k.testBit i = false) : (m &&& ((2 ^ 64 - 1) ^^^ k)).testBit i = m.testBit i := by
  rw [Nat.testBit_and, testBit_not_mask k hk, hi]
  by_cases h64 : i < 64
  · simp [h64]
  · have hf : m.testBit i = false :=
      Nat.testBit_lt_two_pow (Nat.lt_of_lt_of_le hm (Nat.pow_le_pow_right (by decide) (by omega)))
    simp [hf]

/-- C40 (CLINT access table): `clint_read` returns `true` exactly for offset 0
with `size_log2 = 2`, offset `0x4000` with `size_log2 = 3` and offset `0xbff8`
with `size_log2 = 3`, storing respectively 1 or 0 according to whether
`MIP_MSIP` is set in `mip`, `mtimecmp`, and `rtc_cycle_to_time(mcycle)`, and
leaves `*val` as it was when it returns `false`. `clint_write` returns `true`
exactly for offset 0 with `size_log2 = 2`, which sets `MIP_MSIP` in `mip` when
bit 0 of `val` is 1 and clears it otherwise, and for offset `0x4000` with
`size_log2 = 3`, which stores `val` in `mtimecmp` and clears `MIP_MTIP`; the
other bits of `mip` and the other registers stay; for any other offset and
size, a write to mtime included, it returns `false` and leaves the registers
as they were. The masks and `mip` are 64-bit values. -/
theorem C40_clint_access_table (C : clint_constants) (a : clint_state) (offset val : Nat)
    (size_log2 : Int) (hmsip : C.MIP_MSIP < 2 ^ 64) (hmtip : C.MIP_MTIP < 2 ^ 64)
    (hmip : a.mip < 2 ^ 64) :
    ((clint_read C a offset val size_log2).1 = true ↔
      (offset = 0 ∧ size_log2 = 2) ∨ (offset = 0x4000 ∧ size_log2 = 3) ∨
        (offset = 0xbff8 ∧ size_log2 = 3)) ∧
    (offset = 0 → size_log2 = 2 → (clint_read C a offset val size_log2).2 =
      if a.mip &&& C.MIP_MSIP = C.MIP_MSIP then 1 else 0) ∧
    (offset = 0x4000 → size_log2 = 3 → (clint_read C a offset val size_log2).2 = a.mtimecmp) ∧
    (offset = 0xbff8 → size_log2 = 3 →
      (clint_read C a offset val size_log2).2 = C.rtc_cycle_to_time a.mcycle) ∧
    ((clint_read C a offset val size_log2).1 = false →
      (clint_read C a offset val size_log2).2 = val) ∧
    ((clint_write C a offset val size_log2).1 = true ↔
      (offset = 0 ∧ size_log2 = 2) ∨ (offset = 0x4000 ∧ size_log2 = 3)) ∧
    (offset = 0 → size_log2 = 2 → val % 2 = 1 →
      (clint_write C a offset val size_log2).2 = { a with mip := a.mip ||| C.MIP_MSIP } ∧
        (clint_write C a offset val size_log2).2.mip &&& C.MIP_MSIP = C.MIP_MSIP) ∧
    (offset = 0 → size_log2 = 2 → val % 2 = 0 →
      (clint_write C a offset val size_log2).2.mip &&& C.MIP_MSIP = 0 ∧
        (∀ i, C.MIP_MSIP.testBit i = false →
          (clint_write C a offset val size_log2).2.mip.testBit i = a.mip.testBit i) ∧
        (clint_write C a offset val size_log2).2.mcycle = a.mcycle ∧
        (clint_write C a offset val size_log2).2.mtimecmp = a.mtimecmp) ∧
    (offset = 0x4000 → size_log2 = 3 →
      (clint_write C a offset val size_log2).2.mtimecmp = val ∧
        (clint_write C a offset val size_log2).2.mip &&& C.MIP_MTIP = 0 ∧
        (∀ i, C.MIP_MTIP.testBit i = false →
          (clint_write C a offset val size_log2).2.mip.testBit i = a.mip.testBit i) ∧
        (clint_write C a offset val size_log2).2.mcycle = a.mcycle) ∧
    ((clint_write C a offset val size_log2).1 = false →
      (clint_write C a offset val size_log2).2 = a) := by
  have hbit : (val &&& 1) = val % 2 := Nat.and_one_is_mod val
  refine ⟨?_, ?_, ?_, ?_, ?_, ?_, ?_, ?_, ?_, ?_⟩
  · unfold clint_read clint_read_msip clint_read_mtimecmp clint_read_mtime CLINT_MSIP0
      CLINT_MTIMECMP CLINT_MTIME
    split_ifs <;> simp_all
  · intro h1 h2
    simp [clint_read, clint_read_msip, CLINT_MSIP0, h1, h2]
  · intro h1 h2
    simp [clint_read, clint_read_mtimecmp, CLINT_MSIP0, CLINT_MTIMECMP, h1, h2]
  · intro h1 h2
    simp [clint_read, clint_read_mtime, CLINT_MSIP0, CLINT_MTIMECMP, CLINT_MTIME, h1, h2]
  · unfold clint_read clint_read_msip clint_read_mtimecmp clint_read_mtime
    split_ifs <;> simp
  · unfold clint_write CLINT_MSIP0 CLINT_MTIMECMP
    split_ifs <;> simp_all
  · intro h1 h2 h3
    have hne : (val &&& 1) ≠ 0 := by rw [hbit]; omega
    have hw : clint_write C a offset val size_log2 = (true, a.set_mip C.MIP_MSIP) := by
      unfold clint_write
      rw [if_pos (show offset = CLINT_MSIP0 from h1), if_pos h2, if_pos hne]
    rw [hw]
    exact ⟨rfl, or_and_self_eq _ _⟩
  · intro h1 h2 h3
    have he : ¬ (val &&& 1) ≠ 0 := by rw [hbit]; omega
    have hw : clint_write C a offset val size_log2 = (true, a.reset_mip C.MIP_MSIP) := by
      unfold clint_write
      rw [if_pos (show offset = CLINT_MSIP0 from h1), if_pos h2, if_neg he]
    rw [hw]
    exact ⟨and_not_mask_and _ _ hmsip, fun i hi => and_not_mask_other _ _ hmip hmsip i hi,
      rfl, rfl⟩
  · intro h1 h2
    have hw : clint_write C a offset val size_log2 =
        (true, (a.write_mtimecmp val).reset_mip C.MIP_MTIP) := by
      simp [clint_write, CLINT_MSIP0, CLINT_MTIMECMP, h1, h2]
    rw [hw]
    exact ⟨rfl, and_not_mask_and _ _ hmtip, fun i hi => and_not_mask_other _ _ hmip hmtip i hi,
      rfl⟩
  · unfold clint_write
    split_ifs <;> simp

theorem C40_clint_access_table_witness :
    clint_read sample_clint_constants sample_clint_state 0 0 2 = (true, 1) ∧
      clint_read sample_clint_constants sample_clint_state 0xbff8 0 3 = (true, 12) ∧
      clint_read sample_clint_constants sample_clint_state 0xbff8 5 2 = (false, 5) ∧
      clint_write sample_clint_constants sample_clint_state 0 0 2 =
        (true, { sample_clint_state with mip := 128 }) ∧
      clint_write sample_clint_constants sample_clint_state 0x4000 99 3 =
        (true, { sample_clint_state with mip := 8, mtimecmp := 99 }) ∧
      clint_write sample_clint_constants sample_clint_state 0xbff8 99 3 =
        (false, sample_clint_state) ∧
      ((clint_write sample_clint_constants sample_clint_state 0xbff8 99 3).1 = true ↔
        (0xbff8 = 0 ∧ (3 : Int) = 2) ∨ (0xbff8 = 0x4000 ∧ (3 : Int) = 3)) :=
  ⟨by decide, by decide, by decide, by decide, by decide, by decide,
    (C40_clint_access_table sample_clint_constants sample_clint_state 0xbff8 99 3
      (by decide) (by decide) (by decide)).2.2.2.2.2.1⟩

/-! ## Reads of memory words and the halt flag -/

theorem aliased_aligned_read_eq (size o w : Nat) (hw : w < 2 ^ 64)
    (hsize : size = 1 ∨ size = 2 ∨ size = 4 ∨ size = 8) (ho : o < 8) (hal : o % size = 0) :
    aliased_aligned_read size o (set_word_access_data w) = (w >>> (8 * o)) % 2 ^ (8 * size) := by
  have hcases : o = 0 ∨ o = 1 ∨ o = 2 ∨ o = 3 ∨ o = 4 ∨ o = 5 ∨ o = 6 ∨ o = 7 := by omega
  rw [set_word_access_data_eq, Nat.shiftRight_eq_div_pow]
  norm_num at hw
  rcases hsize with rfl | rfl | rfl | rfl
  · rcases hcases with rfl | rfl | rfl | rfl | rfl | rfl | rfl | rfl <;>
      simp [aliased_aligned_read, List.range_succ]
  · rcases hcases with rfl | rfl | rfl | rfl | rfl | rfl | rfl | rfl <;>
      first
        | omega
        | (simp [aliased_aligned_read, List.range_succ]; omega)
  · rcases hcases with rfl | rfl | rfl | rfl | rfl | rfl | rfl | rfl <;>
      first
        | omega
        | (simp [aliased_aligned_read, List.range_succ]; omega)
  · rcases hcases with rfl | rfl | rfl | rfl | rfl | rfl | rfl | rfl <;>
      first
        | omega
        | (simp [aliased_aligned_read, List.range_succ]; omega)

/-- C39 (sub-word read extraction): when `do_read_memory_word<T>(paddr)`
returns normally for a `T` of 1, 2, 4 or 8 bytes and a `paddr` aligned to
`sizeof(T)`, the record under the cursor is a read of 8 bytes at `paddr & ~7`,
the cursor has advanced by exactly one and nothing else has changed, and the
value returned is made of the bytes from `paddr & 7` up to
`(paddr & 7) + sizeof(T)` of the word recorded, read little-endian: it is
`(word >> 8 * (paddr & 7)) mod 2 ^ (8 * sizeof(T))`. -/
theorem C39_subword_read_extraction {Hash : Type} [DecidableEq Hash]
    (hs : hasher_type Hash) (s : replay_state Hash) (size paddr v : Nat)
    (s1 : replay_state Hash)
    (hsize : size = 1 ∨ size = 2 ∨ size = 4 ∨ size = 8) (halign : paddr % size = 0)
    (hok : step_state_access.do_read_memory_word hs s size paddr = (.ok v, s1)) :
    ∃ r, s.m_accesses[s.m_next_access]? = some r ∧
      r.type = access_type.read ∧ r.log2_size = 3 ∧ r.read.length = 8 ∧
      r.address = paddr &&& (2 ^ 64 - 8) ∧
      (paddr < 2 ^ 64 → paddr &&& (2 ^ 64 - 8) = 8 * (paddr / 8)) ∧
      s1 = { s with m_next_access := s.m_next_access + 1 } ∧
      v = aliased_aligned_read size (paddr &&& 7)
        (set_word_access_data (get_word_access_data r.read)) ∧
      paddr &&& 7 = paddr % 8 ∧ paddr % 8 + size ≤ 8 ∧
      v = (get_word_access_data r.read >>> (8 * (paddr % 8))) % 2 ^ (8 * size) := by
  unfold step_state_access.do_read_memory_word at hok
  dsimp only at hok
  rcases check_read_word_cases hs s (paddr &&& (2 ^ 64 - 8)) with ⟨e, he, _⟩ | ⟨r, hr, hrd⟩
  · rw [he] at hok
    cases hok
  rw [hrd] at hok
  dsimp only at hok
  obtain ⟨hv, hs1⟩ := Prod.mk.inj hok
  have hv1 := Except.ok.inj hv
  obtain ⟨_, _, _, r4, r5, r6, r7, r8, _⟩ := hr
  have hoff : paddr % 8 + size ≤ 8 := by
    rcases hsize with rfl | rfl | rfl | rfl <;> omega
  have hmod : paddr % 8 % size = 0 := by
    rcases hsize with rfl | rfl | rfl | rfl <;> omega
  refine ⟨r, r4, r5, r6, r7, r8, and_not_seven paddr, hs1.symm, hv1.symm, and_seven paddr, hoff,
    ?_⟩
  rw [← hv1, and_seven]
  exact aliased_aligned_read_eq size (paddr % 8) _ (get_word_access_data_lt _) hsize
    (Nat.mod_lt _ (by decide)) hmod

theorem C39_subword_read_extraction_witness :
    step_state_access.do_read_memory_word term_hasher sample_state_word 2 0x2002 =
        (.ok 0x0403, { sample_state_word with m_next_access := 1 }) ∧
      ∃ r, sample_state_word.m_accesses[sample_state_word.m_next_access]? = some r ∧
        r.type = access_type.read ∧ r.log2_size = 3 ∧ r.read.length = 8 ∧
        r.address = 0x2002 &&& (2 ^ 64 - 8) ∧
        (0x2002 < 2 ^ 64 → 0x2002 &&& (2 ^ 64 - 8) = 8 * (0x2002 / 8)) ∧
        { sample_state_word with m_next_access := 1 } =
          { sample_state_word with m_next_access := sample_state_word.m_next_access + 1 } ∧
        0x0403 = aliased_aligned_read 2 (0x2002 &&& 7)
          (set_word_access_data (get_word_access_data r.read)) ∧
        0x2002 &&& 7 = 0x2002 % 8 ∧ 0x2002 % 8 + 2 ≤ 8 ∧
        0x0403 = (get_word_access_data r.read >>> (8 * (0x2002 % 8))) % 2 ^ (8 * 2) :=
  ⟨by rfl,
    C39_subword_read_extraction term_hasher sample_state_word 2 0x2002 0x0403
      { sample_state_word with m_next_access := 1 } (Or.inr (Or.inl rfl)) (by decide) (by rfl)⟩

theorem uarch_check_read_word_eq {Hash : Type} [DecidableEq Hash] (hs : hasher_type Hash)
    (s : replay_state Hash) (paligned : Nat) :
    uarch_replay_state_access.check_read_word hs s paligned =
      step_state_access.check_read_word hs s paligned := by
  unfold uarch_replay_state_access.check_read_word step_state_access.check_read_word
  rw [uarch_check_read_eq]

theorem uarch_check_write_word_eq {Hash : Type} [DecidableEq Hash] (hs : hasher_type Hash)
    (s : replay_state Hash) (paligned word : Nat) :
    uarch_replay_state_access.check_write_word hs s paligned word =
      step_state_access.check_write_word hs s paligned word := by
  unfold uarch_replay_state_access.check_write_word step_state_access.check_write_word
  rw [uarch_check_write_eq]

/-- The record a `check_write_word` of `uarch_replay_state_access` that
returned has consumed. -/
theorem uarch_check_write_word_ok {Hash : Type} [DecidableEq Hash] (hs : hasher_type Hash)
    (s : replay_state Hash) (paligned word : Nat)
    (hok : returned (uarch_replay_state_access.check_write_word hs s paligned word).1 = true) :
    ∃ w, s.m_accesses[s.m_next_access]? = some w ∧
      w.type = access_type.write ∧ w.log2_size = 3 ∧ w.read.length = 8 ∧
      w.written.length = 8 ∧ w.address = paligned ∧
      (s.m_verify_proofs = true → w.written = set_word_access_data word) ∧
      (uarch_replay_state_access.check_write_word hs s paligned word).2.m_next_access =
        s.m_next_access + 1 ∧
      (uarch_replay_state_access.check_write_word hs s paligned word).2.m_accesses =
        s.m_accesses := by
  rw [uarch_check_write_word_eq] at hok ⊢
  unfold step_state_access.check_write_word at hok ⊢
  obtain ⟨w, hw, hres⟩ := check_write_ok hs s paligned _ 3 hok
  have hfr := write_accepted_frame hs _ _ _ _ w hw
  obtain ⟨_, _, _, w4, w5, w6, w7, w8, w9, w10⟩ := hw
  refine ⟨w, w4, w5, w6, w7, w8, w9, ?_, ?_, ?_⟩
  · intro hv
    obtain ⟨p, _, _, _, _, _, hwr⟩ := w10 hv
    exact hwr
  · rw [hres]
    exact hfr.1
  · rw [hres]
    exact hfr.2.1

/-! ## The assertions of `get_hash` -/

theorem get_hash_asserts_pow :
    ∀ (j fuel : Nat), j + 1 ≤ fuel →
      step_state_access.get_hash_asserts fuel (2 ^ (3 + j)) = some true := by
  intro j
  induction j with
  | zero =>
    intro fuel h
    obtain ⟨f, rfl⟩ : ∃ f, fuel = f + 1 := ⟨fuel - 1, by omega⟩
    rfl
  | succ j ih =>
    intro fuel h
    obtain ⟨f, rfl⟩ : ∃ f, fuel = f + 1 := ⟨fuel - 1, by omega⟩
    have hpow : 2 ^ (3 + (j + 1)) = 2 * 2 ^ (3 + j) := by
      rw [← Nat.add_assoc, pow_succ]; omega
    have h8 : 8 ≤ 2 ^ (3 + j) := by
      have : 2 ^ 3 ≤ 2 ^ (3 + j) := Nat.pow_le_pow_right (by decide) (by omega)
      simpa using this
    have hhalf : 2 * 2 ^ (3 + j) / 2 = 2 ^ (3 + j) := by omega
    have heven : (2 * 2 ^ (3 + j)) &&& 1 = 0 := by
      rw [Nat.and_one_is_mod]; omega
    unfold step_state_access.get_hash_asserts
    rw [hpow, if_neg (by omega), hhalf, ih f (by omega), heven]
    rfl

/-- What `check_read_hashed` adds to `check_read`: the byte vectors passed to
`get_hash` have the length of the access. -/
theorem check_read_hashed_spec {Hash : Type} [DecidableEq Hash] (hs : hasher_type Hash)
    (s : replay_state Hash) (paligned : Nat) (log2_size : Int) :
    (step_state_access.check_read_hashed hs s paligned log2_size).1 =
        step_state_access.check_read hs s paligned log2_size ∧
      ∀ d, d ∈ (step_state_access.check_read_hashed hs s paligned log2_size).2 →
        3 ≤ log2_size ∧ log2_size ≤ 63 ∧ d.length = 2 ^ log2_size.toNat := by
  unfold step_state_access.check_read_hashed step_state_access.check_read
  by_cases c1 : log2_size < 3 ∨ log2_size > 63
  · rw [if_pos c1, if_pos c1]
    exact ⟨rfl, fun d hd => (by cases hd)⟩
  rw [if_neg c1, if_neg c1]
  have hk : log2_size.toNat < 64 := by omega
  by_cases c2 : (paligned &&& (shl1 log2_size.toNat - 1)) ≠ 0
  · rw [if_pos c2, if_pos c2]
    exact ⟨rfl, fun d hd => (by cases hd)⟩
  rw [if_neg c2, if_neg c2]
  by_cases c3 : s.m_next_access ≥ s.m_accesses.length
  · rw [dif_pos c3, dif_pos c3]
    exact ⟨rfl, fun d hd => (by cases hd)⟩
  rw [dif_neg c3, dif_neg c3]
  generalize s.m_accesses.get ⟨s.m_next_access, Nat.lt_of_not_le c3⟩ = acc
  dsimp only
  by_cases c4 : acc.type ≠ access_type.read
  · rw [if_pos c4, if_pos c4]
    exact ⟨rfl, fun d hd => (by cases hd)⟩
  rw [if_neg c4, if_neg c4]
  by_cases c5 : acc.log2_size ≠ log2_size
  · rw [if_pos c5, if_pos c5]
    exact ⟨rfl, fun d hd => (by cases hd)⟩
  rw [if_neg c5, if_neg c5]
  by_cases c6 : acc.read.length ≠ shl1 log2_size.toNat
  · rw [if_pos c6, if_pos c6]
    exact ⟨rfl, fun d hd => (by cases hd)⟩
  rw [if_neg c6, if_neg c6]
  have hlen : acc.read.length = 2 ^ log2_size.toNat := by
    rw [← shl1_eq hk]; exact not_not.mp c6
  have hmem : ∀ d, d ∈ [acc.read] →
      3 ≤ log2_size ∧ log2_size ≤ 63 ∧ d.length = 2 ^ log2_size.toNat := by
    intro d hd
    rw [List.mem_singleton] at hd
    subst hd
    exact ⟨by omega, by omega, hlen⟩
  by_cases c7 : acc.address ≠ paligned
  · rw [if_pos c7, if_pos c7]
    exact ⟨rfl, fun d hd => (by cases hd)⟩
  rw [if_neg c7, if_neg c7]
  by_cases cv : s.m_verify_proofs = true
  swap
  · rw [if_neg cv, if_neg cv]
    exact ⟨rfl, fun d hd => (by cases hd)⟩
  rw [if_pos cv, if_pos cv]
  rcases hpr : acc.proof with _ | proof
  · dsimp only
    exact ⟨rfl, fun d hd => (by cases hd)⟩
  dsimp only
  by_cases c8 : proof.target_address ≠ acc.address
  · rw [if_pos c8, if_pos c8]
    exact ⟨rfl, fun d hd => (by cases hd)⟩
  rw [if_neg c8, if_neg c8]
  by_cases c9 : s.m_root_hash ≠ proof.root_hash
  · rw [if_pos c9, if_pos c9]
    exact ⟨rfl, fun d hd => (by cases hd)⟩
  rw [if_neg c9, if_neg c9]
  by_cases c10 : step_state_access.get_hash hs acc.read ≠ proof.target_hash
  · rw [if_pos c10, if_pos c10]
    exact ⟨rfl, hmem⟩
  rw [if_neg c10, if_neg c10]
  rcases hroll : step_state_access.roll_hash_up_tree hs proof
      (step_state_access.get_hash hs acc.read) with ⟨_ | _, rolled⟩
  · dsimp only
    exact ⟨rfl, hmem⟩
  dsimp only
  by_cases c11 : rolled ≠ proof.root_hash
  · rw [if_pos c11, if_pos c11]
    exact ⟨rfl, hmem⟩
  rw [if_neg c11, if_neg c11]
  exact ⟨rfl, hmem⟩

/-- What `check_write_hashed` adds to `check_write`: the byte vectors passed
to `get_hash` have the length of the access. -/
theorem check_write_hashed_spec {Hash : Type} [DecidableEq Hash] (hs : hasher_type Hash)
    (s : replay_state Hash) (paligned : Nat) (val : List Nat) (log2_size : Int) :
    (step_state_access.check_write_hashed hs s paligned val log2_size).1 =
        step_state_access.check_write hs s paligned val log2_size ∧
      ∀ d, d ∈ (step_state_access.check_write_hashed hs s paligned val log2_size).2 →
        3 ≤ log2_size ∧ log2_size ≤ 63 ∧ d.length = 2 ^ log2_size.toNat := by
  unfold step_state_access.check_write_hashed step_state_access.check_write
  by_cases c1 : log2_size < 3 ∨ log2_size > 63
  · rw [if_pos c1, if_pos c1]
    exact ⟨rfl, fun d hd => (by cases hd)⟩
  rw [if_neg c1, if_neg c1]
  have hk : log2_size.toNat < 64 := by omega
  by_cases c2 : (paligned &&& (shl1 log2_size.toNat - 1)) ≠ 0
  · rw [if_pos c2, if_pos c2]
    exact ⟨rfl, fun d hd => (by cases hd)⟩
  rw [if_neg c2, if_neg c2]
  by_cases c3 : s.m_next_access ≥ s.m_accesses.length
  · rw [dif_pos c3, dif_pos c3]
    exact ⟨rfl, fun d hd => (by cases hd)⟩
  rw [dif_neg c3, dif_neg c3]
  generalize s.m_accesses.get ⟨s.m_next_access, Nat.lt_of_not_le c3⟩ = acc
  dsimp only
  by_cases c4 : acc.type ≠ access_type.write
  · rw [if_pos c4, if_pos c4]
    exact ⟨rfl, fun d hd => (by cases hd)⟩
  rw [if_neg c4, if_neg c4]
  by_cases c5 : acc.log2_size ≠ log2_size
  · rw [if_pos c5, if_pos c5]
    exact ⟨rfl, fun d hd => (by cases hd)⟩
  rw [if_neg c5, if_neg c5]
  by_cases c6 : acc.read.length ≠ shl1 log2_size.toNat
  · rw [if_pos c6, if_pos c6]
    exact ⟨rfl, fun d hd => (by cases hd)⟩
  rw [if_neg c6, if_neg c6]
  by_cases c6b : acc.written.length ≠ shl1 log2_size.toNat
  · rw [if_pos c6b, if_pos c6b]
    exact ⟨rfl, fun d hd => (by cases hd)⟩
  rw [if_neg c6b, if_neg c6b]
  have hlen : acc.read.length = 2 ^ log2_size.toNat := by
    rw [← shl1_eq hk]; exact not_not.mp c6
  have hlenw : acc.written.length = 2 ^ log2_size.toNat := by
    rw [← shl1_eq hk]; exact not_not.mp c6b
  have hmem : ∀ d, d ∈ [acc.read] →
      3 ≤ log2_size ∧ log2_size ≤ 63 ∧ d.length = 2 ^ log2_size.toNat := by
    intro d hd
    rw [List.mem_singleton] at hd
    subst hd
    exact ⟨by omega, by omega, hlen⟩
  have hmem2 : ∀ d, d ∈ [acc.read, acc.written] →
      3 ≤ log2_size ∧ log2_size ≤ 63 ∧ d.length = 2 ^ log2_size.toNat := by
    intro d hd
    rw [List.mem_cons, List.mem_singleton] at hd
    rcases hd with rfl | rfl
    · exact ⟨by omega, by omega, hlen⟩
    · exact ⟨by omega, by omega, hlenw⟩
  by_cases c7 : acc.address ≠ paligned
  · rw [if_pos c7, if_pos c7]
    exact ⟨rfl, fun d hd => (by cases hd)⟩
  rw [if_neg c7, if_neg c7]
  by_cases cv : s.m_verify_proofs = true
  swap
  · rw [if_neg cv, if_neg cv]
    exact ⟨rfl, fun d hd => (by cases hd)⟩
  rw [if_pos cv, if_pos cv]
  rcases hpr : acc.proof with _ | proof
  · dsimp only
    exact ⟨rfl, fun d hd => (by cases hd)⟩
  dsimp only
  by_cases c8 : proof.target_address ≠ acc.address
  · rw [if_pos c8, if_pos c8]
    exact ⟨rfl, fun d hd => (by cases hd)⟩
  rw [if_neg c8, if_neg c8]
  by_cases c9 : s.m_root_hash ≠ proof.root_hash
  · rw [if_pos c9, if_pos c9]
    exact ⟨rfl, fun d hd => (by cases hd)⟩
  rw [if_neg c9, if_neg c9]
  by_cases c10 : step_state_access.get_hash hs acc.read ≠ proof.target_hash
  · rw [if_pos c10, if_pos c10]
    exact ⟨rfl, hmem⟩
  rw [if_neg c10, if_neg c10]
  rcases hroll : step_state_access.roll_hash_up_tree hs proof
      (step_state_access.get_hash hs acc.read) with ⟨_ | _, rolled⟩
  · dsimp only
    exact ⟨rfl, hmem⟩
  dsimp only
  by_cases c11 : rolled ≠ proof.root_hash
  · rw [if_pos c11, if_pos c11]
    exact ⟨rfl, hmem⟩
  rw [if_neg c11, if_neg c11]
  by_cases c12 : acc.written ≠ val
  · rw [if_pos c12, if_pos c12]
    exact ⟨rfl, hmem⟩
  rw [if_neg c12, if_neg c12]
  rcases hroll2 : step_state_access.roll_hash_up_tree hs proof
      (step_state_access.get_hash hs acc.written) with ⟨_ | _, root⟩
  · dsimp only
    exact ⟨rfl, hmem2⟩
  dsimp only
  exact ⟨rfl, hmem2⟩

/-- C34 (the assertions of `get_hash` are unreachable from the verifier):
every byte vector `check_read` or `check_write` passes to `get_hash` has
length `2 ^ log2_size` with `3 ≤ log2_size ≤ 63`, the lengths of the read and
of the written bytes having been checked first; on such a length the
recursion of `get_hash` is over within depth `log2_size - 2`, having halved
the length down to exactly 8, and every `assert` it meets, `len == 8` and
`(len & 1) == 0`, holds. -/
theorem C34_get_hash_asserts_unreachable {Hash : Type} [DecidableEq Hash]
    (hs : hasher_type Hash) (s : replay_state Hash) (paligned : Nat) (val : List Nat)
    (log2_size : Int) :
    (step_state_access.check_read_hashed hs s paligned log2_size).1 =
        step_state_access.check_read hs s paligned log2_size ∧
      (step_state_access.check_write_hashed hs s paligned val log2_size).1 =
        step_state_access.check_write hs s paligned val log2_size ∧
      ∀ d, d ∈ (step_state_access.check_read_hashed hs s paligned log2_size).2 ++
          (step_state_access.check_write_hashed hs s paligned val log2_size).2 →
        3 ≤ log2_size ∧ log2_size ≤ 63 ∧ d.length = 2 ^ log2_size.toNat ∧
          d.length / 2 ^ (log2_size.toNat - 3) = 8 ∧
          ∀ fuel, log2_size.toNat - 2 ≤ fuel →
            step_state_access.get_hash_asserts fuel d.length = some true := by
  refine ⟨(check_read_hashed_spec hs s paligned log2_size).1,
    (check_write_hashed_spec hs s paligned val log2_size).1, ?_⟩
  intro d hd
  have hfacts : 3 ≤ log2_size ∧ log2_size ≤ 63 ∧ d.length = 2 ^ log2_size.toNat := by
    rw [List.mem_append] at hd
    rcases hd with hd | hd
    · exact (check_read_hashed_spec hs s paligned log2_size).2 d hd
    · exact (check_write_hashed_spec hs s paligned val log2_size).2 d hd
  obtain ⟨h3, h63, hlen⟩ := hfacts
  have hk : log2_size.toNat = 3 + (log2_size.toNat - 3) := by omega
  refine ⟨h3, h63, hlen, ?_, ?_⟩
  · rw [hlen]
    nth_rewrite 1 [hk]
    rw [pow_add, Nat.mul_div_cancel _ (Nat.two_pow_pos _)]
    rfl
  · intro fuel hf
    rw [hlen, hk]
    exact get_hash_asserts_pow (log2_size.toNat - 3) fuel (by omega)

theorem C34_get_hash_asserts_unreachable_witness :
    (step_state_access.check_write_hashed term_hasher sample_state_1 8 one_word 3).2 =
        [zero_word, one_word] ∧
      (step_state_access.check_write_hashed term_hasher sample_state_1 8 one_word 3).1 =
        step_state_access.check_write term_hasher sample_state_1 8 one_word 3 ∧
      step_state_access.get_hash_asserts 1 8 = some true ∧
      step_state_access.get_hash_asserts 8 12 = some false ∧
      (3 ≤ (3 : Int) ∧ (3 : Int) ≤ 63 ∧ one_word.length = 2 ^ (3 : Int).toNat ∧
        one_word.length / 2 ^ ((3 : Int).toNat - 3) = 8 ∧
        ∀ fuel, (3 : Int).toNat - 2 ≤ fuel →
          step_state_access.get_hash_asserts fuel one_word.length = some true) :=
  ⟨by rfl, by rfl, by rfl, by rfl,
    (C34_get_hash_asserts_unreachable term_hasher sample_state_1 8 one_word 3).2.2 one_word
      (by decide)⟩

/-! ## Replay without verification of proofs -/

theorem check_read_unverified {Hash : Type} [DecidableEq Hash] (hs : hasher_type Hash)
    (s : replay_state Hash) (paligned : Nat) (log2_size : Int)
    (hv : s.m_verify_proofs = false) :
    step_state_access.check_read hs s paligned log2_size = unverified_read s paligned log2_size := by
  unfold step_state_access.check_read unverified_read
  by_cases c1 : log2_size < 3 ∨ log2_size > 63
  · rw [if_pos c1, if_pos c1]
  rw [if_neg c1, if_neg c1]
  by_cases c2 : (paligned &&& (shl1 log2_size.toNat - 1)) ≠ 0
  · rw [if_pos c2, if_pos c2]
  rw [if_neg c2, if_neg c2]
  by_cases c3 : s.m_next_access ≥ s.m_accesses.length
  · rw [dif_pos c3, List.getElem?_eq_none c3]
  rw [dif_neg c3]
  have hget : s.m_accesses[s.m_next_access]? =
      some (s.m_accesses.get ⟨s.m_next_access, Nat.lt_of_not_le c3⟩) := by
    rw [List.getElem?_eq_getElem (Nat.lt_of_not_le c3)]
    rfl
  rw [hget]
  generalize s.m_accesses.get ⟨s.m_next_access, Nat.lt_of_not_le c3⟩ = acc
  dsimp only
  have cv : ¬ (s.m_verify_proofs = true) := by rw [hv]; exact Bool.false_ne_true
  by_cases c4 : acc.type ≠ access_type.read
  · rw [if_pos c4, if_pos c4]
    rfl
  rw [if_neg c4, if_neg c4]
  by_cases c5 : acc.log2_size ≠ log2_size
  · rw [if_pos c5, if_pos c5]
    rfl
  rw [if_neg c5, if_neg c5]
  by_cases c6 : acc.read.length ≠ shl1 log2_size.toNat
  · rw [if_pos c6, if_pos c6]
    rfl
  rw [if_neg c6, if_neg c6]
  by_cases c7 : acc.address ≠ paligned
  · rw [if_pos c7, if_pos c7]
    rfl
  rw [if_neg c7, if_neg c7, if_neg cv]

theorem check_write_unverified {Hash : Type} [DecidableEq Hash] (hs : hasher_type Hash)
    (s : replay_state Hash) (paligned : Nat) (val : List Nat) (log2_size : Int)
    (hv : s.m_verify_proofs = false) :
    step_state_access.check_write hs s paligned val log2_size =
      unverified_write s paligned log2_size := by
  unfold step_state_access.check_write unverified_write
  by_cases c1 : log2_size < 3 ∨ log2_size > 63
  · rw [if_pos c1, if_pos c1]
  rw [if_neg c1, if_neg c1]
  by_cases c2 : (paligned &&& (shl1 log2_size.toNat - 1)) ≠ 0
  · rw [if_pos c2, if_pos c2]
  rw [if_neg c2, if_neg c2]
  by_cases c3 : s.m_next_access ≥ s.m_accesses.length
  · rw [dif_pos c3, List.getElem?_eq_none c3]
  rw [dif_neg c3]
  have hget : s.m_accesses[s.m_next_access]? =
      some (s.m_accesses.get ⟨s.m_next_access, Nat.lt_of_not_le c3⟩) := by
    rw [List.getElem?_eq_getElem (Nat.lt_of_not_le c3)]
    rfl
  rw [hget]
  generalize s.m_accesses.get ⟨s.m_next_access, Nat.lt_of_not_le c3⟩ = acc
  dsimp only
  have cv : ¬ (s.m_verify_proofs = true) := by rw [hv]; exact Bool.false_ne_true
  by_cases c4 : acc.type ≠ access_type.write
  · rw [if_pos c4, if_pos c4]
    rfl
  rw [if_neg c4, if_neg c4]
  by_cases c5 : acc.log2_size ≠ log2_size
  · rw [if_pos c5, if_pos c5]
    rfl
  rw [if_neg c5, if_neg c5]
  by_cases c6 : acc.read.length ≠ shl1 log2_size.toNat
  · rw [if_pos c6, if_pos c6]
    rfl
  rw [if_neg c6, if_neg c6]
  by_cases c6b : acc.written.length ≠ shl1 log2_size.toNat
  · rw [if_pos c6b, if_pos c6b]
    rfl
  rw [if_neg c6b, if_neg c6b]
  by_cases c7 : acc.address ≠ paligned
  · rw [if_pos c7, if_pos c7]
    rfl
  rw [if_neg c7, if_neg c7, if_neg cv]

theorem unverified_read_replace {Hash : Type}
    (g : access Hash → Option (merkle_tree_proof Hash)) (s : replay_state Hash)
    (paligned : Nat) (log2_size : Int) :
    unverified_read (replace_proofs g s) paligned log2_size =
      ((unverified_read s paligned log2_size).1,
        replace_proofs g (unverified_read s paligned log2_size).2) := by
  unfold unverified_read replace_proofs
  dsimp only
  rw [List.getElem?_map]
  rcases s.m_accesses[s.m_next_access]? with _ | acc
  · dsimp only [Option.map]
    split_ifs <;> rfl
  · dsimp only [Option.map]
    split_ifs <;> rfl

theorem unverified_write_replace {Hash : Type}
    (g : access Hash → Option (merkle_tree_proof Hash)) (s : replay_state Hash)
    (paligned : Nat) (log2_size : Int) :
    unverified_write (replace_proofs g s) paligned log2_size =
      ((unverified_write s paligned log2_size).1,
        replace_proofs g (unverified_write s paligned log2_size).2) := by
  unfold unverified_write replace_proofs
  dsimp only
  rw [List.getElem?_map]
  rcases s.m_accesses[s.m_next_access]? with _ | acc
  · dsimp only [Option.map]
    split_ifs <;> rfl
  · dsimp only [Option.map]
    split_ifs <;> rfl

theorem unverified_read_frame {Hash : Type} (s : replay_state Hash) (paligned : Nat)
    (log2_size : Int) :
    (unverified_read s paligned log2_size).2.m_root_hash = s.m_root_hash ∧
      (unverified_read s paligned log2_size).2.m_verify_proofs = s.m_verify_proofs := by
  unfold unverified_read
  rcases s.m_accesses[s.m_next_access]? with _ | acc
  · dsimp only
    split_ifs <;> exact ⟨rfl, rfl⟩
  · dsimp only
    split_ifs <;> exact ⟨rfl, rfl⟩

theorem unverified_write_frame {Hash : Type} (s : replay_state Hash) (paligned : Nat)
    (log2_size : Int) :
    (unverified_write s paligned log2_size).2.m_root_hash = s.m_root_hash ∧
      (unverified_write s paligned log2_size).2.m_verify_proofs = s.m_verify_proofs := by
  unfold unverified_write
  rcases s.m_accesses[s.m_next_access]? with _ | acc
  · dsimp only
    split_ifs <;> exact ⟨rfl, rfl⟩
  · dsimp only
    split_ifs <;> exact ⟨rfl, rfl⟩

theorem unverified_read_no_mismatch {Hash : Type} (s : replay_state Hash) (paligned : Nat)
    (log2_size : Int) (t : access_type) (n : Nat) :
    (unverified_read s paligned log2_size).1 ≠
      .error (.invalid_argument (.mismatch_in_root_hash t n)) := by
  unfold unverified_read
  rcases s.m_accesses[s.m_next_access]? with _ | acc
  · dsimp only
    split_ifs <;> exact fun h => (by cases h)
  · dsimp only
    split_ifs <;> exact fun h => (by cases h)

theorem unverified_write_no_mismatch {Hash : Type} (s : replay_state Hash) (paligned : Nat)
    (log2_size : Int) (t : access_type) (n : Nat) :
    (unverified_write s paligned log2_size).1 ≠
      .error (.invalid_argument (.mismatch_in_root_hash t n)) := by
  unfold unverified_write
  rcases s.m_accesses[s.m_next_access]? with _ | acc
  · dsimp only
    split_ifs <;> exact fun h => (by cases h)
  · dsimp only
    split_ifs <;> exact fun h => (by cases h)

theorem uarch_call_unverified {Hash : Type} [DecidableEq Hash] (hs : hasher_type Hash)
    (g : access Hash → Option (merkle_tree_proof Hash)) (s : replay_state Hash)
    (c : primitive_call) (hv : s.m_verify_proofs = false) :
    uarch_replay_state_access.call hs (replace_proofs g s) c =
        ((uarch_replay_state_access.call hs s c).1,
          replace_proofs g (uarch_replay_state_access.call hs s c).2) ∧
      uarch_replay_state_access.result hs (replace_proofs g s) c =
        uarch_replay_state_access.result hs s c ∧
      (uarch_replay_state_access.call hs s c).2.m_root_hash = s.m_root_hash ∧
      (uarch_replay_state_access.call hs s c).2.m_verify_proofs = false := by
  have hv1 : (replace_proofs g s).m_verify_proofs = false := hv
  cases c with
  | read paligned log2_size =>
    simp only [uarch_replay_state_access.call, uarch_replay_state_access.result,
      uarch_check_read_eq, check_read_unverified hs s paligned log2_size hv,
      check_read_unverified hs (replace_proofs g s) paligned log2_size hv1,
      unverified_read_replace]
    refine ⟨trivial, trivial, (unverified_read_frame s paligned log2_size).1, ?_⟩
    rw [(unverified_read_frame s paligned log2_size).2, hv]
  | write paligned val log2_size =>
    simp only [uarch_replay_state_access.call, uarch_replay_state_access.result,
      uarch_check_write_eq, check_write_unverified hs s paligned val log2_size hv,
      check_write_unverified hs (replace_proofs g s) paligned val log2_size hv1,
      unverified_write_replace]
    refine ⟨trivial, trivial, (unverified_write_frame s paligned log2_size).1, ?_⟩
    rw [(unverified_write_frame s paligned log2_size).2, hv]

theorem uarch_run_unverified {Hash : Type} [DecidableEq Hash] (hs : hasher_type Hash)
    (g : access Hash → Option (merkle_tree_proof Hash)) (calls : List primitive_call) :
    ∀ (s : replay_state Hash), s.m_verify_proofs = false →
      (uarch_replay_state_access.run hs s calls).m_root_hash = s.m_root_hash ∧
        uarch_replay_state_access.results hs (replace_proofs g s) calls =
          uarch_replay_state_access.results hs s calls ∧
        uarch_replay_state_access.run hs (replace_proofs g s) calls =
          replace_proofs g (uarch_replay_state_access.run hs s calls) := by
  induction calls with
  | nil =>
    intro s _
    exact ⟨rfl, rfl, rfl⟩
  | cons c calls ih =>
    intro s hv
    obtain ⟨h1, h2, h3, h4⟩ := uarch_call_unverified hs g s c hv
    obtain ⟨i1, i2, i3⟩ := ih (uarch_replay_state_access.call hs s c).2 h4
    simp only [uarch_replay_state_access.run, List.foldl_cons,
      uarch_replay_state_access.results] at i1 i2 i3 ⊢
    rw [h1, h2]
    dsimp only
    exact ⟨i1.trans h3, by rw [i2], i3⟩

/-- C35 (no verification, no root): on a `uarch_replay_state_access` object
with `m_verify_proofs` unset, whatever the log and the sequence of primitive
calls, returning or throwing, `get_root_hash` gives after the sequence what it
gave before it, which for a freshly constructed object is the value-initialised
hash; and replacing the proofs of the records by anything, or by nothing,
changes neither the result of any call nor the final cursor. The constructor
accepts any log when it is not asked to verify proofs. -/
theorem C35_unverified_root_frame {Hash : Type} [DecidableEq Hash] [Inhabited Hash]
    (hs : hasher_type Hash) (log : access_log Hash) (one_based : Bool)
    (g : access Hash → Option (merkle_tree_proof Hash)) (calls : List primitive_call) :
    ∃ s0, uarch_replay_state_access.create log false one_based = .ok s0 ∧
      uarch_replay_state_access.get_root_hash s0 = default ∧
      uarch_replay_state_access.get_root_hash (uarch_replay_state_access.run hs s0 calls) =
        uarch_replay_state_access.get_root_hash s0 ∧
      uarch_replay_state_access.create
          { log with accesses := log.accesses.map (fun a => { a with proof := g a }) }
          false one_based = .ok (replace_proofs g s0) ∧
      uarch_replay_state_access.results hs (replace_proofs g s0) calls =
        uarch_replay_state_access.results hs s0 calls ∧
      (uarch_replay_state_access.run hs (replace_proofs g s0) calls).m_next_access =
        (uarch_replay_state_access.run hs s0 calls).m_next_access := by
  have hc : ∀ (l : access_log Hash), uarch_replay_state_access.create l false one_based =
      .ok { m_accesses := l.accesses, m_verify_proofs := false, m_next_access := 0,
            m_one_based := if one_based then 1 else 0, m_root_hash := default } := by
    intro l
    unfold uarch_replay_state_access.create
    rw [if_neg (by simp)]
    rcases l.accesses with _ | ⟨a, rest⟩ <;> rfl
  refine ⟨_, hc log, rfl, ?_, ?_, ?_, ?_⟩
  · exact (uarch_run_unverified hs g calls _ rfl).1
  · rw [hc]
    rfl
  · exact (uarch_run_unverified hs g calls _ rfl).2.1
  · rw [(uarch_run_unverified hs g calls _ rfl).2.2]
    rfl

theorem C35_unverified_root_frame_witness :
    ∃ s0, uarch_replay_state_access.create sample_log false false = .ok s0 ∧
      uarch_replay_state_access.get_root_hash s0 = default ∧
      uarch_replay_state_access.get_root_hash
          (uarch_replay_state_access.run term_hasher s0 sample_calls) =
        uarch_replay_state_access.get_root_hash s0 ∧
      uarch_replay_state_access.create
          { sample_log with
            accesses := sample_log.accesses.map (fun a => { a with proof := none }) }
          false false = .ok (replace_proofs (fun _ => none) s0) ∧
      uarch_replay_state_access.results term_hasher (replace_proofs (fun _ => none) s0)
          sample_calls =
        uarch_replay_state_access.results term_hasher s0 sample_calls ∧
      (uarch_replay_state_access.run term_hasher (replace_proofs (fun _ => none) s0)
          sample_calls).m_next_access =
        (uarch_replay_state_access.run term_hasher s0 sample_calls).m_next_access :=
  C35_unverified_root_frame term_hasher sample_log false (fun _ => none) sample_calls

/-- C36 (construction of the verifier): the constructor of either class
throws `std::invalid_argument` when `verify_proofs` is set and the log type
has no proofs ("log has no proofs"), or when `verify_proofs` is set, the log
is not empty and its first access has no proof ("initial access has no
proof"); otherwise it returns with the cursor at 0 and, when `verify_proofs`
is set and the log is not empty, with the root hash of the proof of the first
access as current root, so that no `check_read` or `check_write` on the fresh
object throws the root-hash mismatch. -/
theorem C36_verifier_construction {Hash : Type} [DecidableEq Hash] [Inhabited Hash]
    (hs : hasher_type Hash) (log : access_log Hash) (verify_proofs one_based : Bool) :
    (uarch_replay_state_access.create log verify_proofs one_based : Except Err (replay_state Hash)) =
        step_state_access.create log verify_proofs one_based ∧
    (verify_proofs = true ∧ log.has_proofs = false →
      (step_state_access.create log verify_proofs one_based : Except Err (replay_state Hash)) =
        .error (.invalid_argument .log_has_no_proofs)) ∧
    (verify_proofs = true ∧ log.has_proofs = true ∧
        (∃ first rest, log.accesses = first :: rest ∧ first.proof = none) →
      (step_state_access.create log verify_proofs one_based : Except Err (replay_state Hash)) =
        .error (.invalid_argument .initial_access_has_no_proof)) ∧
    (¬ (verify_proofs = true ∧ log.has_proofs = false) →
      ¬ (verify_proofs = true ∧
        ∃ first rest, log.accesses = first :: rest ∧ first.proof = none) →
      ∃ s0, step_state_access.create log verify_proofs one_based = .ok s0 ∧
        s0.m_next_access = 0 ∧ s0.m_accesses = log.accesses ∧
        s0.m_verify_proofs = verify_proofs ∧
        (verify_proofs = true → ∀ first rest, log.accesses = first :: rest →
          ∃ p, first.proof = some p ∧ s0.m_root_hash = p.root_hash) ∧
        ∀ (paligned : Nat) (val : List Nat) (log2_size : Int) (t : access_type) (n : Nat),
          (step_state_access.check_read hs s0 paligned log2_size).1 ≠
              .error (.invalid_argument (.mismatch_in_root_hash t n)) ∧
            (step_state_access.check_write hs s0 paligned val log2_size).1 ≠
              .error (.invalid_argument (.mismatch_in_root_hash t n))) := by
  refine ⟨rfl, ?_, ?_, ?_⟩
  · rintro ⟨hv, hp⟩
    unfold step_state_access.create
    rw [if_pos (by simp [hv, hp])]
  · rintro ⟨hv, hp, first, rest, hacc, hnone⟩
    unfold step_state_access.create
    rw [if_neg (by simp [hp])]
    simp only [hacc, hv, hnone]
  · intro hA hB
    have hex : ∃ s0, step_state_access.create log verify_proofs one_based = .ok s0 := by
      unfold step_state_access.create
      rw [if_neg (by
        rintro ⟨h1, h2⟩
        exact hA ⟨h1, by simpa using h2⟩)]
      rcases hacc : log.accesses with _ | ⟨first, rest⟩
      · rcases verify_proofs with _ | _ <;> exact ⟨_, rfl⟩
      · rcases hv : verify_proofs with _ | _
        · exact ⟨_, rfl⟩
        · rcases hpr : first.proof with _ | proof
          · exact absurd ⟨hv, first, rest, hacc, hpr⟩ hB
          · dsimp only
            rw [hpr]
            exact ⟨_, rfl⟩
    obtain ⟨s0, hs0⟩ := hex
    obtain ⟨f1, f2, f3, f4⟩ := create_fields log verify_proofs one_based s0 hs0
    refine ⟨s0, hs0, f1, f2, f3, f4, ?_⟩
    intro paligned val log2_size t n
    rcases hv : verify_proofs with _ | _
    · have hv0 : s0.m_verify_proofs = false := by rw [f3, hv]
      rw [check_read_unverified hs s0 paligned log2_size hv0,
        check_write_unverified hs s0 paligned val log2_size hv0]
      exact ⟨unverified_read_no_mismatch _ _ _ _ _, unverified_write_no_mismatch _ _ _ _ _⟩
    · have key : ∀ a p, s0.m_accesses[s0.m_next_access]? = some a → a.proof = some p →
          s0.m_root_hash = p.root_hash := by
        intro a p ha hp
        rw [f1, f2] at ha
        rcases hacc : log.accesses with _ | ⟨first, rest⟩
        · rw [hacc] at ha
          cases ha
        · rw [hacc] at ha
          have hfa : first = a := by simpa using ha
          subst hfa
          obtain ⟨p1, hp1, hroot⟩ := f4 hv first rest hacc
          rw [hp] at hp1
          cases hp1
          exact hroot
      constructor
      · intro h
        obtain ⟨a, p, ha, hp, hne⟩ := check_read_root_mismatch hs s0 paligned log2_size t n h
        exact hne (key a p ha hp)
      · intro h
        obtain ⟨a, p, ha, hp, hne⟩ :=
          check_write_root_mismatch hs s0 paligned val log2_size t n h
        exact hne (key a p ha hp)

theorem C36_verifier_construction_witness :
    (step_state_access.create
        ({ accesses := [{ sample_read with proof := none }], has_proofs := true } :
          access_log term_hash) true false : Except Err (replay_state term_hash)) =
        .error (.invalid_argument .initial_access_has_no_proof) ∧
      ∃ s0, step_state_access.create sample_log true false = .ok s0 ∧
        s0.m_next_access = 0 ∧ s0.m_accesses = sample_log.accesses ∧
        s0.m_verify_proofs = true ∧
        (true = true → ∀ first rest, sample_log.accesses = first :: rest →
          ∃ p, first.proof = some p ∧ s0.m_root_hash = p.root_hash) ∧
        ∀ (paligned : Nat) (val : List Nat) (log2_size : Int) (t : access_type) (n : Nat),
          (step_state_access.check_read term_hasher s0 paligned log2_size).1 ≠
              .error (.invalid_argument (.mismatch_in_root_hash t n)) ∧
            (step_state_access.check_write term_hasher s0 paligned val log2_size).1 ≠
              .error (.invalid_argument (.mismatch_in_root_hash t n)) :=
  ⟨(C36_verifier_construction term_hasher
      ({ accesses := [{ sample_read with proof := none }], has_proofs := true } :
        access_log term_hash) true false).2.2.1 ⟨rfl, rfl, _, _, rfl, rfl⟩,
    (C36_verifier_construction term_hasher sample_log true false).2.2.2 (by decide)
      (by
        rintro ⟨_, first, rest, hacc, hnone⟩
        cases hacc
        cases hnone)⟩

/-- C2. Proof soundness for the back-tree: in every state reached from a fresh
back-tree by `push_back` calls (failing or not) in which `leaf_count < 2 ^ D`,
`get_next_leaf_proof` returns a proof that verifies. The proof is for the
target of size `2 ^ log2_leaf` at the address of the next leaf in a tree of
size `2 ^ log2_root`, it has one sibling hash for each of the levels
`log2_leaf` to `log2_root - 1`, and rolling its `target_hash` up through these
siblings, at level `k` hashing `sibling || acc` when bit `k` of
`target_address` is set and `acc || sibling` otherwise, yields exactly its
`root_hash`: so says the fold of the specification (`proof_fold`), so computes
`roll_hash_up_tree`, and `verify` returns `true`. -/
theorem C2_next_leaf_proof_sound {Hash : Type} [Inhabited Hash] [DecidableEq Hash]
    (hs : hasher_type Hash) (log2_root_size log2_leaf_size log2_word_size : Int)
    (t0 : back_merkle_tree Hash) (pushed : List Hash)
    (hcreate :
      back_merkle_tree.create hs log2_root_size log2_leaf_size log2_word_size = .ok t0)
    (hlt : (back_merkle_tree.push_back_all hs t0 pushed).m_leaf_count <
      2 ^ (log2_root_size - log2_leaf_size).toNat) :
    ∃ proof,
      back_merkle_tree.get_next_leaf_proof hs (back_merkle_tree.push_back_all hs t0 pushed) =
        .ok proof ∧
      proof.log2_target_size = log2_leaf_size.toNat ∧
      proof.log2_root_size = log2_root_size.toNat ∧
      proof.target_address =
        ((back_merkle_tree.push_back_all hs t0 pushed).m_leaf_count <<<
          log2_leaf_size.toNat) % 2 ^ 64 ∧
      proof.sibling_hashes.length = log2_root_size.toNat - log2_leaf_size.toNat ∧
      (∀ k, log2_leaf_size.toNat ≤ k → k < log2_root_size.toNat →
        ∃ sibling, proof.get_sibling_hash k = .ok sibling ∧
          proof.sibling_hashes[k - log2_leaf_size.toNat]? = some sibling) ∧
      proof_fold hs proof.target_address proof.sibling_hashes log2_leaf_size.toNat
        proof.target_hash = proof.root_hash ∧
      step_state_access.roll_hash_up_tree hs proof proof.target_hash =
        (.ok (), proof.root_hash) ∧
      proof.verify hs = .ok true := by
  obtain ⟨h0, h1, h2, h3, hinv⟩ := create_inv hs _ _ _ t0 hcreate
  have hD : (log2_root_size - log2_leaf_size).toNat =
      log2_root_size.toNat - log2_leaf_size.toNat := by omega
  obtain ⟨leaves, hall⟩ := reachable_inv hs _ _ _ pushed t0 [] hinv
  rw [hD] at hlt
  have hlt1 := hlt
  rw [hall.count_eq] at hlt1
  obtain ⟨proof, e, g1, g2, g3, g4, _, hroll⟩ :=
    get_next_leaf_proof_ok hs _ _ _ _ leaves hall hlt1
  have hle : log2_leaf_size.toNat ≤ log2_root_size.toNat := by omega
  have hfold := roll_loop_fold hs proof (by rw [g3, g1, g2]) (by rw [g2]; omega)
    (proof.log2_root_size - proof.log2_target_size) proof.log2_target_size proof.target_hash
    (le_refl _) (by rw [g1, g2]; omega)
  rw [Nat.sub_self, List.drop_zero] at hfold
  have hroll1 := hroll
  unfold step_state_access.roll_hash_up_tree at hroll1
  rw [hfold] at hroll1
  have hf := (Prod.mk.inj hroll1).2
  refine ⟨proof, e, g1, g2, ?_, g3, ?_, ?_, hroll, ?_⟩
  · rw [g4, hall.count_eq]
  · intro k hk1 hk2
    have hidx : k - log2_leaf_size.toNat < proof.sibling_hashes.length := by
      rw [g3]; omega
    refine ⟨proof.sibling_hashes[k - log2_leaf_size.toNat], ?_, List.getElem?_eq_getElem hidx⟩
    unfold merkle_tree_proof.get_sibling_hash
    rw [if_neg (by rw [g1, g2]; omega), g1, List.getElem?_eq_getElem hidx]
  · rw [← g1]
    exact hf
  · unfold merkle_tree_proof.verify
    unfold step_state_access.roll_hash_up_tree at hroll
    rw [verify_loop_of_roll hs proof _ _ _ _ hroll]
    simp

/-- A run of C2 on the back-tree of geometry `(3, 1, 0)` after three pushes:
the proof is for the fourth leaf, at address 6, with siblings at levels 1 and
2. -/
theorem C2_next_leaf_proof_sound_witness :
    back_merkle_tree.create term_hasher 3 1 0 = .ok sample_tree ∧
      (back_merkle_tree.push_back_all term_hasher sample_tree sample_leaves).m_leaf_count <
        2 ^ ((3 : Int) - 1).toNat ∧
      ∃ proof,
        back_merkle_tree.get_next_leaf_proof term_hasher
            (back_merkle_tree.push_back_all term_hasher sample_tree sample_leaves) = .ok proof ∧
          proof.log2_target_size = 1 ∧ proof.log2_root_size = 3 ∧
          proof.target_address = 6 ∧ proof.sibling_hashes.length = 2 ∧
          (∃ sibling, proof.get_sibling_hash 1 = .ok sibling ∧
            proof.sibling_hashes[0]? = some sibling) ∧
          (∃ sibling, proof.get_sibling_hash 2 = .ok sibling ∧
            proof.sibling_hashes[1]? = some sibling) ∧
          proof_fold term_hasher proof.target_address proof.sibling_hashes 1
            proof.target_hash = proof.root_hash ∧
          step_state_access.roll_hash_up_tree term_hasher proof proof.target_hash =
            (.ok (), proof.root_hash) ∧
          proof.verify term_hasher = .ok true := by
  refine ⟨rfl, by decide, ?_⟩
  obtain ⟨proof, e, g1, g2, g3, g4, g5, g6, g7, g8⟩ :=
    C2_next_leaf_proof_sound term_hasher 3 1 0 sample_tree sample_leaves rfl (by decide)
  exact ⟨proof, e, g1, g2, g3, g4, g5 1 (by decide) (by decide), g5 2 (by decide) (by decide),
    g6, g7, g8⟩

/-- C23 (set-flag is read-modify-write), against the claim as stated: a
verifier that does not verify proofs accepts, for `do_set_iflags_H` and for
`do_set_iflags_Y`, a log whose read record at `iflags` holds the word 0 and
whose write record holds the bytes `FE FF 00 00 00 00 00 00`, the word
`0xFFFE`, which is neither `0 | IFLAGS_H_MASK = 1` nor `0 | IFLAGS_Y_MASK = 2`.
Both calls return normally with the cursor at 2. -/
theorem C23_set_iflags_read_modify_write_counterexample :
    sample_state_iflags.m_verify_proofs = false ∧
      sample_state_iflags.m_next_access = 0 ∧
      sample_state_iflags.m_accesses.map (fun a => (a.address, a.read, a.written)) =
        [(sample_constants.iflags_addr, zero_word, []),
         (sample_constants.iflags_addr, zero_word, [0xFE, 0xFF, 0, 0, 0, 0, 0, 0])] ∧
      (step_state_access.do_set_iflags_H sample_constants term_hasher sample_state_iflags).1 =
        .ok () ∧
      (step_state_access.do_set_iflags_H sample_constants term_hasher
        sample_state_iflags).2.m_next_access = 2 ∧
      (step_state_access.do_set_iflags_Y sample_constants term_hasher sample_state_iflags).1 =
        .ok () ∧
      (step_state_access.do_set_iflags_Y sample_constants term_hasher
        sample_state_iflags).2.m_next_access = 2 ∧
      get_word_access_data zero_word ||| sample_constants.IFLAGS_H_MASK = 1 ∧
      get_word_access_data zero_word ||| sample_constants.IFLAGS_Y_MASK = 2 ∧
      get_word_access_data [0xFE, 0xFF, 0, 0, 0, 0, 0, 0] = 0xFFFE ∧
      ¬ (returned (step_state_access.do_set_iflags_H sample_constants term_hasher
            sample_state_iflags).1 = true →
          ∃ r w, sample_state_iflags.m_accesses[sample_state_iflags.m_next_access]? = some r ∧
            sample_state_iflags.m_accesses[sample_state_iflags.m_next_access + 1]? = some w ∧
            (get_word_access_data w.written =
                get_word_access_data r.read ||| sample_constants.IFLAGS_H_MASK ∨
              w.written = set_word_access_data
                (get_word_access_data r.read ||| sample_constants.IFLAGS_H_MASK))) ∧
      ¬ (returned (step_state_access.do_set_iflags_Y sample_constants term_hasher
            sample_state_iflags).1 = true →
          ∃ r w, sample_state_iflags.m_accesses[sample_state_iflags.m_next_access]? = some r ∧
            sample_state_iflags.m_accesses[sample_state_iflags.m_next_access + 1]? = some w ∧
            (get_word_access_data w.written =
                get_word_access_data r.read ||| sample_constants.IFLAGS_Y_MASK ∨
              w.written = set_word_access_data
                (get_word_access_data r.read ||| sample_constants.IFLAGS_Y_MASK))) := by
  refine ⟨rfl, rfl, by decide, by rfl, by rfl, by rfl, by rfl, by decide, by decide, by decide,
    ?_, ?_⟩
  · intro h
    obtain ⟨r, w, hr, hw, hval⟩ := h (by rfl)
    have hr1 : r =
        { type := access_type.read, address := 0x1d0, log2_size := 3,
          read := zero_word, written := [], proof := none } := (Option.some.inj hr).symm
    have hw1 : w =
        { type := access_type.write, address := 0x1d0, log2_size := 3,
          read := zero_word, written := [0xFE, 0xFF, 0, 0, 0, 0, 0, 0], proof := none } :=
      (Option.some.inj hw).symm
    subst hr1 hw1
    revert hval
    decide
  · intro h
    obtain ⟨r, w, hr, hw, hval⟩ := h (by rfl)
    have hr1 : r =
        { type := access_type.read, address := 0x1d0, log2_size := 3,
          read := zero_word, written := [], proof := none } := (Option.some.inj hr).symm
    have hw1 : w =
        { type := access_type.write, address := 0x1d0, log2_size := 3,
          read := zero_word, written := [0xFE, 0xFF, 0, 0, 0, 0, 0, 0], proof := none } :=
      (Option.some.inj hw).symm
    subst hr1 hw1
    revert hval
    decide

/-- C23 (set-flag is read-modify-write), amended: when `do_set_iflags_H`
(resp. `do_set_iflags_Y`) returns normally, the record under the cursor is a
read of 8 bytes at the address of `iflags`, the next one is a write of 8 bytes
at the same address, and the cursor has advanced by exactly two. The call is
`check_write_word` of the word read or-ed with `IFLAGS_H_MASK` (resp.
`IFLAGS_Y_MASK`) after the read, and with `m_verify_proofs` set the written
bytes of the write record are the little-endian bytes of that word; without
`m_verify_proofs` the written bytes of the record are not compared. Both
records are consumed whether or not the bit was set in the word read; if it
was, the word written is the word read. -/
theorem C23_set_iflags_read_modify_write {Hash : Type} [DecidableEq Hash]
    (K : machine_constants) (hs : hasher_type Hash) (s : replay_state Hash) :
    (returned (step_state_access.do_set_iflags_H K hs s).1 = true →
      ∃ r w, s.m_accesses[s.m_next_access]? = some r ∧
        s.m_accesses[s.m_next_access + 1]? = some w ∧
        r.type = access_type.read ∧ r.log2_size = 3 ∧ r.read.length = 8 ∧
        r.address = K.iflags_addr ∧
        w.type = access_type.write ∧ w.log2_size = 3 ∧ w.written.length = 8 ∧
        w.address = K.iflags_addr ∧
        step_state_access.do_set_iflags_H K hs s =
          step_state_access.check_write_word hs { s with m_next_access := s.m_next_access + 1 }
            K.iflags_addr (get_word_access_data r.read ||| K.IFLAGS_H_MASK) ∧
        (s.m_verify_proofs = true → w.written =
          set_word_access_data (get_word_access_data r.read ||| K.IFLAGS_H_MASK)) ∧
        (get_word_access_data r.read &&& K.IFLAGS_H_MASK = K.IFLAGS_H_MASK →
          get_word_access_data r.read ||| K.IFLAGS_H_MASK = get_word_access_data r.read) ∧
        (step_state_access.do_set_iflags_H K hs s).2.m_next_access = s.m_next_access + 2) ∧
    (returned (step_state_access.do_set_iflags_Y K hs s).1 = true →
      ∃ r w, s.m_accesses[s.m_next_access]? = some r ∧
        s.m_accesses[s.m_next_access + 1]? = some w ∧
        r.type = access_type.read ∧ r.log2_size = 3 ∧ r.read.length = 8 ∧
        r.address = K.iflags_addr ∧
        w.type = access_type.write ∧ w.log2_size = 3 ∧ w.written.length = 8 ∧
        w.address = K.iflags_addr ∧
        step_state_access.do_set_iflags_Y K hs s =
          step_state_access.check_write_word hs { s with m_next_access := s.m_next_access + 1 }
            K.iflags_addr (get_word_access_data r.read ||| K.IFLAGS_Y_MASK) ∧
        (s.m_verify_proofs = true → w.written =
          set_word_access_data (get_word_access_data r.read ||| K.IFLAGS_Y_MASK)) ∧
        (get_word_access_data r.read &&& K.IFLAGS_Y_MASK = K.IFLAGS_Y_MASK →
          get_word_access_data r.read ||| K.IFLAGS_Y_MASK = get_word_access_data r.read) ∧
        (step_state_access.do_set_iflags_Y K hs s).2.m_next_access = s.m_next_access + 2) := by
  constructor
  · intro hok
    rw [do_set_iflags_H_eq] at hok ⊢
    obtain ⟨r, w, h1, h2, h3, h4, h5, h6, h7, h8, _, h10, h11, h12, h13, h14⟩ :=
      read_then_write_ok hs s _ _ hok
    refine ⟨r, w, h1, h2, h3, h4, h5, h6, h7, h8, h10, h11,
      read_modify_write_of_read hs s _ _ r h1 hok, h12, or_eq_of_and_eq _ _, ?_⟩
    rw [h13]
    exact h14
  · intro hok
    rw [do_set_iflags_Y_eq] at hok ⊢
    obtain ⟨r, w, h1, h2, h3, h4, h5, h6, h7, h8, _, h10, h11, h12, h13, h14⟩ :=
      read_then_write_ok hs s _ _ hok
    refine ⟨r, w, h1, h2, h3, h4, h5, h6, h7, h8, h10, h11,
      read_modify_write_of_read hs s _ _ r h1 hok, h12, or_eq_of_and_eq _ _, ?_⟩
    rw [h13]
    exact h14

/-- A run of the amended C23 on `sample_state`, which verifies proofs, with
`iflags` at address 8: `do_set_iflags_H` returns normally, having consumed the
read of the word 0 and the write whose written bytes are those of the word
`0 | IFLAGS_H_MASK = 1`. -/
theorem C23_set_iflags_read_modify_write_witness :
    sample_state.m_verify_proofs = true ∧
      returned (step_state_access.do_set_iflags_H sample_constants_low term_hasher
        sample_state).1 = true ∧
      ∃ r w, sample_state.m_accesses[sample_state.m_next_access]? = some r ∧
        sample_state.m_accesses[sample_state.m_next_access + 1]? = some w ∧
        r.type = access_type.read ∧ r.log2_size = 3 ∧ r.read.length = 8 ∧
        r.address = sample_constants_low.iflags_addr ∧
        w.type = access_type.write ∧ w.log2_size = 3 ∧ w.written.length = 8 ∧
        w.address = sample_constants_low.iflags_addr ∧
        r.read = zero_word ∧
        w.written = set_word_access_data
          (get_word_access_data r.read ||| sample_constants_low.IFLAGS_H_MASK) ∧
        w.written = one_word ∧
        (step_state_access.do_set_iflags_H sample_constants_low term_hasher
          sample_state).2.m_next_access = sample_state.m_next_access + 2 := by
  refine ⟨rfl, by rfl, ?_⟩
  obtain ⟨r, w, h1, h2, h3, h4, h5, h6, h7, h8, h9, h10, _, h12, _, h14⟩ :=
    (C23_set_iflags_read_modify_write sample_constants_low term_hasher sample_state).1 (by rfl)
  have hr : r = sample_read := (Option.some.inj h1).symm
  have hw : w = sample_write := (Option.some.inj h2).symm
  refine ⟨r, w, h1, h2, h3, h4, h5, h6, h7, h8, h9, h10, ?_, h12 rfl, ?_, h14⟩
  · rw [hr]
    rfl
  · rw [hw]
    rfl

/-- C38 (halt flag of the micro-architecture), against the claim as stated: a
verifier that does not verify proofs accepts, for `do_set_halt_flag` and for
`do_reset_halt_flag`, a log whose write record at the address of
`uarch_halt_flag` holds the bytes `FE FF 00 00 00 00 00 00`, the word
`0xFFFE`, which is neither 1 nor 0. Both calls return normally with the
cursor at 1. -/
theorem C38_uarch_halt_flag_counterexample :
    sample_state_halt.m_verify_proofs = false ∧
      sample_state_halt.m_next_access = 0 ∧
      sample_state_halt.m_accesses.map (fun a => (a.address, a.written)) =
        [(sample_shadow_state_constants.uarch_halt_flag_abs_addr,
          [0xFE, 0xFF, 0, 0, 0, 0, 0, 0])] ∧
      (uarch_replay_state_access.do_set_halt_flag sample_shadow_state_constants term_hasher
        sample_state_halt).1 = .ok () ∧
      (uarch_replay_state_access.do_set_halt_flag sample_shadow_state_constants term_hasher
        sample_state_halt).2.m_next_access = 1 ∧
      (uarch_replay_state_access.do_reset_halt_flag sample_shadow_state_constants term_hasher
        sample_state_halt).1 = .ok () ∧
      (uarch_replay_state_access.do_reset_halt_flag sample_shadow_state_constants term_hasher
        sample_state_halt).2.m_next_access = 1 ∧
      get_word_access_data [0xFE, 0xFF, 0, 0, 0, 0, 0, 0] = 0xFFFE ∧
      ¬ (returned (uarch_replay_state_access.do_set_halt_flag sample_shadow_state_constants
            term_hasher sample_state_halt).1 = true →
          ∃ w, sample_state_halt.m_accesses[sample_state_halt.m_next_access]? = some w ∧
            (get_word_access_data w.written = 1 ∨ w.written = set_word_access_data 1)) ∧
      ¬ (returned (uarch_replay_state_access.do_reset_halt_flag sample_shadow_state_constants
            term_hasher sample_state_halt).1 = true →
          ∃ w, sample_state_halt.m_accesses[sample_state_halt.m_next_access]? = some w ∧
            (get_word_access_data w.written = 0 ∨ w.written = set_word_access_data 0)) := by
  refine ⟨rfl, rfl, by decide, by rfl, by rfl, by rfl, by rfl, by decide, ?_, ?_⟩
  · intro h
    obtain ⟨w, hw, hval⟩ := h (by rfl)
    have hw1 : w =
        { type := access_type.write, address := 0x328, log2_size := 3,
          read := zero_word, written := [0xFE, 0xFF, 0, 0, 0, 0, 0, 0], proof := none } :=
      (Option.some.inj hw).symm
    subst hw1
    revert hval
    decide
  · intro h
    obtain ⟨w, hw, hval⟩ := h (by rfl)
    have hw1 : w =
        { type := access_type.write, address := 0x328, log2_size := 3,
          read := zero_word, written := [0xFE, 0xFF, 0, 0, 0, 0, 0, 0], proof := none } :=
      (Option.some.inj hw).symm
    subst hw1
    revert hval
    decide

/-- C38 (halt flag of the micro-architecture), amended: in
`uarch_replay_state_access`, when `do_set_halt_flag` returns normally it has
consumed exactly one record, the one under the cursor, which is a write of 8
bytes at the address of `uarch_halt_flag`; no read is made. The call is
`check_write` of the bytes of the word 1, and with `m_verify_proofs` set the
written bytes of the record are the bytes of the word 1; without
`m_verify_proofs` the written bytes of the record are not compared.
`do_reset_halt_flag` does the same with the word 0. When `do_read_halt_flag`
returns normally it has consumed exactly one record, a read of 8 bytes at that
address, and returns `true` exactly when the word recorded is not zero. -/
theorem C38_uarch_halt_flag {Hash : Type} [DecidableEq Hash] (U : shadow_state_constants)
    (hs : hasher_type Hash) (s : replay_state Hash) :
    (returned (uarch_replay_state_access.do_set_halt_flag U hs s).1 = true →
      ∃ w, s.m_accesses[s.m_next_access]? = some w ∧
        w.type = access_type.write ∧ w.log2_size = 3 ∧ w.written.length = 8 ∧
        w.address = U.uarch_halt_flag_abs_addr ∧
        uarch_replay_state_access.do_set_halt_flag U hs s =
          uarch_replay_state_access.check_write hs s U.uarch_halt_flag_abs_addr
            [1, 0, 0, 0, 0, 0, 0, 0] 3 ∧
        (s.m_verify_proofs = true → w.written = [1, 0, 0, 0, 0, 0, 0, 0]) ∧
        (uarch_replay_state_access.do_set_halt_flag U hs s).2.m_next_access =
          s.m_next_access + 1) ∧
    (returned (uarch_replay_state_access.do_reset_halt_flag U hs s).1 = true →
      ∃ w, s.m_accesses[s.m_next_access]? = some w ∧
        w.type = access_type.write ∧ w.log2_size = 3 ∧ w.written.length = 8 ∧
        w.address = U.uarch_halt_flag_abs_addr ∧
        uarch_replay_state_access.do_reset_halt_flag U hs s =
          uarch_replay_state_access.check_write hs s U.uarch_halt_flag_abs_addr
            [0, 0, 0, 0, 0, 0, 0, 0] 3 ∧
        (s.m_verify_proofs = true → w.written = [0, 0, 0, 0, 0, 0, 0, 0]) ∧
        (uarch_replay_state_access.do_reset_halt_flag U hs s).2.m_next_access =
          s.m_next_access + 1) ∧
    (∀ (b : Bool) (s1 : replay_state Hash),
      uarch_replay_state_access.do_read_halt_flag U hs s = (.ok b, s1) →
      ∃ r, s.m_accesses[s.m_next_access]? = some r ∧
        r.type = access_type.read ∧ r.log2_size = 3 ∧ r.read.length = 8 ∧
        r.address = U.uarch_halt_flag_abs_addr ∧
        s1 = { s with m_next_access := s.m_next_access + 1 } ∧
        (b = true ↔ get_word_access_data r.read ≠ 0)) := by
  have h1 : set_word_access_data 1 = [1, 0, 0, 0, 0, 0, 0, 0] := by decide
  have h0 : set_word_access_data 0 = [0, 0, 0, 0, 0, 0, 0, 0] := by decide
  refine ⟨?_, ?_, ?_⟩
  · intro hok
    unfold uarch_replay_state_access.do_set_halt_flag at hok ⊢
    obtain ⟨w, w1, w2, w3, _, w5, w6, w7, w8, _⟩ := uarch_check_write_word_ok hs s _ _ hok
    rw [h1] at w7
    refine ⟨w, w1, w2, w3, w5, w6, ?_, w7, w8⟩
    unfold uarch_replay_state_access.check_write_word
    rw [h1]
  · intro hok
    unfold uarch_replay_state_access.do_reset_halt_flag at hok ⊢
    obtain ⟨w, w1, w2, w3, _, w5, w6, w7, w8, _⟩ := uarch_check_write_word_ok hs s _ _ hok
    rw [h0] at w7
    refine ⟨w, w1, w2, w3, w5, w6, ?_, w7, w8⟩
    unfold uarch_replay_state_access.check_write_word
    rw [h0]
  · intro b s1 hok
    unfold uarch_replay_state_access.do_read_halt_flag at hok
    rw [uarch_check_read_word_eq] at hok
    rcases check_read_word_cases hs s U.uarch_halt_flag_abs_addr with
      ⟨e, he, _⟩ | ⟨r, hr, hrd⟩
    · rw [he] at hok
      cases hok
    rw [hrd] at hok
    dsimp only at hok
    obtain ⟨hv, hs1⟩ := Prod.mk.inj hok
    have hv1 := Except.ok.inj hv
    obtain ⟨_, _, _, r4, r5, r6, r7, r8, _⟩ := hr
    refine ⟨r, r4, r5, r6, r7, r8, hs1.symm, ?_⟩
    rw [← hv1]
    simp

/-- A run of the amended C38 on verifiers that verify proofs, with the halt
flag at address 8: on `sample_state_1`, `do_set_halt_flag` returns normally,
having consumed the one write record, whose written bytes are those of the
word 1; on `sample_state`, `do_read_halt_flag` consumes the read of the word 0
and returns `false`. -/
theorem C38_uarch_halt_flag_witness :
    sample_state_1.m_verify_proofs = true ∧
      returned (uarch_replay_state_access.do_set_halt_flag sample_shadow_state_constants_low
        term_hasher sample_state_1).1 = true ∧
      (∃ w, sample_state_1.m_accesses[sample_state_1.m_next_access]? = some w ∧
        w.type = access_type.write ∧ w.log2_size = 3 ∧ w.written.length = 8 ∧
        w.address = sample_shadow_state_constants_low.uarch_halt_flag_abs_addr ∧
        w.written = [1, 0, 0, 0, 0, 0, 0, 0] ∧
        (uarch_replay_state_access.do_set_halt_flag sample_shadow_state_constants_low
          term_hasher sample_state_1).2.m_next_access = sample_state_1.m_next_access + 1) ∧
      uarch_replay_state_access.do_read_halt_flag sample_shadow_state_constants_low term_hasher
          sample_state = (.ok false, sample_state_1) ∧
      (∃ r, sample_state.m_accesses[sample_state.m_next_access]? = some r ∧
        r.type = access_type.read ∧ r.log2_size = 3 ∧ r.read.length = 8 ∧
        r.address = sample_shadow_state_constants_low.uarch_halt_flag_abs_addr ∧
        (false = true ↔ get_word_access_data r.read ≠ 0)) := by
  refine ⟨rfl, by rfl, ?_, by rfl, ?_⟩
  · obtain ⟨w, h1, h2, h3, h4, h5, _, h7, h8⟩ :=
      (C38_uarch_halt_flag sample_shadow_state_constants_low term_hasher sample_state_1).1
        (by rfl)
    exact ⟨w, h1, h2, h3, h4, h5, h7 rfl, h8⟩
  · obtain ⟨r, h1, h2, h3, h4, h5, _, h7⟩ :=
      (C38_uarch_halt_flag sample_shadow_state_constants_low term_hasher sample_state).2.2
        false sample_state_1 (by rfl)
    exact ⟨r, h1, h2, h3, h4, h5, h7⟩

end cartesi
